import Mathlib

/-!
# Channels of the Go runtime (`libgo/runtime/chan.c`)

A shallow embedding of the channel implementation: the channel header `Hchan`
with its ring buffer, the intrusive wait queues of `SudoG` records, and the
operations `makechan`, `chansend`, `chanrecv`, `closechan`, `reflect_chanlen`
and `reflect_chancap`, and the select statement: `newselect`, the case
registration functions, `sellock`, `selunlock`, `selectgo` with its shuffle,
its heap sort of the lock order and its three passes, and `dequeueg`.

Modelling conventions.

* Pointers are natural numbers, `0` is `nil`.  The heap is split by type:
  channels, sudogs, the 32 bit `selectdone` words, bytes of element memory,
  `bool` cells and the `param` slot of every `G`.
* The buffer that follows the header in memory is the field `buf`, addressed
  by byte offset; `chanbuf(c, i)` is offset `elemsize * i`.
* A call runs from `runtime_lock` to the matching unlock, park or panic as one
  step.  Calls into the runtime (`runtime_lock`, `runtime_unlock`,
  `runtime_ready`, `runtime_gosched`, `runtime_blockevent`,
  `runtime_mallocgc`) are appended to a trace; a park, a panic and a throw end
  the step and are the step's outcome.  The code that runs after a park is a
  function of its own (`..._wake`).
* The local `SudoG mysg` of `chansend` and `chanrecv` lives at the address
  `mysg`; its fields are written to the sudog heap when the code stores them
  before `enqueue`, and `mysg.releasetime` is carried as the value `rt` until
  then.
* `dequeue` and `dequeueg` follow `link` pointers through the heap, so they
  take fuel and return `none` when the fuel runs out.
* `raceenabled` and `debug` are compile-time zero; their branches are omitted.
* Reachable states are those of `Run`: the closure of the steps `Op` of the
  operations.  Every step is a run of header steps (`HStep`) on each channel,
  which is where the invariants of the headers are proved.
* `uintgo` fields are natural numbers: every increment in the code is guarded
  (`qcount < dataqsiz`, `qcount > 0`, index below `dataqsiz`).  The conversions
  in `makechan` and in the length and capacity queries are explicit.
-/

namespace Chan

/-- Machine address; `0` is `nil`. -/
abbrev Ptr := Nat

/-- The record `struct SudoG`. -/
structure SudoG where
  g : Ptr
  selectdone : Ptr
  link : Ptr
  releasetime : Int
  elem : Ptr
deriving DecidableEq

/-- The record `struct WaitQ`. -/
structure WaitQ where
  first : Ptr
  last : Ptr
deriving DecidableEq

/-- The record `struct Hchan` together with the buffer that follows it. -/
structure Hchan where
  qcount : Nat
  dataqsiz : Nat
  elemsize : Nat
  elemalign : Nat
  pad : Nat
  closed : Bool
  elemtype : Ptr
  sendx : Nat
  recvx : Nat
  recvq : WaitQ
  sendq : WaitQ
  buf : Nat → Nat

/-- Calls into the scheduler and the lock, in program order. -/
inductive Event where
  | lock (c : Ptr)
  | unlock (c : Ptr)
  | ready (gp : Ptr)
  | gosched
  | blockevent (cycles : Int) (skip : Int)
  | mallocgc (size : Nat)
  | free (p : Ptr)
deriving DecidableEq

/-- How a step of an operation ends. -/
inductive Outcome (α : Type) where
  | returned (v : α)
  | panicked (msg : String)
  | thrown (msg : String)
  | parked (reason : String)
deriving DecidableEq

/-- The state the channel code reads and writes. -/
structure World where
  chans : Ptr → Hchan
  sudogs : Ptr → SudoG
  words : Ptr → Nat
  mem : Ptr → Nat
  bools : Ptr → Bool
  param : Ptr → Ptr
  trace : List Event
  gcwaiting : Bool
  blockprofilerate : Int
  ticks : Nat → Int
  nticks : Nat

/-- Constants of the target that `chan.c` takes from its headers: the width in
bits of `intgo`, `uintgo` and `uintptr`, the macro `MaxMem` and
`sizeof(Hchan)`. -/
structure Platform where
  wordBits : Nat
  MaxMem : Nat
  hchanSize : Nat

/-- Append a scheduler call to the trace. -/
def World.log (w : World) (e : Event) : World :=
  { w with trace := w.trace ++ [e] }

/-- Store a channel header. -/
def World.setChan (w : World) (c : Ptr) (h : Hchan) : World :=
  { w with chans := Function.update w.chans c h }

/-- Store a sudog. -/
def World.setSudog (w : World) (p : Ptr) (s : SudoG) : World :=
  { w with sudogs := Function.update w.sudogs p s }

/-- The call `runtime_cputicks()`: the next reading of the cycle counter. -/
def runtime_cputicks (w : World) : Int × World :=
  (w.ticks w.nticks, { w with nticks := w.nticks + 1 })

/-- The call `runtime_memmove(dst, src, n)` from the byte store `s` into the
byte store `d`. -/
def memmove (d s : Nat → Nat) (dst src n : Nat) : Nat → Nat :=
  fun a => if dst ≤ a ∧ a < dst + n then s (src + (a - dst)) else d a

/-- The call `runtime_memclr(dst, n)`. -/
def memclr (d : Nat → Nat) (dst n : Nat) : Nat → Nat :=
  fun a => if dst ≤ a ∧ a < dst + n then 0 else d a

/-- The macro `chanbuf(c, i)`, as a byte offset into `buf`. -/
def chanbuf (c : Hchan) (i : Nat) : Nat :=
  c.elemsize * i

/-- The `n` bytes of a byte store starting at `p`. -/
def readBytes (m : Nat → Nat) (p n : Nat) : List Nat :=
  (List.range n).map (fun j => m (p + j))

/-- The function `dequeue(WaitQ *q)`; the queue and the `selectdone` words are
passed in and out. -/
def dequeue : Nat → (Ptr → SudoG) → (Ptr → Nat) → WaitQ → Option (WaitQ × (Ptr → Nat) × Ptr)
  | 0, _, _, _ => none
  | fuel + 1, sudogs, words, q =>
    let sgp := q.first
    if sgp = 0 then some (q, words, 0)
    else
      let q1 : WaitQ := { q with first := (sudogs sgp).link }
      if (sudogs sgp).selectdone ≠ 0 then
        if words (sudogs sgp).selectdone ≠ 0 then dequeue fuel sudogs words q1
        else some (q1, Function.update words (sudogs sgp).selectdone 1, sgp)
      else some (q1, words, sgp)

/-- The function `enqueue(WaitQ *q, SudoG *sgp)`. -/
def enqueue (sudogs : Ptr → SudoG) (q : WaitQ) (sgp : Ptr) : (Ptr → SudoG) × WaitQ :=
  let sudogs1 := Function.update sudogs sgp { sudogs sgp with link := 0 }
  if q.first = 0 then (sudogs1, { first := sgp, last := sgp })
  else (Function.update sudogs1 q.last { sudogs1 q.last with link := sgp }, { q with last := sgp })

/-- The call `dequeue(&c->recvq)`. -/
def dequeueRecvq (fuel : Nat) (w : World) (c : Ptr) : Option (World × Ptr) :=
  match dequeue fuel w.sudogs w.words (w.chans c).recvq with
  | none => none
  | some (q, words, sg) =>
    some ({ w with words := words, chans := Function.update w.chans c { w.chans c with recvq := q } }, sg)

/-- The call `dequeue(&c->sendq)`. -/
def dequeueSendq (fuel : Nat) (w : World) (c : Ptr) : Option (World × Ptr) :=
  match dequeue fuel w.sudogs w.words (w.chans c).sendq with
  | none => none
  | some (q, words, sg) =>
    some ({ w with words := words, chans := Function.update w.chans c { w.chans c with sendq := q } }, sg)

/-- The call `enqueue(&c->recvq, sgp)`. -/
def enqueueRecvq (w : World) (c sgp : Ptr) : World :=
  let r := enqueue w.sudogs (w.chans c).recvq sgp
  { w with sudogs := r.1, chans := Function.update w.chans c { w.chans c with recvq := r.2 } }

/-- The call `enqueue(&c->sendq, sgp)`. -/
def enqueueSendq (w : World) (c sgp : Ptr) : World :=
  let r := enqueue w.sudogs (w.chans c).sendq sgp
  { w with sudogs := r.1, chans := Function.update w.chans c { w.chans c with sendq := r.2 } }

/-- The statement `if(sg->releasetime) sg->releasetime = runtime_cputicks();`. -/
def stampRelease (w : World) (sg : Ptr) : World :=
  if (w.sudogs sg).releasetime ≠ 0 then
    let r := runtime_cputicks w
    r.2.setSudog sg { r.2.sudogs sg with releasetime := r.1 }
  else w

/-- The statement `if(mysg.releasetime > 0) runtime_blockevent(mysg.releasetime - t0, 2);`. -/
def blockProfile (w : World) (rt t0 : Int) : World :=
  if rt > 0 then w.log (.blockevent (rt - t0) 2) else w

/-- The statement `if(runtime_gcwaiting()) runtime_gosched();`. -/
def gcYield (w : World) : World :=
  if w.gcwaiting then w.log .gosched else w

/-- The prologue `t0 = 0; mysg.releasetime = 0; if(runtime_blockprofilerate > 0) ...`:
the world after it, `t0` and `mysg.releasetime`. -/
def profileStart (w : World) : World × Int × Int :=
  if w.blockprofilerate > 0 then
    let r := runtime_cputicks w
    (r.2, r.1, -1)
  else (w, 0, 0)

/-- The label `closed:` of `chansend`. -/
def chansend_closed (w : World) (c : Ptr) : World × Outcome Bool :=
  (w.log (.unlock c), .panicked "send on closed channel")

/-- The label `asynch:` of `chansend`, entered with the lock held, up to the
return, the panic or the park. -/
def chansend_asynch (fuel : Nat) (w : World) (g mysg c ep : Ptr) (block : Bool) (t0 rt : Int) :
    Option (World × Outcome Bool) :=
  if (w.chans c).closed then some (chansend_closed w c)
  else if (w.chans c).qcount ≥ (w.chans c).dataqsiz then
    if !block then some (w.log (.unlock c), .returned false)
    else
      let w1 := w.setSudog mysg
        { w.sudogs mysg with g := g, elem := 0, selectdone := 0, releasetime := rt }
      let w2 := enqueueSendq w1 c mysg
      some (w2.log (.unlock c), .parked "chan send")
  else
    let ch := w.chans c
    let buf1 := memmove ch.buf w.mem (chanbuf ch ch.sendx) ep ch.elemsize
    let sendx1 := if ch.sendx + 1 = ch.dataqsiz then 0 else ch.sendx + 1
    let w1 := w.setChan c { ch with buf := buf1, sendx := sendx1, qcount := ch.qcount + 1 }
    match dequeueRecvq fuel w1 c with
    | none => none
    | some (w2, sg) =>
      let w3 :=
        if sg ≠ 0 then
          let gp := (w2.sudogs sg).g
          (stampRelease (w2.log (.unlock c)) sg).log (.ready gp)
        else w2.log (.unlock c)
      some (blockProfile w3 rt t0, .returned true)

/-- The function `chansend(t, c, ep, block, pc)` run by routine `g` with its
local sudog at `mysg`, from entry to the first return, panic or park. -/
def chansend (fuel : Nat) (w : World) (g mysg c ep : Ptr) (block : Bool) :
    Option (World × Outcome Bool) :=
  if c = 0 then
    if !block then some (w, .returned false)
    else some (w, .parked "chan send (nil chan)")
  else
    let w0 := gcYield w
    let p := profileStart w0
    let t0 := p.2.1
    let rt := p.2.2
    let w1 := p.1.log (.lock c)
    if (w1.chans c).closed then some (chansend_closed w1 c)
    else if (w1.chans c).dataqsiz > 0 then chansend_asynch fuel w1 g mysg c ep block t0 rt
    else
      match dequeueRecvq fuel w1 c with
      | none => none
      | some (w2, sg) =>
        if sg ≠ 0 then
          let w3 := w2.log (.unlock c)
          let gp := (w3.sudogs sg).g
          let w4 : World := { w3 with param := Function.update w3.param gp sg }
          let w5 : World :=
            if (w4.sudogs sg).elem ≠ 0 then
              { w4 with mem := memmove w4.mem w4.mem (w4.sudogs sg).elem ep (w4.chans c).elemsize }
            else w4
          some ((stampRelease w5 sg).log (.ready gp), .returned true)
        else if !block then some (w2.log (.unlock c), .returned false)
        else
          let w3 := w2.setSudog mysg
            { w2.sudogs mysg with elem := ep, g := g, selectdone := 0, releasetime := rt }
          let w4 : World := { w3 with param := Function.update w3.param g 0 }
          let w5 := enqueueSendq w4 c mysg
          some (w5.log (.unlock c), .parked "chan send")

/-- The code of `chansend` after `runtime_parkunlock(c, "chan send")` on the
unbuffered path: `t0` is the local of the parked frame. -/
def chansend_wake (w : World) (g mysg c : Ptr) (t0 : Int) : World × Outcome Bool :=
  if w.param g = 0 then
    let w1 := w.log (.lock c)
    if !(w1.chans c).closed then (w1, .thrown "chansend: spurious wakeup")
    else chansend_closed w1 c
  else
    (blockProfile w (w.sudogs mysg).releasetime t0, .returned true)

/-- The code of `chansend` after `runtime_parkunlock(c, "chan send")` on the
buffered path: `runtime_lock(c); goto asynch;`. -/
def chansend_asynch_wake (fuel : Nat) (w : World) (g mysg c ep : Ptr) (block : Bool) (t0 : Int) :
    Option (World × Outcome Bool) :=
  chansend_asynch fuel (w.log (.lock c)) g mysg c ep block t0 (w.sudogs mysg).releasetime

/-- The statement `if(received != nil) *received = v;`. -/
def setReceived (w : World) (received : Ptr) (v : Bool) : World :=
  if received ≠ 0 then { w with bools := Function.update w.bools received v } else w

/-- The label `closed:` of `chanrecv`. -/
def chanrecv_closed (w : World) (c ep received : Ptr) (t0 rt : Int) : World × Outcome Bool :=
  let w1 : World :=
    if ep ≠ 0 then { w with mem := memclr w.mem ep (w.chans c).elemsize } else w
  let w2 := setReceived w1 received false
  let w3 := w2.log (.unlock c)
  (blockProfile w3 rt t0, .returned true)

/-- The label `asynch:` of `chanrecv`, entered with the lock held, up to the
return or the park. -/
def chanrecv_asynch (fuel : Nat) (w : World) (g mysg c ep received : Ptr) (block : Bool)
    (t0 rt : Int) : Option (World × Outcome Bool) :=
  if (w.chans c).qcount ≤ 0 then
    if (w.chans c).closed then some (chanrecv_closed w c ep received t0 rt)
    else if !block then
      some (setReceived (w.log (.unlock c)) received false, .returned false)
    else
      let w1 := w.setSudog mysg
        { w.sudogs mysg with g := g, elem := 0, selectdone := 0, releasetime := rt }
      let w2 := enqueueRecvq w1 c mysg
      some (w2.log (.unlock c), .parked "chan receive")
  else
    let ch := w.chans c
    let w1 : World :=
      if ep ≠ 0 then { w with mem := memmove w.mem ch.buf ep (chanbuf ch ch.recvx) ch.elemsize }
      else w
    let buf1 := memclr ch.buf (chanbuf ch ch.recvx) ch.elemsize
    let recvx1 := if ch.recvx + 1 = ch.dataqsiz then 0 else ch.recvx + 1
    let w2 := w1.setChan c { ch with buf := buf1, recvx := recvx1, qcount := ch.qcount - 1 }
    match dequeueSendq fuel w2 c with
    | none => none
    | some (w3, sg) =>
      let w4 :=
        if sg ≠ 0 then
          let gp := (w3.sudogs sg).g
          (stampRelease (w3.log (.unlock c)) sg).log (.ready gp)
        else w3.log (.unlock c)
      let w5 := setReceived w4 received true
      some (blockProfile w5 rt t0, .returned true)

/-- The function `chanrecv(t, c, ep, block, received)` run by routine `g` with
its local sudog at `mysg`, from entry to the first return or park. -/
def chanrecv (fuel : Nat) (w : World) (g mysg c ep received : Ptr) (block : Bool) :
    Option (World × Outcome Bool) :=
  let w0 := gcYield w
  if c = 0 then
    if !block then some (w0, .returned false)
    else some (w0, .parked "chan receive (nil chan)")
  else
    let p := profileStart w0
    let t0 := p.2.1
    let rt := p.2.2
    let w1 := p.1.log (.lock c)
    if (w1.chans c).dataqsiz > 0 then chanrecv_asynch fuel w1 g mysg c ep received block t0 rt
    else if (w1.chans c).closed then some (chanrecv_closed w1 c ep received t0 rt)
    else
      match dequeueSendq fuel w1 c with
      | none => none
      | some (w2, sg) =>
        if sg ≠ 0 then
          let w3 := w2.log (.unlock c)
          let w4 : World :=
            if ep ≠ 0 then
              { w3 with mem := memmove w3.mem w3.mem ep (w3.sudogs sg).elem (w3.chans c).elemsize }
            else w3
          let gp := (w4.sudogs sg).g
          let w5 : World := { w4 with param := Function.update w4.param gp sg }
          let w6 := (stampRelease w5 sg).log (.ready gp)
          some (setReceived w6 received true, .returned true)
        else if !block then some (w2.log (.unlock c), .returned false)
        else
          let w3 := w2.setSudog mysg
            { w2.sudogs mysg with elem := ep, g := g, selectdone := 0, releasetime := rt }
          let w4 : World := { w3 with param := Function.update w3.param g 0 }
          let w5 := enqueueRecvq w4 c mysg
          some (w5.log (.unlock c), .parked "chan receive")

/-- The code of `chanrecv` after `runtime_parkunlock(c, "chan receive")` on the
unbuffered path. -/
def chanrecv_wake (w : World) (g mysg c ep received : Ptr) (t0 : Int) : World × Outcome Bool :=
  if w.param g = 0 then
    let w1 := w.log (.lock c)
    if !(w1.chans c).closed then (w1, .thrown "chanrecv: spurious wakeup")
    else chanrecv_closed w1 c ep received t0 (w1.sudogs mysg).releasetime
  else
    let w1 := setReceived w received true
    (blockProfile w1 (w1.sudogs mysg).releasetime t0, .returned true)

/-- The code of `chanrecv` after `runtime_parkunlock(c, "chan receive")` on
the buffered path: `runtime_lock(c); goto asynch;`. -/
def chanrecv_asynch_wake (fuel : Nat) (w : World) (g mysg c ep received : Ptr) (block : Bool)
    (t0 : Int) : Option (World × Outcome Bool) :=
  chanrecv_asynch fuel (w.log (.lock c)) g mysg c ep received block t0 (w.sudogs mysg).releasetime

/-- The first loop of `closechan`: release all readers. -/
def closechan_readers : Nat → World → Ptr → Option World
  | 0, _, _ => none
  | fuel + 1, w, c =>
    match dequeueRecvq fuel w c with
    | none => none
    | some (w1, sg) =>
      if sg = 0 then some w1
      else
        let gp := (w1.sudogs sg).g
        let w2 : World := { w1 with param := Function.update w1.param gp 0 }
        let w3 := stampRelease w2 sg
        closechan_readers fuel (w3.log (.ready gp)) c

/-- The second loop of `closechan`: release all writers. -/
def closechan_writers : Nat → World → Ptr → Option World
  | 0, _, _ => none
  | fuel + 1, w, c =>
    match dequeueSendq fuel w c with
    | none => none
    | some (w1, sg) =>
      if sg = 0 then some w1
      else
        let gp := (w1.sudogs sg).g
        let w2 : World := { w1 with param := Function.update w1.param gp 0 }
        let w3 := stampRelease w2 sg
        closechan_writers fuel (w3.log (.ready gp)) c

/-- The function `closechan(c, pc)`. -/
def closechan (fuel : Nat) (w : World) (c : Ptr) : Option (World × Outcome Unit) :=
  if c = 0 then some (w, .panicked "close of nil channel")
  else
    let w0 := gcYield w
    let w1 := w0.log (.lock c)
    if (w1.chans c).closed then
      some (w1.log (.unlock c), .panicked "close of closed channel")
    else
      let w2 := w1.setChan c { w1.chans c with closed := true }
      match closechan_readers fuel w2 c with
      | none => none
      | some w3 =>
        match closechan_writers fuel w3 c with
        | none => none
        | some w4 => some (w4.log (.unlock c), .returned ())

/-- Conversion of an integer to `intgo` (two's complement of `wordBits` bits). -/
def toIntgo (pf : Platform) (x : Int) : Int :=
  let r := x % 2 ^ pf.wordBits
  if r < 2 ^ (pf.wordBits - 1) then r else r - 2 ^ pf.wordBits

/-- Conversion of an integer to `uintptr` (and `uintgo`). -/
def toUintptr (pf : Platform) (x : Int) : Nat :=
  (x % 2 ^ pf.wordBits).toNat

/-- The function `reflect_chanlen(c)`, which `__go_chan_len` returns. -/
def reflect_chanlen (pf : Platform) (w : World) (c : Ptr) : Int :=
  if c = 0 then 0 else toIntgo pf (w.chans c).qcount

/-- The function `reflect_chancap(c)`, which `__go_chan_cap` returns. -/
def reflect_chancap (pf : Platform) (w : World) (c : Ptr) : Int :=
  if c = 0 then 0 else toIntgo pf (w.chans c).dataqsiz

/-- The memory `runtime_mallocgc` hands out: all bytes zero. -/
def zeroHchan : Hchan :=
  { qcount := 0, dataqsiz := 0, elemsize := 0, elemalign := 0, pad := 0, closed := false,
    elemtype := 0, sendx := 0, recvx := 0, recvq := ⟨0, 0⟩, sendq := ⟨0, 0⟩, buf := fun _ => 0 }

/-- The function `makechan(t, hint)`: `elemtype` is `t->__element_type`, `esize`
its `__size`, `hint` an `int64`, and `newc` the address `runtime_mallocgc`
returns. -/
def makechan (pf : Platform) (w : World) (elemtype : Ptr) (esize : Nat) (hint : Int) (newc : Ptr) :
    World × Outcome Ptr :=
  if esize ≥ 2 ^ 16 then (w, .thrown "makechan: invalid channel element type")
  else if hint < 0 ∨ toIntgo pf hint ≠ hint ∨
      (esize > 0 ∧ toUintptr pf hint > toUintptr pf (pf.MaxMem - pf.hchanSize) / esize) then
    (w, .panicked "makechan: size out of range")
  else
    let w1 := w.log (.mallocgc (toUintptr pf (pf.hchanSize + hint * esize)))
    let ch : Hchan :=
      { zeroHchan with elemsize := esize % 2 ^ 16, elemtype := elemtype, dataqsiz := toUintptr pf hint }
    (w1.setChan newc ch, .returned newc)

/-! ## Select: the records and the registration of cases -/

/-- The value `CaseRecv` of `Scase.kind`; the enumeration starts with `debug = 0`. -/
abbrev CaseRecv : Nat := 1

/-- The value `CaseSend` of `Scase.kind`. -/
abbrev CaseSend : Nat := 2

/-- The value `CaseDefault` of `Scase.kind`. -/
abbrev CaseDefault : Nat := 3

/-- The record `struct Scase`.  The embedded `SudoG sg` is its first member, so
`sg` is the address of the case and of its sudog.  Of the embedded sudog the
fields `elem` and `releasetime` are kept here; pass 2 of `selectgo` stores the
sudog in the sudog heap and the code after the park reads it back. -/
structure Scase where
  sg : Ptr
  elem : Ptr
  releasetime : Int
  chan : Ptr
  kind : Nat
  index : Nat
  receivedp : Ptr
deriving DecidableEq

/-- The record `struct Select`; `base` is its address, the three arrays are
indexed from `0`. -/
structure Select where
  base : Ptr
  tcase : Nat
  ncase : Nat
  pollorder : Nat → Nat
  lockorder : Nat → Ptr
  scase : Nat → Scase

/-- The function `newselect(size)`: `base` is the address `runtime_mal`
returns, zeroed, and `caseAddr i` the address of `sel->scase[i]`. -/
def newselect (size : Int) (base : Ptr) (caseAddr : Nat → Ptr) : Select :=
  { base := base, tcase := (size % 2 ^ 16).toNat, ncase := 0,
    pollorder := fun _ => 0, lockorder := fun _ => 0,
    scase := fun i =>
      { sg := caseAddr i, elem := 0, releasetime := 0, chan := 0, kind := 0, index := 0,
        receivedp := 0 } }

/-- The static function `selectsend(sel, c, index, elem)`. -/
def selectsend (sel : Select) (c : Ptr) (index : Int) (elem : Ptr) : Outcome Select :=
  if sel.ncase ≥ sel.tcase then .thrown "selectsend: too many cases"
  else .returned
    { sel with
      ncase := sel.ncase + 1
      scase := Function.update sel.scase sel.ncase
        { sel.scase sel.ncase with
          index := (index % 2 ^ 16).toNat, chan := c, kind := CaseSend, elem := elem } }

/-- The static function `selectrecv(sel, c, index, elem, received)`. -/
def selectrecv (sel : Select) (c : Ptr) (index : Int) (elem received : Ptr) : Outcome Select :=
  if sel.ncase ≥ sel.tcase then .thrown "selectrecv: too many cases"
  else .returned
    { sel with
      ncase := sel.ncase + 1
      scase := Function.update sel.scase sel.ncase
        { sel.scase sel.ncase with
          index := (index % 2 ^ 16).toNat, chan := c, kind := CaseRecv, elem := elem,
          receivedp := received } }

/-- The static function `selectdefault(sel, index)`. -/
def selectdefault (sel : Select) (index : Int) : Outcome Select :=
  if sel.ncase ≥ sel.tcase then .thrown "selectdefault: too many cases"
  else .returned
    { sel with
      ncase := sel.ncase + 1
      scase := Function.update sel.scase sel.ncase
        { sel.scase sel.ncase with
          index := (index % 2 ^ 16).toNat, chan := 0, kind := CaseDefault } }

/-- The function `runtime_selectsend(sel, c, elem, index)`. -/
def runtime_selectsend (sel : Select) (c elem : Ptr) (index : Int) : Outcome Select :=
  if c = 0 then .returned sel else selectsend sel c index elem

/-- The function `runtime_selectrecv(sel, c, elem, index)`. -/
def runtime_selectrecv (sel : Select) (c elem : Ptr) (index : Int) : Outcome Select :=
  if c = 0 then .returned sel else selectrecv sel c index elem 0

/-- The function `runtime_selectrecv2(sel, c, elem, received, index)`. -/
def runtime_selectrecv2 (sel : Select) (c elem received : Ptr) (index : Int) : Outcome Select :=
  if c = 0 then .returned sel else selectrecv sel c index elem received

/-- The function `runtime_selectdefault(sel, index)`. -/
def runtime_selectdefault (sel : Select) (index : Int) : Outcome Select :=
  selectdefault sel index

/-! ## Select: locking in lock order -/

/-- The loop of `sellock` from index `i` on, `r` iterations left, `c` the
channel locked last. -/
def sellock_loop (lockorder : Nat → Ptr) : Nat → Nat → Ptr → World → World
  | 0, _, _, w => w
  | r + 1, i, c, w =>
    let c0 := lockorder i
    if c0 ≠ 0 ∧ c0 ≠ c then sellock_loop lockorder r (i + 1) c0 (w.log (.lock c0))
    else sellock_loop lockorder r (i + 1) c w

/-- The function `sellock(sel)`. -/
def sellock (sel : Select) (w : World) : World :=
  sellock_loop sel.lockorder sel.ncase 0 0 w

/-- The loop of `selunlock`: the iterations for the indices below `m`, from
`m - 1` down to `r`. -/
def selunlock_loop (lockorder : Nat → Ptr) (r : Nat) : Nat → World → World
  | 0, w => w
  | i + 1, w =>
    if i ≥ r then
      let c := lockorder i
      if i > 0 ∧ lockorder (i - 1) = c then selunlock_loop lockorder r i w
      else selunlock_loop lockorder r i (w.log (.unlock c))
    else w

/-- The function `selunlock(sel)`. -/
def selunlock (sel : Select) (w : World) : World :=
  let n := sel.ncase
  let r := if n > 0 ∧ sel.lockorder 0 = 0 then 1 else 0
  selunlock_loop sel.lockorder r n w

/-! ## Select: the poll order and the lock order -/

/-- The loop `for(i=0; i<sel->ncase; i++) sel->pollorder[i] = i;`. -/
def pollorder_fill (n : Nat) (p : Nat → Nat) : Nat → Nat :=
  fun i => if i < n then i else p i

/-- The loop `for(i=1; i<sel->ncase; i++)` that permutes the poll order, from
index `i` on with `r` iterations left; `fastrand i` is the value
`runtime_fastrand1()` returns in iteration `i`. -/
def shuffle_loop (fastrand : Nat → Nat) : Nat → Nat → (Nat → Nat) → (Nat → Nat)
  | 0, _, p => p
  | r + 1, i, p =>
    let o := p i
    let j := fastrand i % (i + 1)
    let p1 := Function.update p i (p j)
    let p2 := Function.update p1 j o
    shuffle_loop fastrand r (i + 1) p2

/-- The poll order `selectgo` generates for `n` cases. -/
def gen_pollorder (fastrand : Nat → Nat) (n : Nat) (p : Nat → Nat) : Nat → Nat :=
  shuffle_loop fastrand (n - 1) 1 (pollorder_fill n p)

/-- The loop `while(j > 0 && sel->lockorder[k=(j-1)/2] < c)` of the first phase
of the sort: the lock order and `j` when it ends.  The first argument bounds
the number of iterations (`j` at least halves every time). -/
def siftUp (c : Ptr) : Nat → (Nat → Ptr) → Nat → (Nat → Ptr) × Nat
  | 0, lo, j => (lo, j)
  | fuel + 1, lo, j =>
    if j > 0 ∧ lo ((j - 1) / 2) < c then
      siftUp c fuel (Function.update lo j (lo ((j - 1) / 2))) ((j - 1) / 2)
    else (lo, j)

/-- The first phase of the sort, `for(i=0; i<sel->ncase; i++)`, from index `i`
on with `r` iterations left: insert `chan i` into the heap `lo[0..i)`. -/
def buildHeap (chan : Nat → Ptr) : Nat → Nat → (Nat → Ptr) → (Nat → Ptr)
  | 0, _, lo => lo
  | r + 1, i, lo =>
    let c := chan i
    let s := siftUp c (i + 1) lo i
    buildHeap chan r (i + 1) (Function.update s.1 s.2 c)

/-- The loop `for(;;)` of the second phase of the sort, on the heap `lo[0..i)`
with the hole at `j`: the lock order and `j` when it ends.  The first argument
bounds the number of iterations (`j` more than doubles every time). -/
def siftDown (c : Ptr) (i : Nat) : Nat → (Nat → Ptr) → Nat → (Nat → Ptr) × Nat
  | 0, lo, j => (lo, j)
  | fuel + 1, lo, j =>
    let k := j * 2 + 1
    if k ≥ i then (lo, j)
    else
      let k1 := if k + 1 < i ∧ lo k < lo (k + 1) then k + 1 else k
      if c < lo k1 then siftDown c i fuel (Function.update lo j (lo k1)) k1
      else (lo, j)

/-- The second phase of the sort, `for(i=sel->ncase; i-->0; )`: the
iterations for the indices below `m`, from `m - 1` down to `0`. -/
def sortHeap : Nat → (Nat → Ptr) → (Nat → Ptr)
  | 0, lo => lo
  | i + 1, lo =>
    let c := lo i
    let lo1 := Function.update lo i (lo 0)
    let s := siftDown c i (i + 1) lo1 0
    sortHeap i (Function.update s.1 s.2 c)

/-- The lock order `selectgo` computes: the heap sort of the channels of the
cases. -/
def gen_lockorder (sel : Select) : Nat → Ptr :=
  sortHeap sel.ncase (buildHeap (fun i => (sel.scase i).chan) sel.ncase 0 sel.lockorder)

/-! ## Select: removing the sudogs of a routine -/

/-- The loop of `dequeueg(q)` at the sudog `sgp`, the one before it being
`prev` (`nil` at the head, where `l` is `&q->first`). -/
def dequeueg_loop (g : Ptr) : Nat → (Ptr → SudoG) → WaitQ → Ptr → Ptr → Option ((Ptr → SudoG) × WaitQ)
  | 0, _, _, _, _ => none
  | fuel + 1, sudogs, q, prev, sgp =>
    if sgp = 0 then some (sudogs, q)
    else if (sudogs sgp).g = g then
      let r : (Ptr → SudoG) × WaitQ :=
        if prev = 0 then (sudogs, { q with first := (sudogs sgp).link })
        else (Function.update sudogs prev { sudogs prev with link := (sudogs sgp).link }, q)
      if r.2.last = sgp then some (r.1, { r.2 with last := prev }) else some r
    else dequeueg_loop g fuel sudogs q sgp (sudogs sgp).link

/-- The function `dequeueg(q)` run by routine `g`. -/
def dequeueg (g : Ptr) (fuel : Nat) (sudogs : Ptr → SudoG) (q : WaitQ) :
    Option ((Ptr → SudoG) × WaitQ) :=
  dequeueg_loop g fuel sudogs q 0 q.first

/-! ## Select: `selectgo` -/

/-- The call `dequeueg(&c->recvq)` by routine `g`. -/
def dequeuegRecvq (g : Ptr) (fuel : Nat) (w : World) (c : Ptr) : Option World :=
  match dequeueg g fuel w.sudogs (w.chans c).recvq with
  | none => none
  | some (sudogs, q) =>
    some { w with sudogs := sudogs, chans := Function.update w.chans c { w.chans c with recvq := q } }

/-- The call `dequeueg(&c->sendq)` by routine `g`. -/
def dequeuegSendq (g : Ptr) (fuel : Nat) (w : World) (c : Ptr) : Option World :=
  match dequeueg g fuel w.sudogs (w.chans c).sendq with
  | none => none
  | some (sudogs, q) =>
    some { w with sudogs := sudogs, chans := Function.update w.chans c { w.chans c with sendq := q } }

/-- The labels of `selectgo` that pass 1 jumps to. -/
inductive SelLabel where
  | asyncrecv
  | asyncsend
  | syncrecv
  | rclose
  | syncsend
  | sclose
deriving DecidableEq

/-- What the `switch` of pass 1 does with one case: `break`, a `goto` with the
sudog `sg` that `dequeue` returned, or `dfl = cas`. -/
inductive Scan where
  | next
  | jump (l : SelLabel) (sg : Ptr)
  | dflt
deriving DecidableEq

/-- The body of the loop of pass 1 for the case `cas`. -/
def pass1_case (fuel : Nat) (w : World) (cas : Scase) : Option (World × Scan) :=
  let c := cas.chan
  if cas.kind = CaseRecv then
    if (w.chans c).dataqsiz > 0 then
      if (w.chans c).qcount > 0 then some (w, .jump .asyncrecv 0)
      else if (w.chans c).closed then some (w, .jump .rclose 0)
      else some (w, .next)
    else
      match dequeueSendq fuel w c with
      | none => none
      | some (w1, sg) =>
        if sg ≠ 0 then some (w1, .jump .syncrecv sg)
        else if (w1.chans c).closed then some (w1, .jump .rclose 0)
        else some (w1, .next)
  else if cas.kind = CaseSend then
    if (w.chans c).closed then some (w, .jump .sclose 0)
    else if (w.chans c).dataqsiz > 0 then
      if (w.chans c).qcount < (w.chans c).dataqsiz then some (w, .jump .asyncsend 0)
      else some (w, .next)
    else
      match dequeueRecvq fuel w c with
      | none => none
      | some (w1, sg) =>
        if sg ≠ 0 then some (w1, .jump .syncsend sg)
        else some (w1, .next)
  else if cas.kind = CaseDefault then some (w, .dflt)
  else some (w, .next)

/-- How pass 1 ends: with a jump to a label for the case `cas`, or at the end
of the loop with the default case seen, if any. -/
inductive Pass1 where
  | fired (l : SelLabel) (cas : Scase) (sg : Ptr)
  | done (dfl : Option Scase)

/-- Pass 1 of `selectgo` from position `i` of the poll order on, `r`
iterations left. -/
def pass1 (fuel : Nat) (sel : Select) : Nat → Nat → World → Option Scase → Option (World × Pass1)
  | 0, _, w, dfl => some (w, .done dfl)
  | r + 1, i, w, dfl =>
    let cas := sel.scase (sel.pollorder i)
    match pass1_case fuel w cas with
    | none => none
    | some (w1, .jump l sg) => some (w1, .fired l cas sg)
    | some (w1, .dflt) => pass1 fuel sel r (i + 1) w1 (some cas)
    | some (w1, .next) => pass1 fuel sel r (i + 1) w1 dfl

/-- The label `retc:` of `selectgo`. -/
def selectgo_retc (w : World) (sel : Select) (cas : Scase) (t0 : Int) : World × Outcome Nat :=
  ((blockProfile w cas.releasetime t0).log (.free sel.base), .returned cas.index)

/-- The label `asyncrecv:` of `selectgo`. -/
def selectgo_asyncrecv (fuel : Nat) (w : World) (sel : Select) (cas : Scase) (t0 : Int) :
    Option (World × Outcome Nat) :=
  let c := cas.chan
  let w1 := setReceived w cas.receivedp true
  let ch := w1.chans c
  let w2 : World :=
    if cas.elem ≠ 0 then
      { w1 with mem := memmove w1.mem ch.buf cas.elem (chanbuf ch ch.recvx) ch.elemsize }
    else w1
  let buf1 := memclr ch.buf (chanbuf ch ch.recvx) ch.elemsize
  let recvx1 := if ch.recvx + 1 = ch.dataqsiz then 0 else ch.recvx + 1
  let w3 := w2.setChan c { ch with buf := buf1, recvx := recvx1, qcount := ch.qcount - 1 }
  match dequeueSendq fuel w3 c with
  | none => none
  | some (w4, sg) =>
    let w5 :=
      if sg ≠ 0 then
        let gp := (w4.sudogs sg).g
        (stampRelease (selunlock sel w4) sg).log (.ready gp)
      else selunlock sel w4
    some (selectgo_retc w5 sel cas t0)

/-- The label `asyncsend:` of `selectgo`. -/
def selectgo_asyncsend (fuel : Nat) (w : World) (sel : Select) (cas : Scase) (t0 : Int) :
    Option (World × Outcome Nat) :=
  let c := cas.chan
  let ch := w.chans c
  let buf1 := memmove ch.buf w.mem (chanbuf ch ch.sendx) cas.elem ch.elemsize
  let sendx1 := if ch.sendx + 1 = ch.dataqsiz then 0 else ch.sendx + 1
  let w1 := w.setChan c { ch with buf := buf1, sendx := sendx1, qcount := ch.qcount + 1 }
  match dequeueRecvq fuel w1 c with
  | none => none
  | some (w2, sg) =>
    let w3 :=
      if sg ≠ 0 then
        let gp := (w2.sudogs sg).g
        (stampRelease (selunlock sel w2) sg).log (.ready gp)
      else selunlock sel w2
    some (selectgo_retc w3 sel cas t0)

/-- The label `syncrecv:` of `selectgo`, with the sleeping sender `sg`. -/
def selectgo_syncrecv (w : World) (sel : Select) (cas : Scase) (sg : Ptr) (t0 : Int) :
    World × Outcome Nat :=
  let c := cas.chan
  let w1 := selunlock sel w
  let w2 := setReceived w1 cas.receivedp true
  let w3 : World :=
    if cas.elem ≠ 0 then
      { w2 with mem := memmove w2.mem w2.mem cas.elem (w2.sudogs sg).elem (w2.chans c).elemsize }
    else w2
  let gp := (w3.sudogs sg).g
  let w4 : World := { w3 with param := Function.update w3.param gp sg }
  selectgo_retc ((stampRelease w4 sg).log (.ready gp)) sel cas t0

/-- The label `rclose:` of `selectgo`. -/
def selectgo_rclose (w : World) (sel : Select) (cas : Scase) (t0 : Int) : World × Outcome Nat :=
  let c := cas.chan
  let w1 := selunlock sel w
  let w2 := setReceived w1 cas.receivedp false
  let w3 : World :=
    if cas.elem ≠ 0 then { w2 with mem := memclr w2.mem cas.elem (w2.chans c).elemsize } else w2
  selectgo_retc w3 sel cas t0

/-- The label `syncsend:` of `selectgo`, with the sleeping receiver `sg`. -/
def selectgo_syncsend (w : World) (sel : Select) (cas : Scase) (sg : Ptr) (t0 : Int) :
    World × Outcome Nat :=
  let c := cas.chan
  let w1 := selunlock sel w
  let w2 : World :=
    if (w1.sudogs sg).elem ≠ 0 then
      { w1 with mem := memmove w1.mem w1.mem (w1.sudogs sg).elem cas.elem (w1.chans c).elemsize }
    else w1
  let gp := (w2.sudogs sg).g
  let w3 : World := { w2 with param := Function.update w2.param gp sg }
  selectgo_retc ((stampRelease w3 sg).log (.ready gp)) sel cas t0

/-- The label `sclose:` of `selectgo`. -/
def selectgo_sclose (w : World) (sel : Select) : World × Outcome Nat :=
  (selunlock sel w, .panicked "send on closed channel")

/-- Pass 2 of `selectgo` from position `i` of the poll order on, `r`
iterations left: store the sudog of each case and enqueue it on its channel;
`done` is the address of the local `done`. -/
def pass2 (sel : Select) (g done : Ptr) : Nat → Nat → World → World
  | 0, _, w => w
  | r + 1, i, w =>
    let cas := sel.scase (sel.pollorder i)
    let c := cas.chan
    let w1 := w.setSudog cas.sg
      { w.sudogs cas.sg with
        g := g, selectdone := done, elem := cas.elem, releasetime := cas.releasetime }
    let w2 :=
      if cas.kind = CaseRecv then enqueueRecvq w1 c cas.sg
      else if cas.kind = CaseSend then enqueueSendq w1 c cas.sg
      else w1
    pass2 sel g done r (i + 1) w2

/-- The code of `selectgo` from the label `loop:` to the return, the panic or
the park. -/
def selectgo_loop (fuel : Nat) (w : World) (g done : Ptr) (sel : Select) (t0 : Int) :
    Option (World × Outcome Nat) :=
  match pass1 fuel sel sel.ncase 0 w none with
  | none => none
  | some (w1, .fired .asyncrecv cas _) => selectgo_asyncrecv fuel w1 sel cas t0
  | some (w1, .fired .asyncsend cas _) => selectgo_asyncsend fuel w1 sel cas t0
  | some (w1, .fired .syncrecv cas sg) => some (selectgo_syncrecv w1 sel cas sg t0)
  | some (w1, .fired .rclose cas _) => some (selectgo_rclose w1 sel cas t0)
  | some (w1, .fired .syncsend cas sg) => some (selectgo_syncsend w1 sel cas sg t0)
  | some (w1, .fired .sclose _ _) => some (selectgo_sclose w1 sel)
  | some (w1, .done (some dfl)) => some (selectgo_retc (selunlock sel w1) sel dfl t0)
  | some (w1, .done none) =>
    let w2 : World := { w1 with words := Function.update w1.words done 0 }
    let w3 := pass2 sel g done sel.ncase 0 w2
    let w4 : World := { w3 with param := Function.update w3.param g 0 }
    some (selunlock sel w4, .parked "select")

/-- The code of `selectgo` before the label `loop:`, up to and including
`sellock(sel)`: the world, the select with its poll order and lock order
filled in, and `t0`.  `fastrand i` is what `runtime_fastrand1()` returns in
iteration `i` of the shuffle. -/
def selectgo_prologue (fastrand : Nat → Nat) (w : World) (sel : Select) : World × Select × Int :=
  let w0 := gcYield w
  let p : World × Select × Int :=
    if w0.blockprofilerate > 0 then
      let r := runtime_cputicks w0
      (r.2, { sel with scase := fun i =>
                if i < sel.ncase then { sel.scase i with releasetime := -1 } else sel.scase i },
        r.1)
    else (w0, sel, 0)
  let sel1 : Select :=
    { p.2.1 with pollorder := gen_pollorder fastrand p.2.1.ncase p.2.1.pollorder }
  let sel2 : Select := { sel1 with lockorder := gen_lockorder sel1 }
  (sellock sel2 p.1, sel2, p.2.2)

/-- The function `selectgo(selp)` run by routine `g`, from entry to the first
return, panic or park. -/
def selectgo (fuel : Nat) (fastrand : Nat → Nat) (w : World) (g done : Ptr) (sel : Select) :
    Option (World × Outcome Nat) :=
  let p := selectgo_prologue fastrand w sel
  selectgo_loop fuel p.1 g done p.2.1 p.2.2

/-- Pass 3 of `selectgo` from case `i` on, `r` iterations left: take the
sudogs of the cases other than the one at `sg` off their queues. -/
def pass3 (g : Ptr) (fuel : Nat) (sel : Select) (sg : Ptr) : Nat → Nat → World → Option World
  | 0, _, w => some w
  | r + 1, i, w =>
    let cas := sel.scase i
    if cas.sg ≠ sg then
      let c := cas.chan
      match (if cas.kind = CaseSend then dequeuegSendq g fuel w c else dequeuegRecvq g fuel w c) with
      | none => none
      | some w1 => pass3 g fuel sel sg r (i + 1) w1
    else pass3 g fuel sel sg r (i + 1) w

/-- The cast `(Scase*)sg`: the case of `sel` whose address is `sg`, searched
among the first `n` cases. -/
def caseOf (sel : Select) (sg : Ptr) : Nat → Option Scase
  | 0 => none
  | n + 1 =>
    match caseOf sel sg n with
    | some cas => some cas
    | none => if (sel.scase n).sg = sg then some (sel.scase n) else none

/-- The code of `selectgo` after `runtime_park(selparkcommit, sel, "select")`;
`sel` and `t0` are those of the prologue.  The sudogs of the cases were in the
sudog heap while the routine was parked, so their release times are read from
there.  The result is `none` also when the wake token is not the address of a
case of `sel` (the C code would read a foreign record as a case). -/
def selectgo_wake (fuel : Nat) (w : World) (g done : Ptr) (sel : Select) (t0 : Int) :
    Option (World × Outcome Nat) :=
  let sel1 : Select :=
    { sel with scase := fun i =>
        if i < sel.ncase then
          { sel.scase i with releasetime := (w.sudogs (sel.scase i).sg).releasetime }
        else sel.scase i }
  let w1 := sellock sel1 w
  let sg := w1.param g
  match pass3 g fuel sel1 sg sel1.ncase 0 w1 with
  | none => none
  | some w2 =>
    if sg = 0 then selectgo_loop fuel w2 g done sel1 t0
    else
      match caseOf sel1 sg sel1.ncase with
      | none => none
      | some cas =>
        if (w2.chans cas.chan).dataqsiz > 0 then some (w2, .thrown "selectgo: shouldn't happen")
        else
          let w3 := if cas.kind = CaseRecv then setReceived w2 cas.receivedp true else w2
          some (selectgo_retc (selunlock sel1 w3) sel1 cas t0)

/-- The function `runtime_selectnbsend(t, c, val)`, which the compiler calls
for a `select` of one send and a default case. -/
def runtime_selectnbsend (fuel : Nat) (w : World) (g mysg c val : Ptr) :
    Option (World × Outcome Bool) :=
  chansend fuel w g mysg c val false

/-- The function `runtime_selectnbrecv(t, v, c)`, which the compiler calls for
a `select` of one receive and a default case. -/
def runtime_selectnbrecv (fuel : Nat) (w : World) (g mysg v c : Ptr) :
    Option (World × Outcome Bool) :=
  chanrecv fuel w g mysg c v 0 false


/-- Run `chansend` on `c` once for each element pointer, in order; each entry
of the result is the outcome of a send and `reflect_chanlen` right after it. -/
def sendAll (pf : Platform) (fuel : Nat) (g mysg c : Ptr) (block : Bool) :
    World → List Ptr → Option (World × List (Outcome Bool × Int))
  | w, [] => some (w, [])
  | w, ep :: eps =>
    match chansend fuel w g mysg c ep block with
    | none => none
    | some (w1, o) =>
      match sendAll pf fuel g mysg c block w1 eps with
      | none => none
      | some (w2, rs) => some (w2, (o, reflect_chanlen pf w1 c) :: rs)

/-- Run `chanrecv` on `c` once for each destination pointer, in order; each
entry of the result is the outcome of a receive, the flag it stored through
`received` and the element bytes it stored at the destination. -/
def recvAll (fuel : Nat) (g mysg c received : Ptr) (block : Bool) :
    World → List Ptr → Option (World × List (Outcome Bool × Bool × List Nat))
  | w, [] => some (w, [])
  | w, ep :: eps =>
    match chanrecv fuel w g mysg c ep received block with
    | none => none
    | some (w1, o) =>
      match recvAll fuel g mysg c received block w1 eps with
      | none => none
      | some (w2, rs) =>
        some (w2, (o, w1.bools received, readBytes w1.mem ep (w1.chans c).elemsize) :: rs)

/-! ## Wait queues as lists -/

/-- Following `link` from `p` visits exactly the sudogs of `l`, in order, and
then reaches `nil`. -/
def isList (sudogs : Ptr → SudoG) : Ptr → List Ptr → Prop
  | p, [] => p = 0
  | p, x :: l => p = x ∧ x ≠ 0 ∧ isList sudogs (sudogs x).link l

/-- Deciding `isList` by walking the list. -/
def isList.dec (sudogs : Ptr → SudoG) : (p : Ptr) → (l : List Ptr) → Decidable (isList sudogs p l)
  | p, [] => inferInstanceAs (Decidable (p = 0))
  | p, x :: l =>
    have : Decidable (isList sudogs (sudogs x).link l) := isList.dec sudogs (sudogs x).link l
    inferInstanceAs (Decidable (p = x ∧ x ≠ 0 ∧ isList sudogs (sudogs x).link l))

instance (sudogs : Ptr → SudoG) (p : Ptr) (l : List Ptr) : Decidable (isList sudogs p l) :=
  isList.dec sudogs p l

/-- The queue `q` holds the sudogs of `l`, oldest first: `first` starts a
nil-terminated list and, unless the queue is empty, `last` is its last
sudog. -/
def WaitQ.holds (sudogs : Ptr → SudoG) (q : WaitQ) (l : List Ptr) : Prop :=
  isList sudogs q.first l ∧ (l = [] ∨ l.getLast? = some q.last)

instance (sudogs : Ptr → SudoG) (q : WaitQ) (l : List Ptr) : Decidable (WaitQ.holds sudogs q l) :=
  inferInstanceAs (Decidable (isList sudogs q.first l ∧ (l = [] ∨ l.getLast? = some q.last)))

/-- The sudog at `p` takes part in a select whose claim word is already set:
`dequeue` drops it. -/
def claimed (sudogs : Ptr → SudoG) (words : Ptr → Nat) (p : Ptr) : Bool :=
  decide ((sudogs p).selectdone ≠ 0) && decide (words (sudogs p).selectdone ≠ 0)

/-- The claim words after `dequeue` has returned the unclaimed sudog `x`. -/
def claim (sudogs : Ptr → SudoG) (words : Ptr → Nat) (x : Ptr) : Ptr → Nat :=
  if (sudogs x).selectdone ≠ 0 then Function.update words (sudogs x).selectdone 1 else words

/-- The sudogs of `l` that are handed out when the queue is drained from the
head: each one that is unclaimed when its turn comes, the claim words being
set along the way. -/
def claimScan (sudogs : Ptr → SudoG) : (Ptr → Nat) → List Ptr → List Ptr
  | _, [] => []
  | words, x :: l =>
    if claimed sudogs words x then claimScan sudogs words l
    else x :: claimScan sudogs (claim sudogs words x) l

/-- The claim words after the queue `l` has been drained from the head. -/
def claimWords (sudogs : Ptr → SudoG) : (Ptr → Nat) → List Ptr → (Ptr → Nat)
  | words, [] => words
  | words, x :: l =>
    if claimed sudogs words x then claimWords sudogs words l
    else claimWords sudogs (claim sudogs words x) l

/-- Two sudog heaps that differ at most in `releasetime` fields. -/
def sameLinks (s1 s2 : Ptr → SudoG) : Prop :=
  ∀ p, (s1 p).g = (s2 p).g ∧ (s1 p).selectdone = (s2 p).selectdone ∧
    (s1 p).link = (s2 p).link ∧ (s1 p).elem = (s2 p).elem

/-! ## The ring buffer as a list -/

/-- The bytes of slot `i` of the buffer. -/
def slot (c : Hchan) (i : Nat) : List Nat :=
  readBytes c.buf (chanbuf c i) c.elemsize

/-- The elements held in the ring, oldest first: the `qcount` slots from
`recvx` on, modulo `dataqsiz`. -/
def contents (c : Hchan) : List (List Nat) :=
  (List.range c.qcount).map (fun t => slot c ((c.recvx + t) % c.dataqsiz))

/-- The ring indices and the count agree. -/
def ringInv (c : Hchan) : Prop :=
  c.recvx < c.dataqsiz ∧ c.qcount ≤ c.dataqsiz ∧ c.sendx = (c.recvx + c.qcount) % c.dataqsiz

instance (c : Hchan) : Decidable (ringInv c) :=
  inferInstanceAs (Decidable (c.recvx < c.dataqsiz ∧ c.qcount ≤ c.dataqsiz ∧
    c.sendx = (c.recvx + c.qcount) % c.dataqsiz))

/-! ## The shuffle as a product of transpositions -/

/-- The transpositions of the iterations `i`, .., `i + r - 1` of the shuffle,
composed: the poll order is the identity filled in by `pollorder_fill` read
through this permutation. -/
def shufflePerm (fastrand : Nat → Nat) : Nat → Nat → Equiv.Perm Nat
  | 0, _ => 1
  | r + 1, i => Equiv.swap i (fastrand i % (i + 1)) * shufflePerm fastrand r (i + 1)


/-! ## The lock order as a list of locks -/

/-- The index `i` is where a channel other than nil is met for the first time
in a sorted lock order. -/
def firstAt (lo : Nat → Nat) (i : Nat) : Bool :=
  decide (lo i ≠ 0 ∧ (i = 0 ∨ lo (i - 1) ≠ lo i))

/-- The channels other than nil of the first `n` entries of a sorted lock
order, each once, in the order of the entries. -/
def lockList (lo : Nat → Nat) (n : Nat) : List Nat :=
  ((List.range n).filter (firstAt lo)).map lo


/-! ## Heaps in the lock order -/

/-- The first `m` entries of `a` are a heap with the largest entry at the
root: every entry is at most its parent. -/
def isHeap (a : Nat → Nat) (m : Nat) : Prop :=
  ∀ k, 0 < k → k < m → a k ≤ a ((k - 1) / 2)

/-- The array `b2` is `b` with entries below `m` rearranged. -/
def Rearr (m : Nat) (b b2 : Nat → Nat) : Prop :=
  ∃ σ : Equiv.Perm Nat, b2 = b ∘ σ ∧ ∀ k, m ≤ k → σ k = k

/-- While an entry moves up from the leaf `i`: with the entry at `j`, the
entries `0, .., i` are a heap but for the edge from `j` to its parent, and the
children of `j` are at most the parent of `j`. -/
def upInv (i : Nat) (b : Nat → Nat) (j : Nat) : Prop :=
  (∀ k, 0 < k → k ≤ i → k ≠ j → b k ≤ b ((k - 1) / 2)) ∧
  (∀ k, 0 < k → k ≤ i → (k - 1) / 2 = j → 0 < j → b k ≤ b ((j - 1) / 2))

/-- While an entry moves down from the root: with the entry at `j`, the
entries below `i` are a heap but for the edges from the children of `j` to
`j`, and the children of `j` are at most the parent of `j`. -/
def downInv (i : Nat) (b : Nat → Nat) (j : Nat) : Prop :=
  (∀ k, 0 < k → k < i → (k - 1) / 2 ≠ j → b k ≤ b ((k - 1) / 2)) ∧
  (∀ k, 0 < k → k < i → (k - 1) / 2 = j → 0 < j → b k ≤ b ((j - 1) / 2))


/-! ## Frames and invariants of the channel state -/

/-- Two channel headers that differ at most in their wait queues. -/
def sameRing (h1 h2 : Hchan) : Prop :=
  { h1 with sendq := h2.sendq, recvq := h2.recvq } = h2

/-- Two worlds with the same heaps: they differ at most in the trace and in
the cycle counter. -/
def heapEq (w1 w2 : World) : Prop :=
  w1.chans = w2.chans ∧ w1.sudogs = w2.sudogs ∧ w1.words = w2.words ∧ w1.mem = w2.mem ∧
    w1.bools = w2.bools ∧ w1.param = w2.param

/-- The structural invariant of a channel header. -/
def chanInv (h : Hchan) : Prop :=
  h.qcount ≤ h.dataqsiz ∧ (h.dataqsiz > 0 → h.sendx < h.dataqsiz ∧ h.recvx < h.dataqsiz) ∧
    (h.dataqsiz = 0 → h.qcount = 0)

instance (h : Hchan) : Decidable (chanInv h) :=
  inferInstanceAs (Decidable (h.qcount ≤ h.dataqsiz ∧
    (h.dataqsiz > 0 → h.sendx < h.dataqsiz ∧ h.recvx < h.dataqsiz) ∧
    (h.dataqsiz = 0 → h.qcount = 0)))

/-- At most one of the two wait queues of the channel is non-empty. -/
def oneSided (h : Hchan) : Prop :=
  h.sendq.first = 0 ∨ h.recvq.first = 0

instance (h : Hchan) : Decidable (oneSided h) :=
  inferInstanceAs (Decidable (h.sendq.first = 0 ∨ h.recvq.first = 0))


/-- Two cases that differ at most in the release time of their sudog. -/
def sameCase (a b : Scase) : Prop :=
  { a with releasetime := b.releasetime } = b


/-- What `dequeue` may do to a queue: sudogs are popped from its head. -/
def popped (q q1 : WaitQ) : Prop :=
  q1.last = q.last ∧ (q.first = 0 → q1.first = 0)

/-- What the scan of the cases may do to a channel header: sudogs are popped
from the heads of its queues. -/
def chanPopped (h h1 : Hchan) : Prop :=
  sameRing h h1 ∧ popped h.sendq h1.sendq ∧ popped h.recvq h1.recvq

/-- What the scan of the cases may do to the world: claim words are set and
sudogs are popped from the heads of queues. -/
def worldPopped (w w1 : World) : Prop :=
  w1.sudogs = w.sudogs ∧ w1.mem = w.mem ∧ w1.bools = w.bools ∧ w1.param = w.param ∧
    w1.trace = w.trace ∧ ∀ c, chanPopped (w.chans c) (w1.chans c)


/-- Every channel header of the world satisfies the structural invariant. -/
def ringsOK (w : World) : Prop :=
  ∀ c, chanInv (w.chans c)


/-- The byte at `a` lies in the element buffer of `n` bytes at `p`. -/
def inBuf (p n a : Nat) : Prop :=
  p ≠ 0 ∧ p ≤ a ∧ a < p + n

/-- What a select that returns through the case `cas` may have changed from
`w` to `w1`: the ring of no channel but that of `cas` (of none at all for a
default case); bytes of memory only in the element buffer of `cas` when it is
a receive, and only in the element buffer of a parked receiver that got the
wake token when it is a send; among the `received` flags only that of `cas`,
when it is a receive, which is `true` after a transfer (a buffered element
taken, or a sender woken) and `false` when the channel was closed with
nothing buffered. -/
def firedFrame (w w1 : World) (cas : Scase) : Prop :=
  (∀ c, (c ≠ cas.chan ∨ cas.kind = CaseDefault) → sameRing (w.chans c) (w1.chans c)) ∧
  (∀ a, w1.mem a ≠ w.mem a →
    (cas.kind = CaseRecv ∧ inBuf cas.elem (w.chans cas.chan).elemsize a) ∨
    (cas.kind = CaseSend ∧ ∃ sg, sg ≠ 0 ∧ w1.param (w.sudogs sg).g = sg ∧
      inBuf (w.sudogs sg).elem (w.chans cas.chan).elemsize a)) ∧
  (∀ a, w1.bools a ≠ w.bools a → cas.kind = CaseRecv ∧ a = cas.receivedp ∧ a ≠ 0) ∧
  (cas.kind = CaseRecv → cas.receivedp ≠ 0 →
    (w1.bools cas.receivedp = true ∧
      ((0 < (w.chans cas.chan).dataqsiz ∧
          (w1.chans cas.chan).qcount + 1 = (w.chans cas.chan).qcount) ∨
        ((w.chans cas.chan).dataqsiz = 0 ∧ ∃ sg, sg ≠ 0 ∧ w1.param (w.sudogs sg).g = sg))) ∨
    (w1.bools cas.receivedp = false ∧ (w.chans cas.chan).closed = true ∧
      sameRing (w.chans cas.chan) (w1.chans cas.chan) ∧
      (0 < (w.chans cas.chan).dataqsiz → (w.chans cas.chan).qcount = 0)))


/-! ## Ready cases -/

/-- Some sudog of the queue that starts at `p` is unclaimed. -/
def hasUnclaimed (sudogs : Ptr → SudoG) (words : Ptr → Nat) (p : Ptr) : Prop :=
  ∃ l, isList sudogs p l ∧ ∃ x ∈ l, claimed sudogs words x = false

/-- The case is ready: a receive on a buffered channel that holds an element,
on an unbuffered channel with an unclaimed parked sender, or on a closed
channel; a send on a buffered channel that is not full, or on an unbuffered
channel with an unclaimed parked receiver. -/
def ready (w : World) (cas : Scase) : Prop :=
  (cas.kind = CaseRecv ∧
    ((0 < (w.chans cas.chan).dataqsiz ∧ 0 < (w.chans cas.chan).qcount) ∨
      ((w.chans cas.chan).dataqsiz = 0 ∧
        hasUnclaimed w.sudogs w.words (w.chans cas.chan).sendq.first) ∨
      (w.chans cas.chan).closed = true)) ∨
  (cas.kind = CaseSend ∧
    ((0 < (w.chans cas.chan).dataqsiz ∧
        (w.chans cas.chan).qcount < (w.chans cas.chan).dataqsiz) ∨
      ((w.chans cas.chan).dataqsiz = 0 ∧
        hasUnclaimed w.sudogs w.words (w.chans cas.chan).recvq.first)))

/-- Every wait queue of the world is a nil-terminated list of fewer than
`fuel` sudogs. -/
def queuesOK (fuel : Nat) (w : World) : Prop :=
  ∀ c, (∃ l, isList w.sudogs (w.chans c).sendq.first l ∧ l.length < fuel) ∧
    (∃ l, isList w.sudogs (w.chans c).recvq.first l ∧ l.length < fuel)


/-- Two worlds that differ at most in the trace of runtime calls. -/
def traceEq (w1 w2 : World) : Prop :=
  w1 = { w2 with trace := w1.trace }


/-! ## Reachable states -/

/-- What a step that enqueues nothing may do to the queues of a channel: the
capacity stays and an empty queue stays empty. -/
def queuesKept (h h1 : Hchan) : Prop :=
  h1.dataqsiz = h.dataqsiz ∧ (h.sendq.first = 0 → h1.sendq.first = 0) ∧
    (h.recvq.first = 0 → h1.recvq.first = 0)

/-- Every channel of the world has its queues kept. -/
def worldKept (w w1 : World) : Prop :=
  ∀ c, queuesKept (w.chans c) (w1.chans c)

/-- On every unbuffered channel of the world at most one of the two wait
queues is non-empty. -/
def unbufferedOneSided (w : World) : Prop :=
  ∀ c, (w.chans c).dataqsiz = 0 → oneSided (w.chans c)

/-- No channel has both a receive case and a send case of the select. -/
def oneWay (sel : Select) : Prop :=
  ∀ i j, i < sel.ncase → j < sel.ncase → (sel.scase i).kind = CaseRecv →
    (sel.scase j).kind = CaseSend → (sel.scase i).chan ≠ (sel.scase j).chan

/-- One step of a routine, from taking the lock to the return, panic, throw
or park: a send, a receive, a close or a select from its entry, or the
continuation of one of them after a park (for a send or a receive parked at
the label `asynch:` the channel is buffered).  The selects are those with
`oneWay`. -/
inductive Step : World → World → Prop where
  | send (fuel : Nat) (w : World) (g mysg c ep : Ptr) (block : Bool) (w1 : World)
      (o : Outcome Bool) : chansend fuel w g mysg c ep block = some (w1, o) → Step w w1
  | sendWake (w : World) (g mysg c : Ptr) (t0 : Int) : Step w (chansend_wake w g mysg c t0).1
  | sendAsynchWake (fuel : Nat) (w : World) (g mysg c ep : Ptr) (block : Bool) (t0 : Int)
      (w1 : World) (o : Outcome Bool) : 0 < (w.chans c).dataqsiz →
      chansend_asynch_wake fuel w g mysg c ep block t0 = some (w1, o) → Step w w1
  | recv (fuel : Nat) (w : World) (g mysg c ep received : Ptr) (block : Bool) (w1 : World)
      (o : Outcome Bool) : chanrecv fuel w g mysg c ep received block = some (w1, o) → Step w w1
  | recvWake (w : World) (g mysg c ep received : Ptr) (t0 : Int) :
      Step w (chanrecv_wake w g mysg c ep received t0).1
  | recvAsynchWake (fuel : Nat) (w : World) (g mysg c ep received : Ptr) (block : Bool)
      (t0 : Int) (w1 : World) (o : Outcome Bool) : 0 < (w.chans c).dataqsiz →
      chanrecv_asynch_wake fuel w g mysg c ep received block t0 = some (w1, o) → Step w w1
  | close (fuel : Nat) (w : World) (c : Ptr) (w1 : World) (o : Outcome Unit) :
      closechan fuel w c = some (w1, o) → Step w w1
  | select (fuel : Nat) (fastrand : Nat → Nat) (w : World) (g done : Ptr) (sel : Select)
      (w1 : World) (o : Outcome Nat) : oneWay sel →
      selectgo fuel fastrand w g done sel = some (w1, o) → Step w w1
  | selectWake (fuel : Nat) (w : World) (g done : Ptr) (sel : Select) (t0 : Int) (w1 : World)
      (o : Outcome Nat) : oneWay sel → (∀ k, k < sel.ncase → sel.pollorder k < sel.ncase) →
      selectgo_wake fuel w g done sel t0 = some (w1, o) → Step w w1

/-- The states reachable from `w0` by steps. -/
inductive Reach (w0 : World) : World → Prop where
  | start : Reach w0 w0
  | step (w w1 : World) : Reach w0 w → Step w w1 → Reach w0 w1


/-- No channel has both a receive case and a send case among the cases at the
positions of the poll order. -/
def polledOneWay (sel : Select) : Prop :=
  ∀ k1 k2, k1 < sel.ncase → k2 < sel.ncase →
    (sel.scase (sel.pollorder k1)).kind = CaseRecv →
    (sel.scase (sel.pollorder k2)).kind = CaseSend →
    (sel.scase (sel.pollorder k1)).chan ≠ (sel.scase (sel.pollorder k2)).chan

/-! ## Drivers for the wait queues -/

/-- Run `enqueue` on the queue once for each sudog of the list, in order. -/
def enqueueAll (sudogs : Ptr → SudoG) (q : WaitQ) : List Ptr → (Ptr → SudoG) × WaitQ
  | [] => (sudogs, q)
  | x :: xs => enqueueAll (enqueue sudogs q x).1 (enqueue sudogs q x).2 xs

/-- Run `dequeue` on the queue `n` times: the sudogs returned, in order, the
queue and the claim words left. -/
def dequeueAll (fuel : Nat) (sudogs : Ptr → SudoG) :
    Nat → (Ptr → Nat) → WaitQ → Option (List Ptr × WaitQ × (Ptr → Nat))
  | 0, words, q => some ([], q, words)
  | n + 1, words, q =>
    match dequeue fuel sudogs words q with
    | none => none
    | some (q1, words1, sg) =>
      match dequeueAll fuel sudogs n words1 q1 with
      | none => none
      | some (l, q2, words2) => some (sg :: l, q2, words2)


/-! ## Runs of channel operations -/

/-- Every slot of the buffer outside the live window, the `qcount` slots from
`recvx` on modulo `dataqsiz`, holds zero bytes only. -/
def zeroOutside (h : Hchan) : Prop :=
  ∀ i, i < h.dataqsiz → (∀ t, t < h.qcount → i ≠ (h.recvx + t) % h.dataqsiz) →
    ∀ j, j < h.elemsize → h.buf (chanbuf h i + j) = 0

/-- The ring indices and the count of a buffered channel agree. -/
def ringAgree (h : Hchan) : Prop :=
  0 < h.dataqsiz → ringInv h

/-- The ring indices and the count of a buffered channel agree and the slots
outside the live window are zero. -/
def bufZero (h : Hchan) : Prop :=
  0 < h.dataqsiz → ringInv h ∧ zeroOutside h

/-- A closed channel has no waiters. -/
def noWaiters (h : Hchan) : Prop :=
  h.closed = true → h.sendq.first = 0 ∧ h.recvq.first = 0

/-- What the operations do to one channel header between taking the lock and
releasing it: sudogs are taken off the queues (`pop`: by `dequeue` and by
`dequeueg`, which leave an empty queue empty), a sudog is enqueued on an open
channel (`enq`), an element is stored into the ring of an open channel that
has room (`send`), the oldest element is taken from the ring and its slot
cleared (`recv`), the channel is closed and both queues are drained
(`close`), or the header is a fresh one from `makechan` (`make`). -/
inductive HStep : Hchan → Hchan → Prop where
  | pop (h h1 : Hchan) : sameRing h h1 → (h.sendq.first = 0 → h1.sendq.first = 0) →
      (h.recvq.first = 0 → h1.recvq.first = 0) → HStep h h1
  | enq (h h1 : Hchan) : h.closed = false → sameRing h h1 → HStep h h1
  | send (h : Hchan) (m : Nat → Nat) (ep : Ptr) : h.closed = false → h.qcount < h.dataqsiz →
      HStep h { h with
        buf := memmove h.buf m (chanbuf h h.sendx) ep h.elemsize
        sendx := if h.sendx + 1 = h.dataqsiz then 0 else h.sendx + 1
        qcount := h.qcount + 1 }
  | recv (h : Hchan) : 0 < h.qcount →
      HStep h { h with
        buf := memclr h.buf (chanbuf h h.recvx) h.elemsize
        recvx := if h.recvx + 1 = h.dataqsiz then 0 else h.recvx + 1
        qcount := h.qcount - 1 }
  | close (h h1 : Hchan) : sameRing { h with closed := true } h1 → h1.sendq.first = 0 →
      h1.recvq.first = 0 → HStep h h1
  | make (h : Hchan) (elemtype : Ptr) (esize dataqsiz : Nat) :
      HStep h { zeroHchan with elemsize := esize, elemtype := elemtype, dataqsiz := dataqsiz }

/-- Every channel header of `w1` comes from that of `w` by header steps. -/
def headerRun (w w1 : World) : Prop :=
  ∀ c, Relation.ReflTransGen HStep (w.chans c) (w1.chans c)

/-- One step of a routine, from taking the lock to the return, panic, throw
or park: `makechan`, a send, a receive, a close or a select from its entry,
or the continuation of one of them after a park. -/
inductive Op : World → World → Prop where
  | make (pf : Platform) (w : World) (elemtype : Ptr) (esize : Nat) (hint : Int) (newc : Ptr) :
      Op w (makechan pf w elemtype esize hint newc).1
  | send (fuel : Nat) (w : World) (g mysg c ep : Ptr) (block : Bool) (w1 : World)
      (o : Outcome Bool) : chansend fuel w g mysg c ep block = some (w1, o) → Op w w1
  | sendWake (w : World) (g mysg c : Ptr) (t0 : Int) : Op w (chansend_wake w g mysg c t0).1
  | sendAsynchWake (fuel : Nat) (w : World) (g mysg c ep : Ptr) (block : Bool) (t0 : Int)
      (w1 : World) (o : Outcome Bool) :
      chansend_asynch_wake fuel w g mysg c ep block t0 = some (w1, o) → Op w w1
  | recv (fuel : Nat) (w : World) (g mysg c ep received : Ptr) (block : Bool) (w1 : World)
      (o : Outcome Bool) : chanrecv fuel w g mysg c ep received block = some (w1, o) → Op w w1
  | recvWake (w : World) (g mysg c ep received : Ptr) (t0 : Int) :
      Op w (chanrecv_wake w g mysg c ep received t0).1
  | recvAsynchWake (fuel : Nat) (w : World) (g mysg c ep received : Ptr) (block : Bool)
      (t0 : Int) (w1 : World) (o : Outcome Bool) :
      chanrecv_asynch_wake fuel w g mysg c ep received block t0 = some (w1, o) → Op w w1
  | close (fuel : Nat) (w : World) (c : Ptr) (w1 : World) (o : Outcome Unit) :
      closechan fuel w c = some (w1, o) → Op w w1
  | select (fuel : Nat) (fastrand : Nat → Nat) (w : World) (g done : Ptr) (sel : Select)
      (w1 : World) (o : Outcome Nat) :
      selectgo fuel fastrand w g done sel = some (w1, o) → Op w w1
  | selectWake (fuel : Nat) (w : World) (g done : Ptr) (sel : Select) (t0 : Int) (w1 : World)
      (o : Outcome Nat) : selectgo_wake fuel w g done sel t0 = some (w1, o) → Op w w1

/-- The states reached from `w0` by steps of the operations. -/
inductive Run (w0 : World) : World → Prop where
  | start : Run w0 w0
  | step (w w1 : World) : Run w0 w → Op w w1 → Run w0 w1


instance (h : Hchan) : Decidable (zeroOutside h) :=
  inferInstanceAs (Decidable (∀ i, i < h.dataqsiz →
    (∀ t, t < h.qcount → i ≠ (h.recvx + t) % h.dataqsiz) →
    ∀ j, j < h.elemsize → h.buf (chanbuf h i + j) = 0))

instance (h : Hchan) : Decidable (ringAgree h) :=
  inferInstanceAs (Decidable (0 < h.dataqsiz → ringInv h))

instance (h : Hchan) : Decidable (bufZero h) :=
  inferInstanceAs (Decidable (0 < h.dataqsiz → ringInv h ∧ zeroOutside h))

instance (h : Hchan) : Decidable (noWaiters h) :=
  inferInstanceAs (Decidable (h.closed = true → h.sendq.first = 0 ∧ h.recvq.first = 0))


/-! ## Concrete states for the worked instances -/

/-- A world in which every cell is zero. -/
def emptyWorld : World :=
  { chans := fun _ => zeroHchan, sudogs := fun _ => ⟨0, 0, 0, 0, 0⟩, words := fun _ => 0,
    mem := fun _ => 0, bools := fun _ => false, param := fun _ => 0, trace := [],
    gcwaiting := false, blockprofilerate := 0, ticks := fun _ => 0, nticks := 0 }

/-- A 64 bit target: `MaxMem` is `2 ^ 37` and the header takes 96 bytes. -/
def linux64 : Platform :=
  { wordBits := 64, MaxMem := 2 ^ 37, hchanSize := 96 }

/-- An unbuffered channel at address 1 that has been closed. -/
def closedWorld : World :=
  emptyWorld.setChan 1 { zeroHchan with elemsize := 1, closed := true }

/-- An open unbuffered channel at address 1 with one parked receiver: the
sudog at address 20 of routine 30, receiving into the byte at address 40; the
byte at address 50 is 17. -/
def recvWaitWorld : World :=
  { (emptyWorld.setChan 1 { zeroHchan with elemsize := 1, recvq := ⟨20, 20⟩ }).setSudog 20
      { g := 30, selectdone := 0, link := 0, releasetime := 0, elem := 40 } with
    mem := fun a => if a = 50 then 17 else 0 }

/-- An open unbuffered channel at address 1 with one parked sender: the sudog
at address 20 of routine 30, sending the byte 42 found at address 40. -/
def sendWaitWorld : World :=
  { (emptyWorld.setChan 1 { zeroHchan with elemsize := 1, sendq := ⟨20, 20⟩ }).setSudog 20
      { g := 30, selectdone := 0, link := 0, releasetime := 0, elem := 40 } with
    mem := fun a => if a = 40 then 42 else if a = 50 then 17 else 0 }

/-- A channel of capacity 1 with one byte elements at address 1, open, holding
the byte 42 in its only slot, with no waiters. -/
def fullWorld : World :=
  emptyWorld.setChan 1
    { zeroHchan with dataqsiz := 1, elemsize := 1, qcount := 1,
                     buf := fun a => if a = 0 then 42 else 0 }

/-- A channel of capacity 1 with one byte elements at address 1, open and
empty. -/
def oneSlotWorld : World :=
  { emptyWorld.setChan 1 { zeroHchan with dataqsiz := 1, elemsize := 1 } with
    mem := fun a => if a = 50 then 11 else 0 }

/-- A channel of capacity 2 with one byte elements at address 1, open and
empty, with both ring indices at the last slot. -/
def ringWorld : World :=
  { emptyWorld.setChan 1 { zeroHchan with dataqsiz := 2, elemsize := 1, sendx := 1, recvx := 1 } with
    mem := fun a => if a = 50 then 11 else if a = 51 then 22 else 0 }

/-- A select of five cases with its lock order sorted: a default case, two
cases on the channel at 5, two on the channel at 9. -/
def lockSelect : Select :=
  { base := 100, tcase := 5, ncase := 5, pollorder := fun i => i,
    lockorder := fun i => if i = 0 then 0 else if i ≤ 2 then 5 else if i ≤ 4 then 9 else 0,
    scase := fun i =>
      { sg := 200 + i, elem := 0, releasetime := 0,
        chan := if i = 0 then 9 else if i = 1 then 5 else if i = 2 then 0 else if i = 3 then 9 else 5,
        kind := if i = 2 then CaseDefault else CaseRecv, index := i, receivedp := 0 } }


/-- A select of two cases: a send of the byte at address 50 on the channel at
1, with index 7, and a default case with index 8. -/
def sendSelect : Select :=
  { base := 100, tcase := 2, ncase := 2, pollorder := fun _ => 0, lockorder := fun _ => 0,
    scase := fun i =>
      if i = 0 then
        { sg := 200, elem := 50, releasetime := 0, chan := 1, kind := CaseSend, index := 7,
          receivedp := 0 }
      else
        { sg := 201, elem := 0, releasetime := 0, chan := 0, kind := CaseDefault, index := 8,
          receivedp := 0 } }

/-- A select of two cases: a receive into the byte at address 60 from the
channel at 1, with index 7 and the `received` flag at address 5, and a default
case with index 8. -/
def recvSelect : Select :=
  { base := 100, tcase := 2, ncase := 2, pollorder := fun _ => 0, lockorder := fun _ => 0,
    scase := fun i =>
      if i = 0 then
        { sg := 200, elem := 60, releasetime := 0, chan := 1, kind := CaseRecv, index := 7,
          receivedp := 5 }
      else
        { sg := 201, elem := 0, releasetime := 0, chan := 0, kind := CaseDefault, index := 8,
          receivedp := 0 } }


/-- A select of two cases on the channel at 1: a send with index 3 and a
receive with index 4, and no default case. -/
def bothSelect : Select :=
  { base := 100, tcase := 2, ncase := 2, pollorder := fun _ => 0, lockorder := fun _ => 0,
    scase := fun i =>
      if i = 0 then
        { sg := 901, elem := 50, releasetime := 0, chan := 1, kind := CaseSend, index := 3,
          receivedp := 0 }
      else
        { sg := 902, elem := 60, releasetime := 0, chan := 1, kind := CaseRecv, index := 4,
          receivedp := 0 } }


/-- Three sudogs linked 20, 21, 22: the one at 20 belongs to a select whose
claim word (at 70) is set, the one at 21 to a select whose claim word (at 71)
is clear, the one at 22 to a plain send or receive. -/
def queueSudogs : Ptr → SudoG := fun p =>
  if p = 20 then { g := 30, selectdone := 70, link := 21, releasetime := 0, elem := 0 }
  else if p = 21 then { g := 31, selectdone := 71, link := 22, releasetime := 0, elem := 0 }
  else if p = 22 then { g := 32, selectdone := 0, link := 0, releasetime := 0, elem := 0 }
  else ⟨0, 0, 0, 0, 0⟩

/-- The claim words for `queueSudogs`: the word at 70 is set. -/
def queueWords : Ptr → Nat := fun a => if a = 70 then 1 else 0


/-! ## Frame lemmas for the small statements -/

section Frame

variable (w : World) (e : Event) (c p sg received : Ptr) (h : Hchan) (s : SudoG) (v : Bool) (rt t0 : Int)

@[simp] theorem log_chans : (w.log e).chans = w.chans := rfl
@[simp] theorem log_sudogs : (w.log e).sudogs = w.sudogs := rfl
@[simp] theorem log_words : (w.log e).words = w.words := rfl
@[simp] theorem log_mem : (w.log e).mem = w.mem := rfl
@[simp] theorem log_bools : (w.log e).bools = w.bools := rfl
@[simp] theorem log_param : (w.log e).param = w.param := rfl
@[simp] theorem log_trace : (w.log e).trace = w.trace ++ [e] := rfl
@[simp] theorem log_gcwaiting : (w.log e).gcwaiting = w.gcwaiting := rfl
@[simp] theorem log_blockprofilerate : (w.log e).blockprofilerate = w.blockprofilerate := rfl

@[simp] theorem setChan_chans : (w.setChan c h).chans = Function.update w.chans c h := rfl
@[simp] theorem setChan_sudogs : (w.setChan c h).sudogs = w.sudogs := rfl
@[simp] theorem setChan_words : (w.setChan c h).words = w.words := rfl
@[simp] theorem setChan_mem : (w.setChan c h).mem = w.mem := rfl
@[simp] theorem setChan_bools : (w.setChan c h).bools = w.bools := rfl
@[simp] theorem setChan_param : (w.setChan c h).param = w.param := rfl
@[simp] theorem setChan_trace : (w.setChan c h).trace = w.trace := rfl

@[simp] theorem setSudog_chans : (w.setSudog p s).chans = w.chans := rfl
@[simp] theorem setSudog_sudogs : (w.setSudog p s).sudogs = Function.update w.sudogs p s := rfl
@[simp] theorem setSudog_words : (w.setSudog p s).words = w.words := rfl
@[simp] theorem setSudog_mem : (w.setSudog p s).mem = w.mem := rfl
@[simp] theorem setSudog_bools : (w.setSudog p s).bools = w.bools := rfl
@[simp] theorem setSudog_param : (w.setSudog p s).param = w.param := rfl
@[simp] theorem setSudog_trace : (w.setSudog p s).trace = w.trace := rfl

@[simp] theorem gcYield_chans : (gcYield w).chans = w.chans := by
  unfold gcYield; split <;> rfl
@[simp] theorem gcYield_sudogs : (gcYield w).sudogs = w.sudogs := by
  unfold gcYield; split <;> rfl
@[simp] theorem gcYield_words : (gcYield w).words = w.words := by
  unfold gcYield; split <;> rfl
@[simp] theorem gcYield_mem : (gcYield w).mem = w.mem := by
  unfold gcYield; split <;> rfl
@[simp] theorem gcYield_bools : (gcYield w).bools = w.bools := by
  unfold gcYield; split <;> rfl
@[simp] theorem gcYield_param : (gcYield w).param = w.param := by
  unfold gcYield; split <;> rfl
@[simp] theorem gcYield_blockprofilerate : (gcYield w).blockprofilerate = w.blockprofilerate := by
  unfold gcYield; split <;> rfl

@[simp] theorem profileStart_chans : (profileStart w).1.chans = w.chans := by
  unfold profileStart; split <;> rfl
@[simp] theorem profileStart_sudogs : (profileStart w).1.sudogs = w.sudogs := by
  unfold profileStart; split <;> rfl
@[simp] theorem profileStart_words : (profileStart w).1.words = w.words := by
  unfold profileStart; split <;> rfl
@[simp] theorem profileStart_mem : (profileStart w).1.mem = w.mem := by
  unfold profileStart; split <;> rfl
@[simp] theorem profileStart_bools : (profileStart w).1.bools = w.bools := by
  unfold profileStart; split <;> rfl
@[simp] theorem profileStart_param : (profileStart w).1.param = w.param := by
  unfold profileStart; split <;> rfl

/-- The value `mysg.releasetime` has after the prologue is `0` or `-1`. -/
theorem profileStart_rt_nonpos : (profileStart w).2.2 ≤ 0 := by
  unfold profileStart; split <;> simp

@[simp] theorem blockProfile_chans : (blockProfile w rt t0).chans = w.chans := by
  unfold blockProfile; split <;> rfl
@[simp] theorem blockProfile_sudogs : (blockProfile w rt t0).sudogs = w.sudogs := by
  unfold blockProfile; split <;> rfl
@[simp] theorem blockProfile_words : (blockProfile w rt t0).words = w.words := by
  unfold blockProfile; split <;> rfl
@[simp] theorem blockProfile_mem : (blockProfile w rt t0).mem = w.mem := by
  unfold blockProfile; split <;> rfl
@[simp] theorem blockProfile_bools : (blockProfile w rt t0).bools = w.bools := by
  unfold blockProfile; split <;> rfl
@[simp] theorem blockProfile_param : (blockProfile w rt t0).param = w.param := by
  unfold blockProfile; split <;> rfl

/-- Without a positive release time no block event is recorded. -/
theorem blockProfile_nonpos (hrt : rt ≤ 0) : blockProfile w rt t0 = w := by
  unfold blockProfile; rw [if_neg (by omega)]

@[simp] theorem stampRelease_chans : (stampRelease w sg).chans = w.chans := by
  unfold stampRelease; split <;> rfl
@[simp] theorem stampRelease_words : (stampRelease w sg).words = w.words := by
  unfold stampRelease; split <;> rfl
@[simp] theorem stampRelease_mem : (stampRelease w sg).mem = w.mem := by
  unfold stampRelease; split <;> rfl
@[simp] theorem stampRelease_bools : (stampRelease w sg).bools = w.bools := by
  unfold stampRelease; split <;> rfl
@[simp] theorem stampRelease_param : (stampRelease w sg).param = w.param := by
  unfold stampRelease; split <;> rfl
@[simp] theorem stampRelease_trace : (stampRelease w sg).trace = w.trace := by
  unfold stampRelease; split <;> rfl

@[simp] theorem setReceived_chans : (setReceived w received v).chans = w.chans := by
  unfold setReceived; split <;> rfl
@[simp] theorem setReceived_sudogs : (setReceived w received v).sudogs = w.sudogs := by
  unfold setReceived; split <;> rfl
@[simp] theorem setReceived_words : (setReceived w received v).words = w.words := by
  unfold setReceived; split <;> rfl
@[simp] theorem setReceived_mem : (setReceived w received v).mem = w.mem := by
  unfold setReceived; split <;> rfl
@[simp] theorem setReceived_param : (setReceived w received v).param = w.param := by
  unfold setReceived; split <;> rfl
@[simp] theorem setReceived_trace : (setReceived w received v).trace = w.trace := by
  unfold setReceived; split <;> rfl

/-- A non-nil `received` pointer gets the flag. -/
theorem setReceived_bools (hr : received ≠ 0) : (setReceived w received v).bools received = v := by
  unfold setReceived; rw [if_pos hr]; simp

end Frame

/-! ## Wait queues: `dequeue` on a list -/

theorem sameLinks_refl (s : Ptr → SudoG) : sameLinks s s :=
  fun _ => ⟨rfl, rfl, rfl, rfl⟩

theorem sameLinks_trans {s1 s2 s3 : Ptr → SudoG} (h12 : sameLinks s1 s2) (h23 : sameLinks s2 s3) :
    sameLinks s1 s3 := fun p =>
  ⟨(h12 p).1.trans (h23 p).1, (h12 p).2.1.trans (h23 p).2.1,
    (h12 p).2.2.1.trans (h23 p).2.2.1, (h12 p).2.2.2.trans (h23 p).2.2.2⟩

theorem stampRelease_sameLinks (w : World) (sg : Ptr) :
    sameLinks (stampRelease w sg).sudogs w.sudogs := by
  intro p
  unfold stampRelease
  split
  · by_cases hp : p = sg
    · subst hp; simp [runtime_cputicks]
    · simp [runtime_cputicks, Function.update_noteq hp]
  · exact ⟨rfl, rfl, rfl, rfl⟩

theorem isList_congr {s1 s2 : Ptr → SudoG} (h : sameLinks s1 s2) :
    ∀ (l : List Ptr) (p : Ptr), isList s1 p l → isList s2 p l
  | [], _, hl => hl
  | x :: l, p, hl => ⟨hl.1, hl.2.1, by
      have := isList_congr h l _ hl.2.2
      rwa [(h x).2.2.1] at this⟩

theorem claimed_congr {s1 s2 : Ptr → SudoG} (h : sameLinks s1 s2) (words : Ptr → Nat) (p : Ptr) :
    claimed s1 words p = claimed s2 words p := by
  simp [claimed, (h p).2.1]

theorem claim_congr {s1 s2 : Ptr → SudoG} (h : sameLinks s1 s2) (words : Ptr → Nat) (p : Ptr) :
    claim s1 words p = claim s2 words p := by
  simp [claim, (h p).2.1]

theorem claimScan_congr {s1 s2 : Ptr → SudoG} (h : sameLinks s1 s2) :
    ∀ (l : List Ptr) (words : Ptr → Nat), claimScan s1 words l = claimScan s2 words l
  | [], _ => rfl
  | x :: l, words => by
    simp only [claimScan, claimed_congr h, claim_congr h, claimScan_congr h l]

theorem claimWords_congr {s1 s2 : Ptr → SudoG} (h : sameLinks s1 s2) :
    ∀ (l : List Ptr) (words : Ptr → Nat), claimWords s1 words l = claimWords s2 words l
  | [], _ => rfl
  | x :: l, words => by
    simp only [claimWords, claimed_congr h, claim_congr h, claimWords_congr h l]

theorem claimScan_append (s : Ptr → SudoG) :
    ∀ (l1 l2 : List Ptr) (words : Ptr → Nat),
      claimScan s words (l1 ++ l2) = claimScan s words l1 ++ claimScan s (claimWords s words l1) l2
  | [], _, _ => rfl
  | x :: l1, l2, words => by
    simp only [List.cons_append, claimScan, claimWords]
    split
    · exact claimScan_append s l1 l2 words
    · simp [claimScan_append s l1 l2]

/-- A list is all claimed, or it has a first unclaimed sudog. -/
theorem claimed_split (s : Ptr → SudoG) (words : Ptr → Nat) :
    ∀ l : List Ptr, (∀ p ∈ l, claimed s words p = true) ∨
      ∃ pre x post, l = pre ++ x :: post ∧ (∀ p ∈ pre, claimed s words p = true) ∧
        claimed s words x = false
  | [] => Or.inl (by simp)
  | y :: l => by
    by_cases hy : claimed s words y = true
    · rcases claimed_split s words l with h | ⟨pre, x, post, hl, hpre, hx⟩
      · left
        intro p hp
        rcases List.mem_cons.mp hp with rfl | hp
        · exact hy
        · exact h p hp
      · right
        refine ⟨y :: pre, x, post, by simp [hl], ?_, hx⟩
        intro p hp
        rcases List.mem_cons.mp hp with rfl | hp
        · exact hy
        · exact hpre p hp
    · right
      exact ⟨[], y, l, rfl, by simp, by simpa using hy⟩

theorem claimScan_all_claimed (s : Ptr → SudoG) (words : Ptr → Nat) :
    ∀ l : List Ptr, (∀ p ∈ l, claimed s words p = true) →
      claimScan s words l = [] ∧ claimWords s words l = words
  | [], _ => ⟨rfl, rfl⟩
  | x :: l, h => by
    have hx := h x (List.mem_cons_self _ _)
    have hl := claimScan_all_claimed s words l (fun p hp => h p (List.mem_cons_of_mem _ hp))
    simp [claimScan, claimWords, hx, hl]

theorem claimScan_first_unclaimed (s : Ptr → SudoG) (words : Ptr → Nat) (x : Ptr)
    (post : List Ptr) (hx : claimed s words x = false) :
    ∀ pre : List Ptr, (∀ p ∈ pre, claimed s words p = true) →
      claimScan s words (pre ++ x :: post) = x :: claimScan s (claim s words x) post ∧
      claimWords s words (pre ++ x :: post) = claimWords s (claim s words x) post
  | [], _ => by simp [claimScan, claimWords, hx]
  | y :: pre, h => by
    have hy := h y (List.mem_cons_self _ _)
    have hl := claimScan_first_unclaimed s words x post hx pre
      (fun p hp => h p (List.mem_cons_of_mem _ hp))
    simp [claimScan, claimWords, hy, hl]

theorem isList_append (s : Ptr → SudoG) (x : Ptr) (post : List Ptr) :
    ∀ (pre : List Ptr) (p : Ptr), isList s p (pre ++ x :: post) →
      x ≠ 0 ∧ isList s (s x).link post
  | [], _, h => ⟨h.2.1, h.2.2⟩
  | _ :: pre, _, h => isList_append s x post pre _ h.2.2

/-- On a queue whose sudogs are all claimed `dequeue` returns `nil` and leaves
the queue empty. -/
theorem dequeue_all_claimed (s : Ptr → SudoG) (words : Ptr → Nat) :
    ∀ (l : List Ptr) (fuel : Nat) (q : WaitQ), isList s q.first l →
      (∀ p ∈ l, claimed s words p = true) → l.length < fuel →
      dequeue fuel s words q = some ({ q with first := 0 }, words, 0)
  | [], fuel, q, hl, _, hf => by
    obtain ⟨f, rfl⟩ : ∃ f, fuel = f + 1 := ⟨fuel - 1, by simp at hf; omega⟩
    have h0 : q.first = 0 := hl
    cases q
    simp_all [dequeue]
  | x :: l, fuel, q, hl, hc, hf => by
    obtain ⟨f, rfl⟩ : ∃ f, fuel = f + 1 := ⟨fuel - 1, by simp at hf; omega⟩
    have hx := hc x (List.mem_cons_self _ _)
    simp only [claimed, Bool.and_eq_true, decide_eq_true_eq] at hx
    have hq : q.first = x := hl.1
    have ih := dequeue_all_claimed s words l f { q with first := (s x).link } hl.2.2
      (fun p hp => hc p (List.mem_cons_of_mem _ hp)) (by simp at hf; omega)
    simp only [dequeue, hq, hl.2.1, if_false, hx.1, hx.2, ne_eq, not_false_eq_true, if_true]
    exact ih

/-- On a queue with a first unclaimed sudog `x`, `dequeue` returns `x`, claims
it, and leaves the sudogs behind `x` on the queue. -/
theorem dequeue_first_unclaimed (s : Ptr → SudoG) (words : Ptr → Nat) (x : Ptr)
    (post : List Ptr) (hx : claimed s words x = false) :
    ∀ (pre : List Ptr) (fuel : Nat) (q : WaitQ), isList s q.first (pre ++ x :: post) →
      (∀ p ∈ pre, claimed s words p = true) → pre.length < fuel →
      dequeue fuel s words q = some ({ q with first := (s x).link }, claim s words x, x)
  | [], fuel, q, hl, _, hf => by
    obtain ⟨f, rfl⟩ : ∃ f, fuel = f + 1 := ⟨fuel - 1, by simp at hf; omega⟩
    have hq : q.first = x := hl.1
    have hx0 : x ≠ 0 := hl.2.1
    simp only [claimed, Bool.and_eq_false_imp, decide_eq_true_eq, decide_eq_false_iff_not,
      not_not] at hx
    by_cases hsd : (s x).selectdone = 0
    · simp [dequeue, hq, hx0, hsd, claim]
    · simp [dequeue, hq, hx0, hsd, claim, hx hsd]
  | y :: pre, fuel, q, hl, hc, hf => by
    obtain ⟨f, rfl⟩ : ∃ f, fuel = f + 1 := ⟨fuel - 1, by simp at hf; omega⟩
    have hy := hc y (List.mem_cons_self _ _)
    simp only [claimed, Bool.and_eq_true, decide_eq_true_eq] at hy
    have hq : q.first = y := hl.1
    have ih := dequeue_first_unclaimed s words x post hx pre f { q with first := (s y).link }
      hl.2.2 (fun p hp => hc p (List.mem_cons_of_mem _ hp)) (by simp at hf; omega)
    simp only [dequeue, hq, hl.2.1, if_false, hy.1, hy.2, ne_eq, not_false_eq_true, if_true]
    exact ih

/-- On an empty queue `dequeue` returns `nil` and changes nothing. -/
theorem dequeue_empty (s : Ptr → SudoG) (words : Ptr → Nat) (q : WaitQ) (fuel : Nat)
    (hq : q.first = 0) : dequeue (fuel + 1) s words q = some (q, words, 0) := by
  simp [dequeue, hq]

theorem sameLinks_symm {s1 s2 : Ptr → SudoG} (h : sameLinks s1 s2) : sameLinks s2 s1 :=
  fun p => ⟨(h p).1.symm, (h p).2.1.symm, (h p).2.2.1.symm, (h p).2.2.2.symm⟩

/-! ## What a drain of a queue hands out -/

theorem claimWords_append (s : Ptr → SudoG) :
    ∀ (l1 l2 : List Ptr) (words : Ptr → Nat),
      claimWords s words (l1 ++ l2) = claimWords s (claimWords s words l1) l2
  | [], _, _ => rfl
  | x :: l1, l2, words => by
    simp only [List.cons_append, claimWords]
    split
    · exact claimWords_append s l1 l2 words
    · exact claimWords_append s l1 l2 _

/-- The sudogs handed out come from the queue, in queue order, each one at
most once. -/
theorem claimScan_sublist (s : Ptr → SudoG) :
    ∀ (l : List Ptr) (words : Ptr → Nat), List.Sublist (claimScan s words l) l
  | [], _ => List.Sublist.slnil
  | x :: l, words => by
    simp only [claimScan]
    split
    · exact List.Sublist.cons _ (claimScan_sublist s l words)
    · exact List.Sublist.cons₂ _ (claimScan_sublist s l _)

/-- A claim word that `claim` leaves at zero was zero before. -/
theorem claim_eq_zero (s : Ptr → SudoG) (words : Ptr → Nat) (x a : Ptr)
    (h : claim s words x a = 0) : words a = 0 := by
  unfold claim at h
  split at h
  · by_cases ha : a = (s x).selectdone
    · subst ha; simp at h
    · rwa [Function.update_noteq ha] at h
  · exact h

/-- A sudog that is handed out was unclaimed before the drain started. -/
theorem claimScan_mem_unclaimed (s : Ptr → SudoG) :
    ∀ (l : List Ptr) (words : Ptr → Nat) (r : Ptr), r ∈ claimScan s words l →
      (s r).selectdone = 0 ∨ words (s r).selectdone = 0
  | [], _, _, h => by simp [claimScan] at h
  | x :: l, words, r, h => by
    simp only [claimScan] at h
    split at h
    · exact claimScan_mem_unclaimed s l words r h
    · rename_i hx
      rcases List.mem_cons.mp h with rfl | h
      · simp only [claimed, Bool.and_eq_true, decide_eq_true_eq, not_and, not_not] at hx
        by_cases h0 : (s r).selectdone = 0
        · exact Or.inl h0
        · exact Or.inr (hx h0)
      · rcases claimScan_mem_unclaimed s l _ r h with h0 | h0
        · exact Or.inl h0
        · exact Or.inr (claim_eq_zero s words x _ h0)

/-- No two sudogs that are handed out share a claim word: a select is woken
through one of its sudogs only. -/
theorem claimScan_pairwise (s : Ptr → SudoG) :
    ∀ (l : List Ptr) (words : Ptr → Nat),
      (claimScan s words l).Pairwise
        (fun a b => (s a).selectdone = 0 ∨ (s a).selectdone ≠ (s b).selectdone)
  | [], _ => List.Pairwise.nil
  | x :: l, words => by
    simp only [claimScan]
    split
    · exact claimScan_pairwise s l words
    · refine List.Pairwise.cons ?_ (claimScan_pairwise s l _)
      intro r hr
      by_cases h0 : (s x).selectdone = 0
      · exact Or.inl h0
      · right
        intro he
        rcases claimScan_mem_unclaimed s l _ r hr with h1 | h1
        · exact h0 (he.trans h1)
        · rw [← he] at h1
          simp [claim, h0] at h1

/-- Every sudog of the queue that was unclaimed before the drain is handed
out, or a sudog of the same select, met earlier, is. -/
theorem claimScan_covers (s : Ptr → SudoG) :
    ∀ (l : List Ptr) (words : Ptr → Nat) (sg : Ptr), sg ∈ l → claimed s words sg = false →
      ∃ r ∈ claimScan s words l,
        r = sg ∨ ((s sg).selectdone ≠ 0 ∧ (s r).selectdone = (s sg).selectdone)
  | [], _, _, h, _ => by simp at h
  | x :: l, words, sg, h, hu => by
    by_cases hx : claimed s words x = true
    · have hne : sg ≠ x := by
        rintro rfl
        rw [hx] at hu
        exact absurd hu (by simp)
      have hm : sg ∈ l := by
        rcases List.mem_cons.mp h with h | h
        · exact absurd h hne
        · exact h
      obtain ⟨r, hr, hrs⟩ := claimScan_covers s l words sg hm hu
      exact ⟨r, by simp only [claimScan, hx, if_true]; exact hr, hrs⟩
    · have hscan : claimScan s words (x :: l) = x :: claimScan s (claim s words x) l := by
        simp only [claimScan, hx]
        rfl
      rw [hscan]
      by_cases hsx : sg = x
      · exact ⟨x, List.mem_cons_self _ _, Or.inl hsx.symm⟩
      · have hm : sg ∈ l := by
          rcases List.mem_cons.mp h with h | h
          · exact absurd h hsx
          · exact h
        by_cases hu2 : claimed s (claim s words x) sg = false
        · obtain ⟨r, hr, hrs⟩ := claimScan_covers s l _ sg hm hu2
          exact ⟨r, List.mem_cons_of_mem _ hr, hrs⟩
        · refine ⟨x, List.mem_cons_self _ _, Or.inr ?_⟩
          simp only [claimed, Bool.and_eq_false_imp, decide_eq_true_eq, decide_eq_false_iff_not,
            not_not, not_forall, exists_prop] at hu hu2
          refine ⟨hu2.1, ?_⟩
          by_contra hne
          have hw := hu hu2.1
          apply hu2.2
          unfold claim
          split
          · rw [Function.update_noteq (fun h => hne h.symm)]
            exact hw
          · exact hw

/-- Two families of claim words that agree on the words of the sudogs of `l`
hand out the same sudogs. -/
theorem claimScan_agree (s : Ptr → SudoG) :
    ∀ (l : List Ptr) (w1 w2 : Ptr → Nat),
      (∀ y ∈ l, w1 (s y).selectdone = w2 (s y).selectdone) →
      claimScan s w1 l = claimScan s w2 l
  | [], _, _, _ => rfl
  | x :: l, w1, w2, h => by
    have hx := h x (List.mem_cons_self _ _)
    have hc : claimed s w1 x = claimed s w2 x := by simp [claimed, hx]
    simp only [claimScan, hc]
    split
    · exact claimScan_agree s l w1 w2 (fun y hy => h y (List.mem_cons_of_mem _ hy))
    · congr 1
      apply claimScan_agree s l
      intro y hy
      have hy2 := h y (List.mem_cons_of_mem _ hy)
      unfold claim
      split
      · by_cases he : (s y).selectdone = (s x).selectdone
        · rw [he, Function.update_same, Function.update_same]
        · rw [Function.update_noteq he, Function.update_noteq he]
          exact hy2
      · exact hy2

/-- When no two sudogs of the queue belong to one select, the drain hands out
exactly the sudogs that were unclaimed before it, in queue order. -/
theorem claimScan_eq_filter (s : Ptr → SudoG) :
    ∀ (l : List Ptr) (words : Ptr → Nat),
      l.Pairwise (fun a b => (s a).selectdone = 0 ∨ (s a).selectdone ≠ (s b).selectdone) →
      claimScan s words l = l.filter (fun p => !claimed s words p)
  | [], _, _ => rfl
  | x :: l, words, h => by
    have hx := (List.pairwise_cons.mp h).1
    have ih := claimScan_eq_filter s l words (List.pairwise_cons.mp h).2
    have hag : claimScan s (claim s words x) l = claimScan s words l := by
      apply claimScan_agree
      intro y hy
      unfold claim
      split
      · rename_i h0
        rcases hx y hy with h1 | h1
        · exact absurd h1 h0
        · rw [Function.update_noteq (fun he => h1 he.symm)]
      · rfl
    by_cases hc : claimed s words x = true
    · simp [claimScan, List.filter, hc, ih]
    · simp [claimScan, List.filter, hc, ih, hag]

/-- On an empty receive queue `dequeue(&c->recvq)` returns `nil` and changes
nothing. -/
theorem dequeueRecvq_empty (fuel : Nat) (w : World) (c : Ptr)
    (h : (w.chans c).recvq.first = 0) : dequeueRecvq (fuel + 1) w c = some (w, 0) := by
  simp only [dequeueRecvq, dequeue_empty _ _ _ fuel h]
  have : Function.update w.chans c { w.chans c with recvq := (w.chans c).recvq } = w.chans :=
    Function.update_eq_self c w.chans
  rw [this]

/-- On an empty send queue `dequeue(&c->sendq)` returns `nil` and changes
nothing. -/
theorem dequeueSendq_empty (fuel : Nat) (w : World) (c : Ptr)
    (h : (w.chans c).sendq.first = 0) : dequeueSendq (fuel + 1) w c = some (w, 0) := by
  simp only [dequeueSendq, dequeue_empty _ _ _ fuel h]
  have : Function.update w.chans c { w.chans c with sendq := (w.chans c).sendq } = w.chans :=
    Function.update_eq_self c w.chans
  rw [this]

/-! ## The two loops of `closechan` -/

/-- The loop that releases the readers, on a receive queue that is the list
`l`: it ends, empties the queue, readies the routines of `claimScan` in order
with a nil wake token, and touches nothing but claim words and release
times. -/
theorem closechan_readers_spec (c : Ptr) : ∀ (fuel : Nat) (w : World) (l : List Ptr),
    isList w.sudogs (w.chans c).recvq.first l → l.length + 1 < fuel →
    ∃ w1, closechan_readers fuel w c = some w1 ∧
      w1.chans = Function.update w.chans c
        { w.chans c with recvq := { (w.chans c).recvq with first := 0 } } ∧
      w1.trace = w.trace ++
        (claimScan w.sudogs w.words l).map (fun sg => Event.ready (w.sudogs sg).g) ∧
      w1.words = claimWords w.sudogs w.words l ∧
      sameLinks w1.sudogs w.sudogs ∧ w1.mem = w.mem ∧ w1.bools = w.bools ∧
      (∀ sg ∈ claimScan w.sudogs w.words l, w1.param (w.sudogs sg).g = 0) ∧
      (∀ g, (∀ sg ∈ claimScan w.sudogs w.words l, (w.sudogs sg).g ≠ g) → w1.param g = w.param g)
  | 0, _, _, _, hf => by omega
  | fuel + 1, w, l, hl, hf => by
    rcases claimed_split w.sudogs w.words l with hall | ⟨pre, x, post, rfl, hpre, hx⟩
    · have hd := dequeue_all_claimed w.sudogs w.words l fuel (w.chans c).recvq hl hall (by omega)
      have hs := claimScan_all_claimed w.sudogs w.words l hall
      refine ⟨w.setChan c { w.chans c with recvq := { (w.chans c).recvq with first := 0 } }, ?_, ?_⟩
      · simp only [closechan_readers, dequeueRecvq, hd, if_true]
        rfl
      · simp [hs, sameLinks_refl]
    · have hd := dequeue_first_unclaimed w.sudogs w.words x post hx pre fuel (w.chans c).recvq hl
        hpre (by simp at hf; omega)
      have hs := claimScan_first_unclaimed w.sudogs w.words x post hx pre hpre
      have hxl := isList_append w.sudogs x post pre _ hl
      let w1 : World :=
        { w with
          words := claim w.sudogs w.words x
          chans := Function.update w.chans c
            { w.chans c with recvq := { (w.chans c).recvq with first := (w.sudogs x).link } } }
      let w3 : World :=
        (stampRelease { w1 with param := Function.update w1.param (w.sudogs x).g 0 } x).log
          (.ready (w.sudogs x).g)
      have hsl : sameLinks w3.sudogs w.sudogs :=
        stampRelease_sameLinks { w1 with param := Function.update w1.param (w.sudogs x).g 0 } x
      have hch : w3.chans = Function.update w.chans c
          { w.chans c with recvq := { (w.chans c).recvq with first := (w.sudogs x).link } } := by
        simp [w3, w1]
      have hl3 : isList w3.sudogs (w3.chans c).recvq.first post := by
        rw [hch]
        simp only [Function.update_same]
        exact isList_congr (sameLinks_symm hsl) post _ hxl.2
      obtain ⟨w4, hw4, h1, h2, h3, h4, h5, h6, h7, h8⟩ :=
        closechan_readers_spec c fuel w3 post hl3 (by simp at hf; omega)
      have hwords : w3.words = claim w.sudogs w.words x := by simp [w3, w1]
      have hscan : claimScan w3.sudogs w3.words post
          = claimScan w.sudogs (claim w.sudogs w.words x) post := by
        rw [hwords, claimScan_congr hsl]
      refine ⟨w4, ?_, ?_, ?_, ?_, ?_, ?_, ?_, ?_, ?_⟩
      · simp only [closechan_readers, dequeueRecvq, hd, hxl.1, if_false]
        exact hw4
      · rw [h1, hch]
        simp
      · rw [h2, hs.1, hscan]
        have hg : ∀ sg, (w3.sudogs sg).g = (w.sudogs sg).g := fun sg => (hsl sg).1
        simp only [hg]
        simp [w3, w1]
      · rw [h3, hs.2, hwords, claimWords_congr hsl]
      · exact sameLinks_trans h4 hsl
      · rw [h5]; simp [w3, w1]
      · rw [h6]; simp [w3, w1]
      · intro sg hsg
        rw [hs.1] at hsg
        rcases List.mem_cons.mp hsg with rfl | hsg
        · by_cases hin : ∃ sg2 ∈ claimScan w3.sudogs w3.words post, (w3.sudogs sg2).g = (w.sudogs sg).g
          · obtain ⟨sg2, hm, he⟩ := hin
            rw [← he]
            exact h7 sg2 hm
          · rw [h8 _ (fun sg2 hm he => hin ⟨sg2, hm, he⟩)]
            simp [w3, w1]
        · rw [← (hsl sg).1]
          exact h7 sg (by rw [hscan]; exact hsg)
      · intro g hg
        rw [hs.1] at hg
        rw [h8 g (fun sg hm => by
          rw [(hsl sg).1]
          exact hg sg (List.mem_cons_of_mem _ (by rw [← hscan]; exact hm)))]
        have hne : (w.sudogs x).g ≠ g := hg x (List.mem_cons_self _ _)
        simp [w3, w1, Function.update_noteq (Ne.symm hne)]

/-- The loop that releases the writers, on a send queue that is the list
`l`: it ends, empties the queue, readies the routines of `claimScan` in order
with a nil wake token, and touches nothing but claim words and release
times. -/
theorem closechan_writers_spec (c : Ptr) : ∀ (fuel : Nat) (w : World) (l : List Ptr),
    isList w.sudogs (w.chans c).sendq.first l → l.length + 1 < fuel →
    ∃ w1, closechan_writers fuel w c = some w1 ∧
      w1.chans = Function.update w.chans c
        { w.chans c with sendq := { (w.chans c).sendq with first := 0 } } ∧
      w1.trace = w.trace ++
        (claimScan w.sudogs w.words l).map (fun sg => Event.ready (w.sudogs sg).g) ∧
      w1.words = claimWords w.sudogs w.words l ∧
      sameLinks w1.sudogs w.sudogs ∧ w1.mem = w.mem ∧ w1.bools = w.bools ∧
      (∀ sg ∈ claimScan w.sudogs w.words l, w1.param (w.sudogs sg).g = 0) ∧
      (∀ g, (∀ sg ∈ claimScan w.sudogs w.words l, (w.sudogs sg).g ≠ g) → w1.param g = w.param g)
  | 0, _, _, _, hf => by omega
  | fuel + 1, w, l, hl, hf => by
    rcases claimed_split w.sudogs w.words l with hall | ⟨pre, x, post, rfl, hpre, hx⟩
    · have hd := dequeue_all_claimed w.sudogs w.words l fuel (w.chans c).sendq hl hall (by omega)
      have hs := claimScan_all_claimed w.sudogs w.words l hall
      refine ⟨w.setChan c { w.chans c with sendq := { (w.chans c).sendq with first := 0 } }, ?_, ?_⟩
      · simp only [closechan_writers, dequeueSendq, hd, if_true]
        rfl
      · simp [hs, sameLinks_refl]
    · have hd := dequeue_first_unclaimed w.sudogs w.words x post hx pre fuel (w.chans c).sendq hl
        hpre (by simp at hf; omega)
      have hs := claimScan_first_unclaimed w.sudogs w.words x post hx pre hpre
      have hxl := isList_append w.sudogs x post pre _ hl
      let w1 : World :=
        { w with
          words := claim w.sudogs w.words x
          chans := Function.update w.chans c
            { w.chans c with sendq := { (w.chans c).sendq with first := (w.sudogs x).link } } }
      let w3 : World :=
        (stampRelease { w1 with param := Function.update w1.param (w.sudogs x).g 0 } x).log
          (.ready (w.sudogs x).g)
      have hsl : sameLinks w3.sudogs w.sudogs :=
        stampRelease_sameLinks { w1 with param := Function.update w1.param (w.sudogs x).g 0 } x
      have hch : w3.chans = Function.update w.chans c
          { w.chans c with sendq := { (w.chans c).sendq with first := (w.sudogs x).link } } := by
        simp [w3, w1]
      have hl3 : isList w3.sudogs (w3.chans c).sendq.first post := by
        rw [hch]
        simp only [Function.update_same]
        exact isList_congr (sameLinks_symm hsl) post _ hxl.2
      obtain ⟨w4, hw4, h1, h2, h3, h4, h5, h6, h7, h8⟩ :=
        closechan_writers_spec c fuel w3 post hl3 (by simp at hf; omega)
      have hwords : w3.words = claim w.sudogs w.words x := by simp [w3, w1]
      have hscan : claimScan w3.sudogs w3.words post
          = claimScan w.sudogs (claim w.sudogs w.words x) post := by
        rw [hwords, claimScan_congr hsl]
      refine ⟨w4, ?_, ?_, ?_, ?_, ?_, ?_, ?_, ?_, ?_⟩
      · simp only [closechan_writers, dequeueSendq, hd, hxl.1, if_false]
        exact hw4
      · rw [h1, hch]
        simp
      · rw [h2, hs.1, hscan]
        have hg : ∀ sg, (w3.sudogs sg).g = (w.sudogs sg).g := fun sg => (hsl sg).1
        simp only [hg]
        simp [w3, w1]
      · rw [h3, hs.2, hwords, claimWords_congr hsl]
      · exact sameLinks_trans h4 hsl
      · rw [h5]; simp [w3, w1]
      · rw [h6]; simp [w3, w1]
      · intro sg hsg
        rw [hs.1] at hsg
        rcases List.mem_cons.mp hsg with rfl | hsg
        · by_cases hin : ∃ sg2 ∈ claimScan w3.sudogs w3.words post, (w3.sudogs sg2).g = (w.sudogs sg).g
          · obtain ⟨sg2, hm, he⟩ := hin
            rw [← he]
            exact h7 sg2 hm
          · rw [h8 _ (fun sg2 hm he => hin ⟨sg2, hm, he⟩)]
            simp [w3, w1]
        · rw [← (hsl sg).1]
          exact h7 sg (by rw [hscan]; exact hsg)
      · intro g hg
        rw [hs.1] at hg
        rw [h8 g (fun sg hm => by
          rw [(hsl sg).1]
          exact hg sg (List.mem_cons_of_mem _ (by rw [← hscan]; exact hm)))]
        have hne : (w.sudogs x).g ≠ g := hg x (List.mem_cons_self _ _)
        simp [w3, w1, Function.update_noteq (Ne.symm hne)]

/-- The closed flag is not touched by `dequeue(&c->recvq)`. -/
theorem dequeueRecvq_closed (fuel : Nat) (w w1 : World) (c sg : Ptr)
    (h : dequeueRecvq fuel w c = some (w1, sg)) : (w1.chans c).closed = (w.chans c).closed := by
  unfold dequeueRecvq at h
  split at h
  · exact absurd h (by simp)
  · simp only [Option.some.injEq, Prod.mk.injEq] at h
    rw [← h.1]
    simp

/-- The closed flag is not touched by `dequeue(&c->sendq)`. -/
theorem dequeueSendq_closed (fuel : Nat) (w w1 : World) (c sg : Ptr)
    (h : dequeueSendq fuel w c = some (w1, sg)) : (w1.chans c).closed = (w.chans c).closed := by
  unfold dequeueSendq at h
  split at h
  · exact absurd h (by simp)
  · simp only [Option.some.injEq, Prod.mk.injEq] at h
    rw [← h.1]
    simp

/-- Whenever the loop over the readers ends, the closed flag is as before. -/
theorem closechan_readers_closed (c : Ptr) : ∀ (fuel : Nat) (w w1 : World),
    closechan_readers fuel w c = some w1 → (w1.chans c).closed = (w.chans c).closed
  | 0, _, _, h => by simp [closechan_readers] at h
  | fuel + 1, w, w1, h => by
    unfold closechan_readers at h
    split at h
    · exact absurd h (by simp)
    · rename_i w2 sg hd
      have h2 := dequeueRecvq_closed fuel w w2 c sg hd
      split at h
      · simp only [Option.some.injEq] at h
        rw [← h, h2]
      · have h3 := closechan_readers_closed c fuel _ w1 h
        rw [h3, ← h2]
        simp

/-- Whenever the loop over the writers ends, the closed flag is as before. -/
theorem closechan_writers_closed (c : Ptr) : ∀ (fuel : Nat) (w w1 : World),
    closechan_writers fuel w c = some w1 → (w1.chans c).closed = (w.chans c).closed
  | 0, _, _, h => by simp [closechan_writers] at h
  | fuel + 1, w, w1, h => by
    unfold closechan_writers at h
    split at h
    · exact absurd h (by simp)
    · rename_i w2 sg hd
      have h2 := dequeueSendq_closed fuel w w2 c sg hd
      split at h
      · simp only [Option.some.injEq] at h
        rw [← h, h2]
      · have h3 := closechan_writers_closed c fuel _ w1 h
        rw [h3, ← h2]
        simp

/-! ## `closechan` on an open channel -/

/-- On an open channel whose wait queues are the lists `rl` and `sl`,
`closechan` returns; the channel is closed with both queues empty and nothing
else changed in its header, the routines of the sudogs handed out by draining
`rl ++ sl` are readied in that order between the lock and the unlock, each
with a nil wake token. -/
theorem closechan_open_spec (fuel : Nat) (w : World) (c : Ptr) (rl sl : List Ptr)
    (hc : c ≠ 0) (hopen : (w.chans c).closed = false)
    (hrl : isList w.sudogs (w.chans c).recvq.first rl)
    (hsl : isList w.sudogs (w.chans c).sendq.first sl)
    (hfr : rl.length + 1 < fuel) (hfs : sl.length + 1 < fuel) :
    ∃ w1, closechan fuel w c = some (w1, .returned ()) ∧
      w1.chans = Function.update w.chans c
        { w.chans c with
          closed := true
          recvq := { (w.chans c).recvq with first := 0 }
          sendq := { (w.chans c).sendq with first := 0 } } ∧
      w1.trace = (gcYield w).trace ++ [Event.lock c] ++
        (claimScan w.sudogs w.words (rl ++ sl)).map (fun sg => Event.ready (w.sudogs sg).g) ++
        [Event.unlock c] ∧
      w1.words = claimWords w.sudogs w.words (rl ++ sl) ∧
      sameLinks w1.sudogs w.sudogs ∧ w1.mem = w.mem ∧ w1.bools = w.bools ∧
      (∀ sg ∈ claimScan w.sudogs w.words (rl ++ sl), w1.param (w.sudogs sg).g = 0) ∧
      (∀ g, (∀ sg ∈ claimScan w.sudogs w.words (rl ++ sl), (w.sudogs sg).g ≠ g) →
        w1.param g = w.param g) := by
  let w2 : World := ((gcYield w).log (.lock c)).setChan c { w.chans c with closed := true }
  have hw2c : w2.chans c = { w.chans c with closed := true } := by simp [w2]
  have hrl2 : isList w2.sudogs (w2.chans c).recvq.first rl := by
    rw [hw2c]; simpa [w2] using hrl
  obtain ⟨w3, hw3, a1, a2, a3, a4, a5, a6, a7, a8⟩ := closechan_readers_spec c fuel w2 rl hrl2 hfr
  have hs2 : w2.sudogs = w.sudogs := by simp [w2]
  have hwd2 : w2.words = w.words := by simp [w2]
  have hp2 : w2.param = w.param := by simp [w2]
  rw [hs2] at a4
  rw [hs2, hwd2] at a2 a3 a7 a8
  have hw3c : w3.chans c = { w.chans c with
      closed := true, recvq := { (w.chans c).recvq with first := 0 } } := by
    rw [a1, hw2c]; simp
  have hsl3 : isList w3.sudogs (w3.chans c).sendq.first sl := by
    rw [hw3c]
    exact isList_congr (sameLinks_symm a4) sl _ hsl
  obtain ⟨w4, hw4, b1, b2, b3, b4, b5, b6, b7, b8⟩ := closechan_writers_spec c fuel w3 sl hsl3 hfs
  have hg : ∀ sg, (w3.sudogs sg).g = (w.sudogs sg).g := fun sg => (a4 sg).1
  have hscan : claimScan w3.sudogs w3.words sl
      = claimScan w.sudogs (claimWords w.sudogs w.words rl) sl := by
    rw [a3, claimScan_congr a4]
  rw [hscan] at b2 b7 b8
  simp only [hg] at b2 b7 b8
  refine ⟨w4.log (.unlock c), ?_, ?_, ?_, ?_, ?_, ?_, ?_, ?_, ?_⟩
  · have hcl : (((gcYield w).log (.lock c)).chans c).closed = false := by simpa using hopen
    simp only [closechan, hc, if_false, hcl, Bool.false_eq_true]
    have : (((gcYield w).log (Event.lock c)).setChan c
        { ((gcYield w).log (Event.lock c)).chans c with closed := true }) = w2 := by
      simp [w2]
    rw [this]
    simp only [hw3, hw4]
  · rw [log_chans, b1, hw3c, a1, hw2c]
    simp [w2]
  · rw [log_trace, b2, a2, claimScan_append]
    simp [w2]
  · rw [log_words, b3, a3, claimWords_append, claimWords_congr a4]
  · exact sameLinks_trans b4 a4
  · rw [log_mem, b5, a5]; simp [w2]
  · rw [log_bools, b6, a6]; simp [w2]
  · intro sg hsg
    rw [log_param]
    rw [claimScan_append] at hsg
    rcases List.mem_append.mp hsg with h | h
    · by_cases hin : ∃ sg2 ∈ claimScan w.sudogs (claimWords w.sudogs w.words rl) sl,
          (w.sudogs sg2).g = (w.sudogs sg).g
      · obtain ⟨sg2, hm, he⟩ := hin
        rw [← he]
        exact b7 sg2 hm
      · rw [b8 _ (fun sg2 hm he => hin ⟨sg2, hm, he⟩)]
        exact a7 sg h
    · exact b7 sg h
  · intro g hg2
    rw [log_param]
    rw [claimScan_append] at hg2
    rw [b8 g (fun sg hm => hg2 sg (List.mem_append_right _ hm)),
      a8 g (fun sg hm => hg2 sg (List.mem_append_left _ hm)), hp2]

/-! ## C2: send on a closed channel -/

/-- C2: on a non-nil channel whose closed flag is set, whatever its capacity,
buffer occupancy and `block` flag, `chansend` does not return: it ends in the
panic "send on closed channel", and the channel headers (so `qcount`, `sendx`,
`recvx`, the buffer and both wait queues of the channel), the sudogs, the
claim words, the element memory and the wake tokens are as before. -/
theorem C2_send_on_closed_panics (fuel : Nat) (w : World) (g mysg c ep : Ptr) (block : Bool)
    (hc : c ≠ 0) (hclosed : (w.chans c).closed = true) :
    ∃ w1, chansend fuel w g mysg c ep block = some (w1, .panicked "send on closed channel") ∧
      w1.chans = w.chans ∧ w1.sudogs = w.sudogs ∧ w1.words = w.words ∧
      w1.mem = w.mem ∧ w1.bools = w.bools ∧ w1.param = w.param := by
  refine ⟨((profileStart (gcYield w)).1.log (.lock c)).log (.unlock c), ?_, ?_⟩
  · simp [chansend, hc, hclosed, chansend_closed]
  · simp

/-- Worked instance of C2: a blocking send on the closed channel at address 1. -/
theorem C2_send_on_closed_panics_witness :
    ((1 : Ptr) ≠ 0 ∧ (closedWorld.chans 1).closed = true) ∧
    ∃ w1, chansend 0 closedWorld 7 8 1 9 true = some (w1, .panicked "send on closed channel") ∧
      w1.chans = closedWorld.chans ∧ w1.sudogs = closedWorld.sudogs ∧
      w1.words = closedWorld.words ∧ w1.mem = closedWorld.mem ∧
      w1.bools = closedWorld.bools ∧ w1.param = closedWorld.param :=
  ⟨⟨by decide, rfl⟩, C2_send_on_closed_panics 0 closedWorld 7 8 1 9 true (by decide) rfl⟩

/-! ## C3: receive on a closed and empty channel -/

/-- What the label `closed:` of `chanrecv` does: it returns `true`, stores `false` through a non-nil `received`,
clears the `elemsize` bytes at a non-nil `ep` and nothing else. -/
theorem chanrecv_closed_spec (w : World) (c ep received : Ptr) (t0 rt : Int) :
    (chanrecv_closed w c ep received t0 rt).2 = .returned true ∧
    (received ≠ 0 → (chanrecv_closed w c ep received t0 rt).1.bools received = false) ∧
    (ep ≠ 0 → readBytes (chanrecv_closed w c ep received t0 rt).1.mem ep (w.chans c).elemsize
      = List.replicate (w.chans c).elemsize 0) ∧
    (∀ a, ¬ (ep ≠ 0 ∧ ep ≤ a ∧ a < ep + (w.chans c).elemsize) →
      (chanrecv_closed w c ep received t0 rt).1.mem a = w.mem a) ∧
    (chanrecv_closed w c ep received t0 rt).1.chans = w.chans ∧
    (chanrecv_closed w c ep received t0 rt).1.sudogs = w.sudogs ∧
    (chanrecv_closed w c ep received t0 rt).1.words = w.words ∧
    (chanrecv_closed w c ep received t0 rt).1.param = w.param := by
  refine ⟨rfl, ?_, ?_, ?_, ?_, ?_, ?_, ?_⟩
  · intro hr
    simp only [chanrecv_closed, blockProfile_bools, log_bools]
    exact setReceived_bools _ _ _ hr
  · intro he
    simp only [chanrecv_closed, blockProfile_mem, log_mem, setReceived_mem, if_pos he]
    apply List.ext_getElem
    · simp [readBytes]
    · intro i h1 h2
      simp [readBytes] at h1
      simp [readBytes, memclr, h1]
  · intro a ha
    simp only [chanrecv_closed, blockProfile_mem, log_mem, setReceived_mem]
    by_cases he : ep = 0
    · simp [he]
    · simp only [ne_eq, he, not_false_eq_true, if_true]
      have : ¬ (ep ≤ a ∧ a < ep + (w.chans c).elemsize) := fun h => ha ⟨he, h⟩
      simp [memclr, this]
  · simp only [chanrecv_closed, blockProfile_chans, log_chans, setReceived_chans]
    split <;> rfl
  · simp only [chanrecv_closed, blockProfile_sudogs, log_sudogs, setReceived_sudogs]
    split <;> rfl
  · simp only [chanrecv_closed, blockProfile_words, log_words, setReceived_words]
    split <;> rfl
  · simp only [chanrecv_closed, blockProfile_param, log_param, setReceived_param]
    split <;> rfl

/-- On a closed channel with `qcount = 0` the receive goes to the label
`closed:` right after taking the lock. -/
theorem chanrecv_closed_empty_eq (fuel : Nat) (w : World) (g mysg c ep received : Ptr)
    (block : Bool) (hc : c ≠ 0) (hclosed : (w.chans c).closed = true)
    (hq : (w.chans c).qcount = 0) :
    chanrecv fuel w g mysg c ep received block =
      some (chanrecv_closed ((profileStart (gcYield w)).1.log (.lock c)) c ep received
        (profileStart (gcYield w)).2.1 (profileStart (gcYield w)).2.2) := by
  simp [chanrecv, chanrecv_asynch, hc, hclosed, hq]

/-- On a closed channel with `qcount = 0` a receive returns `true`, stores
`false` and zero bytes, and changes nothing else. -/
theorem chanrecv_closed_empty (fuel : Nat) (w : World) (g mysg c ep received : Ptr)
    (block : Bool) (hc : c ≠ 0) (hclosed : (w.chans c).closed = true)
    (hq : (w.chans c).qcount = 0) :
    ∃ w1, chanrecv fuel w g mysg c ep received block = some (w1, .returned true) ∧
      (received ≠ 0 → w1.bools received = false) ∧
      (ep ≠ 0 → readBytes w1.mem ep (w.chans c).elemsize
        = List.replicate (w.chans c).elemsize 0) ∧
      (∀ a, ¬ (ep ≠ 0 ∧ ep ≤ a ∧ a < ep + (w.chans c).elemsize) → w1.mem a = w.mem a) ∧
      w1.chans = w.chans ∧ w1.sudogs = w.sudogs ∧ w1.words = w.words ∧
      w1.param = w.param := by
  have h := chanrecv_closed_spec ((profileStart (gcYield w)).1.log (.lock c)) c ep received
    (profileStart (gcYield w)).2.1 (profileStart (gcYield w)).2.2
  simp only [log_chans, profileStart_chans, gcYield_chans, log_mem, profileStart_mem, gcYield_mem,
    log_sudogs, profileStart_sudogs, gcYield_sudogs, log_words, profileStart_words, gcYield_words,
    log_param, profileStart_param, gcYield_param] at h
  refine ⟨_, ?_, h.2⟩
  rw [chanrecv_closed_empty_eq fuel w g mysg c ep received block hc hclosed hq, ← h.1]

/-- C3: on a closed channel with `qcount = 0`, buffered or not, `chanrecv`
with either `block` flag returns `true` (selected) without parking, stores
`false` through a non-nil `received`, fills the `elemsize` bytes at a non-nil
`ep` with zeros, writes no other element byte, and leaves every channel
header, sudog, claim word and wake token as it was. -/
theorem C3_recv_closed_empty (fuel : Nat) (w : World) (g mysg c ep received : Ptr)
    (block : Bool) (hc : c ≠ 0) (hclosed : (w.chans c).closed = true)
    (hq : (w.chans c).qcount = 0) :
    ∃ w1, chanrecv fuel w g mysg c ep received block = some (w1, .returned true) ∧
      (received ≠ 0 → w1.bools received = false) ∧
      (ep ≠ 0 → readBytes w1.mem ep (w.chans c).elemsize
        = List.replicate (w.chans c).elemsize 0) ∧
      (∀ a, ¬ (ep ≠ 0 ∧ ep ≤ a ∧ a < ep + (w.chans c).elemsize) → w1.mem a = w.mem a) ∧
      w1.chans = w.chans ∧ w1.sudogs = w.sudogs ∧ w1.words = w.words ∧
      w1.param = w.param := by
  have h := chanrecv_closed_spec ((profileStart (gcYield w)).1.log (.lock c)) c ep received
    (profileStart (gcYield w)).2.1 (profileStart (gcYield w)).2.2
  simp only [log_chans, profileStart_chans, gcYield_chans, log_mem, profileStart_mem, gcYield_mem,
    log_sudogs, profileStart_sudogs, gcYield_sudogs, log_words, profileStart_words, gcYield_words,
    log_param, profileStart_param, gcYield_param] at h
  refine ⟨_, ?_, h.2⟩
  rw [chanrecv_closed_empty_eq fuel w g mysg c ep received block hc hclosed hq, ← h.1]

/-- Worked instance of C3: a non-blocking receive on the closed channel at
address 1 into the byte at address 9, with the flag at address 5. -/
theorem C3_recv_closed_empty_witness :
    ((1 : Ptr) ≠ 0 ∧ (closedWorld.chans 1).closed = true ∧ (closedWorld.chans 1).qcount = 0) ∧
    ∃ w1, chanrecv 0 closedWorld 7 8 1 9 5 false = some (w1, .returned true) ∧
      ((5 : Ptr) ≠ 0 → w1.bools 5 = false) ∧
      ((9 : Ptr) ≠ 0 → readBytes w1.mem 9 (closedWorld.chans 1).elemsize
        = List.replicate (closedWorld.chans 1).elemsize 0) ∧
      (∀ a, ¬ ((9 : Ptr) ≠ 0 ∧ 9 ≤ a ∧ a < 9 + (closedWorld.chans 1).elemsize) →
        w1.mem a = closedWorld.mem a) ∧
      w1.chans = closedWorld.chans ∧ w1.sudogs = closedWorld.sudogs ∧
      w1.words = closedWorld.words ∧ w1.param = closedWorld.param :=
  ⟨⟨by decide, rfl, rfl⟩, C3_recv_closed_empty 0 closedWorld 7 8 1 9 5 false (by decide) rfl rfl⟩

/-! ## C6: the panics of close -/

/-- C6: `closechan` on the nil channel panics with "close of nil channel"; on a
non-nil channel whose closed flag is set it panics with "close of closed
channel" and leaves headers, sudogs, claim words, element memory and wake
tokens as they were; on an open channel whose wait queues are nil-terminated
lists it returns, with the closed flag set; and whenever a close has returned,
the channel was open before and every later close of it panics with "close of
closed channel": close is not idempotent. -/
theorem C6_close_panics (fuel : Nat) (w : World) (c : Ptr) (hc : c ≠ 0) :
    closechan fuel w 0 = some (w, .panicked "close of nil channel") ∧
    ((w.chans c).closed = true →
      ∃ w1, closechan fuel w c = some (w1, .panicked "close of closed channel") ∧
        w1.chans = w.chans ∧ w1.sudogs = w.sudogs ∧ w1.words = w.words ∧
        w1.mem = w.mem ∧ w1.bools = w.bools ∧ w1.param = w.param) ∧
    ((w.chans c).closed = false →
      ∀ rl sl, isList w.sudogs (w.chans c).recvq.first rl →
        isList w.sudogs (w.chans c).sendq.first sl →
        rl.length + 1 < fuel → sl.length + 1 < fuel →
        ∃ w1, closechan fuel w c = some (w1, .returned ()) ∧ (w1.chans c).closed = true) ∧
    (∀ w1, closechan fuel w c = some (w1, .returned ()) →
      (w.chans c).closed = false ∧ (w1.chans c).closed = true ∧
      ∀ fuel2, ∃ w2, closechan fuel2 w1 c = some (w2, .panicked "close of closed channel") ∧
        w2.chans = w1.chans) := by
  have hclosedCase : ∀ (f : Nat) (v : World), (v.chans c).closed = true →
      closechan f v c
        = some (((gcYield v).log (.lock c)).log (.unlock c), .panicked "close of closed channel") := by
    intro f v hv
    simp [closechan, hc, hv]
  refine ⟨by simp [closechan], ?_, ?_, ?_⟩
  · intro hcl
    exact ⟨_, hclosedCase fuel w hcl, by simp⟩
  · intro hopen rl sl hrl hsl hfr hfs
    obtain ⟨w1, h1, h2, _⟩ := closechan_open_spec fuel w c rl sl hc hopen hrl hsl hfr hfs
    exact ⟨w1, h1, by rw [h2]; simp⟩
  · intro w1 h1
    have hopen : (w.chans c).closed = false := by
      by_contra hne
      have hcl : (w.chans c).closed = true := by simpa using hne
      rw [hclosedCase fuel w hcl] at h1
      simp at h1
    have hcl1 : (w1.chans c).closed = true := by
      have hcl0 : (((gcYield w).log (.lock c)).chans c).closed = false := by simpa using hopen
      simp only [closechan, hc, if_false, hcl0, Bool.false_eq_true] at h1
      split at h1
      · exact absurd h1 (by simp)
      · rename_i w3 h3
        split at h1
        · exact absurd h1 (by simp)
        · rename_i w4 h4
          simp only [Option.some.injEq, Prod.mk.injEq, and_true] at h1
          rw [← h1, log_chans, closechan_writers_closed c fuel w3 w4 h4,
            closechan_readers_closed c fuel _ w3 h3]
          simp
    exact ⟨hopen, hcl1, fun fuel2 => ⟨_, hclosedCase fuel2 w1 hcl1, by simp⟩⟩

/-- Worked instance of C6: closing the channel at address 1 with one parked
receiver returns, and closing it again panics. -/
theorem C6_close_panics_witness :
    (1 : Ptr) ≠ 0 ∧
    ∃ w1, closechan 3 recvWaitWorld 1 = some (w1, .returned ()) ∧
      ∃ w2, closechan 3 w1 1 = some (w2, .panicked "close of closed channel") ∧
        w2.chans = w1.chans := by
  refine ⟨by decide, ?_⟩
  have h := C6_close_panics 3 recvWaitWorld 1 (by decide)
  obtain ⟨w1, h1, _⟩ := h.2.2.1 rfl [20] [] ⟨rfl, by decide, rfl⟩ rfl (by decide) (by decide)
  exact ⟨w1, h1, (h.2.2.2 w1 h1).2.2 3⟩

/-! ## C7: close drains both wait queues -/

/-- C7: on an open channel whose receive and send queues are the lists `rl`
and `sl`, `closechan` returns with the closed flag set.  Between its lock and
its unlock it readies, in this order, the routines of the sudogs `rr` handed
out by draining `rl` and then those of the sudogs `rs` handed out by draining
`sl`; `rr` and `rs` keep the queue order, every readied routine has a nil wake
token, every sudog that was unclaimed is handed out itself or through an
earlier sudog of the same select, no select is woken twice, and when no two
queued sudogs share a select exactly the unclaimed sudogs are handed out.
Afterwards both queues are empty, a further `dequeue` on either returns nil,
and `qcount`, `sendx`, `recvx`, the buffer, `dataqsiz`, `elemsize` and the
element memory are unchanged. -/
theorem C7_close_drains (fuel : Nat) (w : World) (c : Ptr) (rl sl : List Ptr)
    (hc : c ≠ 0) (hopen : (w.chans c).closed = false)
    (hrl : isList w.sudogs (w.chans c).recvq.first rl)
    (hsl : isList w.sudogs (w.chans c).sendq.first sl)
    (hfr : rl.length + 1 < fuel) (hfs : sl.length + 1 < fuel) :
    ∃ w1 rr rs, closechan fuel w c = some (w1, .returned ()) ∧
      (w1.chans c).closed = true ∧
      rr ++ rs = claimScan w.sudogs w.words (rl ++ sl) ∧
      List.Sublist rr rl ∧ List.Sublist rs sl ∧
      w1.trace = (gcYield w).trace ++ [Event.lock c] ++
        rr.map (fun sg => Event.ready (w.sudogs sg).g) ++
        rs.map (fun sg => Event.ready (w.sudogs sg).g) ++ [Event.unlock c] ∧
      (∀ sg ∈ rr ++ rs, w1.param (w.sudogs sg).g = 0) ∧
      (∀ sg ∈ rl ++ sl, claimed w.sudogs w.words sg = false →
        ∃ r ∈ rr ++ rs, r = sg ∨
          ((w.sudogs sg).selectdone ≠ 0 ∧ (w.sudogs r).selectdone = (w.sudogs sg).selectdone)) ∧
      (rr ++ rs).Pairwise (fun a b =>
        (w.sudogs a).selectdone = 0 ∨ (w.sudogs a).selectdone ≠ (w.sudogs b).selectdone) ∧
      ((rl ++ sl).Pairwise (fun a b =>
          (w.sudogs a).selectdone = 0 ∨ (w.sudogs a).selectdone ≠ (w.sudogs b).selectdone) →
        rr ++ rs = (rl ++ sl).filter (fun p => !claimed w.sudogs w.words p)) ∧
      (w1.chans c).recvq.first = 0 ∧ (w1.chans c).sendq.first = 0 ∧
      (∀ n, dequeue (n + 1) w1.sudogs w1.words (w1.chans c).recvq
        = some ((w1.chans c).recvq, w1.words, 0)) ∧
      (∀ n, dequeue (n + 1) w1.sudogs w1.words (w1.chans c).sendq
        = some ((w1.chans c).sendq, w1.words, 0)) ∧
      (w1.chans c).qcount = (w.chans c).qcount ∧ (w1.chans c).sendx = (w.chans c).sendx ∧
      (w1.chans c).recvx = (w.chans c).recvx ∧ (w1.chans c).buf = (w.chans c).buf ∧
      (w1.chans c).dataqsiz = (w.chans c).dataqsiz ∧
      (w1.chans c).elemsize = (w.chans c).elemsize ∧ w1.mem = w.mem := by
  obtain ⟨w1, h1, h2, h3, _, _, h6, _, h8, _⟩ :=
    closechan_open_spec fuel w c rl sl hc hopen hrl hsl hfr hfs
  have hr0 : (w1.chans c).recvq.first = 0 := by rw [h2]; simp
  have hs0 : (w1.chans c).sendq.first = 0 := by rw [h2]; simp
  refine ⟨w1, claimScan w.sudogs w.words rl,
    claimScan w.sudogs (claimWords w.sudogs w.words rl) sl, h1, by rw [h2]; simp,
    (claimScan_append _ _ _ _).symm, claimScan_sublist _ _ _, claimScan_sublist _ _ _, ?_, ?_, ?_,
    ?_, ?_, hr0, hs0, fun n => dequeue_empty _ _ _ n hr0, fun n => dequeue_empty _ _ _ n hs0,
    by rw [h2]; simp, by rw [h2]; simp, by rw [h2]; simp, by rw [h2]; simp, by rw [h2]; simp,
    by rw [h2]; simp, h6⟩
  · rw [h3, claimScan_append]
    simp
  · rw [← claimScan_append]
    exact h8
  · rw [← claimScan_append]
    exact fun sg hsg hu => claimScan_covers _ _ _ sg hsg hu
  · rw [← claimScan_append]
    exact claimScan_pairwise _ _ _
  · rw [← claimScan_append]
    exact claimScan_eq_filter _ _ _

/-- Worked instance of C7: closing the channel at address 1 readies the parked
routine 30 between the lock and the unlock. -/
theorem C7_close_drains_witness :
    ((1 : Ptr) ≠ 0 ∧ (recvWaitWorld.chans 1).closed = false ∧
      isList recvWaitWorld.sudogs (recvWaitWorld.chans 1).recvq.first [20] ∧
      isList recvWaitWorld.sudogs (recvWaitWorld.chans 1).sendq.first []) ∧
    ∃ w1, closechan 3 recvWaitWorld 1 = some (w1, .returned ()) ∧
      (w1.chans 1).closed = true ∧
      w1.trace = [Event.lock 1, Event.ready 30, Event.unlock 1] ∧
      w1.param 30 = 0 ∧
      (w1.chans 1).recvq.first = 0 ∧ (w1.chans 1).sendq.first = 0 := by
  refine ⟨⟨by decide, rfl, ⟨rfl, by decide, rfl⟩, rfl⟩, ?_⟩
  obtain ⟨w1, rr, rs, h1, h2, h3, _, _, h6, h7, _, _, _, h11, h12, _⟩ :=
    C7_close_drains 3 recvWaitWorld 1 [20] [] (by decide) rfl ⟨rfl, by decide, rfl⟩ rfl
      (by decide) (by decide)
  have hscan : claimScan recvWaitWorld.sudogs recvWaitWorld.words ([20] ++ []) = [20] := by
    decide
  rw [hscan] at h3
  refine ⟨w1, h1, h2, ?_, ?_, h11, h12⟩
  · have ht : w1.trace = (gcYield recvWaitWorld).trace ++ [Event.lock 1] ++
        (rr ++ rs).map (fun sg => Event.ready (recvWaitWorld.sudogs sg).g) ++ [Event.unlock 1] := by
      rw [h6]; simp
    rw [ht, h3]
    rfl
  · exact h7 20 (by rw [h3]; simp)

/-! ## C8: the guards of `makechan` -/

/-- The conversion to `intgo` keeps exactly the integers of the signed range. -/
theorem toIntgo_eq_iff (pf : Platform) (hW : 1 ≤ pf.wordBits) (x : Int) :
    toIntgo pf x = x ↔ -(2 : Int) ^ (pf.wordBits - 1) ≤ x ∧ x < 2 ^ (pf.wordBits - 1) := by
  obtain ⟨k, hk⟩ : ∃ k, pf.wordBits = k + 1 := ⟨pf.wordBits - 1, by omega⟩
  have hH : (0 : Int) < 2 ^ k := by positivity
  have hP : (2 : Int) ^ (k + 1) = 2 * 2 ^ k := by ring
  have hmod0 := Int.emod_nonneg x (show (2 : Int) ^ (k + 1) ≠ 0 by positivity)
  have hmod1 := Int.emod_lt_of_pos x (show (0 : Int) < 2 ^ (k + 1) by positivity)
  simp only [toIntgo, hk, Nat.add_sub_cancel]
  constructor
  · intro h
    split at h <;> constructor <;> omega
  · rintro ⟨h1, h2⟩
    by_cases hx : 0 ≤ x
    · have : x % 2 ^ (k + 1) = x := Int.emod_eq_of_lt hx (by omega)
      rw [this, if_pos h2]
    · have : x % 2 ^ (k + 1) = x + 2 ^ (k + 1) := by
        rw [← Int.add_emod_self]
        exact Int.emod_eq_of_lt (by omega) (by omega)
      rw [this, if_neg (by omega)]
      ring

/-- The conversion to `uintptr` keeps the integers from `0` to `2 ^ wordBits - 1`. -/
theorem toUintptr_eq (pf : Platform) (x : Int) (h0 : 0 ≤ x) (h1 : x < 2 ^ pf.wordBits) :
    (toUintptr pf x : Int) = x := by
  unfold toUintptr
  rw [Int.emod_eq_of_lt h0 h1]
  exact Int.toNat_of_nonneg h0

/-- The floor-division guard is the product guard, on natural numbers. -/
theorem div_guard_iff (n m e : Nat) (he : 0 < e) : n > m / e ↔ n * e > m := by
  constructor
  · intro h
    exact (Nat.div_lt_iff_lt_mul he).mp h
  · intro h
    exact (Nat.div_lt_iff_lt_mul he).mpr h

/-- The guard of `makechan` on a hint inside the `intgo` range. -/
theorem makechan_guard_iff (pf : Platform) (esize : Nat) (hint : Int)
    (hW : 1 ≤ pf.wordBits) (hhdr : pf.hchanSize ≤ pf.MaxMem) (hmax : pf.MaxMem < 2 ^ pf.wordBits)
    (he : 0 < esize) (h0 : 0 ≤ hint) (hfit : hint < 2 ^ (pf.wordBits - 1)) :
    toUintptr pf hint > toUintptr pf (pf.MaxMem - pf.hchanSize) / esize ↔
      hint * esize > (pf.MaxMem : Int) - pf.hchanSize := by
  obtain ⟨k, hk⟩ : ∃ k, pf.wordBits = k + 1 := ⟨pf.wordBits - 1, by omega⟩
  have hP : (2 : Int) ^ pf.wordBits = 2 * 2 ^ (pf.wordBits - 1) := by
    rw [hk, Nat.add_sub_cancel]; ring
  have hpos : (0 : Int) < 2 ^ (pf.wordBits - 1) := by positivity
  have hmaxI : (pf.MaxMem : Int) < 2 ^ pf.wordBits := by exact_mod_cast hmax
  have hhdrI : (pf.hchanSize : Int) ≤ pf.MaxMem := by exact_mod_cast hhdr
  have e1 := toUintptr_eq pf hint h0 (by omega)
  have e2 := toUintptr_eq pf ((pf.MaxMem : Int) - pf.hchanSize) (by omega) (by omega)
  have e3 : toUintptr pf ((pf.MaxMem : Int) - pf.hchanSize) = pf.MaxMem - pf.hchanSize := by
    have : ((pf.MaxMem - pf.hchanSize : Nat) : Int) = (pf.MaxMem : Int) - pf.hchanSize := by
      omega
    omega
  rw [e3, div_guard_iff _ _ _ he]
  have e4 : ((toUintptr pf hint * esize : Nat) : Int) = hint * esize := by
    push_cast; rw [e1]
  constructor
  · intro h
    have : ((pf.MaxMem - pf.hchanSize : Nat) : Int) < ((toUintptr pf hint * esize : Nat) : Int) := by
      exact_mod_cast h
    rw [e4] at this
    omega
  · intro h
    have : ((pf.MaxMem - pf.hchanSize : Nat) : Int) < ((toUintptr pf hint * esize : Nat) : Int) := by
      rw [e4]; omega
    exact_mod_cast this

/-- C8: on a target with `sizeof(Hchan) ≤ MaxMem < 2 ^ wordBits`, `makechan`
throws "makechan: invalid channel element type" exactly when the element size
is at least `2 ^ 16`; otherwise it panics with "makechan: size out of range"
exactly when the hint is negative, or does not fit `intgo`, or the element
size is positive and `hint * esize > MaxMem - sizeof(Hchan)`; the
floor-division test of the code is that product test; and when `makechan`
returns, `sizeof(Hchan) + hint * esize` is at most `MaxMem` and is the size
passed to the allocator, not wrapped. -/
theorem C8_makechan_guards (pf : Platform) (w : World) (elemtype : Ptr) (esize : Nat) (hint : Int)
    (newc : Ptr) (hW : 1 ≤ pf.wordBits) (hhdr : pf.hchanSize ≤ pf.MaxMem)
    (hmax : pf.MaxMem < 2 ^ pf.wordBits) :
    ((makechan pf w elemtype esize hint newc).2
        = .thrown "makechan: invalid channel element type" ↔ esize ≥ 2 ^ 16) ∧
    (esize < 2 ^ 16 →
      ((makechan pf w elemtype esize hint newc).2 = .panicked "makechan: size out of range" ↔
        hint < 0 ∨ ¬ (-(2 : Int) ^ (pf.wordBits - 1) ≤ hint ∧ hint < 2 ^ (pf.wordBits - 1)) ∨
          (esize > 0 ∧ hint * esize > (pf.MaxMem : Int) - pf.hchanSize))) ∧
    (esize > 0 → 0 ≤ hint → hint < 2 ^ (pf.wordBits - 1) →
      (toUintptr pf hint > toUintptr pf (pf.MaxMem - pf.hchanSize) / esize ↔
        hint * esize > (pf.MaxMem : Int) - pf.hchanSize)) ∧
    (∀ c, (makechan pf w elemtype esize hint newc).2 = .returned c →
      0 ≤ hint ∧ (pf.hchanSize : Int) + hint * esize ≤ pf.MaxMem ∧
      (pf.hchanSize : Int) + hint * esize < 2 ^ pf.wordBits ∧
      (toUintptr pf (pf.hchanSize + hint * esize) : Int) = pf.hchanSize + hint * esize ∧
      (makechan pf w elemtype esize hint newc).1.trace
        = w.trace ++ [Event.mallocgc (toUintptr pf (pf.hchanSize + hint * esize))]) := by
  have hmaxI : (pf.MaxMem : Int) < 2 ^ pf.wordBits := by exact_mod_cast hmax
  have hhdrI : (pf.hchanSize : Int) ≤ pf.MaxMem := by exact_mod_cast hhdr
  have hguard : esize < 2 ^ 16 →
      ((hint < 0 ∨ toIntgo pf hint ≠ hint ∨
        (esize > 0 ∧ toUintptr pf hint > toUintptr pf (pf.MaxMem - pf.hchanSize) / esize)) ↔
      (hint < 0 ∨ ¬ (-(2 : Int) ^ (pf.wordBits - 1) ≤ hint ∧ hint < 2 ^ (pf.wordBits - 1)) ∨
        (esize > 0 ∧ hint * esize > (pf.MaxMem : Int) - pf.hchanSize))) := by
    intro _
    rw [ne_eq, toIntgo_eq_iff pf hW]
    by_cases h0 : hint < 0
    · simp [h0]
    · by_cases hf : -(2 : Int) ^ (pf.wordBits - 1) ≤ hint ∧ hint < 2 ^ (pf.wordBits - 1)
      · by_cases he : esize > 0
        · have := makechan_guard_iff pf esize hint hW hhdr hmax he (by omega) hf.2
          simp only [h0, hf, he, this, not_true_eq_false, true_and, false_or, and_self]
        · simp [h0, hf, he]
      · simp [h0, hf]
  refine ⟨?_, ?_, ?_, ?_⟩
  · unfold makechan
    split
    · simp_all
    · split <;> simp_all
  · intro hsz
    rw [← hguard hsz]
    unfold makechan
    rw [if_neg (by omega)]
    split <;> simp_all
  · intro he h0 hf
    exact makechan_guard_iff pf esize hint hW hhdr hmax he h0 hf
  · intro c hret
    unfold makechan at hret ⊢
    split at hret
    · simp at hret
    · rename_i hsz
      split at hret
      · simp at hret
      · rename_i hg
        rw [if_neg hsz, if_neg hg]
        have hg2 := (not_congr (hguard (by omega))).mp hg
        simp only [not_or, not_and, not_not, not_lt] at hg2
        obtain ⟨h0, hf, hprod⟩ := hg2
        have hle : (pf.hchanSize : Int) + hint * esize ≤ pf.MaxMem := by
          by_cases he : esize > 0
          · have := hprod he
            omega
          · have : esize = 0 := by omega
            subst this
            simp
            exact hhdr
        have hnn : (0 : Int) ≤ pf.hchanSize + hint * esize := by positivity
        exact ⟨h0, hle, by omega, toUintptr_eq pf _ hnn (by omega), rfl⟩

/-- Worked instance of C8 on the 64 bit target: a request for 3 elements of 8
bytes is granted and the allocator is asked for 96 + 24 bytes. -/
theorem C8_makechan_guards_witness :
    (1 ≤ linux64.wordBits ∧ linux64.hchanSize ≤ linux64.MaxMem ∧
      linux64.MaxMem < 2 ^ linux64.wordBits) ∧
    (makechan linux64 emptyWorld 0 8 3 1).2 = .returned 1 ∧
    (0 : Int) ≤ 3 ∧ (linux64.hchanSize : Int) + 3 * (8 : Nat) ≤ linux64.MaxMem := by
  have h := C8_makechan_guards linux64 emptyWorld 0 8 3 1 (by decide) (by decide) (by decide)
  have hret : (makechan linux64 emptyWorld 0 8 3 1).2 = .returned 1 := by decide
  exact ⟨⟨by decide, by decide, by decide⟩, hret, (h.2.2.2 1 hret).1, (h.2.2.2 1 hret).2.1⟩

/-! ## C9: the fresh channel, `len` and `cap` -/

/-- A count below `2 ^ (wordBits - 1)` is its own `intgo` value. -/
theorem toIntgo_natCast (pf : Platform) (hW : 1 ≤ pf.wordBits) (n : Nat)
    (hn : n < 2 ^ (pf.wordBits - 1)) : toIntgo pf n = n := by
  rw [toIntgo_eq_iff pf hW]
  have h1 : (0 : Int) < 2 ^ (pf.wordBits - 1) := by positivity
  have h2 : (n : Int) < 2 ^ (pf.wordBits - 1) := by exact_mod_cast hn
  constructor <;> omega

/-- C9: when `makechan` accepts an element size and a hint and returns the
non-nil address `c`, the channel at `c` has `dataqsiz = hint`,
`elemsize = esize`, `closed = false`, `qcount = sendx = recvx = 0`, empty wait
queues and an all-zero buffer, so `len` is `0` and `cap` is the hint.  In
general, on a non-nil channel whose count and capacity are in the `intgo`
range (as `makechan` enforces), `len` is `qcount` and `cap` is `dataqsiz`; on
the nil channel both are `0`.  Both are functions of the state alone: they
write nothing. -/
theorem C9_makechan_len_cap (pf : Platform) (w : World) (elemtype : Ptr) (esize : Nat)
    (hint : Int) (newc c : Ptr) (hW : 1 ≤ pf.wordBits) (hnew : newc ≠ 0)
    (hret : (makechan pf w elemtype esize hint newc).2 = .returned c) :
    (c = newc ∧
      (((makechan pf w elemtype esize hint newc).1.chans c).dataqsiz : Int) = hint ∧
      ((makechan pf w elemtype esize hint newc).1.chans c).elemsize = esize ∧
      ((makechan pf w elemtype esize hint newc).1.chans c).closed = false ∧
      ((makechan pf w elemtype esize hint newc).1.chans c).qcount = 0 ∧
      ((makechan pf w elemtype esize hint newc).1.chans c).sendx = 0 ∧
      ((makechan pf w elemtype esize hint newc).1.chans c).recvx = 0 ∧
      ((makechan pf w elemtype esize hint newc).1.chans c).recvq = ⟨0, 0⟩ ∧
      ((makechan pf w elemtype esize hint newc).1.chans c).sendq = ⟨0, 0⟩ ∧
      (∀ a, ((makechan pf w elemtype esize hint newc).1.chans c).buf a = 0) ∧
      reflect_chanlen pf (makechan pf w elemtype esize hint newc).1 c = 0 ∧
      reflect_chancap pf (makechan pf w elemtype esize hint newc).1 c = hint) ∧
    (∀ (v : World) (d : Ptr), d ≠ 0 → (v.chans d).qcount ≤ (v.chans d).dataqsiz →
      (v.chans d).dataqsiz < 2 ^ (pf.wordBits - 1) →
      reflect_chanlen pf v d = (v.chans d).qcount ∧
      reflect_chancap pf v d = (v.chans d).dataqsiz) ∧
    (∀ v : World, reflect_chanlen pf v 0 = 0 ∧ reflect_chancap pf v 0 = 0) := by
  refine ⟨?_, ?_, ?_⟩
  · unfold makechan at hret ⊢
    split at hret
    · simp at hret
    · rename_i hsz
      split at hret
      · simp at hret
      · rename_i hg
        simp only [Outcome.returned.injEq] at hret
        subst hret
        rw [if_neg hsz, if_neg hg]
        simp only [not_or, not_and, not_not, not_lt] at hg
        obtain ⟨h0, hf, _⟩ := hg
        have hfit := (toIntgo_eq_iff pf hW hint).mp hf
        obtain ⟨k, hk⟩ : ∃ k, pf.wordBits = k + 1 := ⟨pf.wordBits - 1, by omega⟩
        have hP : (2 : Int) ^ pf.wordBits = 2 * 2 ^ (pf.wordBits - 1) := by
          rw [hk, Nat.add_sub_cancel]; ring
        have hu := toUintptr_eq pf hint h0 (by omega)
        have hlen : toIntgo pf ((0 : Nat) : Int) = 0 := by
          have := toIntgo_natCast pf hW 0 (by positivity)
          simpa using this
        have hcap : toIntgo pf ((toUintptr pf hint : Nat) : Int) = hint := by
          rw [hu]; exact hf
        have hes : esize % 2 ^ 16 = esize := Nat.mod_eq_of_lt (by omega)
        simp only [setChan_chans, Function.update_same, reflect_chanlen, reflect_chancap, hnew,
          if_false, zeroHchan, hu, hlen, hcap, hes]
        simp
        exact hf
  · intro v d hd hq hcap
    simp only [reflect_chanlen, reflect_chancap, hd, if_false]
    exact ⟨toIntgo_natCast pf hW _ (by omega), toIntgo_natCast pf hW _ hcap⟩
  · intro v
    simp [reflect_chanlen, reflect_chancap]

/-- Worked instance of C9 on the 64 bit target: a channel of 3 elements of 8
bytes made at address 1. -/
theorem C9_makechan_len_cap_witness :
    (1 ≤ linux64.wordBits ∧ (1 : Ptr) ≠ 0 ∧
      (makechan linux64 emptyWorld 0 8 3 1).2 = .returned 1) ∧
    reflect_chanlen linux64 (makechan linux64 emptyWorld 0 8 3 1).1 1 = 0 ∧
    reflect_chancap linux64 (makechan linux64 emptyWorld 0 8 3 1).1 1 = 3 := by
  have hret : (makechan linux64 emptyWorld 0 8 3 1).2 = .returned 1 := by decide
  have h := C9_makechan_len_cap linux64 emptyWorld 0 8 3 1 1 (by decide) (by decide) hret
  exact ⟨⟨by decide, by decide, hret⟩, h.1.2.2.2.2.2.2.2.2.2.2.1, h.1.2.2.2.2.2.2.2.2.2.2.2⟩

/-! ## One buffered send, one buffered receive -/

/-- With the lock held on an open channel that has room and no waiting
receiver, the label `asynch:` of `chansend` stores the element at `sendx`,
advances `sendx`, counts it and returns `true`. -/
theorem chansend_asynch_room (fuel : Nat) (w : World) (g mysg c ep : Ptr) (block : Bool)
    (t0 rt : Int) (hrt : rt ≤ 0) (hopen : (w.chans c).closed = false)
    (hroom : (w.chans c).qcount < (w.chans c).dataqsiz) (hrq : (w.chans c).recvq.first = 0) :
    ∃ w1, chansend_asynch (fuel + 1) w g mysg c ep block t0 rt = some (w1, .returned true) ∧
      w1.chans = Function.update w.chans c
        { w.chans c with
          buf := memmove (w.chans c).buf w.mem (chanbuf (w.chans c) (w.chans c).sendx) ep
            (w.chans c).elemsize
          sendx := if (w.chans c).sendx + 1 = (w.chans c).dataqsiz then 0 else (w.chans c).sendx + 1
          qcount := (w.chans c).qcount + 1 } ∧
      w1.sudogs = w.sudogs ∧ w1.words = w.words ∧ w1.mem = w.mem ∧ w1.bools = w.bools ∧
      w1.param = w.param ∧ w1.trace = w.trace ++ [Event.unlock c] := by
  simp only [chansend_asynch, hopen, Bool.false_eq_true, if_false, ge_iff_le,
    Nat.not_le.mpr hroom]
  rw [dequeueRecvq_empty fuel _ c (by simpa using hrq)]
  simp only [ne_eq, not_true_eq_false, if_false, blockProfile_nonpos _ _ _ hrt]
  exact ⟨_, rfl, by simp, rfl, rfl, rfl, rfl, rfl, rfl⟩

/-- A send on an open buffered channel that has room and no waiting receiver:
`chansend` returns `true` with either `block` flag. -/
theorem chansend_room (fuel : Nat) (w : World) (g mysg c ep : Ptr) (block : Bool) (hc : c ≠ 0)
    (hopen : (w.chans c).closed = false)
    (hroom : (w.chans c).qcount < (w.chans c).dataqsiz) (hrq : (w.chans c).recvq.first = 0) :
    ∃ w1, chansend (fuel + 1) w g mysg c ep block = some (w1, .returned true) ∧
      w1.chans = Function.update w.chans c
        { w.chans c with
          buf := memmove (w.chans c).buf w.mem (chanbuf (w.chans c) (w.chans c).sendx) ep
            (w.chans c).elemsize
          sendx := if (w.chans c).sendx + 1 = (w.chans c).dataqsiz then 0 else (w.chans c).sendx + 1
          qcount := (w.chans c).qcount + 1 } ∧
      w1.sudogs = w.sudogs ∧ w1.words = w.words ∧ w1.mem = w.mem ∧ w1.bools = w.bools ∧
      w1.param = w.param := by
  have hpos : (w.chans c).dataqsiz > 0 := by omega
  obtain ⟨w1, h1, h2, h3, h4, h5, h6, h7, _⟩ :=
    chansend_asynch_room fuel ((profileStart (gcYield w)).1.log (.lock c)) g mysg c ep block
      (profileStart (gcYield w)).2.1 (profileStart (gcYield w)).2.2 (profileStart_rt_nonpos _)
      (by simpa using hopen) (by simpa using hroom) (by simpa using hrq)
  refine ⟨w1, ?_, by simpa using h2, by simpa using h3, by simpa using h4, by simpa using h5,
    by simpa using h6, by simpa using h7⟩
  simp only [chansend, hc, if_false, log_chans, profileStart_chans, gcYield_chans, hopen,
    Bool.false_eq_true, hpos, if_true]
  exact h1

/-- With the lock held on a channel that holds an element and has no waiting
sender, the label `asynch:` of `chanrecv` copies slot `recvx` to a non-nil
`ep`, clears the slot, advances `recvx`, uncounts the element, stores `true`
through a non-nil `received` and returns `true`. -/
theorem chanrecv_asynch_item (fuel : Nat) (w : World) (g mysg c ep received : Ptr) (block : Bool)
    (t0 rt : Int) (hrt : rt ≤ 0) (hitem : 0 < (w.chans c).qcount)
    (hsq : (w.chans c).sendq.first = 0) :
    ∃ w1, chanrecv_asynch (fuel + 1) w g mysg c ep received block t0 rt
        = some (w1, .returned true) ∧
      w1.chans = Function.update w.chans c
        { w.chans c with
          buf := memclr (w.chans c).buf (chanbuf (w.chans c) (w.chans c).recvx) (w.chans c).elemsize
          recvx := if (w.chans c).recvx + 1 = (w.chans c).dataqsiz then 0 else (w.chans c).recvx + 1
          qcount := (w.chans c).qcount - 1 } ∧
      w1.mem = (if ep ≠ 0 then
        memmove w.mem (w.chans c).buf ep (chanbuf (w.chans c) (w.chans c).recvx) (w.chans c).elemsize
        else w.mem) ∧
      (received ≠ 0 → w1.bools received = true) ∧
      w1.sudogs = w.sudogs ∧ w1.words = w.words ∧ w1.param = w.param := by
  simp only [chanrecv_asynch, Nat.le_zero, Nat.pos_iff_ne_zero.mp hitem, if_false]
  by_cases he : ep = 0
  · subst he
    simp only [ne_eq, not_true_eq_false, if_false]
    rw [dequeueSendq_empty fuel _ c (by simpa using hsq)]
    simp only [ne_eq, not_true_eq_false, if_false, blockProfile_nonpos _ _ _ hrt]
    exact ⟨_, rfl, by simp, by simp, fun hr => setReceived_bools _ _ _ hr, by simp, by simp,
      by simp⟩
  · simp only [ne_eq, he, not_false_eq_true, if_true]
    rw [dequeueSendq_empty fuel _ c (by simpa using hsq)]
    simp only [ne_eq, not_true_eq_false, if_false, blockProfile_nonpos _ _ _ hrt]
    exact ⟨_, rfl, by simp, by simp, fun hr => setReceived_bools _ _ _ hr, by simp, by simp,
      by simp⟩

/-- A receive on a buffered channel that holds an element and has no waiting
sender: `chanrecv` returns `true` with either `block` flag, whether or not the
channel is closed. -/
theorem chanrecv_item (fuel : Nat) (w : World) (g mysg c ep received : Ptr) (block : Bool)
    (hc : c ≠ 0) (hbuf : 0 < (w.chans c).dataqsiz) (hitem : 0 < (w.chans c).qcount)
    (hsq : (w.chans c).sendq.first = 0) :
    ∃ w1, chanrecv (fuel + 1) w g mysg c ep received block = some (w1, .returned true) ∧
      w1.chans = Function.update w.chans c
        { w.chans c with
          buf := memclr (w.chans c).buf (chanbuf (w.chans c) (w.chans c).recvx) (w.chans c).elemsize
          recvx := if (w.chans c).recvx + 1 = (w.chans c).dataqsiz then 0 else (w.chans c).recvx + 1
          qcount := (w.chans c).qcount - 1 } ∧
      w1.mem = (if ep ≠ 0 then
        memmove w.mem (w.chans c).buf ep (chanbuf (w.chans c) (w.chans c).recvx) (w.chans c).elemsize
        else w.mem) ∧
      (received ≠ 0 → w1.bools received = true) ∧
      w1.sudogs = w.sudogs ∧ w1.words = w.words ∧ w1.param = w.param := by
  obtain ⟨w1, h1, h2, h3, h4, h5, h6, h7⟩ :=
    chanrecv_asynch_item fuel ((profileStart (gcYield w)).1.log (.lock c)) g mysg c ep received
      block (profileStart (gcYield w)).2.1 (profileStart (gcYield w)).2.2
      (profileStart_rt_nonpos _) (by simpa using hitem) (by simpa using hsq)
  refine ⟨w1, ?_, by simpa using h2, by simpa using h3, h4, by simpa using h5,
    by simpa using h6, by simpa using h7⟩
  simp only [chanrecv, hc, if_false, log_chans, profileStart_chans, gcYield_chans, hbuf,
    gt_iff_lt, if_true]
  exact h1

/-- A send on an open buffered channel that is full: with `block = false`
`chansend` returns `false` and changes nothing; with `block = true` it stores
its sudog with `elem = nil`, appends it to `sendq` and parks, and `qcount`,
the indices and the buffer stay as they are. -/
theorem chansend_full (fuel : Nat) (w : World) (g mysg c ep : Ptr) (hc : c ≠ 0)
    (hopen : (w.chans c).closed = false) (hbuf : 0 < (w.chans c).dataqsiz)
    (hfull : (w.chans c).dataqsiz ≤ (w.chans c).qcount) :
    (∃ w1, chansend fuel w g mysg c ep false = some (w1, .returned false) ∧
      w1.chans = w.chans ∧ w1.sudogs = w.sudogs ∧ w1.words = w.words ∧ w1.mem = w.mem ∧
      w1.bools = w.bools ∧ w1.param = w.param) ∧
    (∃ w1, chansend fuel w g mysg c ep true = some (w1, .parked "chan send") ∧
      w1.sudogs = (enqueue (Function.update w.sudogs mysg
        { w.sudogs mysg with g := g, elem := 0, selectdone := 0,
                             releasetime := (profileStart (gcYield w)).2.2 })
        (w.chans c).sendq mysg).1 ∧
      w1.chans = Function.update w.chans c { w.chans c with
        sendq := (enqueue (Function.update w.sudogs mysg
          { w.sudogs mysg with g := g, elem := 0, selectdone := 0,
                               releasetime := (profileStart (gcYield w)).2.2 })
          (w.chans c).sendq mysg).2 } ∧
      w1.words = w.words ∧ w1.mem = w.mem ∧ w1.bools = w.bools ∧ w1.param = w.param) := by
  constructor
  · refine ⟨((profileStart (gcYield w)).1.log (.lock c)).log (.unlock c), ?_, by simp⟩
    simp [chansend, chansend_asynch, hc, hopen, hbuf, hfull]
  · refine ⟨(enqueueSendq (((profileStart (gcYield w)).1.log (.lock c)).setSudog mysg
      { w.sudogs mysg with g := g, elem := 0, selectdone := 0,
                           releasetime := (profileStart (gcYield w)).2.2 }) c mysg).log
      (.unlock c), ?_, ?_⟩
    · simp only [chansend, chansend_asynch, hc, if_false, log_chans, profileStart_chans,
        gcYield_chans, hopen, Bool.false_eq_true, hbuf, gt_iff_lt, if_true, ge_iff_le, hfull,
        Bool.not_true, log_sudogs, profileStart_sudogs, gcYield_sudogs]
    · simp [enqueueSendq]

/-! ## The ring buffer is a queue -/

theorem add_mod_small (a d k : Nat) (ha : a < k) (hd : d ≤ k) :
    (a + d) % k = if a + d < k then a + d else a + d - k := by
  split
  · exact Nat.mod_eq_of_lt (by assumption)
  · rw [Nat.mod_eq_sub_mod (by omega)]
    exact Nat.mod_eq_of_lt (by omega)

theorem readBytes_congr (m1 m2 : Nat → Nat) (p n : Nat)
    (h : ∀ j, j < n → m1 (p + j) = m2 (p + j)) : readBytes m1 p n = readBytes m2 p n := by
  unfold readBytes
  apply List.map_congr_left
  intro j hj
  exact h j (List.mem_range.mp hj)

/-- Slots of the buffer do not overlap. -/
theorem slot_disjoint (es i j x : Nat) (hij : i ≠ j) (hx : x < es) :
    ¬ (es * i ≤ es * j + x ∧ es * j + x < es * i + es) := by
  rintro ⟨h1, h2⟩
  rcases Nat.lt_or_gt_of_ne hij with h | h
  · have : es * (i + 1) ≤ es * j := Nat.mul_le_mul_left es h
    rw [Nat.mul_add, Nat.mul_one] at this
    omega
  · have : es * (j + 1) ≤ es * i := Nat.mul_le_mul_left es h
    rw [Nat.mul_add, Nat.mul_one] at this
    omega

theorem readBytes_memmove_same (d m : Nat → Nat) (dst src n : Nat) :
    readBytes (memmove d m dst src n) dst n = readBytes m src n := by
  unfold readBytes
  apply List.map_congr_left
  intro j hj
  have := List.mem_range.mp hj
  simp [memmove, this]

theorem readBytes_memmove_other (d m : Nat → Nat) (es i j src : Nat) (hij : i ≠ j) :
    readBytes (memmove d m (es * i) src es) (es * j) es = readBytes d (es * j) es := by
  apply readBytes_congr
  intro x hx
  simp only [memmove]
  rw [if_neg (slot_disjoint es i j x hij hx)]

theorem readBytes_memclr_other (d : Nat → Nat) (es i j : Nat) (hij : i ≠ j) :
    readBytes (memclr d (es * i) es) (es * j) es = readBytes d (es * j) es := by
  apply readBytes_congr
  intro x hx
  simp only [memclr]
  rw [if_neg (slot_disjoint es i j x hij hx)]

/-- A buffered send keeps the ring invariant. -/
theorem ringInv_send (h h1 : Hchan) (hinv : ringInv h) (hroom : h.qcount < h.dataqsiz)
    (hk : h1.dataqsiz = h.dataqsiz) (hr : h1.recvx = h.recvx) (hq : h1.qcount = h.qcount + 1)
    (hs : h1.sendx = if h.sendx + 1 = h.dataqsiz then 0 else h.sendx + 1) : ringInv h1 := by
  obtain ⟨i1, i2, i3⟩ := hinv
  refine ⟨by omega, by omega, ?_⟩
  rw [hs, hk, hr, hq, i3, add_mod_small _ _ _ i1 (by omega), add_mod_small _ _ _ i1 (by omega)]
  split <;> split <;> split <;> omega

/-- A buffered send appends the element to the contents of the ring. -/
theorem contents_send (h h1 : Hchan) (mem : Nat → Nat) (ep : Ptr) (hinv : ringInv h)
    (hroom : h.qcount < h.dataqsiz) (hes : h1.elemsize = h.elemsize)
    (hk : h1.dataqsiz = h.dataqsiz) (hr : h1.recvx = h.recvx) (hq : h1.qcount = h.qcount + 1)
    (hb : h1.buf = memmove h.buf mem (chanbuf h h.sendx) ep h.elemsize) :
    contents h1 = contents h ++ [readBytes mem ep h.elemsize] := by
  obtain ⟨i1, i2, i3⟩ := hinv
  simp only [contents, slot, chanbuf, hes, hk, hr, hq, hb, List.range_succ, List.map_append,
    List.map_cons, List.map_nil]
  congr 1
  · apply List.map_congr_left
    intro t ht
    have ht2 := List.mem_range.mp ht
    apply readBytes_memmove_other
    rw [i3, add_mod_small _ _ _ i1 (by omega), add_mod_small _ _ _ i1 (by omega)]
    split <;> split <;> omega
  · rw [← i3, readBytes_memmove_same]

/-- A buffered receive keeps the ring invariant. -/
theorem ringInv_recv (h h1 : Hchan) (hinv : ringInv h) (hitem : 0 < h.qcount)
    (hk : h1.dataqsiz = h.dataqsiz) (hs : h1.sendx = h.sendx) (hq : h1.qcount = h.qcount - 1)
    (hr : h1.recvx = if h.recvx + 1 = h.dataqsiz then 0 else h.recvx + 1) : ringInv h1 := by
  obtain ⟨i1, i2, i3⟩ := hinv
  have hr1 : h1.recvx < h.dataqsiz := by rw [hr]; split <;> omega
  refine ⟨by omega, by omega, ?_⟩
  rw [hs, hk, hq, i3, add_mod_small _ _ _ i1 (by omega), add_mod_small _ _ _ hr1 (by omega)]
  rw [hr]
  split <;> split <;> split <;> omega

/-- A buffered receive takes the oldest element off the contents of the ring:
the contents before are slot `recvx` followed by the contents after. -/
theorem contents_recv (h h1 : Hchan) (hinv : ringInv h) (hitem : 0 < h.qcount)
    (hes : h1.elemsize = h.elemsize) (hk : h1.dataqsiz = h.dataqsiz)
    (hq : h1.qcount = h.qcount - 1)
    (hr : h1.recvx = if h.recvx + 1 = h.dataqsiz then 0 else h.recvx + 1)
    (hb : h1.buf = memclr h.buf (chanbuf h h.recvx) h.elemsize) :
    contents h = slot h h.recvx :: contents h1 := by
  obtain ⟨i1, i2, i3⟩ := hinv
  obtain ⟨q, hq0⟩ : ∃ q, h.qcount = q + 1 := ⟨h.qcount - 1, by omega⟩
  have hr1 : h1.recvx < h.dataqsiz := by rw [hr]; split <;> omega
  simp only [contents, hq, hq0, Nat.add_sub_cancel, List.range_succ_eq_map, List.map_cons,
    List.map_map, Nat.add_zero, Nat.mod_eq_of_lt i1]
  congr 1
  apply List.map_congr_left
  intro t ht
  have ht2 := List.mem_range.mp ht
  have hidx : (h1.recvx + t) % h1.dataqsiz = (h.recvx + (t + 1)) % h.dataqsiz := by
    rw [hk, add_mod_small _ _ _ hr1 (by omega), add_mod_small _ _ _ i1 (by omega), hr]
    split <;> split <;> split <;> omega
  have hne : h.recvx ≠ (h.recvx + (t + 1)) % h.dataqsiz := by
    rw [add_mod_small _ _ _ i1 (by omega)]
    split <;> omega
  simp only [Function.comp, hidx, slot, chanbuf, hes, hb]
  rw [readBytes_memclr_other _ _ _ _ hne]

/-! ## Runs of sends and of receives -/

/-- A run of sends that fits the free room of an open buffered channel with
no waiting receiver: every send returns `true`, the count goes up by one each
time, and if the ring invariant holds it still holds afterwards and the
elements are appended to the contents in the order sent. -/
theorem sendAll_spec (pf : Platform) (fuel : Nat) (g mysg c : Ptr) (block : Bool) (hc : c ≠ 0) :
    ∀ (eps : List Ptr) (w : World), (w.chans c).closed = false →
      (w.chans c).recvq.first = 0 →
      (w.chans c).qcount + eps.length ≤ (w.chans c).dataqsiz →
      ∃ w1, sendAll pf (fuel + 1) g mysg c block w eps = some (w1,
          (List.range eps.length).map (fun i =>
            (Outcome.returned true, toIntgo pf (((w.chans c).qcount + i + 1 : Nat) : Int)))) ∧
        (w1.chans c).qcount = (w.chans c).qcount + eps.length ∧
        (w1.chans c).closed = false ∧ (w1.chans c).dataqsiz = (w.chans c).dataqsiz ∧
        (w1.chans c).elemsize = (w.chans c).elemsize ∧
        (w1.chans c).recvq = (w.chans c).recvq ∧ (w1.chans c).sendq = (w.chans c).sendq ∧
        (w1.chans c).recvx = (w.chans c).recvx ∧
        w1.mem = w.mem ∧ w1.sudogs = w.sudogs ∧ w1.words = w.words ∧
        (ringInv (w.chans c) → ringInv (w1.chans c) ∧
          contents (w1.chans c) = contents (w.chans c) ++
            eps.map (fun ep => readBytes w.mem ep (w.chans c).elemsize))
  | [], w, hopen, _, _ => by
    exact ⟨w, rfl, rfl, hopen, rfl, rfl, rfl, rfl, rfl, rfl, rfl, rfl,
      fun hi => ⟨hi, by simp⟩⟩
  | ep :: eps, w, hopen, hrq, hroom => by
    simp only [List.length_cons] at hroom
    obtain ⟨w1, h1, h2, h3, h4, h5, _, _⟩ :=
      chansend_room fuel w g mysg c ep block hc hopen (by omega) hrq
    have hch : w1.chans c = { w.chans c with
        buf := memmove (w.chans c).buf w.mem (chanbuf (w.chans c) (w.chans c).sendx) ep
          (w.chans c).elemsize
        sendx := if (w.chans c).sendx + 1 = (w.chans c).dataqsiz then 0 else (w.chans c).sendx + 1
        qcount := (w.chans c).qcount + 1 } := by
      rw [h2]; simp
    have hq1 : (w1.chans c).qcount = (w.chans c).qcount + 1 := by rw [hch]
    have hk1 : (w1.chans c).dataqsiz = (w.chans c).dataqsiz := by rw [hch]
    have he1 : (w1.chans c).elemsize = (w.chans c).elemsize := by rw [hch]
    have hr1 : (w1.chans c).recvx = (w.chans c).recvx := by rw [hch]
    obtain ⟨w2, e1, e4, e5, e6, e7, e8, e9, e10, e11, e12, e13, e14⟩ :=
      sendAll_spec pf fuel g mysg c block hc eps w1 (by rw [hch]; exact hopen)
        (by rw [hch]; exact hrq) (by rw [hq1, hk1]; omega)
    refine ⟨w2, ?_, ?_, e5, ?_, ?_, ?_, ?_, ?_, ?_, ?_, ?_, ?_⟩
    · simp only [sendAll, h1, e1, List.length_cons, List.range_succ_eq_map, List.map_cons,
        List.map_map, reflect_chanlen, hc, if_false, hq1, Nat.add_zero]
      congr 3
      apply List.map_congr_left
      intro i _
      simp only [Function.comp]
      congr 3
      omega
    · rw [e4, hq1, List.length_cons]; omega
    · rw [e6, hk1]
    · rw [e7, he1]
    · rw [e8, hch]
    · rw [e9, hch]
    · rw [e10, hr1]
    · rw [e11, h5]
    · rw [e12, h3]
    · rw [e13, h4]
    · intro hi
      have hi1 : ringInv (w1.chans c) :=
        ringInv_send (w.chans c) (w1.chans c) hi (by omega) hk1 hr1 hq1 (by rw [hch])
      have hc1 : contents (w1.chans c)
          = contents (w.chans c) ++ [readBytes w.mem ep (w.chans c).elemsize] :=
        contents_send (w.chans c) (w1.chans c) w.mem ep hi (by omega) he1 hk1 hr1 hq1
          (by rw [hch])
      obtain ⟨hi2, hc2⟩ := e14 hi1
      refine ⟨hi2, ?_⟩
      rw [hc2, hc1, h5, he1]
      simp

/-- A run of receives on a buffered channel that holds at least as many
elements and has no waiting sender: every receive returns `true`, stores
`true` through `received`, and delivers the elements of the ring oldest
first. -/
theorem recvAll_spec (fuel : Nat) (g mysg c received : Ptr) (block : Bool) (hc : c ≠ 0)
    (hrecv : received ≠ 0) :
    ∀ (outs : List Ptr) (w : World), ringInv (w.chans c) → (w.chans c).sendq.first = 0 →
      outs.length ≤ (w.chans c).qcount → (∀ ep ∈ outs, ep ≠ 0) →
      ∃ w1, recvAll (fuel + 1) g mysg c received block w outs
          = some (w1, ((contents (w.chans c)).take outs.length).map
              (fun v => (Outcome.returned true, true, v))) ∧
        (w1.chans c).qcount = (w.chans c).qcount - outs.length ∧
        ringInv (w1.chans c) ∧
        contents (w1.chans c) = (contents (w.chans c)).drop outs.length
  | [], w, hi, _, _, _ => ⟨w, by simp [recvAll], by simp, hi, by simp⟩
  | ep :: outs, w, hi, hsq, hlen, hne => by
    simp only [List.length_cons] at hlen
    have hitem : 0 < (w.chans c).qcount := by omega
    have hbuf : 0 < (w.chans c).dataqsiz := by have := hi.2.1; omega
    have hep : ep ≠ 0 := hne ep (List.mem_cons_self _ _)
    obtain ⟨w1, h1, h2, h3, h4, _, _, _⟩ :=
      chanrecv_item fuel w g mysg c ep received block hc hbuf hitem hsq
    have hch : w1.chans c = { w.chans c with
        buf := memclr (w.chans c).buf (chanbuf (w.chans c) (w.chans c).recvx) (w.chans c).elemsize
        recvx := if (w.chans c).recvx + 1 = (w.chans c).dataqsiz then 0 else (w.chans c).recvx + 1
        qcount := (w.chans c).qcount - 1 } := by
      rw [h2]; simp
    have hq1 : (w1.chans c).qcount = (w.chans c).qcount - 1 := by rw [hch]
    have hk1 : (w1.chans c).dataqsiz = (w.chans c).dataqsiz := by rw [hch]
    have he1 : (w1.chans c).elemsize = (w.chans c).elemsize := by rw [hch]
    have hi1 : ringInv (w1.chans c) :=
      ringInv_recv (w.chans c) (w1.chans c) hi hitem hk1 (by rw [hch]) hq1 (by rw [hch])
    have hcont : contents (w.chans c) = slot (w.chans c) (w.chans c).recvx :: contents (w1.chans c) :=
      contents_recv (w.chans c) (w1.chans c) hi hitem he1 hk1 hq1 (by rw [hch]) (by rw [hch])
    have hbytes : readBytes w1.mem ep (w1.chans c).elemsize
        = slot (w.chans c) (w.chans c).recvx := by
      rw [h3, if_pos hep, he1, readBytes_memmove_same]
      rfl
    obtain ⟨w2, e1, e2, e3, e4⟩ := recvAll_spec fuel g mysg c received block hc hrecv outs w1 hi1
      (by rw [hch]; exact hsq) (by rw [hq1]; omega)
      (fun x hx => hne x (List.mem_cons_of_mem _ hx))
    refine ⟨w2, ?_, by rw [e2, hq1, List.length_cons]; omega, e3, ?_⟩
    · simp only [recvAll, h1, e1, h4 hrecv, hbytes, hcont, List.length_cons, List.take_succ_cons,
        List.map_cons]
    · rw [e4, hcont, List.length_cons, List.drop_succ_cons]

/-! ## C1: the ring buffer is a FIFO queue -/

/-- C1: take a buffered channel of capacity `k ≥ 1` that is open, has an empty
buffer at any ring offset (`sendx = recvx < k`) and no waiters.  Sending the
`m ≤ k` elements found at the pointers `eps` and then receiving `m` times into
the non-nil pointers `outs` succeeds throughout: every send returns `true`,
and the receives return, in order, exactly the bytes that were sent, each with
selected `true` and received `true`; the final `len` is `0`. -/
theorem C1_buffered_fifo (pf : Platform) (fuel : Nat) (w : World) (c : Ptr) (k : Nat)
    (gs mysgs gr mysgr received : Ptr) (bs br : Bool) (eps outs : List Ptr)
    (hc : c ≠ 0) (hk : 1 ≤ k) (hcap : (w.chans c).dataqsiz = k)
    (hopen : (w.chans c).closed = false) (hempty : (w.chans c).qcount = 0)
    (hx : (w.chans c).sendx = (w.chans c).recvx) (hlt : (w.chans c).sendx < k)
    (hrq : (w.chans c).recvq.first = 0) (hsq : (w.chans c).sendq.first = 0)
    (hm : eps.length ≤ k) (houts : outs.length = eps.length) (hnn : ∀ ep ∈ outs, ep ≠ 0)
    (hrecv : received ≠ 0) :
    ∃ w1 rs w2, sendAll pf (fuel + 1) gs mysgs c bs w eps = some (w1, rs) ∧
      rs.map Prod.fst = List.replicate eps.length (Outcome.returned true) ∧
      recvAll (fuel + 1) gr mysgr c received br w1 outs
        = some (w2, eps.map (fun ep =>
            (Outcome.returned true, true, readBytes w.mem ep (w.chans c).elemsize))) ∧
      reflect_chanlen pf w2 c = 0 := by
  have hinv : ringInv (w.chans c) := by
    refine ⟨by omega, by omega, ?_⟩
    rw [hempty, Nat.add_zero, hcap, Nat.mod_eq_of_lt (by omega)]
    exact hx
  have hcont0 : contents (w.chans c) = [] := by simp [contents, hempty]
  obtain ⟨w1, s1, s4, _, _, _, _, s9, _, _, _, _, s14⟩ :=
    sendAll_spec pf fuel gs mysgs c bs hc eps w hopen hrq (by omega)
  obtain ⟨hinv1, hcont1⟩ := s14 hinv
  rw [hcont0, List.nil_append] at hcont1
  obtain ⟨w2, r1, r2, _, _⟩ := recvAll_spec fuel gr mysgr c received br hc hrecv outs w1 hinv1
    (by rw [s9]; exact hsq) (by rw [s4, hempty]; omega) hnn
  refine ⟨w1, _, w2, s1, ?_, ?_, ?_⟩
  · rw [List.map_map]
    apply List.ext_getElem
    · simp
    · intro i h1 h2
      simp
  · rw [r1, hcont1, houts, List.take_of_length_le (by simp), List.map_map]
    rfl
  · simp only [reflect_chanlen, hc, if_false, r2, s4, hempty, houts]
    simp [toIntgo]

/-- Worked instance of C1: on the channel of capacity 2 whose indices stand at
the last slot, the bytes 11 and 22 are sent and come back in that order, the
ring wrapping around in between. -/
theorem C1_buffered_fifo_witness :
    ((1 : Ptr) ≠ 0 ∧ 1 ≤ 2 ∧ (ringWorld.chans 1).dataqsiz = 2 ∧
      (ringWorld.chans 1).closed = false ∧ (ringWorld.chans 1).qcount = 0 ∧
      (ringWorld.chans 1).sendx = (ringWorld.chans 1).recvx ∧ (ringWorld.chans 1).sendx < 2 ∧
      (ringWorld.chans 1).recvq.first = 0 ∧ (ringWorld.chans 1).sendq.first = 0) ∧
    ∃ w1 rs w2, sendAll linux64 1 7 8 1 true ringWorld [50, 51] = some (w1, rs) ∧
      rs.map Prod.fst = [Outcome.returned true, Outcome.returned true] ∧
      recvAll 1 9 10 1 5 true w1 [60, 61]
        = some (w2, [(Outcome.returned true, true, [11]), (Outcome.returned true, true, [22])]) ∧
      reflect_chanlen linux64 w2 1 = 0 := by
  refine ⟨⟨by decide, by decide, rfl, rfl, rfl, rfl, by decide, rfl, rfl⟩, ?_⟩
  exact C1_buffered_fifo linux64 0 ringWorld 1 2 7 8 9 10 5 true true [50, 51] [60, 61]
    (by decide) (by decide) rfl rfl rfl rfl (by decide) rfl rfl (by decide) rfl
    (by decide) (by decide)

/-! ## `enqueue` on a list -/

theorem isList_unique (s : Ptr → SudoG) :
    ∀ (l1 l2 : List Ptr) (p : Ptr), isList s p l1 → isList s p l2 → l1 = l2
  | [], [], _, _, _ => rfl
  | [], _ :: _, _, h1, h2 => absurd (h2.1 ▸ h1) h2.2.1
  | _ :: _, [], _, h1, h2 => absurd (h1.1 ▸ h2) h1.2.1
  | x :: l1, y :: l2, p, h1, h2 => by
    have hxy : x = y := h1.1.symm.trans h2.1
    subst hxy
    rw [isList_unique s l1 l2 _ h1.2.2 h2.2.2]

/-- A nil-terminated list does not come back to its head. -/
theorem isList_head_not_mem (s : Ptr → SudoG) (p x : Ptr) (l : List Ptr)
    (h : isList s p (x :: l)) : x ∉ l := by
  intro hx
  obtain ⟨a, b, hab⟩ := List.append_of_mem hx
  have h1 : isList s (s x).link l := h.2.2
  have h2 : isList s (s x).link b := by
    have := isList_append s x b a (s x).link (by rw [← hab]; exact h1)
    exact this.2
  have := isList_unique s l b _ h1 h2
  have hlen := congrArg List.length hab
  rw [this] at hlen
  simp at hlen
  omega

theorem isList_nodup (s : Ptr → SudoG) : ∀ (l : List Ptr) (p : Ptr), isList s p l → l.Nodup
  | [], _, _ => List.nodup_nil
  | x :: l, p, h => List.nodup_cons.mpr ⟨isList_head_not_mem s p x l h, isList_nodup s l _ h.2.2⟩

/-- Linking a fresh sudog behind the last sudog of a list appends it. -/
theorem isList_snoc (s : Ptr → SudoG) (sgp last : Ptr) (hs0 : sgp ≠ 0) :
    ∀ (l : List Ptr) (p : Ptr), isList s p l → l.getLast? = some last → l.Nodup → sgp ∉ l →
      isList (Function.update (Function.update s sgp { s sgp with link := 0 }) last
        { (Function.update s sgp { s sgp with link := 0 }) last with link := sgp }) p (l ++ [sgp])
  | [], _, _, hlast, _, _ => by simp at hlast
  | [x], p, hl, hlast, _, hfresh => by
    have hx : x = last := by simpa using hlast
    subst hx
    have hne : sgp ≠ x := fun h => hfresh (by simp [h])
    refine ⟨hl.1, hl.2.1, ?_⟩
    simp only [Function.update_same]
    refine ⟨rfl, hs0, ?_⟩
    show (Function.update (Function.update s sgp _) x _ sgp).link = 0
    rw [Function.update_noteq hne, Function.update_same]
  | x :: y :: l, p, hl, hlast, hnd, hfresh => by
    have hlast2 : (y :: l).getLast? = some last := by simpa [List.getLast?_cons_cons] using hlast
    have hmem : last ∈ y :: l := List.mem_of_getLast?_eq_some hlast2
    have hxl : x ≠ last := fun h => (List.nodup_cons.mp hnd).1 (h ▸ hmem)
    have hxs : x ≠ sgp := fun h => hfresh (by simp [h])
    have ih := isList_snoc s sgp last hs0 (y :: l) _ hl.2.2 hlast2 (List.nodup_cons.mp hnd).2
      (fun h => hfresh (List.mem_cons_of_mem _ h))
    refine ⟨hl.1, hl.2.1, ?_⟩
    rw [Function.update_noteq hxl, Function.update_noteq hxs]
    exact ih

/-- When a queue holds `l` and the sudog `sgp` is non-nil and not on it,
`enqueue` makes the queue hold `l ++ [sgp]`. -/
theorem enqueue_holds (s : Ptr → SudoG) (q : WaitQ) (sgp : Ptr) (l : List Ptr)
    (hq : WaitQ.holds s q l) (hs0 : sgp ≠ 0) (hfresh : sgp ∉ l) :
    WaitQ.holds (enqueue s q sgp).1 (enqueue s q sgp).2 (l ++ [sgp]) := by
  obtain ⟨hl, hlast⟩ := hq
  cases l with
  | nil =>
    have h0 : q.first = 0 := hl
    simp only [enqueue, h0, if_true, List.nil_append]
    exact ⟨⟨rfl, hs0, by simp [isList]⟩, Or.inr rfl⟩
  | cons x l =>
    have hx0 : q.first ≠ 0 := by rw [hl.1]; exact hl.2.1
    have hlast2 : (x :: l).getLast? = some q.last := by
      rcases hlast with h | h
      · exact absurd h (by simp)
      · exact h
    simp only [enqueue, hx0, if_false]
    refine ⟨isList_snoc s sgp q.last hs0 (x :: l) _ hl hlast2 (isList_nodup s _ _ hl) hfresh,
      Or.inr ?_⟩
    rw [List.getLast?_append]
    rfl

/-- The fields of the enqueued sudog other than `link` are as stored. -/
theorem enqueue_sudog (s : Ptr → SudoG) (q : WaitQ) (sgp : Ptr) (l : List Ptr)
    (hq : WaitQ.holds s q l) (hfresh : sgp ∉ l) :
    ((enqueue s q sgp).1 sgp).g = (s sgp).g ∧ ((enqueue s q sgp).1 sgp).elem = (s sgp).elem ∧
    ((enqueue s q sgp).1 sgp).selectdone = (s sgp).selectdone ∧
    ((enqueue s q sgp).1 sgp).link = 0 := by
  by_cases h0 : q.first = 0
  · simp [enqueue, h0]
  · have hne : sgp ≠ q.last := by
      intro h
      cases l with
      | nil => exact h0 hq.1
      | cons x l =>
        rcases hq.2 with h2 | h2
        · exact absurd h2 (by simp)
        · exact hfresh (h ▸ List.mem_of_getLast?_eq_some h2)
    simp [enqueue, h0, Function.update_noteq hne]

/-- Writing fields other than `link` into a sudog keeps what every queue
holds. -/
theorem holds_update_fields (s : Ptr → SudoG) (q : WaitQ) (l : List Ptr) (p : Ptr) (v : SudoG)
    (hv : v.link = (s p).link) (hq : WaitQ.holds s q l) :
    WaitQ.holds (Function.update s p v) q l := by
  have hlinks : ∀ x, (s x).link = (Function.update s p v x).link := by
    intro x
    by_cases hx : x = p
    · subst hx; simp [hv]
    · rw [Function.update_noteq hx]
  have hcongr : ∀ (l : List Ptr) (a : Ptr), isList s a l → isList (Function.update s p v) a l := by
    intro l
    induction l with
    | nil => exact fun _ h => h
    | cons x l ih =>
      intro a h
      exact ⟨h.1, h.2.1, by rw [← hlinks x]; exact ih _ h.2.2⟩
  exact ⟨hcongr l _ hq.1, hq.2⟩

/-! ## C10: a buffered channel takes its capacity and no more -/

/-- C10: take an open buffered channel of capacity `k ≥ 1` (in the `intgo`
range) with an empty buffer and no waiting receiver, whose send queue holds
the sudogs `l`.  Then `k` sends in a row complete: the `i`-th returns `true`
and leaves `len = i`.  The next send does not complete: with `block = false`
it returns `false` and leaves headers, sudogs, claim words, element memory and
wake tokens as they are; with `block = true` it parks with reason "chan send"
after storing its sudog with `elem = nil` and its routine, so that the send
queue holds `l` followed by this sudog, while `qcount`, `sendx`, `recvx`, the
buffer, the receive queue and the closed flag stay as they are. -/
theorem C10_capacity_bound (pf : Platform) (fuel : Nat) (w : World) (c : Ptr) (k : Nat)
    (g mysg : Ptr) (block : Bool) (eps : List Ptr) (g2 mysg2 ep2 : Ptr) (l : List Ptr)
    (hc : c ≠ 0) (hW : 1 ≤ pf.wordBits) (hk : 1 ≤ k) (hkfit : k < 2 ^ (pf.wordBits - 1))
    (hcap : (w.chans c).dataqsiz = k) (hopen : (w.chans c).closed = false)
    (hempty : (w.chans c).qcount = 0) (hrq : (w.chans c).recvq.first = 0)
    (hlen : eps.length = k) (hq : WaitQ.holds w.sudogs (w.chans c).sendq l)
    (hmy : mysg2 ≠ 0) (hfresh : mysg2 ∉ l) :
    ∃ w1, sendAll pf (fuel + 1) g mysg c block w eps
        = some (w1, (List.range k).map (fun i => (Outcome.returned true, ((i + 1 : Nat) : Int)))) ∧
      (∃ w2, chansend (fuel + 1) w1 g2 mysg2 c ep2 false = some (w2, .returned false) ∧
        w2.chans = w1.chans ∧ w2.sudogs = w1.sudogs ∧ w2.words = w1.words ∧
        w2.mem = w1.mem ∧ w2.bools = w1.bools ∧ w2.param = w1.param) ∧
      (∃ w3, chansend (fuel + 1) w1 g2 mysg2 c ep2 true = some (w3, .parked "chan send") ∧
        (w3.sudogs mysg2).elem = 0 ∧ (w3.sudogs mysg2).g = g2 ∧
        (w3.sudogs mysg2).selectdone = 0 ∧
        WaitQ.holds w3.sudogs (w3.chans c).sendq (l ++ [mysg2]) ∧
        (w3.chans c).qcount = k ∧ (w3.chans c).buf = (w1.chans c).buf ∧
        (w3.chans c).sendx = (w1.chans c).sendx ∧ (w3.chans c).recvx = (w1.chans c).recvx ∧
        (w3.chans c).recvq = (w1.chans c).recvq ∧ (w3.chans c).closed = false ∧
        w3.mem = w1.mem) := by
  obtain ⟨w1, s1, s2, s3, s4, _, _, s7, _, _, s10, _, _⟩ :=
    sendAll_spec pf fuel g mysg c block hc eps w hopen hrq (by omega)
  have hq1 : (w1.chans c).qcount = k := by rw [s2, hempty, hlen]; omega
  have hk1 : (w1.chans c).dataqsiz = k := by rw [s4, hcap]
  obtain ⟨⟨w2, f1, f2⟩, ⟨w3, p1, p2, p3, p4, p5, p6, p7⟩⟩ :=
    chansend_full (fuel + 1) w1 g2 mysg2 c ep2 hc s3 (by omega) (by omega)
  have hq2 : WaitQ.holds (Function.update w1.sudogs mysg2
      { w1.sudogs mysg2 with g := g2, elem := 0, selectdone := 0,
                             releasetime := (profileStart (gcYield w1)).2.2 })
      (w1.chans c).sendq l := by
    refine holds_update_fields w1.sudogs (w1.chans c).sendq l mysg2 _ rfl ?_
    rw [s10, s7]
    exact hq
  have hsd := enqueue_sudog _ _ mysg2 l hq2 hfresh
  simp only [Function.update_same] at hsd
  refine ⟨w1, ?_, ⟨w2, f1, f2⟩, w3, p1, ?_, ?_, ?_, ?_, ?_, ?_, ?_, ?_, ?_, ?_, p5⟩
  · rw [s1, hlen]
    congr 2
    apply List.map_congr_left
    intro i hi
    have hi2 := List.mem_range.mp hi
    rw [hempty, Nat.zero_add, toIntgo_natCast pf hW _ (by omega)]
  · rw [p2]; exact hsd.2.1
  · rw [p2]; exact hsd.1
  · rw [p2]; exact hsd.2.2.1
  · rw [p2, p3]
    simp only [Function.update_same]
    exact enqueue_holds _ _ mysg2 l hq2 hmy hfresh
  · rw [p3]; simpa using hq1
  · rw [p3]; simp
  · rw [p3]; simp
  · rw [p3]; simp
  · rw [p3]; simp
  · rw [p3]; simpa using s3

/-- Worked instance of C10: on the empty channel of capacity 1 the first send
completes with `len = 1`, a second non-blocking send returns `false`, and a
second blocking send parks on the send queue. -/
theorem C10_capacity_bound_witness :
    ((1 : Ptr) ≠ 0 ∧ 1 ≤ linux64.wordBits ∧ 1 ≤ 1 ∧ 1 < 2 ^ (linux64.wordBits - 1) ∧
      (oneSlotWorld.chans 1).dataqsiz = 1 ∧ (oneSlotWorld.chans 1).closed = false ∧
      (oneSlotWorld.chans 1).qcount = 0 ∧ (oneSlotWorld.chans 1).recvq.first = 0 ∧
      WaitQ.holds oneSlotWorld.sudogs (oneSlotWorld.chans 1).sendq [] ∧ (21 : Ptr) ≠ 0) ∧
    ∃ w1, sendAll linux64 1 7 8 1 true oneSlotWorld [50]
        = some (w1, [(Outcome.returned true, 1)]) ∧
      (∃ w2, chansend 1 w1 9 21 1 50 false = some (w2, .returned false) ∧ w2.chans = w1.chans) ∧
      (∃ w3, chansend 1 w1 9 21 1 50 true = some (w3, .parked "chan send") ∧
        (w3.sudogs 21).elem = 0 ∧ WaitQ.holds w3.sudogs (w3.chans 1).sendq [21] ∧
        (w3.chans 1).qcount = 1) := by
  refine ⟨⟨by decide, by decide, by decide, by decide, rfl, rfl, rfl, rfl, ⟨rfl, Or.inl rfl⟩,
    by decide⟩, ?_⟩
  obtain ⟨w1, h1, ⟨w2, h2, h3, _⟩, ⟨w3, h4, h5, _, _, h6, h7, _⟩⟩ :=
    C10_capacity_bound linux64 0 oneSlotWorld 1 1 7 8 true [50] 9 21 50 [] (by decide)
      (by decide) (by decide) (by decide) rfl rfl rfl rfl rfl ⟨rfl, Or.inl rfl⟩ (by decide)
      (by simp)
  exact ⟨w1, h1, ⟨w2, h2, h3⟩, ⟨w3, h4, h5, h6, h7⟩⟩

/-! ## C5: the hand-off on an unbuffered channel -/

/-- A receive on an open unbuffered channel whose send queue has `x` as its
first unclaimed sudog. -/
theorem chanrecv_handoff (pf : Platform) (fuel : Nat) (w : World) (g mysg c ep received : Ptr)
    (block : Bool) (pre post : List Ptr) (x : Ptr) (hc : c ≠ 0)
    (hopen : (w.chans c).closed = false) (hunb : (w.chans c).dataqsiz = 0)
    (hq0 : (w.chans c).qcount = 0)
    (hl : isList w.sudogs (w.chans c).sendq.first (pre ++ x :: post))
    (hpre : ∀ p ∈ pre, claimed w.sudogs w.words p = true)
    (hx : claimed w.sudogs w.words x = false) (hfuel : pre.length < fuel)
    (hep : ep ≠ 0) (hrecv : received ≠ 0) :
    ∃ w1, chanrecv fuel w g mysg c ep received block = some (w1, .returned true) ∧
      w1.bools received = true ∧
      readBytes w1.mem ep (w.chans c).elemsize
        = readBytes w.mem (w.sudogs x).elem (w.chans c).elemsize ∧
      isList w1.sudogs (w1.chans c).sendq.first post ∧
      x ≠ 0 ∧ w1.param (w.sudogs x).g = x ∧
      w1.trace = (profileStart (gcYield w)).1.trace ++
        [Event.lock c, Event.unlock c, Event.ready (w.sudogs x).g] ∧
      w1.words = claim w.sudogs w.words x ∧
      (w1.chans c).recvq = (w.chans c).recvq ∧ (w1.chans c).closed = false ∧
      reflect_chanlen pf w1 c = 0 := by
  have hd := dequeue_first_unclaimed w.sudogs w.words x post hx pre fuel (w.chans c).sendq hl
    hpre hfuel
  have hxl := isList_append w.sudogs x post pre _ hl
  have hz : toIntgo pf 0 = 0 := by simp [toIntgo]
  simp only [chanrecv, hc, if_false, log_chans, profileStart_chans, gcYield_chans, hunb,
    gt_iff_lt, Nat.lt_irrefl, hopen, Bool.false_eq_true, dequeueSendq, log_sudogs,
    profileStart_sudogs, gcYield_sudogs, log_words, profileStart_words, gcYield_words, hd,
    ne_eq, hxl.1, not_false_eq_true, if_true, hep]
  refine ⟨_, rfl, ?_, ?_, ?_, trivial, ?_, ?_, ?_, ?_, ?_, ?_⟩
  · exact setReceived_bools _ _ _ hrecv
  · simp [readBytes_memmove_same]
  · simp only [setReceived_sudogs, log_sudogs, setReceived_chans, log_chans, stampRelease_chans,
      Function.update_same]
    exact isList_congr (sameLinks_symm (stampRelease_sameLinks _ x)) post _ hxl.2
  · simp
  · simp
  · simp
  · simp
  · simp [hopen]
  · simp [reflect_chanlen, hc, hq0, hz]

/-- A send on an open unbuffered channel whose receive queue has `y` as its
first unclaimed sudog. -/
theorem chansend_handoff (pf : Platform) (fuel : Nat) (w : World) (g mysg c ep : Ptr)
    (block : Bool) (pre post : List Ptr) (y : Ptr) (hc : c ≠ 0)
    (hopen : (w.chans c).closed = false) (hunb : (w.chans c).dataqsiz = 0)
    (hq0 : (w.chans c).qcount = 0)
    (hl : isList w.sudogs (w.chans c).recvq.first (pre ++ y :: post))
    (hpre : ∀ p ∈ pre, claimed w.sudogs w.words p = true)
    (hy : claimed w.sudogs w.words y = false) (hfuel : pre.length < fuel) :
    ∃ w1, chansend fuel w g mysg c ep block = some (w1, .returned true) ∧
      ((w.sudogs y).elem ≠ 0 →
        readBytes w1.mem (w.sudogs y).elem (w.chans c).elemsize
          = readBytes w.mem ep (w.chans c).elemsize) ∧
      isList w1.sudogs (w1.chans c).recvq.first post ∧
      y ≠ 0 ∧ w1.param (w.sudogs y).g = y ∧
      w1.trace = (profileStart (gcYield w)).1.trace ++
        [Event.lock c, Event.unlock c, Event.ready (w.sudogs y).g] ∧
      w1.words = claim w.sudogs w.words y ∧
      (w1.chans c).sendq = (w.chans c).sendq ∧ (w1.chans c).closed = false ∧
      reflect_chanlen pf w1 c = 0 := by
  have hd := dequeue_first_unclaimed w.sudogs w.words y post hy pre fuel (w.chans c).recvq hl
    hpre hfuel
  have hyl := isList_append w.sudogs y post pre _ hl
  have hz : toIntgo pf 0 = 0 := by simp [toIntgo]
  simp only [chansend, hc, if_false, log_chans, profileStart_chans, gcYield_chans, hunb,
    gt_iff_lt, Nat.lt_irrefl, hopen, Bool.false_eq_true, dequeueRecvq, log_sudogs,
    profileStart_sudogs, gcYield_sudogs, log_words, profileStart_words, gcYield_words, hd,
    ne_eq, hyl.1, not_false_eq_true, if_true]
  refine ⟨_, rfl, ?_, ?_, trivial, ?_, ?_, ?_, ?_, ?_, ?_⟩
  · intro he
    simp [he, readBytes_memmove_same]
  · simp only [log_sudogs, log_chans, stampRelease_chans]
    refine isList_congr (sameLinks_symm (stampRelease_sameLinks _ y)) post _ ?_
    split <;> simpa using hyl.2
  · simp only [log_param, stampRelease_param]
    split <;> simp
  · simp only [log_trace, stampRelease_trace]
    split <;> simp
  · simp only [log_words, stampRelease_words]
    split <;> simp
  · simp only [log_chans, stampRelease_chans]
    split <;> simp
  · simp only [log_chans, stampRelease_chans]
    split <;> simp [hopen]
  · simp only [reflect_chanlen, hc, if_false, log_chans, stampRelease_chans]
    split <;> simp [hq0, hz]

/-- C5: on an open unbuffered channel (`dataqsiz = 0`, `qcount = 0`) whose
send queue has the sudog `x` as its oldest unclaimed waiter, behind the
claimed sudogs `pre`, a receive with either `block` flag returns selected
`true`, stores received `true`, leaves at `ep` the `elemsize` bytes found at
the element pointer of `x`, takes `x` and the sudogs before it off the queue
(the sudogs `post` stay), gives the routine of `x` the non-nil wake token `x`
and readies it after the unlock, and `len` is `0`.  Symmetrically, when the
receive queue has `y` as its oldest unclaimed waiter, a send of the element
at `ep` returns `true`, having copied the `elemsize` bytes at `ep` to the
element pointer of `y` when that is non-nil, given the routine of `y` the
wake token `y` and readied it. -/
theorem C5_unbuffered_handoff (pf : Platform) :
    (∀ (fuel : Nat) (w : World) (g mysg c ep received : Ptr) (block : Bool)
        (pre post : List Ptr) (x : Ptr),
      c ≠ 0 → (w.chans c).closed = false → (w.chans c).dataqsiz = 0 → (w.chans c).qcount = 0 →
      isList w.sudogs (w.chans c).sendq.first (pre ++ x :: post) →
      (∀ p ∈ pre, claimed w.sudogs w.words p = true) → claimed w.sudogs w.words x = false →
      pre.length < fuel → ep ≠ 0 → received ≠ 0 →
      ∃ w1, chanrecv fuel w g mysg c ep received block = some (w1, .returned true) ∧
        w1.bools received = true ∧
        readBytes w1.mem ep (w.chans c).elemsize
          = readBytes w.mem (w.sudogs x).elem (w.chans c).elemsize ∧
        isList w1.sudogs (w1.chans c).sendq.first post ∧
        x ≠ 0 ∧ w1.param (w.sudogs x).g = x ∧
        w1.trace = (profileStart (gcYield w)).1.trace ++
          [Event.lock c, Event.unlock c, Event.ready (w.sudogs x).g] ∧
        reflect_chanlen pf w1 c = 0) ∧
    (∀ (fuel : Nat) (w : World) (g mysg c ep : Ptr) (block : Bool)
        (pre post : List Ptr) (y : Ptr),
      c ≠ 0 → (w.chans c).closed = false → (w.chans c).dataqsiz = 0 → (w.chans c).qcount = 0 →
      isList w.sudogs (w.chans c).recvq.first (pre ++ y :: post) →
      (∀ p ∈ pre, claimed w.sudogs w.words p = true) → claimed w.sudogs w.words y = false →
      pre.length < fuel →
      ∃ w1, chansend fuel w g mysg c ep block = some (w1, .returned true) ∧
        ((w.sudogs y).elem ≠ 0 →
          readBytes w1.mem (w.sudogs y).elem (w.chans c).elemsize
            = readBytes w.mem ep (w.chans c).elemsize) ∧
        isList w1.sudogs (w1.chans c).recvq.first post ∧
        y ≠ 0 ∧ w1.param (w.sudogs y).g = y ∧
        w1.trace = (profileStart (gcYield w)).1.trace ++
          [Event.lock c, Event.unlock c, Event.ready (w.sudogs y).g] ∧
        reflect_chanlen pf w1 c = 0) := by
  constructor
  · intro fuel w g mysg c ep received block pre post x hc hopen hunb hq0 hl hpre hx hfuel hep hrecv
    obtain ⟨w1, h1, h2, h3, h4, h5, h6, h7, _, _, _, h11⟩ :=
      chanrecv_handoff pf fuel w g mysg c ep received block pre post x hc hopen hunb hq0 hl hpre
        hx hfuel hep hrecv
    exact ⟨w1, h1, h2, h3, h4, h5, h6, h7, h11⟩
  · intro fuel w g mysg c ep block pre post y hc hopen hunb hq0 hl hpre hy hfuel
    obtain ⟨w1, h1, h2, h3, h4, h5, h6, _, _, _, h10⟩ :=
      chansend_handoff pf fuel w g mysg c ep block pre post y hc hopen hunb hq0 hl hpre hy hfuel
    exact ⟨w1, h1, h2, h3, h4, h5, h6, h10⟩

/-- Worked instance of C5: a receive takes the byte 42 from the sender parked
on the channel at address 1, and a send hands the byte 17 to the receiver
parked there. -/
theorem C5_unbuffered_handoff_witness :
    (∃ w1, chanrecv 1 sendWaitWorld 7 8 1 50 5 false = some (w1, .returned true) ∧
      w1.bools 5 = true ∧ readBytes w1.mem 50 1 = [42] ∧ w1.param 30 = 20 ∧
      (w1.chans 1).sendq.first = 0 ∧ reflect_chanlen linux64 w1 1 = 0) ∧
    (∃ w1, chansend 1 recvWaitWorld 7 8 1 50 true = some (w1, .returned true) ∧
      readBytes w1.mem 40 1 = [17] ∧ w1.param 30 = 20 ∧
      (w1.chans 1).recvq.first = 0 ∧ reflect_chanlen linux64 w1 1 = 0) := by
  constructor
  · obtain ⟨w1, h1, h2, h3, h4, _, h6, _, h8⟩ :=
      (C5_unbuffered_handoff linux64).1 1 sendWaitWorld 7 8 1 50 5 false [] [] 20 (by decide) rfl
        rfl rfl ⟨rfl, by decide, rfl⟩ (by simp) (by decide) (by decide) (by decide) (by decide)
    exact ⟨w1, h1, h2, h3, h6, h4, h8⟩
  · obtain ⟨w1, h1, h2, h3, _, h5, _, h7⟩ :=
      (C5_unbuffered_handoff linux64).2 1 recvWaitWorld 7 8 1 50 true [] [] 20 (by decide) rfl
        rfl rfl ⟨rfl, by decide, rfl⟩ (by simp) (by decide) (by decide)
    exact ⟨w1, h1, h2 (by decide), h5, h3, h7⟩

/-! ## C4: receive after close -/

/-- C4 fails as stated: after `closechan` has returned on the channel that
still holds the byte 42, a receive returns that byte with received `true`,
not zero bytes with received `false`. -/
theorem C4_counterexample :
    (closechan 2 fullWorld 1).map (fun r => r.2) = some (.returned ()) ∧
    ((closechan 2 fullWorld 1).bind (fun r => chanrecv 1 r.1 7 8 1 60 5 false)).map
      (fun r => (r.2, r.1.bools 5, readBytes r.1.mem 60 1))
      = some (.returned true, true, [42]) := by
  decide

/-- C4, amended: on a channel that has been closed (closed flag set, send
queue drained, `qcount ≤ dataqsiz`) a receive never parks, with either
`block` flag: it returns selected `true`.  When nothing is buffered it stores
received `false` and zero bytes and leaves the channel as it is; while
elements are buffered it stores received `true` and the oldest buffered
element, and takes that element off the buffer.  The channel is then still
closed with its send queue empty, so the same holds for every later
receive. -/
theorem C4_recv_after_close (fuel : Nat) (w : World) (g mysg c ep received : Ptr) (block : Bool)
    (hc : c ≠ 0) (hclosed : (w.chans c).closed = true) (hsq : (w.chans c).sendq.first = 0)
    (hle : (w.chans c).qcount ≤ (w.chans c).dataqsiz) :
    ∃ w1, chanrecv (fuel + 1) w g mysg c ep received block = some (w1, .returned true) ∧
      ((w.chans c).qcount = 0 →
        (received ≠ 0 → w1.bools received = false) ∧
        (ep ≠ 0 → readBytes w1.mem ep (w.chans c).elemsize
          = List.replicate (w.chans c).elemsize 0) ∧
        w1.chans = w.chans) ∧
      (0 < (w.chans c).qcount →
        (received ≠ 0 → w1.bools received = true) ∧
        (ep ≠ 0 → readBytes w1.mem ep (w.chans c).elemsize = slot (w.chans c) (w.chans c).recvx) ∧
        (w1.chans c).qcount = (w.chans c).qcount - 1) ∧
      (w1.chans c).closed = true ∧ (w1.chans c).sendq.first = 0 ∧
      (w1.chans c).qcount ≤ (w1.chans c).dataqsiz ∧
      (w1.chans c).dataqsiz = (w.chans c).dataqsiz := by
  by_cases hq : (w.chans c).qcount = 0
  · obtain ⟨w1, h1, h2, h3, _, h5, _⟩ :=
      chanrecv_closed_empty (fuel + 1) w g mysg c ep received block hc hclosed hq
    refine ⟨w1, h1, fun _ => ⟨h2, h3, h5⟩, fun hpos => absurd hq (by omega), ?_, ?_, ?_, ?_⟩
    · rw [h5]; exact hclosed
    · rw [h5]; exact hsq
    · rw [h5]; exact hle
    · rw [h5]
  · have hitem : 0 < (w.chans c).qcount := by omega
    obtain ⟨w1, h1, h2, h3, h4, _⟩ :=
      chanrecv_item fuel w g mysg c ep received block hc (by omega) hitem hsq
    refine ⟨w1, h1, fun h0 => absurd h0 hq, fun _ => ⟨h4, ?_, by rw [h2]; simp⟩, ?_, ?_, ?_, ?_⟩
    · intro hep
      rw [h3, if_pos hep, readBytes_memmove_same]
      rfl
    · rw [h2]; simpa using hclosed
    · rw [h2]; simpa using hsq
    · rw [h2]; simp; omega
    · rw [h2]; simp

/-- Worked instance of C4, amended: the receive on the closed channel that
still holds the byte 42 delivers it with received `true`. -/
theorem C4_recv_after_close_witness :
    ((1 : Ptr) ≠ 0 ∧ ((fullWorld.setChan 1 { fullWorld.chans 1 with closed := true }).chans 1).closed
      = true) ∧
    ∃ w1, chanrecv 1 (fullWorld.setChan 1 { fullWorld.chans 1 with closed := true }) 7 8 1 60 5 true
        = some (w1, .returned true) ∧
      w1.bools 5 = true ∧ readBytes w1.mem 60 1 = [42] ∧ (w1.chans 1).qcount = 0 := by
  refine ⟨⟨by decide, rfl⟩, ?_⟩
  obtain ⟨w1, h1, _, h3, _⟩ :=
    C4_recv_after_close 0 (fullWorld.setChan 1 { fullWorld.chans 1 with closed := true }) 7 8 1 60
      5 true (by decide) rfl rfl (by decide)
  obtain ⟨h4, h5, h6⟩ := h3 (by decide)
  exact ⟨w1, h1, h4 (by decide), h5 (by decide), h6⟩

/-- The worked states are well formed: the queues of the parked worlds are
lists and the ring of the wrapped world satisfies its invariant. -/
theorem worked_states_wellformed :
    isList recvWaitWorld.sudogs (recvWaitWorld.chans 1).recvq.first [20] ∧
    WaitQ.holds sendWaitWorld.sudogs (sendWaitWorld.chans 1).sendq [20] ∧
    ringInv (ringWorld.chans 1) := by
  decide

/-! ## Arrays as functions: swaps and permutations -/

/-- Writing `p j` to slot `i` and the old `p i` to slot `j` is `p` after the
transposition of `i` and `j`. -/
theorem update_swap_eq (p : Nat → Nat) (i j : Nat) :
    Function.update (Function.update p i (p j)) j (p i) = p ∘ (Equiv.swap i j) := by
  funext x
  simp only [Function.comp, Function.update_apply, Equiv.swap_apply_def]
  by_cases h1 : x = j
  · subst h1
    by_cases h2 : x = i
    · subst h2; simp
    · simp [h2]
  · by_cases h2 : x = i
    · subst h2
      simp [h1]
    · simp [h1, h2]

/-- A permutation of the indices that keeps `[0, n)` gives a permutation of
the first `n` indices. -/
theorem perm_map_range (σ : Equiv.Perm Nat) (n : Nat) (h : ∀ k, σ k < n ↔ k < n) :
    ((List.range n).map σ).Perm (List.range n) := by
  apply (List.perm_ext_iff_of_nodup ((List.nodup_range n).map σ.injective)
    (List.nodup_range n)).mpr
  intro a
  simp only [List.mem_map, List.mem_range]
  constructor
  · rintro ⟨k, hk, rfl⟩
    exact (h k).mpr hk
  · intro ha
    exact ⟨σ.symm a, by rw [← h]; simpa using ha, by simp⟩

/-- Reading an array through such a permutation of the indices permutes its
first `n` entries. -/
theorem perm_map_comp (b : Nat → Nat) (σ : Equiv.Perm Nat) (n : Nat)
    (h : ∀ k, σ k < n ↔ k < n) :
    ((List.range n).map (b ∘ σ)).Perm ((List.range n).map b) := by
  rw [← List.map_map]
  exact (perm_map_range σ n h).map b

theorem swap_lt_iff (i j n : Nat) (hi : i < n) (hj : j < n) (k : Nat) :
    (Equiv.swap i j) k < n ↔ k < n := by
  rw [Equiv.swap_apply_def]
  split
  · omega
  · split <;> omega

/-- Swapping two of the first `n` entries of an array permutes them. -/
theorem perm_map_comp_swap (b : Nat → Nat) (i j n : Nat) (hi : i < n) (hj : j < n) :
    ((List.range n).map (b ∘ (Equiv.swap i j))).Perm ((List.range n).map b) :=
  perm_map_comp b _ n (swap_lt_iff i j n hi hj)

/-! ## The poll order is a permutation -/

/-- The transpositions the shuffle performs in the iterations `i`, ..,
`i + r - 1`, composed. -/
theorem shuffle_loop_eq (fastrand : Nat → Nat) :
    ∀ (r i : Nat) (p : Nat → Nat), ∃ σ : Equiv.Perm Nat,
      shuffle_loop fastrand r i p = p ∘ σ ∧ (∀ k, i + r ≤ k → σ k = k) ∧
      (∀ n, i + r ≤ n → ∀ k, σ k < n ↔ k < n)
  | 0, i, p => ⟨1, rfl, fun _ _ => rfl, fun _ _ _ => Iff.rfl⟩
  | r + 1, i, p => by
    obtain ⟨σ, h1, h2, h3⟩ := shuffle_loop_eq fastrand r (i + 1)
      (Function.update (Function.update p i (p (fastrand i % (i + 1)))) (fastrand i % (i + 1)) (p i))
    have hj : fastrand i % (i + 1) < i + 1 := Nat.mod_lt _ (by omega)
    refine ⟨Equiv.swap i (fastrand i % (i + 1)) * σ, ?_, ?_, ?_⟩
    · show shuffle_loop fastrand r (i + 1) (Function.update (Function.update p i
        (p (fastrand i % (i + 1)))) (fastrand i % (i + 1)) (p i)) = _
      rw [h1, update_swap_eq]
      rfl
    · intro k hk
      rw [Equiv.Perm.mul_apply, h2 k (by omega), Equiv.swap_apply_def]
      rw [if_neg (by omega), if_neg (by omega)]
    · intro n hn k
      rw [Equiv.Perm.mul_apply, swap_lt_iff i _ n (by omega) (by omega)]
      exact h3 n (by omega) k

/-- C19: for every number `n` of cases and whatever `runtime_fastrand1`
returns, the first `n` entries of the poll order that `selectgo` generates
are a permutation of `0, .., n - 1`; so every case index below `n` is at
exactly one position of the poll order, and pass 1 and pass 2, which visit
`scase[pollorder[i]]` for `i < n`, visit every case exactly once. -/
theorem C19_pollorder_perm (fastrand : Nat → Nat) (n : Nat) (p0 : Nat → Nat) :
    ((List.range n).map (gen_pollorder fastrand n p0)).Perm (List.range n) ∧
    (∀ i, i < n → gen_pollorder fastrand n p0 i < n) ∧
    (∀ k, k < n → ∃ i, i < n ∧ gen_pollorder fastrand n p0 i = k ∧
      ∀ i2, i2 < n → gen_pollorder fastrand n p0 i2 = k → i2 = i) := by
  rcases Nat.eq_zero_or_pos n with hn0 | hnpos
  · subst hn0
    exact ⟨by simp, fun i hi => absurd hi (by omega), fun k hk => absurd hk (by omega)⟩
  obtain ⟨σ, h1, _, h3⟩ := shuffle_loop_eq fastrand (n - 1) 1 (pollorder_fill n p0)
  have hval : ∀ i, i < n → gen_pollorder fastrand n p0 i = σ i := by
    intro i hi
    have hs : σ i < n := (h3 n (by omega) i).mpr hi
    simp only [gen_pollorder, h1, Function.comp, pollorder_fill, hs, if_true]
  have hperm : ((List.range n).map (gen_pollorder fastrand n p0)).Perm (List.range n) := by
    have : (List.range n).map (gen_pollorder fastrand n p0) = (List.range n).map σ :=
      List.map_congr_left (fun i hi => hval i (List.mem_range.mp hi))
    rw [this]
    exact perm_map_range σ n (h3 n (by omega))
  refine ⟨hperm, ?_, ?_⟩
  · intro i hi
    rw [hval i hi]
    exact (h3 n (by omega) i).mpr hi
  · intro k hk
    refine ⟨σ.symm k, ?_, ?_, ?_⟩
    · rw [← h3 n (by omega)]; simpa using hk
    · rw [hval _ (by rw [← h3 n (by omega)]; simpa using hk)]
      simp
    · intro i2 hi2 he
      rw [hval i2 hi2] at he
      rw [← he]
      simp

/-! ## The shuffle is a bijection from draws to permutations -/

theorem shuffle_loop_perm (fastrand : Nat → Nat) :
    ∀ (r i : Nat) (p : Nat → Nat), shuffle_loop fastrand r i p = p ∘ shufflePerm fastrand r i
  | 0, _, _ => rfl
  | r + 1, i, p => by
    show shuffle_loop fastrand r (i + 1) (Function.update (Function.update p i
      (p (fastrand i % (i + 1)))) (fastrand i % (i + 1)) (p i)) = _
    rw [shuffle_loop_perm fastrand r (i + 1), update_swap_eq]
    rfl

theorem shufflePerm_fix (fastrand : Nat → Nat) :
    ∀ (r i k : Nat), i + r ≤ k → shufflePerm fastrand r i k = k
  | 0, _, _, _ => rfl
  | r + 1, i, k, hk => by
    have hj : fastrand i % (i + 1) < i + 1 := Nat.mod_lt _ (by omega)
    rw [shufflePerm, Equiv.Perm.mul_apply, shufflePerm_fix fastrand r (i + 1) k (by omega),
      Equiv.swap_apply_def, if_neg (by omega), if_neg (by omega)]

theorem shufflePerm_lt_iff (fastrand : Nat → Nat) :
    ∀ (r i n : Nat), i + r ≤ n → ∀ k, shufflePerm fastrand r i k < n ↔ k < n
  | 0, _, _, _, _ => Iff.rfl
  | r + 1, i, n, hn, k => by
    have hj : fastrand i % (i + 1) < i + 1 := Nat.mod_lt _ (by omega)
    rw [shufflePerm, Equiv.Perm.mul_apply, swap_lt_iff i _ n (by omega) (by omega)]
    exact shufflePerm_lt_iff fastrand r (i + 1) n (by omega) k

/-- The last iteration of the shuffle, split off. -/
theorem shufflePerm_snoc (fastrand : Nat → Nat) :
    ∀ (r i : Nat), shufflePerm fastrand (r + 1) i
      = shufflePerm fastrand r i * Equiv.swap (i + r) (fastrand (i + r) % (i + r + 1))
  | 0, i => by simp [shufflePerm]
  | r + 1, i => by
    rw [shufflePerm, shufflePerm_snoc fastrand r (i + 1), shufflePerm, mul_assoc]
    have : i + 1 + r = i + (r + 1) := by omega
    rw [this]

/-- The permutation depends on the draws of its own iterations only. -/
theorem shufflePerm_congr (f1 f2 : Nat → Nat) :
    ∀ (r i : Nat), (∀ k, i ≤ k → k < i + r → f1 k = f2 k) →
      shufflePerm f1 r i = shufflePerm f2 r i
  | 0, _, _ => rfl
  | r + 1, i, h => by
    rw [shufflePerm, shufflePerm, h i (by omega) (by omega),
      shufflePerm_congr f1 f2 r (i + 1) (fun k h1 h2 => h k (by omega) (by omega))]

/-- The poll order on the first `n` indices is the product of the
transpositions. -/
theorem gen_pollorder_val (fastrand : Nat → Nat) (n : Nat) (p0 : Nat → Nat) (i : Nat)
    (hi : i < n) : gen_pollorder fastrand n p0 i = shufflePerm fastrand (n - 1) 1 i := by
  have hs : shufflePerm fastrand (n - 1) 1 i < n :=
    (shufflePerm_lt_iff fastrand (n - 1) 1 n (by omega) i).mpr hi
  simp only [gen_pollorder, shuffle_loop_perm, Function.comp, pollorder_fill, hs, if_true]

/-- Two sequences of draws that give the same permutation are the same. -/
theorem shufflePerm_injective (f1 f2 : Nat → Nat) :
    ∀ m : Nat, shufflePerm f1 m 1 = shufflePerm f2 m 1 →
      ∀ i, 1 ≤ i → i ≤ m → f1 i % (i + 1) = f2 i % (i + 1)
  | 0, _, i, h1, h2 => by omega
  | m + 1, h, i, hi1, hi2 => by
    rw [shufflePerm_snoc, shufflePerm_snoc] at h
    have hj1 : f1 (1 + m) % (1 + m + 1) < 1 + m + 1 := Nat.mod_lt _ (by omega)
    have hj2 : f2 (1 + m) % (1 + m + 1) < 1 + m + 1 := Nat.mod_lt _ (by omega)
    have hlast : f1 (1 + m) % (1 + m + 1) = f2 (1 + m) % (1 + m + 1) := by
      by_contra hne
      have e := congrArg (fun σ : Equiv.Perm Nat => σ (f1 (1 + m) % (1 + m + 1))) h
      simp only [Equiv.Perm.mul_apply, Equiv.swap_apply_right] at e
      rw [shufflePerm_fix f1 m 1 (1 + m) (by omega)] at e
      have hx : Equiv.swap (1 + m) (f2 (1 + m) % (1 + m + 1)) (f1 (1 + m) % (1 + m + 1))
          < 1 + m := by
        rw [Equiv.swap_apply_def]
        split_ifs <;> omega
      have := (shufflePerm_lt_iff f2 m 1 (1 + m) (by omega) _).mpr hx
      omega
    rw [hlast] at h
    have h' : shufflePerm f1 m 1 = shufflePerm f2 m 1 := mul_right_cancel h
    by_cases him : i ≤ m
    · exact shufflePerm_injective f1 f2 m h' i hi1 him
    · have : i = 1 + m := by omega
      subst this
      exact hlast

/-- Every permutation of `0, .., m` comes from a sequence of draws. -/
theorem shufflePerm_surjective :
    ∀ (m : Nat) (q : Nat → Nat), ((List.range (m + 1)).map q).Perm (List.range (m + 1)) →
      ∃ f : Nat → Nat, (∀ i, f i ≤ i) ∧ ∀ k, k ≤ m → shufflePerm f m 1 k = q k
  | 0, q, h => by
    refine ⟨fun _ => 0, fun _ => Nat.zero_le _, ?_⟩
    intro k hk
    have hk0 : k = 0 := by omega
    subst hk0
    have := h.mem_iff (a := q 0)
    simp at this
    simp [shufflePerm, this]
  | m + 1, q, h => by
    have hmem : m + 1 ∈ (List.range (m + 1 + 1)).map q :=
      h.mem_iff.mpr (List.mem_range.mpr (by omega))
    obtain ⟨j, hj, hqj⟩ := List.mem_map.mp hmem
    have hj2 : j < m + 2 := List.mem_range.mp hj
    have hq' : ((List.range (m + 1)).map (q ∘ Equiv.swap (m + 1) j)).Perm (List.range (m + 1)) := by
      have h1 := (perm_map_comp_swap q (m + 1) j (m + 2) (by omega) hj2).trans h
      rw [List.range_succ, List.map_append] at h1
      simp only [List.map_cons, List.map_nil, Function.comp, Equiv.swap_apply_left, hqj] at h1
      exact (List.perm_append_right_iff _).mp h1
    obtain ⟨f', hf', hval⟩ := shufflePerm_surjective m (q ∘ Equiv.swap (m + 1) j) hq'
    refine ⟨Function.update f' (m + 1) j, ?_, ?_⟩
    · intro i
      by_cases hi : i = m + 1
      · subst hi; simp; omega
      · rw [Function.update_noteq hi]; exact hf' i
    · intro k hk
      have hcong : shufflePerm (Function.update f' (m + 1) j) m 1 = shufflePerm f' m 1 :=
        shufflePerm_congr _ _ m 1 (fun x _ hx => Function.update_noteq (by omega) _ _)
      have hmod : j % (1 + m + 1) = j := Nat.mod_eq_of_lt (by omega)
      rw [shufflePerm_snoc, hcong, Equiv.Perm.mul_apply]
      have h1m : 1 + m = m + 1 := by omega
      have hup : Function.update f' (m + 1) j (1 + m) = j := by
        rw [h1m]; exact Function.update_same _ _ _
      rw [hup, hmod, h1m]
      by_cases hx : Equiv.swap (m + 1) j k ≤ m
      · rw [hval _ hx]
        simp [Function.comp]
      · have hxle : Equiv.swap (m + 1) j k < m + 2 :=
          (swap_lt_iff (m + 1) j (m + 2) (by omega) hj2 k).mpr (by omega)
        have hxe : Equiv.swap (m + 1) j k = m + 1 := by omega
        rw [hxe, shufflePerm_fix f' m 1 (m + 1) (by omega)]
        have hk2 : k = j := by
          have := congrArg (Equiv.swap (m + 1) j) hxe
          simpa using this
        rw [hk2, hqj]

/-- C14: for every number `n` of cases the shuffle of `selectgo` maps the
sequences of draws `j_1, .., j_(n-1)` with `j_i ≤ i` (the code draws
`j_i = fastrand1() mod (i + 1)`) one to one onto the permutations of
`0, .., n - 1`: every poll order is a permutation, two runs with the same poll
order had the same draws, and every permutation is the poll order of some
draws.  So when the draws are uniform and independent every permutation is
equally likely, and so is each position of a case in the scan. -/
theorem C14_shuffle_bijection (n : Nat) :
    (∀ (f : Nat → Nat) (p0 : Nat → Nat),
      ((List.range n).map (gen_pollorder f n p0)).Perm (List.range n)) ∧
    (∀ (f1 f2 : Nat → Nat) (p1 p2 : Nat → Nat),
      (∀ k, k < n → gen_pollorder f1 n p1 k = gen_pollorder f2 n p2 k) →
      ∀ i, 1 ≤ i → i < n → f1 i % (i + 1) = f2 i % (i + 1)) ∧
    (∀ q : List Nat, q.Perm (List.range n) →
      ∃ f : Nat → Nat, (∀ i, f i ≤ i) ∧
        ∀ p0 : Nat → Nat, (List.range n).map (gen_pollorder f n p0) = q) := by
  refine ⟨?_, ?_, ?_⟩
  · intro f p0
    have : (List.range n).map (gen_pollorder f n p0)
        = (List.range n).map (shufflePerm f (n - 1) 1) :=
      List.map_congr_left (fun i hi => gen_pollorder_val f n p0 i (List.mem_range.mp hi))
    rw [this]
    rcases Nat.eq_zero_or_pos n with h0 | hpos
    · subst h0; simp
    · exact perm_map_range _ n (shufflePerm_lt_iff f (n - 1) 1 n (by omega))
  · intro f1 f2 p1 p2 h i hi1 hin
    apply shufflePerm_injective f1 f2 (n - 1) _ i hi1 (by omega)
    apply Equiv.ext
    intro k
    by_cases hk : k < n
    · rw [← gen_pollorder_val f1 n p1 k hk, ← gen_pollorder_val f2 n p2 k hk]
      exact h k hk
    · rw [shufflePerm_fix f1 (n - 1) 1 k (by omega), shufflePerm_fix f2 (n - 1) 1 k (by omega)]
  · intro q hq
    rcases Nat.eq_zero_or_pos n with h0 | hpos
    · subst h0
      have : q = [] := by simpa using hq
      exact ⟨fun _ => 0, fun _ => Nat.zero_le _, fun _ => by simp [this]⟩
    · obtain ⟨m, rfl⟩ : ∃ m, n = m + 1 := ⟨n - 1, by omega⟩
      have hlen : q.length = m + 1 := by simpa using hq.length_eq
      have hqf : (List.range (m + 1)).map (fun k => q.getD k 0) = q := by
        apply List.ext_getElem
        · simp [hlen]
        · intro i h1 h2
          simp only [List.getElem_map, List.getElem_range]
          exact List.getD_eq_getElem _ _ h2
      obtain ⟨f, hf, hval⟩ := shufflePerm_surjective m (fun k => q.getD k 0) (by rw [hqf]; exact hq)
      refine ⟨f, hf, fun p0 => ?_⟩
      rw [← hqf]
      apply List.map_congr_left
      intro k hk
      have hk2 := List.mem_range.mp hk
      rw [gen_pollorder_val f (m + 1) p0 k hk2]
      exact hval k (by omega)

/-! ## C18: the locks are taken in ascending order and released in reverse -/

/-- A lock order sorted between neighbours is monotone. -/
theorem lockorder_mono (lo : Nat → Nat) (n : Nat)
    (hs : ∀ i, i + 1 < n → lo i ≤ lo (i + 1)) :
    ∀ j, j < n → ∀ i, i ≤ j → lo i ≤ lo j := by
  intro j
  induction j with
  | zero => intro _ i hi; have : i = 0 := by omega
            subst this; exact Nat.le_refl _
  | succ j ih =>
    intro hj i hi
    by_cases h : i = j + 1
    · subst h; exact Nat.le_refl _
    · exact Nat.le_trans (ih (by omega) i (by omega)) (hs j hj)

theorem sellock_loop_spec (lo : Nat → Nat) :
    ∀ (r i : Nat) (c : Nat) (w : World),
      (∀ k, i ≤ k → k + 1 < i + r → lo k ≤ lo (k + 1)) →
      (0 < i → lo (i - 1) ≤ lo i ∨ r = 0) →
      c = (if i = 0 then 0 else lo (i - 1)) →
      sellock_loop lo r i c w
        = { w with trace := w.trace ++
              (((List.range' i r).filter (firstAt lo)).map lo).map Event.lock }
  | 0, _, _, _, _, _, _ => by simp [sellock_loop]
  | r + 1, i, c, w, hs, hprev, hc => by
    have hnext : 0 < i + 1 → lo (i + 1 - 1) ≤ lo (i + 1) ∨ r = 0 := by
      intro _
      by_cases hr : r = 0
      · exact Or.inr hr
      · exact Or.inl (hs i (Nat.le_refl _) (by omega))
    have hs' : ∀ k, i + 1 ≤ k → k + 1 < i + 1 + r → lo k ≤ lo (k + 1) :=
      fun k h1 h2 => hs k (by omega) (by omega)
    have hcond : (lo i ≠ 0 ∧ lo i ≠ c) ↔ firstAt lo i = true := by
      subst hc
      simp only [firstAt, decide_eq_true_eq]
      by_cases hi : i = 0
      · subst hi; simp
      · simp only [hi, if_false, false_or]
        constructor
        · exact fun h => ⟨h.1, fun e => h.2 e.symm⟩
        · exact fun h => ⟨h.1, fun e => h.2 e.symm⟩
    rw [sellock_loop]
    by_cases hf : firstAt lo i = true
    · rw [if_pos (hcond.mpr hf),
        sellock_loop_spec lo r (i + 1) (lo i) _ hs' hnext (by simp)]
      simp [List.range'_succ, List.filter_cons, hf, World.log]
    · have hcl : lo i = 0 ∨ lo i = c := by
        by_contra hne
        push_neg at hne
        exact hf (hcond.mp hne)
      have hc' : c = (if i + 1 = 0 then 0 else lo (i + 1 - 1)) := by
        simp only [Nat.add_one_ne_zero, if_false, Nat.add_sub_cancel]
        rcases hcl with h0 | h0
        · subst hc
          by_cases hi : i = 0
          · subst hi; simp [h0]
          · simp only [hi, if_false]
            rcases hprev (by omega) with h1 | h1
            · omega
            · omega
        · exact h0.symm
      rw [if_neg (fun h => hf (hcond.mp h)),
        sellock_loop_spec lo r (i + 1) c _ hs' hnext hc']
      simp [List.range'_succ, List.filter_cons, hf]

theorem selunlock_loop_spec (lo : Nat → Nat) (r : Nat) :
    ∀ (m : Nat) (w : World),
      selunlock_loop lo r m w
        = { w with trace := w.trace ++
              ((((List.range m).filter
                (fun i => decide (r ≤ i ∧ ¬ (i > 0 ∧ lo (i - 1) = lo i)))).map
                  lo).reverse).map Event.unlock }
  | 0, _ => by simp [selunlock_loop]
  | m + 1, w => by
    rw [selunlock_loop]
    by_cases hr : m ≥ r
    · rw [if_pos hr]
      by_cases hd : m > 0 ∧ lo (m - 1) = lo m
      · simp only [hd, and_self, if_true]
        rw [selunlock_loop_spec lo r m]
        simp [List.range_succ, List.filter_append, List.filter_cons, hd]
      · rw [if_neg hd, selunlock_loop_spec lo r m]
        have hm : decide (r ≤ m ∧ ¬ (m > 0 ∧ lo (m - 1) = lo m)) = true := by
          simp only [decide_eq_true_eq]; exact ⟨hr, hd⟩
        simp only [List.range_succ, List.filter_append, List.filter_cons, hm, if_true,
          List.filter_nil, List.map_append, List.map_cons, List.map_nil, List.reverse_append,
          List.reverse_cons, List.reverse_nil, List.nil_append, List.cons_append, World.log,
          List.append_assoc]
    · rw [if_neg hr]
      have : (List.range (m + 1)).filter
          (fun i => decide (r ≤ i ∧ ¬ (i > 0 ∧ lo (i - 1) = lo i))) = [] := by
        rw [List.filter_eq_nil_iff]
        intro i hi
        have := List.mem_range.mp hi
        simp only [decide_eq_true_eq]
        omega
      rw [this]
      simp

/-- On a sorted lock order `selunlock` releases at the indices at which
`sellock` locks. -/
theorem selunlock_filter (lo : Nat → Nat) (n : Nat)
    (hs : ∀ i, i + 1 < n → lo i ≤ lo (i + 1)) :
    (List.range n).filter (fun i => decide ((if n > 0 ∧ lo 0 = 0 then 1 else 0) ≤ i ∧
        ¬ (i > 0 ∧ lo (i - 1) = lo i)))
      = (List.range n).filter (firstAt lo) := by
  apply List.filter_congr
  intro i hi
  have hin := List.mem_range.mp hi
  simp only [firstAt]
  rw [decide_eq_decide]
  by_cases h0 : i = 0
  · subst h0
    by_cases hz : lo 0 = 0
    · simp [hz, hin]
    · simp [hz]
  · have hle := hs (i - 1) (by omega)
    have e : i - 1 + 1 = i := by omega
    rw [e] at hle
    have hr : (if n > 0 ∧ lo 0 = 0 then 1 else 0) ≤ i := by split <;> omega
    simp only [hr, true_and, h0, false_or, gt_iff_lt, Nat.pos_of_ne_zero h0]
    constructor
    · intro h; exact ⟨by omega, h⟩
    · intro h; exact h.2

theorem lockList_sorted (lo : Nat → Nat) (n : Nat)
    (hs : ∀ i, i + 1 < n → lo i ≤ lo (i + 1)) :
    (lockList lo n).Pairwise (fun a b => a < b) := by
  rw [lockList, List.pairwise_map]
  have h1 : ((List.range n).filter (firstAt lo)).Pairwise (fun a b => a < b) :=
    List.Pairwise.filter _ (List.pairwise_lt_range n)
  refine List.Pairwise.imp_of_mem ?_ h1
  intro a b ha hb hab
  have hb1 := List.mem_filter.mp hb
  have hbn := List.mem_range.mp hb1.1
  have hf : lo b ≠ 0 ∧ (b = 0 ∨ lo (b - 1) ≠ lo b) := by simpa [firstAt] using hb1.2
  have hle := hs (b - 1) (by omega)
  have e : b - 1 + 1 = b := by omega
  rw [e] at hle
  have := lockorder_mono lo n hs (b - 1) (by omega) a (by omega)
  rcases hf.2 with h | h
  · omega
  · omega

theorem mem_lockList (lo : Nat → Nat) (n : Nat) (c : Nat) :
    c ∈ lockList lo n ↔ c ≠ 0 ∧ ∃ i, i < n ∧ lo i = c := by
  simp only [lockList, List.mem_map, List.mem_filter, List.mem_range, firstAt,
    decide_eq_true_eq]
  constructor
  · rintro ⟨i, ⟨hi, h0, _⟩, rfl⟩
    exact ⟨h0, i, hi, rfl⟩
  · rintro ⟨h0, hex⟩
    classical
    have hex2 : ∃ i, i < n ∧ lo i = c := hex
    refine ⟨Nat.find hex2, ⟨(Nat.find_spec hex2).1, ?_, ?_⟩, (Nat.find_spec hex2).2⟩
    · rw [(Nat.find_spec hex2).2]; exact h0
    · by_cases hz : Nat.find hex2 = 0
      · exact Or.inl hz
      · right
        intro e
        have hlt : Nat.find hex2 - 1 < Nat.find hex2 := by omega
        apply Nat.find_min hex2 hlt
        exact ⟨by have := (Nat.find_spec hex2).1; omega, by rw [e]; exact (Nat.find_spec hex2).2⟩

/-- C18: when the lock order of a select is sorted, `sellock` only appends to
the trace the locks of a list `L` of channels and `selunlock` only the unlocks
of `L` reversed, where `L` is strictly ascending (so without repetition) and
holds exactly the channels other than nil of the lock order: nil is never
locked or unlocked, and a channel shared by several cases is locked once. -/
theorem C18_lock_order (sel : Select) (w : World)
    (hs : ∀ i, i + 1 < sel.ncase → sel.lockorder i ≤ sel.lockorder (i + 1)) :
    ∃ L : List Ptr,
      sellock sel w = { w with trace := w.trace ++ L.map Event.lock } ∧
      selunlock sel w = { w with trace := w.trace ++ L.reverse.map Event.unlock } ∧
      L.Pairwise (fun a b => a < b) ∧ L.Nodup ∧
      (∀ c, c ∈ L ↔ c ≠ 0 ∧ ∃ i, i < sel.ncase ∧ sel.lockorder i = c) := by
  refine ⟨lockList sel.lockorder sel.ncase, ?_, ?_, lockList_sorted _ _ hs, ?_,
    mem_lockList _ _⟩
  · rw [sellock, sellock_loop_spec sel.lockorder sel.ncase 0 0 w
      (fun k _ hk => hs k (by omega)) (fun h => absurd h (by omega)) rfl]
    simp [lockList, List.range_eq_range']
  · simp only [selunlock]
    rw [selunlock_loop_spec, selunlock_filter _ _ hs]
    rfl
  · exact (lockList_sorted _ _ hs).imp (fun h => Nat.ne_of_lt h)

/-- The theorem `C18_lock_order` at a select of five cases on the channels 5
and 9 and a default case. -/
theorem C18_lock_order_witness :
    ∃ L : List Ptr,
      sellock lockSelect emptyWorld
        = { emptyWorld with trace := emptyWorld.trace ++ L.map Event.lock } ∧
      selunlock lockSelect emptyWorld
        = { emptyWorld with trace := emptyWorld.trace ++ L.reverse.map Event.unlock } ∧
      L.Pairwise (fun a b => a < b) ∧ L.Nodup ∧
      (∀ c, c ∈ L ↔ c ≠ 0 ∧ ∃ i, i < lockSelect.ncase ∧ lockSelect.lockorder i = c) :=
  C18_lock_order lockSelect emptyWorld (by
    intro i hi
    have hi5 : i + 1 < 5 := hi
    have : i = 0 ∨ i = 1 ∨ i = 2 ∨ i = 3 := by omega
    rcases this with h | h | h | h <;> subst h <;> decide)

/-! ## Rearrangements of an initial segment -/

theorem Rearr.rrefl (m : Nat) (b : Nat → Nat) : Rearr m b b :=
  ⟨1, rfl, fun _ _ => rfl⟩

theorem Rearr.rtrans {m : Nat} {b1 b2 b3 : Nat → Nat} (h1 : Rearr m b1 b2) (h2 : Rearr m b2 b3) :
    Rearr m b1 b3 := by
  obtain ⟨σ1, e1, f1⟩ := h1
  obtain ⟨σ2, e2, f2⟩ := h2
  refine ⟨σ1 * σ2, ?_, ?_⟩
  · rw [e2, e1]; rfl
  · intro k hk
    rw [Equiv.Perm.mul_apply, f2 k hk, f1 k hk]

theorem Rearr.mono {m n : Nat} {b1 b2 : Nat → Nat} (h : Rearr m b1 b2) (hmn : m ≤ n) :
    Rearr n b1 b2 := by
  obtain ⟨σ, e, f⟩ := h
  exact ⟨σ, e, fun k hk => f k (by omega)⟩

theorem Rearr.swap (m : Nat) (b : Nat → Nat) (i j : Nat) (hi : i < m) (hj : j < m) :
    Rearr m b (b ∘ Equiv.swap i j) := by
  refine ⟨Equiv.swap i j, rfl, ?_⟩
  intro k hk
  rw [Equiv.swap_apply_def, if_neg (by omega), if_neg (by omega)]

/-- A permutation that fixes the indices from `m` on keeps the indices below
`m` below `m`. -/
theorem perm_fix_lt (σ : Equiv.Perm Nat) (m : Nat) (f : ∀ k, m ≤ k → σ k = k) (k : Nat)
    (hk : k < m) : σ k < m := by
  by_contra h
  have h1 : σ (σ k) = σ k := f _ (by omega)
  have h2 : σ k = k := σ.injective h1
  omega

theorem Rearr.frame {m : Nat} {b1 b2 : Nat → Nat} (h : Rearr m b1 b2) (k : Nat) (hk : m ≤ k) :
    b2 k = b1 k := by
  obtain ⟨σ, e, f⟩ := h
  rw [e, Function.comp, f k hk]

theorem Rearr.value {m : Nat} {b1 b2 : Nat → Nat} (h : Rearr m b1 b2) (k : Nat) (hk : k < m) :
    ∃ k2, k2 < m ∧ b2 k = b1 k2 := by
  obtain ⟨σ, e, f⟩ := h
  exact ⟨σ k, perm_fix_lt σ m f k hk, by rw [e]; rfl⟩

theorem Rearr.perm {m : Nat} {b1 b2 : Nat → Nat} (h : Rearr m b1 b2) (n : Nat) (hn : m ≤ n) :
    ((List.range n).map b2).Perm ((List.range n).map b1) := by
  obtain ⟨σ, e, f⟩ := h
  rw [e]
  apply perm_map_comp
  intro k
  by_cases hk : k < m
  · have := perm_fix_lt σ m f k hk
    constructor <;> intro _ <;> omega
  · rw [f k (by omega)]

/-- Filling the hole at `j` after the entry at `p` moved into it: the array
with the entry at `j`, read through the transposition of `j` and `p`. -/
theorem update_hole_swap (lo : Nat → Nat) (c j p : Nat) (hp : p ≠ j) :
    Function.update (Function.update lo j (lo p)) p c
      = (Function.update lo j c) ∘ Equiv.swap j p := by
  funext x
  simp only [Function.comp, Function.update_apply, Equiv.swap_apply_def]
  by_cases h1 : x = p
  · subst h1
    simp [hp]
  · by_cases h2 : x = j
    · subst h2
      simp [h1, hp]
    · simp [h1, h2]

theorem swap_comp_left (b : Nat → Nat) (j p : Nat) : (b ∘ Equiv.swap j p) j = b p := by
  simp [Function.comp]

theorem swap_comp_right (b : Nat → Nat) (j p : Nat) : (b ∘ Equiv.swap j p) p = b j := by
  simp [Function.comp]

theorem swap_comp_other (b : Nat → Nat) (j p x : Nat) (h1 : x ≠ j) (h2 : x ≠ p) :
    (b ∘ Equiv.swap j p) x = b x := by
  simp [Function.comp, Equiv.swap_apply_def, h1, h2]

/-- The root of a heap is its largest entry. -/
theorem isHeap_root (a : Nat → Nat) (m : Nat) (h : isHeap a m) :
    ∀ k, k < m → a k ≤ a 0 := by
  intro k
  induction k using Nat.strong_induction_on with
  | _ k ih =>
    intro hk
    by_cases h0 : k = 0
    · subst h0; exact Nat.le_refl _
    · exact Nat.le_trans (h k (by omega) hk) (ih ((k - 1) / 2) (by omega) (by omega))

/-! ## The two inner loops of the heap sort -/

/-- One iteration of the inner loop of the first phase keeps `upInv`. -/
theorem upInv_step (i : Nat) (b : Nat → Nat) (j : Nat) (h : upInv i b j) (hj0 : 0 < j)
    (hji : j ≤ i) (hlt : b ((j - 1) / 2) < b j) :
    upInv i (b ∘ Equiv.swap j ((j - 1) / 2)) ((j - 1) / 2) := by
  obtain ⟨hE, hG⟩ := h
  have hpj : (j - 1) / 2 < j := by omega
  constructor
  · intro k hk0 hki hkp
    by_cases hkj : k = j
    · subst hkj
      rw [swap_comp_left, swap_comp_right]
      exact Nat.le_of_lt hlt
    · rw [swap_comp_other b _ _ k hkj hkp]
      by_cases hq : (k - 1) / 2 = j
      · rw [hq, swap_comp_left]
        exact hG k hk0 hki hq hj0
      · by_cases hq2 : (k - 1) / 2 = (j - 1) / 2
        · rw [hq2, swap_comp_right]
          have := hE k hk0 hki hkj
          rw [hq2] at this
          exact Nat.le_trans this (Nat.le_of_lt hlt)
        · rw [swap_comp_other b _ _ _ hq hq2]
          exact hE k hk0 hki hkj
  · intro k hk0 hki hq hp0
    have hpp : ((j - 1) / 2 - 1) / 2 < (j - 1) / 2 := by omega
    rw [swap_comp_other b _ _ (((j - 1) / 2 - 1) / 2) (by omega) (by omega)]
    have hEp := hE ((j - 1) / 2) hp0 (by omega) (by omega)
    by_cases hkj : k = j
    · subst hkj
      rw [swap_comp_left]
      exact hEp
    · rw [swap_comp_other b _ _ k hkj (by omega)]
      have := hE k hk0 hki hkj
      rw [hq] at this
      exact Nat.le_trans this hEp

/-- The inner loop of the first phase: it ends before its bound is used up,
and with the entry written to the hole the entries `0, .., i` are a heap, a
rearrangement of those before. -/
theorem siftUp_spec (c i : Nat) :
    ∀ (fuel : Nat) (lo : Nat → Nat) (j : Nat), j < fuel → j ≤ i →
      upInv i (Function.update lo j c) j →
      isHeap (Function.update (siftUp c fuel lo j).1 (siftUp c fuel lo j).2 c) (i + 1) ∧
      Rearr (j + 1) (Function.update lo j c)
        (Function.update (siftUp c fuel lo j).1 (siftUp c fuel lo j).2 c) ∧
      ¬ ((siftUp c fuel lo j).2 > 0 ∧
        (siftUp c fuel lo j).1 (((siftUp c fuel lo j).2 - 1) / 2) < c)
  | 0, _, _, hf, _, _ => by omega
  | fuel + 1, lo, j, hf, hji, hinv => by
    rw [siftUp]
    by_cases hc : j > 0 ∧ lo ((j - 1) / 2) < c
    · rw [if_pos hc]
      have hpj : (j - 1) / 2 ≠ j := by omega
      have hb : Function.update (Function.update lo j (lo ((j - 1) / 2))) ((j - 1) / 2) c
          = (Function.update lo j c) ∘ Equiv.swap j ((j - 1) / 2) :=
        update_hole_swap lo c j _ hpj
      have hlt : (Function.update lo j c) ((j - 1) / 2) < (Function.update lo j c) j := by
        rw [Function.update_same, Function.update_noteq hpj]
        exact hc.2
      have hstep := upInv_step i _ j hinv hc.1 hji hlt
      rw [← hb] at hstep
      obtain ⟨h1, h2, h3⟩ := siftUp_spec c i fuel (Function.update lo j (lo ((j - 1) / 2)))
        ((j - 1) / 2) (by omega) (by omega) hstep
      refine ⟨h1, ?_, h3⟩
      rw [hb] at h2
      exact (Rearr.swap (j + 1) _ j ((j - 1) / 2) (by omega) (by omega)).rtrans
        (h2.mono (by omega))
    · rw [if_neg hc]
      dsimp only
      refine ⟨?_, Rearr.rrefl _ _, hc⟩
      intro k hk0 hki
      by_cases hkj : k = j
      · subst hkj
        have hpk : (k - 1) / 2 ≠ k := by omega
        rw [Function.update_same, Function.update_noteq hpk]
        by_contra hn
        exact hc ⟨hk0, by omega⟩
      · exact hinv.1 k hk0 (by omega) hkj

/-- One iteration of the inner loop of the second phase keeps `downInv`. -/
theorem downInv_step (i : Nat) (b : Nat → Nat) (j k1 : Nat) (h : downInv i b j)
    (hk1 : k1 = j * 2 + 1 ∨ k1 = j * 2 + 2) (hk1i : k1 < i)
    (hsib : ∀ k, 0 < k → k < i → (k - 1) / 2 = j → b k ≤ b k1) (hlt : b j < b k1) :
    downInv i (b ∘ Equiv.swap j k1) k1 := by
  obtain ⟨hE, hG⟩ := h
  have hjk : j < k1 := by omega
  have hpk1 : (k1 - 1) / 2 = j := by omega
  constructor
  · intro k hk0 hki hq
    by_cases hkk : k = k1
    · subst hkk
      rw [hpk1, swap_comp_left, swap_comp_right]
      exact Nat.le_of_lt hlt
    · by_cases hkj : k = j
      · subst hkj
        rw [swap_comp_left, swap_comp_other b _ _ ((k - 1) / 2) (by omega) (by omega)]
        exact hG k1 (by omega) hk1i hpk1 hk0
      · rw [swap_comp_other b _ _ k hkj hkk]
        by_cases hq2 : (k - 1) / 2 = j
        · rw [hq2, swap_comp_left]
          exact hsib k hk0 hki hq2
        · rw [swap_comp_other b _ _ _ hq2 hq]
          exact hE k hk0 hki hq2
  · intro k hk0 hki hq _
    rw [hpk1, swap_comp_left, swap_comp_other b _ _ k (by omega) (by omega)]
    have := hE k hk0 hki (by omega)
    rw [hq] at this
    exact this

/-- The inner loop of the second phase, with fuel for the indices left below
`i`: with the entry written to the hole the entries below `i` are a heap, a
rearrangement of those before. -/
theorem siftDown_spec (c i : Nat) :
    ∀ (fuel : Nat) (lo : Nat → Nat) (j : Nat), i ≤ j + fuel →
      downInv i (Function.update lo j c) j →
      isHeap (Function.update (siftDown c i fuel lo j).1 (siftDown c i fuel lo j).2 c) i ∧
      Rearr i (Function.update lo j c)
        (Function.update (siftDown c i fuel lo j).1 (siftDown c i fuel lo j).2 c)
  | 0, lo, j, hf, hinv => by
    rw [siftDown]
    refine ⟨?_, Rearr.rrefl _ _⟩
    intro k hk0 hki
    exact hinv.1 k hk0 hki (by omega)
  | fuel + 1, lo, j, hf, hinv => by
    rw [siftDown]
    simp only []
    by_cases hki : j * 2 + 1 ≥ i
    · rw [if_pos hki]
      refine ⟨?_, Rearr.rrefl _ _⟩
      intro k hk0 hk
      exact hinv.1 k hk0 hk (by omega)
    · rw [if_neg hki]
      have hsib : ∀ k, 0 < k → k < i → (k - 1) / 2 = j →
          lo k ≤ lo (if j * 2 + 1 + 1 < i ∧ lo (j * 2 + 1) < lo (j * 2 + 1 + 1)
            then j * 2 + 1 + 1 else j * 2 + 1) := by
        intro k hk0 hk hq
        have hk2 : k = j * 2 + 1 ∨ k = j * 2 + 1 + 1 := by omega
        split
        · rename_i hcnd
          rcases hk2 with e | e
          · rw [e]; exact Nat.le_of_lt hcnd.2
          · rw [e]
        · rename_i hcnd
          rcases hk2 with e | e
          · rw [e]
          · rw [e]
            by_contra hn
            exact hcnd ⟨by omega, by omega⟩
      generalize hk1 : (if j * 2 + 1 + 1 < i ∧ lo (j * 2 + 1) < lo (j * 2 + 1 + 1)
            then j * 2 + 1 + 1 else j * 2 + 1) = k1 at hsib
      have hk1c : k1 = j * 2 + 1 ∨ k1 = j * 2 + 2 := by
        rw [← hk1]; split
        · exact Or.inr rfl
        · exact Or.inl rfl
      have hk1i : k1 < i := by
        rw [← hk1]; split
        · rename_i hcnd; exact hcnd.1
        · omega
      have hk1j : k1 ≠ j := by omega
      by_cases hc : c < lo k1
      · rw [if_pos hc]
        have hb : Function.update (Function.update lo j (lo k1)) k1 c
            = (Function.update lo j c) ∘ Equiv.swap j k1 := update_hole_swap lo c j k1 hk1j
        have hstep := downInv_step i (Function.update lo j c) j k1 hinv hk1c hk1i
          (by
            intro k hk0 hk hq
            rw [Function.update_noteq (by omega), Function.update_noteq hk1j]
            exact hsib k hk0 hk hq)
          (by rw [Function.update_same, Function.update_noteq hk1j]; exact hc)
        rw [← hb] at hstep
        obtain ⟨h1, h2⟩ := siftDown_spec c i fuel (Function.update lo j (lo k1)) k1
          (by omega) hstep
        refine ⟨h1, ?_⟩
        rw [hb] at h2
        exact (Rearr.swap i _ j k1 (by omega) hk1i).rtrans h2
      · rw [if_neg hc]
        refine ⟨?_, Rearr.rrefl _ _⟩
        intro k hk0 hk
        by_cases hq : (k - 1) / 2 = j
        · rw [hq, Function.update_same, Function.update_noteq (by omega)]
          exact Nat.le_trans (hsib k hk0 hk hq) (by omega)
        · exact hinv.1 k hk0 hk hq

/-! ## C17: the heap sort of the lock order -/

/-- The first phase: the entries below `i + r` become a heap made of the
entries below `i` and the channels of the cases `i`, .., `i + r - 1`; the
entries from `i + r` on stay. -/
theorem buildHeap_spec (chan : Nat → Nat) :
    ∀ (r i : Nat) (lo : Nat → Nat), isHeap lo i →
      isHeap (buildHeap chan r i lo) (i + r) ∧
      ((List.range (i + r)).map (buildHeap chan r i lo)).Perm
        ((List.range i).map lo ++ (List.range' i r).map chan) ∧
      ∀ k, i + r ≤ k → buildHeap chan r i lo k = lo k
  | 0, i, lo, h => by simp [buildHeap, h]
  | r + 1, i, lo, h => by
    rw [buildHeap]
    have hinv : upInv i (Function.update lo i (chan i)) i := by
      constructor
      · intro k hk0 hki hk
        rw [Function.update_noteq hk, Function.update_noteq (by omega)]
        exact h k hk0 (by omega)
      · intro k hk0 hki hq _
        omega
    obtain ⟨h1, h2, _⟩ := siftUp_spec (chan i) i (i + 1) lo i (by omega) (Nat.le_refl _) hinv
    obtain ⟨g1, g2, g3⟩ := buildHeap_spec chan r (i + 1) _ h1
    have e : i + 1 + r = i + (r + 1) := by omega
    rw [e] at g1 g2 g3
    refine ⟨g1, ?_, ?_⟩
    · refine g2.trans ?_
      have hp := h2.perm (i + 1) (Nat.le_refl _)
      rw [List.range'_succ, List.map_cons, List.append_cons]
      apply List.Perm.append_right
      refine hp.trans ?_
      rw [List.range_succ, List.map_append, List.map_cons, List.map_nil, Function.update_same]
      apply List.Perm.append_right
      apply List.Perm.of_eq
      apply List.map_congr_left
      intro k hk
      exact Function.update_noteq (by have := List.mem_range.mp hk; omega) _ _
    · intro k hk
      rw [g3 k hk, h2.frame k (by omega)]
      exact Function.update_noteq (by omega) _ _

/-- The second phase on an array of `n` entries: when the entries below `m`
are a heap, at most the entries from `m` on, which are sorted, then the result
is sorted and a rearrangement of the entries below `m`. -/
theorem sortHeap_spec (n : Nat) :
    ∀ (m : Nat) (lo : Nat → Nat), m ≤ n → isHeap lo m →
      (∀ k, k < m → ∀ t, m ≤ t → t < n → lo k ≤ lo t) →
      (∀ s t, m ≤ s → s ≤ t → t < n → lo s ≤ lo t) →
      (∀ s t, s ≤ t → t < n → sortHeap m lo s ≤ sortHeap m lo t) ∧ Rearr m lo (sortHeap m lo)
  | 0, lo, _, _, _, h3 => ⟨fun s t hst ht => h3 s t (Nat.zero_le _) hst ht, Rearr.rrefl _ _⟩
  | i + 1, lo, hmn, h1, h2, h3 => by
    rw [sortHeap]
    have hb : Function.update (Function.update lo i (lo 0)) 0 (lo i) = lo ∘ Equiv.swap i 0 :=
      update_swap_eq lo i 0
    have hinv : downInv i (Function.update (Function.update lo i (lo 0)) 0 (lo i)) 0 := by
      constructor
      · intro k hk0 hki hq
        rw [Function.update_noteq (by omega), Function.update_noteq (by omega),
          Function.update_noteq hq, Function.update_noteq (by omega)]
        exact h1 k hk0 (by omega)
      · intro k _ _ _ h0
        omega
    obtain ⟨g1, g2⟩ := siftDown_spec (lo i) i (i + 1) (Function.update lo i (lo 0)) 0 (by omega) hinv
    rw [hb] at g2
    have hroot := isHeap_root lo (i + 1) h1
    have hval : ∀ k, k < i → ∃ k2, k2 < i + 1 ∧
        Function.update (siftDown (lo i) i (i + 1) (Function.update lo i (lo 0)) 0).1
          (siftDown (lo i) i (i + 1) (Function.update lo i (lo 0)) 0).2 (lo i) k = lo k2 := by
      intro k hk
      obtain ⟨k2, hk2, e⟩ := g2.value k hk
      refine ⟨Equiv.swap i 0 k2, (swap_lt_iff i 0 (i + 1) (by omega) (by omega) k2).mpr (by omega), ?_⟩
      rw [e]; rfl
    have hfr : ∀ t, i < t → Function.update (siftDown (lo i) i (i + 1) (Function.update lo i (lo 0)) 0).1
          (siftDown (lo i) i (i + 1) (Function.update lo i (lo 0)) 0).2 (lo i) t = lo t := by
      intro t ht
      rw [g2.frame t (by omega), Function.comp, Equiv.swap_apply_def, if_neg (by omega),
        if_neg (by omega)]
    have hfi : Function.update (siftDown (lo i) i (i + 1) (Function.update lo i (lo 0)) 0).1
          (siftDown (lo i) i (i + 1) (Function.update lo i (lo 0)) 0).2 (lo i) i = lo 0 := by
      rw [g2.frame i (Nat.le_refl _), Function.comp, Equiv.swap_apply_left]
    obtain ⟨r1, r2⟩ := sortHeap_spec n i _ (by omega) g1
      (by
        intro k hk t hit htn
        obtain ⟨k2, hk2, e⟩ := hval k hk
        rw [e]
        by_cases hti : t = i
        · rw [hti, hfi]; exact hroot k2 hk2
        · rw [hfr t (by omega)]; exact h2 k2 hk2 t (by omega) htn)
      (by
        intro s t his hst htn
        by_cases hsi : s = i
        · by_cases hti : t = i
          · rw [hsi, hti]
          · rw [hsi, hfi, hfr t (by omega)]
            exact h2 0 (by omega) t (by omega) htn
        · rw [hfr s (by omega), hfr t (by omega)]
          exact h3 s t (by omega) hst htn)
    refine ⟨r1, ?_⟩
    exact ((Rearr.swap (i + 1) lo i 0 (by omega) (by omega)).rtrans (g2.mono (by omega))).rtrans
      (r2.mono (by omega))

/-- C17: for every select, whatever its cases (default cases have the channel
nil, several cases may have the same channel) and whatever the lock order
held before, the heap sort of `selectgo` leaves the first `ncase` entries of
the lock order in non-decreasing order of address, a permutation of the
channels of the cases: nil entries come first, and the entries from `ncase` on
are not touched. -/
theorem C17_heapsort (sel : Select) :
    (∀ i j, i ≤ j → j < sel.ncase → gen_lockorder sel i ≤ gen_lockorder sel j) ∧
    ((List.range sel.ncase).map (gen_lockorder sel)).Perm
      ((List.range sel.ncase).map (fun i => (sel.scase i).chan)) ∧
    (∀ i j, i ≤ j → j < sel.ncase → gen_lockorder sel j = 0 → gen_lockorder sel i = 0) ∧
    (∀ k, sel.ncase ≤ k → gen_lockorder sel k = sel.lockorder k) := by
  obtain ⟨b1, b2, b3⟩ := buildHeap_spec (fun i => (sel.scase i).chan) sel.ncase 0 sel.lockorder
    (fun k _ hk => absurd hk (by omega))
  rw [Nat.zero_add] at b1 b2 b3
  obtain ⟨s1, s2⟩ := sortHeap_spec sel.ncase sel.ncase _ (Nat.le_refl _) b1
    (fun k _ t h1 h2 => absurd h2 (by omega)) (fun s t h1 h2 h3 => absurd h3 (by omega))
  have hsorted : ∀ i j, i ≤ j → j < sel.ncase → gen_lockorder sel i ≤ gen_lockorder sel j := s1
  refine ⟨hsorted, ?_, ?_, ?_⟩
  · refine (s2.perm sel.ncase (Nat.le_refl _)).trans ?_
    refine b2.trans ?_
    simp [List.range_eq_range']
  · intro i j hij hj h0
    have := hsorted i j hij hj
    rw [h0] at this
    exact Nat.le_zero.mp this
  · intro k hk
    exact (s2.frame k hk).trans (b3 k hk)

/-! ## Frame lemmas for the locks of a select -/

theorem sellock_loop_frame (lo : Nat → Ptr) :
    ∀ (r i : Nat) (c : Ptr) (w : World), ∃ t, sellock_loop lo r i c w = { w with trace := t }
  | 0, _, _, w => ⟨w.trace, rfl⟩
  | r + 1, i, c, w => by
    rw [sellock_loop]
    split
    · obtain ⟨t, h⟩ := sellock_loop_frame lo r (i + 1) (lo i) (w.log (.lock (lo i)))
      exact ⟨t, by rw [h]; rfl⟩
    · exact sellock_loop_frame lo r (i + 1) c w

theorem selunlock_loop_frame (lo : Nat → Ptr) (r : Nat) :
    ∀ (m : Nat) (w : World), ∃ t, selunlock_loop lo r m w = { w with trace := t }
  | 0, w => ⟨w.trace, rfl⟩
  | m + 1, w => by
    rw [selunlock_loop]
    split
    · dsimp only
      split
      · exact selunlock_loop_frame lo r m w
      · obtain ⟨t, h⟩ := selunlock_loop_frame lo r m (w.log (.unlock (lo m)))
        exact ⟨t, by rw [h]; rfl⟩
    · exact ⟨w.trace, rfl⟩

theorem sellock_frame (sel : Select) (w : World) : ∃ t, sellock sel w = { w with trace := t } :=
  sellock_loop_frame _ _ _ _ _

theorem selunlock_frame (sel : Select) (w : World) :
    ∃ t, selunlock sel w = { w with trace := t } :=
  selunlock_loop_frame _ _ _ _

theorem selectgo_retc_frame (w : World) (sel : Select) (cas : Scase) (t0 : Int) :
    ∃ t, selectgo_retc w sel cas t0 = ({ w with trace := t }, .returned cas.index) := by
  unfold selectgo_retc blockProfile
  split
  · exact ⟨_, rfl⟩
  · exact ⟨_, rfl⟩

@[simp] theorem sellock_chans (sel : Select) (w : World) : (sellock sel w).chans = w.chans := by
  obtain ⟨t, h⟩ := sellock_frame sel w; rw [h]
@[simp] theorem selunlock_chans (sel : Select) (w : World) : (selunlock sel w).chans = w.chans := by
  obtain ⟨t, h⟩ := selunlock_frame sel w; rw [h]
@[simp] theorem selectgo_retc_chans (w : World) (sel : Select) (cas : Scase) (t0 : Int) :
    (selectgo_retc w sel cas t0).1.chans = w.chans := by
  obtain ⟨t, h⟩ := selectgo_retc_frame w sel cas t0; rw [h]

@[simp] theorem sellock_sudogs (sel : Select) (w : World) : (sellock sel w).sudogs = w.sudogs := by
  obtain ⟨t, h⟩ := sellock_frame sel w; rw [h]
@[simp] theorem selunlock_sudogs (sel : Select) (w : World) : (selunlock sel w).sudogs = w.sudogs := by
  obtain ⟨t, h⟩ := selunlock_frame sel w; rw [h]
@[simp] theorem selectgo_retc_sudogs (w : World) (sel : Select) (cas : Scase) (t0 : Int) :
    (selectgo_retc w sel cas t0).1.sudogs = w.sudogs := by
  obtain ⟨t, h⟩ := selectgo_retc_frame w sel cas t0; rw [h]

@[simp] theorem sellock_words (sel : Select) (w : World) : (sellock sel w).words = w.words := by
  obtain ⟨t, h⟩ := sellock_frame sel w; rw [h]
@[simp] theorem selunlock_words (sel : Select) (w : World) : (selunlock sel w).words = w.words := by
  obtain ⟨t, h⟩ := selunlock_frame sel w; rw [h]
@[simp] theorem selectgo_retc_words (w : World) (sel : Select) (cas : Scase) (t0 : Int) :
    (selectgo_retc w sel cas t0).1.words = w.words := by
  obtain ⟨t, h⟩ := selectgo_retc_frame w sel cas t0; rw [h]

@[simp] theorem sellock_mem (sel : Select) (w : World) : (sellock sel w).mem = w.mem := by
  obtain ⟨t, h⟩ := sellock_frame sel w; rw [h]
@[simp] theorem selunlock_mem (sel : Select) (w : World) : (selunlock sel w).mem = w.mem := by
  obtain ⟨t, h⟩ := selunlock_frame sel w; rw [h]
@[simp] theorem selectgo_retc_mem (w : World) (sel : Select) (cas : Scase) (t0 : Int) :
    (selectgo_retc w sel cas t0).1.mem = w.mem := by
  obtain ⟨t, h⟩ := selectgo_retc_frame w sel cas t0; rw [h]

@[simp] theorem sellock_bools (sel : Select) (w : World) : (sellock sel w).bools = w.bools := by
  obtain ⟨t, h⟩ := sellock_frame sel w; rw [h]
@[simp] theorem selunlock_bools (sel : Select) (w : World) : (selunlock sel w).bools = w.bools := by
  obtain ⟨t, h⟩ := selunlock_frame sel w; rw [h]
@[simp] theorem selectgo_retc_bools (w : World) (sel : Select) (cas : Scase) (t0 : Int) :
    (selectgo_retc w sel cas t0).1.bools = w.bools := by
  obtain ⟨t, h⟩ := selectgo_retc_frame w sel cas t0; rw [h]

@[simp] theorem sellock_param (sel : Select) (w : World) : (sellock sel w).param = w.param := by
  obtain ⟨t, h⟩ := sellock_frame sel w; rw [h]
@[simp] theorem selunlock_param (sel : Select) (w : World) : (selunlock sel w).param = w.param := by
  obtain ⟨t, h⟩ := selunlock_frame sel w; rw [h]
@[simp] theorem selectgo_retc_param (w : World) (sel : Select) (cas : Scase) (t0 : Int) :
    (selectgo_retc w sel cas t0).1.param = w.param := by
  obtain ⟨t, h⟩ := selectgo_retc_frame w sel cas t0; rw [h]

@[simp] theorem sellock_gcwaiting (sel : Select) (w : World) : (sellock sel w).gcwaiting = w.gcwaiting := by
  obtain ⟨t, h⟩ := sellock_frame sel w; rw [h]
@[simp] theorem selunlock_gcwaiting (sel : Select) (w : World) : (selunlock sel w).gcwaiting = w.gcwaiting := by
  obtain ⟨t, h⟩ := selunlock_frame sel w; rw [h]
@[simp] theorem selectgo_retc_gcwaiting (w : World) (sel : Select) (cas : Scase) (t0 : Int) :
    (selectgo_retc w sel cas t0).1.gcwaiting = w.gcwaiting := by
  obtain ⟨t, h⟩ := selectgo_retc_frame w sel cas t0; rw [h]

@[simp] theorem sellock_blockprofilerate (sel : Select) (w : World) : (sellock sel w).blockprofilerate = w.blockprofilerate := by
  obtain ⟨t, h⟩ := sellock_frame sel w; rw [h]
@[simp] theorem selunlock_blockprofilerate (sel : Select) (w : World) : (selunlock sel w).blockprofilerate = w.blockprofilerate := by
  obtain ⟨t, h⟩ := selunlock_frame sel w; rw [h]
@[simp] theorem selectgo_retc_blockprofilerate (w : World) (sel : Select) (cas : Scase) (t0 : Int) :
    (selectgo_retc w sel cas t0).1.blockprofilerate = w.blockprofilerate := by
  obtain ⟨t, h⟩ := selectgo_retc_frame w sel cas t0; rw [h]

@[simp] theorem sellock_ticks (sel : Select) (w : World) : (sellock sel w).ticks = w.ticks := by
  obtain ⟨t, h⟩ := sellock_frame sel w; rw [h]
@[simp] theorem selunlock_ticks (sel : Select) (w : World) : (selunlock sel w).ticks = w.ticks := by
  obtain ⟨t, h⟩ := selunlock_frame sel w; rw [h]
@[simp] theorem selectgo_retc_ticks (w : World) (sel : Select) (cas : Scase) (t0 : Int) :
    (selectgo_retc w sel cas t0).1.ticks = w.ticks := by
  obtain ⟨t, h⟩ := selectgo_retc_frame w sel cas t0; rw [h]

@[simp] theorem selectgo_retc_snd (w : World) (sel : Select) (cas : Scase) (t0 : Int) :
    (selectgo_retc w sel cas t0).2 = .returned cas.index := rfl

/-! ## The prologue of `selectgo` -/

theorem heapEq.hrefl (w : World) : heapEq w w := ⟨rfl, rfl, rfl, rfl, rfl, rfl⟩

theorem heapEq.htrans {w1 w2 w3 : World} (h1 : heapEq w1 w2) (h2 : heapEq w2 w3) : heapEq w1 w3 :=
  ⟨h1.1.trans h2.1, h1.2.1.trans h2.2.1, h1.2.2.1.trans h2.2.2.1,
    h1.2.2.2.1.trans h2.2.2.2.1, h1.2.2.2.2.1.trans h2.2.2.2.2.1,
    h1.2.2.2.2.2.trans h2.2.2.2.2.2⟩

theorem heapEq.hsymm {w1 w2 : World} (h : heapEq w1 w2) : heapEq w2 w1 :=
  ⟨h.1.symm, h.2.1.symm, h.2.2.1.symm, h.2.2.2.1.symm, h.2.2.2.2.1.symm, h.2.2.2.2.2.symm⟩

theorem sellock_heapEq (sel : Select) (w : World) : heapEq (sellock sel w) w :=
  ⟨by simp, by simp, by simp, by simp, by simp, by simp⟩

theorem selunlock_heapEq (sel : Select) (w : World) : heapEq (selunlock sel w) w :=
  ⟨by simp, by simp, by simp, by simp, by simp, by simp⟩

theorem selectgo_retc_heapEq (w : World) (sel : Select) (cas : Scase) (t0 : Int) :
    heapEq (selectgo_retc w sel cas t0).1 w :=
  ⟨by simp, by simp, by simp, by simp, by simp, by simp⟩

/-- The prologue of `selectgo` leaves the heaps alone, keeps the cases but for
their release times, and sets the poll order to the shuffled one. -/
theorem selectgo_prologue_spec (fastrand : Nat → Nat) (w : World) (sel : Select) :
    heapEq (selectgo_prologue fastrand w sel).1 w ∧
    (selectgo_prologue fastrand w sel).2.1.ncase = sel.ncase ∧
    (selectgo_prologue fastrand w sel).2.1.base = sel.base ∧
    (∀ i, sameCase (sel.scase i) ((selectgo_prologue fastrand w sel).2.1.scase i)) ∧
    (selectgo_prologue fastrand w sel).2.1.pollorder
      = gen_pollorder fastrand sel.ncase sel.pollorder := by
  unfold selectgo_prologue
  by_cases hb : (gcYield w).blockprofilerate > 0
  · dsimp only
    rw [if_pos hb]
    refine ⟨(sellock_heapEq _ _).htrans ⟨by simp [runtime_cputicks], by simp [runtime_cputicks],
      by simp [runtime_cputicks], by simp [runtime_cputicks], by simp [runtime_cputicks],
      by simp [runtime_cputicks]⟩, rfl, rfl, ?_, rfl⟩
    intro i
    unfold sameCase
    dsimp only
    by_cases hi : i < sel.ncase
    · rw [if_pos hi]
    · rw [if_neg hi]
  · dsimp only
    rw [if_neg hb]
    refine ⟨(sellock_heapEq _ _).htrans ⟨by simp, by simp, by simp, by simp, by simp, by simp⟩,
      rfl, rfl, fun i => rfl, rfl⟩

/-! ## C13: a case on a nil channel is not registered -/

/-- A select whose only case is a default case returns through it. -/
theorem selectgo_loop_only_default (fuel : Nat) (w : World) (g done : Ptr) (sel : Select)
    (t0 : Int) (hn : sel.ncase = 1) (hk : (sel.scase (sel.pollorder 0)).kind = CaseDefault) :
    selectgo_loop fuel w g done sel t0
      = some (selectgo_retc (selunlock sel w) sel (sel.scase (sel.pollorder 0)) t0) := by
  simp [selectgo_loop, hn, pass1, pass1_case, hk]

/-- On a select whose only case is a default case `selectgo` returns the
index of that case and leaves the heaps as they were. -/
theorem selectgo_only_default (fuel : Nat) (fastrand : Nat → Nat) (w : World) (g done : Ptr)
    (sel : Select) (hn : sel.ncase = 1) (hk : (sel.scase 0).kind = CaseDefault) :
    ∃ w1, selectgo fuel fastrand w g done sel = some (w1, .returned (sel.scase 0).index) ∧
      heapEq w1 w := by
  obtain ⟨hp1, hp2, _, hp4, hp5⟩ := selectgo_prologue_spec fastrand w sel
  have hpo : (selectgo_prologue fastrand w sel).2.1.pollorder 0 = 0 := by
    rw [hp5, hn]; rfl
  have hc := hp4 0
  unfold sameCase at hc
  have hkind := congrArg Scase.kind hc
  have hidx := congrArg Scase.index hc
  rw [hn] at hp2
  unfold selectgo
  dsimp only
  generalize selectgo_prologue fastrand w sel = p at hp1 hp2 hpo hkind hidx
  obtain ⟨w0, sel0, t0⟩ := p
  dsimp only at hp1 hp2 hpo hkind hidx ⊢
  rw [selectgo_loop_only_default _ _ _ _ _ _ hp2 (by rw [hpo, ← hkind]; exact hk), hpo]
  obtain ⟨t, ht⟩ := selectgo_retc_frame (selunlock sel0 w0) sel0 (sel0.scase 0) t0
  rw [ht, ← hidx]
  exact ⟨_, rfl, (selunlock_heapEq _ _).htrans hp1⟩

/-- C13: `runtime_selectsend`, `runtime_selectrecv` and `runtime_selectrecv2`
with a nil channel return with the select as it was, so no case is recorded
and `ncase` stays.  A select made by `newselect` (of a size that is not zero
as a `uint16`) with a send on a nil channel and a default case, registered in
either order, is the select with the default case alone, and `selectgo` on it
returns the index of the default case, whatever the state, the random numbers
and the bound on the queue walks; the heaps are left as they were. -/
theorem C13_nil_case_inert (sel : Select) (elem received : Ptr) (index : Int)
    (size : Int) (base : Ptr) (caseAddr : Nat → Ptr) (dindex : Int)
    (hsize : 0 < (size % 2 ^ 16).toNat) :
    runtime_selectsend sel 0 elem index = .returned sel ∧
    runtime_selectrecv sel 0 elem index = .returned sel ∧
    runtime_selectrecv2 sel 0 elem received index = .returned sel ∧
    ∃ s1 : Select,
      runtime_selectdefault (newselect size base caseAddr) dindex = .returned s1 ∧
      runtime_selectsend (newselect size base caseAddr) 0 elem index
        = .returned (newselect size base caseAddr) ∧
      runtime_selectsend s1 0 elem index = .returned s1 ∧
      s1.ncase = 1 ∧
      ∀ (fuel : Nat) (fastrand : Nat → Nat) (w : World) (g done : Ptr),
        ∃ w1, selectgo fuel fastrand w g done s1
            = some (w1, .returned (dindex % 2 ^ 16).toNat) ∧ heapEq w1 w := by
  refine ⟨by simp [runtime_selectsend], by simp [runtime_selectrecv],
    by simp [runtime_selectrecv2], ?_⟩
  have ht : ¬ (newselect size base caseAddr).ncase ≥ (newselect size base caseAddr).tcase := by
    simp only [newselect]; omega
  obtain ⟨s1, hs1⟩ : ∃ s1 : Select, s1 =
    { newselect size base caseAddr with
      ncase := (newselect size base caseAddr).ncase + 1
      scase := Function.update (newselect size base caseAddr).scase
        (newselect size base caseAddr).ncase
        { (newselect size base caseAddr).scase (newselect size base caseAddr).ncase with
          index := (dindex % 2 ^ 16).toNat, chan := 0, kind := CaseDefault } } := ⟨_, rfl⟩
  have hd : runtime_selectdefault (newselect size base caseAddr) dindex = .returned s1 := by
    rw [hs1]; simp only [runtime_selectdefault, selectdefault, if_neg ht]
  have hn : s1.ncase = 1 := by rw [hs1]; rfl
  have hk : (s1.scase 0).kind = CaseDefault := by rw [hs1]; rfl
  have hi : (s1.scase 0).index = (dindex % 2 ^ 16).toNat := by rw [hs1]; rfl
  refine ⟨s1, hd, by simp [runtime_selectsend], by simp [runtime_selectsend], hn, ?_⟩
  intro fuel fastrand w g done
  obtain ⟨w1, h1, h2⟩ := selectgo_only_default fuel fastrand w g done s1 hn hk
  rw [hi] at h1
  exact ⟨w1, h1, h2⟩

/-- The theorem `C13_nil_case_inert` at a select of size 2 whose default case
has the index 8. -/
theorem C13_nil_case_inert_witness :
    runtime_selectsend lockSelect 0 50 7 = .returned lockSelect ∧
    runtime_selectrecv lockSelect 0 50 7 = .returned lockSelect ∧
    runtime_selectrecv2 lockSelect 0 50 5 7 = .returned lockSelect ∧
    ∃ s1 : Select,
      runtime_selectdefault (newselect 2 100 (fun i => 200 + i)) 8 = .returned s1 ∧
      runtime_selectsend (newselect 2 100 (fun i => 200 + i)) 0 50 7
        = .returned (newselect 2 100 (fun i => 200 + i)) ∧
      runtime_selectsend s1 0 50 7 = .returned s1 ∧
      s1.ncase = 1 ∧
      ∀ (fuel : Nat) (fastrand : Nat → Nat) (w : World) (g done : Ptr),
        ∃ w1, selectgo fuel fastrand w g done s1
            = some (w1, .returned ((8 : Int) % 2 ^ 16).toNat) ∧ heapEq w1 w :=
  C13_nil_case_inert lockSelect 50 5 7 2 100 (fun i => 200 + i) 8 (by decide)

/-! ## What `dequeue` does to a queue, whatever its shape -/

theorem sameRing.srefl (h : Hchan) : sameRing h h := rfl

theorem sameRing.strans {h1 h2 h3 : Hchan} (a : sameRing h1 h2) (b : sameRing h2 h3) :
    sameRing h1 h3 := by
  unfold sameRing at *
  rw [← b, ← a]

theorem sameRing.ssymm {h1 h2 : Hchan} (a : sameRing h1 h2) : sameRing h2 h1 := by
  unfold sameRing at *
  rw [← a]

theorem sameRing_sendq (h : Hchan) (q : WaitQ) : sameRing h { h with sendq := q } := rfl

theorem sameRing_recvq (h : Hchan) (q : WaitQ) : sameRing h { h with recvq := q } := rfl

theorem popped.prefl (q : WaitQ) : popped q q := ⟨rfl, fun h => h⟩

theorem popped.ptrans {q1 q2 q3 : WaitQ} (a : popped q1 q2) (b : popped q2 q3) : popped q1 q3 :=
  ⟨b.1.trans a.1, fun h => b.2 (a.2 h)⟩

theorem chanPopped.crefl (h : Hchan) : chanPopped h h :=
  ⟨sameRing.srefl h, popped.prefl _, popped.prefl _⟩

theorem chanPopped.ctrans {h1 h2 h3 : Hchan} (a : chanPopped h1 h2) (b : chanPopped h2 h3) :
    chanPopped h1 h3 :=
  ⟨sameRing.strans a.1 b.1, a.2.1.ptrans b.2.1, a.2.2.ptrans b.2.2⟩

theorem worldPopped.wrefl (w : World) : worldPopped w w :=
  ⟨rfl, rfl, rfl, rfl, rfl, fun _ => chanPopped.crefl _⟩

theorem worldPopped.wtrans {w1 w2 w3 : World} (a : worldPopped w1 w2) (b : worldPopped w2 w3) :
    worldPopped w1 w3 :=
  ⟨b.1.trans a.1, b.2.1.trans a.2.1, b.2.2.1.trans a.2.2.1, b.2.2.2.1.trans a.2.2.2.1,
    b.2.2.2.2.1.trans a.2.2.2.2.1, fun c => (a.2.2.2.2.2 c).ctrans (b.2.2.2.2.2 c)⟩

/-- What `dequeue` returns, whatever the queue: sudogs are popped from the
head; when the result is nil the queue is left empty and no claim word is
set; a sudog that is returned was unclaimed and is claimed now. -/
theorem dequeue_frame (s : Ptr → SudoG) :
    ∀ (fuel : Nat) (words : Ptr → Nat) (q q1 : WaitQ) (words1 : Ptr → Nat) (sg : Ptr),
      dequeue fuel s words q = some (q1, words1, sg) →
      popped q q1 ∧ (sg = 0 → q1.first = 0 ∧ words1 = words) ∧
      (sg ≠ 0 → claimed s words sg = false ∧ words1 = claim s words sg)
  | 0, _, _, _, _, _, h => by simp [dequeue] at h
  | fuel + 1, words, q, q1, words1, sg, h => by
    rw [dequeue] at h
    dsimp only at h
    by_cases h0 : q.first = 0
    · rw [if_pos h0] at h
      simp only [Option.some.injEq, Prod.mk.injEq] at h
      obtain ⟨rfl, rfl, rfl⟩ := h
      exact ⟨popped.prefl _, fun _ => ⟨h0, rfl⟩, fun h => absurd rfl h⟩
    · rw [if_neg h0] at h
      by_cases hsd : (s q.first).selectdone ≠ 0
      · rw [if_pos hsd] at h
        by_cases hw : words (s q.first).selectdone ≠ 0
        · rw [if_pos hw] at h
          obtain ⟨p1, p2, p3⟩ := dequeue_frame s fuel words _ q1 words1 sg h
          exact ⟨⟨p1.1, fun e => absurd e h0⟩, p2, p3⟩
        · rw [if_neg hw] at h
          simp only [Option.some.injEq, Prod.mk.injEq] at h
          obtain ⟨rfl, rfl, rfl⟩ := h
          refine ⟨⟨rfl, fun e => absurd e h0⟩, fun e => absurd e h0, fun _ => ⟨?_, ?_⟩⟩
          · simp only [claimed, Bool.and_eq_false_imp, decide_eq_true_eq, decide_eq_false_iff_not]
            exact fun _ => hw
          · simp [claim, hsd]
      · rw [if_neg hsd] at h
        simp only [Option.some.injEq, Prod.mk.injEq] at h
        obtain ⟨rfl, rfl, rfl⟩ := h
        refine ⟨⟨rfl, fun e => absurd e h0⟩, fun e => absurd e h0, fun _ => ⟨?_, ?_⟩⟩
        · simp only [claimed, Bool.and_eq_false_imp, decide_eq_true_eq, decide_eq_false_iff_not]
          exact fun h => absurd h hsd
        · simp [claim, hsd]

/-- The call `dequeue(&c->sendq)`, whatever the queue. -/
theorem dequeueSendq_frame (fuel : Nat) (w : World) (c : Ptr) (w1 : World) (sg : Ptr)
    (h : dequeueSendq fuel w c = some (w1, sg)) :
    ∃ q1 words1, dequeue fuel w.sudogs w.words (w.chans c).sendq = some (q1, words1, sg) ∧
      w1 = { w with words := words1,
                    chans := Function.update w.chans c { w.chans c with sendq := q1 } } := by
  unfold dequeueSendq at h
  split at h
  · simp at h
  · rename_i q words sg2 heq
    simp only [Option.some.injEq, Prod.mk.injEq] at h
    obtain ⟨rfl, rfl⟩ := h
    exact ⟨q, words, heq, rfl⟩

/-- The call `dequeue(&c->recvq)`, whatever the queue. -/
theorem dequeueRecvq_frame (fuel : Nat) (w : World) (c : Ptr) (w1 : World) (sg : Ptr)
    (h : dequeueRecvq fuel w c = some (w1, sg)) :
    ∃ q1 words1, dequeue fuel w.sudogs w.words (w.chans c).recvq = some (q1, words1, sg) ∧
      w1 = { w with words := words1,
                    chans := Function.update w.chans c { w.chans c with recvq := q1 } } := by
  unfold dequeueRecvq at h
  split at h
  · simp at h
  · rename_i q words sg2 heq
    simp only [Option.some.injEq, Prod.mk.injEq] at h
    obtain ⟨rfl, rfl⟩ := h
    exact ⟨q, words, heq, rfl⟩

theorem dequeueSendq_popped (fuel : Nat) (w : World) (c : Ptr) (w1 : World) (sg : Ptr)
    (h : dequeueSendq fuel w c = some (w1, sg)) :
    worldPopped w w1 ∧ (∀ c2, c2 ≠ c → w1.chans c2 = w.chans c2) ∧
    (w1.chans c).recvq = (w.chans c).recvq ∧
    (sg = 0 → (w1.chans c).sendq.first = 0 ∧ w1.words = w.words) := by
  obtain ⟨q1, words1, hd, rfl⟩ := dequeueSendq_frame fuel w c w1 sg h
  obtain ⟨p1, p2, _⟩ := dequeue_frame _ _ _ _ _ _ _ hd
  refine ⟨⟨rfl, rfl, rfl, rfl, rfl, ?_⟩, ?_, by simp, ?_⟩
  · intro c2
    by_cases hc : c2 = c
    · subst hc
      simp only [Function.update_same]
      exact ⟨sameRing_sendq _ _, p1, popped.prefl _⟩
    · simp only [Function.update_noteq hc]
      exact chanPopped.crefl _
  · intro c2 hc
    simp only [Function.update_noteq hc]
  · intro h0
    simp only [Function.update_same]
    exact p2 h0

theorem dequeueRecvq_popped (fuel : Nat) (w : World) (c : Ptr) (w1 : World) (sg : Ptr)
    (h : dequeueRecvq fuel w c = some (w1, sg)) :
    worldPopped w w1 ∧ (∀ c2, c2 ≠ c → w1.chans c2 = w.chans c2) ∧
    (w1.chans c).sendq = (w.chans c).sendq ∧
    (sg = 0 → (w1.chans c).recvq.first = 0 ∧ w1.words = w.words) := by
  obtain ⟨q1, words1, hd, rfl⟩ := dequeueRecvq_frame fuel w c w1 sg h
  obtain ⟨p1, p2, _⟩ := dequeue_frame _ _ _ _ _ _ _ hd
  refine ⟨⟨rfl, rfl, rfl, rfl, rfl, ?_⟩, ?_, by simp, ?_⟩
  · intro c2
    by_cases hc : c2 = c
    · subst hc
      simp only [Function.update_same]
      exact ⟨sameRing_recvq _ _, popped.prefl _, p1⟩
    · simp only [Function.update_noteq hc]
      exact chanPopped.crefl _
  · intro c2 hc
    simp only [Function.update_noteq hc]
  · intro h0
    simp only [Function.update_same]
    exact p2 h0

/-! ## One case of pass 1 -/

/-- What the body of the loop of pass 1 does for one case, by the way it
ends. -/
theorem pass1_case_spec (fuel : Nat) (w : World) (cas : Scase) (w1 : World) (scan : Scan)
    (h : pass1_case fuel w cas = some (w1, scan)) :
    worldPopped w w1 ∧ (∀ c2, c2 ≠ cas.chan → w1.chans c2 = w.chans c2) ∧
    match scan with
    | .next =>
      w1.words = w.words ∧ cas.kind ≠ CaseDefault ∧
      ((w.chans cas.chan).dataqsiz > 0 → w1 = w) ∧
      (cas.kind = CaseRecv → (w.chans cas.chan).dataqsiz = 0 →
        (w1.chans cas.chan).sendq.first = 0 ∧
        (w1.chans cas.chan).recvq = (w.chans cas.chan).recvq) ∧
      (cas.kind = CaseSend → (w.chans cas.chan).dataqsiz = 0 →
        (w1.chans cas.chan).recvq.first = 0 ∧
        (w1.chans cas.chan).sendq = (w.chans cas.chan).sendq)
    | .dflt => w1 = w ∧ cas.kind = CaseDefault
    | .jump .asyncrecv _ =>
      w1 = w ∧ cas.kind = CaseRecv ∧ 0 < (w.chans cas.chan).dataqsiz ∧
      0 < (w.chans cas.chan).qcount
    | .jump .asyncsend _ =>
      w1 = w ∧ cas.kind = CaseSend ∧ 0 < (w.chans cas.chan).dataqsiz ∧
      (w.chans cas.chan).qcount < (w.chans cas.chan).dataqsiz ∧
      (w.chans cas.chan).closed = false
    | .jump .syncrecv sg =>
      cas.kind = CaseRecv ∧ (w.chans cas.chan).dataqsiz = 0 ∧ sg ≠ 0 ∧
      dequeueSendq fuel w cas.chan = some (w1, sg)
    | .jump .rclose _ =>
      cas.kind = CaseRecv ∧ (w.chans cas.chan).closed = true ∧ w1.words = w.words ∧
      ((w.chans cas.chan).dataqsiz > 0 → (w.chans cas.chan).qcount = 0 ∧ w1 = w) ∧
      ((w.chans cas.chan).dataqsiz = 0 → dequeueSendq fuel w cas.chan = some (w1, 0))
    | .jump .syncsend sg =>
      cas.kind = CaseSend ∧ (w.chans cas.chan).dataqsiz = 0 ∧ sg ≠ 0 ∧
      (w.chans cas.chan).closed = false ∧ dequeueRecvq fuel w cas.chan = some (w1, sg)
    | .jump .sclose _ =>
      w1 = w ∧ cas.kind = CaseSend ∧ (w.chans cas.chan).closed = true := by
  unfold pass1_case at h
  dsimp only at h
  by_cases hr : cas.kind = CaseRecv
  · rw [if_pos hr] at h
    by_cases hd : (w.chans cas.chan).dataqsiz > 0
    · rw [if_pos hd] at h
      by_cases hq : (w.chans cas.chan).qcount > 0
      · rw [if_pos hq] at h
        simp only [Option.some.injEq, Prod.mk.injEq] at h
        obtain ⟨rfl, rfl⟩ := h
        exact ⟨worldPopped.wrefl _, fun _ _ => rfl, rfl, hr, hd, hq⟩
      · rw [if_neg hq] at h
        by_cases hc : (w.chans cas.chan).closed = true
        · rw [if_pos hc] at h
          simp only [Option.some.injEq, Prod.mk.injEq] at h
          obtain ⟨rfl, rfl⟩ := h
          exact ⟨worldPopped.wrefl _, fun _ _ => rfl, hr, hc, rfl,
            fun _ => ⟨by omega, rfl⟩, fun h0 => absurd h0 (by omega)⟩
        · rw [if_neg hc] at h
          simp only [Option.some.injEq, Prod.mk.injEq] at h
          obtain ⟨rfl, rfl⟩ := h
          exact ⟨worldPopped.wrefl _, fun _ _ => rfl, rfl, by rw [hr]; decide, fun _ => rfl,
            fun _ h0 => absurd h0 (by omega), fun _ h0 => absurd h0 (by omega)⟩
    · rw [if_neg hd] at h
      have hd0 : (w.chans cas.chan).dataqsiz = 0 := by omega
      cases hdq : dequeueSendq fuel w cas.chan with
      | none => rw [hdq] at h; simp at h
      | some r =>
        obtain ⟨w2, sg⟩ := r
        rw [hdq] at h
        dsimp only at h
        obtain ⟨p1, p2, p3, p4⟩ := dequeueSendq_popped fuel w cas.chan w2 sg hdq
        by_cases hsg : sg ≠ 0
        · rw [if_pos hsg] at h
          simp only [Option.some.injEq, Prod.mk.injEq] at h
          obtain ⟨rfl, rfl⟩ := h
          exact ⟨p1, p2, hr, hd0, hsg, rfl⟩
        · rw [if_neg hsg] at h
          have hsg0 : sg = 0 := not_not.mp hsg
          subst hsg0
          have hcl : (w2.chans cas.chan).closed = (w.chans cas.chan).closed := by
            have := (p1.2.2.2.2.2 cas.chan).1
            unfold sameRing at this
            rw [← this]
          by_cases hc : (w2.chans cas.chan).closed = true
          · rw [if_pos hc] at h
            simp only [Option.some.injEq, Prod.mk.injEq] at h
            obtain ⟨rfl, rfl⟩ := h
            exact ⟨p1, p2, hr, by rw [← hcl]; exact hc, (p4 rfl).2,
              fun h0 => absurd h0 hd, fun _ => rfl⟩
          · rw [if_neg hc] at h
            simp only [Option.some.injEq, Prod.mk.injEq] at h
            obtain ⟨rfl, rfl⟩ := h
            exact ⟨p1, p2, (p4 rfl).2, by rw [hr]; decide, fun h0 => absurd h0 hd,
              fun _ _ => ⟨(p4 rfl).1, p3⟩, fun h0 => absurd (hr.symm.trans h0) (by decide)⟩
  · rw [if_neg hr] at h
    by_cases hs : cas.kind = CaseSend
    · rw [if_pos hs] at h
      by_cases hc : (w.chans cas.chan).closed = true
      · rw [if_pos hc] at h
        simp only [Option.some.injEq, Prod.mk.injEq] at h
        obtain ⟨rfl, rfl⟩ := h
        exact ⟨worldPopped.wrefl _, fun _ _ => rfl, rfl, hs, hc⟩
      · rw [if_neg hc] at h
        have hcf : (w.chans cas.chan).closed = false := by simpa using hc
        by_cases hd : (w.chans cas.chan).dataqsiz > 0
        · rw [if_pos hd] at h
          by_cases hq : (w.chans cas.chan).qcount < (w.chans cas.chan).dataqsiz
          · rw [if_pos hq] at h
            simp only [Option.some.injEq, Prod.mk.injEq] at h
            obtain ⟨rfl, rfl⟩ := h
            exact ⟨worldPopped.wrefl _, fun _ _ => rfl, rfl, hs, hd, hq, hcf⟩
          · rw [if_neg hq] at h
            simp only [Option.some.injEq, Prod.mk.injEq] at h
            obtain ⟨rfl, rfl⟩ := h
            exact ⟨worldPopped.wrefl _, fun _ _ => rfl, rfl, by rw [hs]; decide, fun _ => rfl,
              fun _ h0 => absurd h0 (by omega), fun _ h0 => absurd h0 (by omega)⟩
        · rw [if_neg hd] at h
          have hd0 : (w.chans cas.chan).dataqsiz = 0 := by omega
          cases hdq : dequeueRecvq fuel w cas.chan with
          | none => rw [hdq] at h; simp at h
          | some r =>
            obtain ⟨w2, sg⟩ := r
            rw [hdq] at h
            dsimp only at h
            obtain ⟨p1, p2, p3, p4⟩ := dequeueRecvq_popped fuel w cas.chan w2 sg hdq
            by_cases hsg : sg ≠ 0
            · rw [if_pos hsg] at h
              simp only [Option.some.injEq, Prod.mk.injEq] at h
              obtain ⟨rfl, rfl⟩ := h
              exact ⟨p1, p2, hs, hd0, hsg, hcf, rfl⟩
            · rw [if_neg hsg] at h
              have hsg0 : sg = 0 := not_not.mp hsg
              subst hsg0
              simp only [Option.some.injEq, Prod.mk.injEq] at h
              obtain ⟨rfl, rfl⟩ := h
              exact ⟨p1, p2, (p4 rfl).2, by rw [hs]; decide, fun h0 => absurd h0 hd,
                fun h0 => absurd (hs.symm.trans h0) (by decide), fun _ _ => ⟨(p4 rfl).1, p3⟩⟩
    · rw [if_neg hs] at h
      by_cases hk : cas.kind = CaseDefault
      · rw [if_pos hk] at h
        simp only [Option.some.injEq, Prod.mk.injEq] at h
        obtain ⟨rfl, rfl⟩ := h
        exact ⟨worldPopped.wrefl _, fun _ _ => rfl, rfl, hk⟩
      · rw [if_neg hk] at h
        simp only [Option.some.injEq, Prod.mk.injEq] at h
        obtain ⟨rfl, rfl⟩ := h
        exact ⟨worldPopped.wrefl _, fun _ _ => rfl, rfl, hk, fun _ => rfl,
          fun h0 => absurd h0 hr, fun h0 => absurd h0 hs⟩

/-! ## Pass 1 -/

theorem sameRing_dataqsiz {h h1 : Hchan} (a : sameRing h h1) : h1.dataqsiz = h.dataqsiz := by
  unfold sameRing at a; rw [← a]

theorem sameRing_qcount {h h1 : Hchan} (a : sameRing h h1) : h1.qcount = h.qcount := by
  unfold sameRing at a; rw [← a]

theorem sameRing_closed {h h1 : Hchan} (a : sameRing h h1) : h1.closed = h.closed := by
  unfold sameRing at a; rw [← a]

theorem sameRing_elemsize {h h1 : Hchan} (a : sameRing h h1) : h1.elemsize = h.elemsize := by
  unfold sameRing at a; rw [← a]

theorem sameRing_sendx {h h1 : Hchan} (a : sameRing h h1) : h1.sendx = h.sendx := by
  unfold sameRing at a; rw [← a]

theorem sameRing_recvx {h h1 : Hchan} (a : sameRing h h1) : h1.recvx = h.recvx := by
  unfold sameRing at a; rw [← a]

theorem sameRing_buf {h h1 : Hchan} (a : sameRing h h1) : h1.buf = h.buf := by
  unfold sameRing at a; rw [← a]

/-- What pass 1 does, by the way it ends, whatever the queues: a case that
fires is the case at a position of the poll order, reached after cases that
only popped claimed sudogs; when the loop runs to its end no claim word was
set, every case but a default case left the queue it polled on an unbuffered
channel empty, and the default case seen, if any, is a case of the select. -/
theorem pass1_spec (fuel : Nat) (sel : Select) :
    ∀ (r i : Nat) (w : World) (dfl : Option Scase) (w1 : World) (res : Pass1),
      pass1 fuel sel r i w dfl = some (w1, res) →
      worldPopped w w1 ∧
      match res with
      | .fired l cas sg =>
        ∃ k w0, i ≤ k ∧ k < i + r ∧ cas = sel.scase (sel.pollorder k) ∧ worldPopped w w0 ∧
          w0.words = w.words ∧ pass1_case fuel w0 cas = some (w1, .jump l sg)
      | .done d =>
        w1.words = w.words ∧
        (d = dfl ∨ ∃ k, i ≤ k ∧ k < i + r ∧ d = some (sel.scase (sel.pollorder k)) ∧
          (sel.scase (sel.pollorder k)).kind = CaseDefault) ∧
        ∀ k, i ≤ k → k < i + r →
          ((sel.scase (sel.pollorder k)).kind = CaseDefault ∧ d ≠ none) ∨
          ((sel.scase (sel.pollorder k)).kind ≠ CaseDefault ∧
            ((sel.scase (sel.pollorder k)).kind = CaseRecv →
              (w.chans (sel.scase (sel.pollorder k)).chan).dataqsiz = 0 →
              (w1.chans (sel.scase (sel.pollorder k)).chan).sendq.first = 0) ∧
            ((sel.scase (sel.pollorder k)).kind = CaseSend →
              (w.chans (sel.scase (sel.pollorder k)).chan).dataqsiz = 0 →
              (w1.chans (sel.scase (sel.pollorder k)).chan).recvq.first = 0))
  | 0, i, w, dfl, w1, res, h => by
    simp only [pass1, Option.some.injEq, Prod.mk.injEq] at h
    obtain ⟨rfl, rfl⟩ := h
    exact ⟨worldPopped.wrefl _, rfl, Or.inl rfl, fun k h1 h2 => absurd h2 (by omega)⟩
  | r + 1, i, w, dfl, w1, res, h => by
    rw [pass1] at h
    cases hc : pass1_case fuel w (sel.scase (sel.pollorder i)) with
    | none => rw [hc] at h; simp at h
    | some p =>
      obtain ⟨w2, scan⟩ := p
      rw [hc] at h
      have hspec := pass1_case_spec fuel w _ w2 scan hc
      cases scan with
      | jump l sg =>
        simp only [Option.some.injEq, Prod.mk.injEq] at h
        obtain ⟨rfl, rfl⟩ := h
        exact ⟨hspec.1, i, w, Nat.le_refl _, by omega, rfl, worldPopped.wrefl _, rfl, hc⟩
      | dflt =>
        dsimp only at h
        obtain ⟨_, _, rfl, hk⟩ := hspec
        obtain ⟨q1, q2⟩ := pass1_spec fuel sel r (i + 1) _ _ w1 res h
        refine ⟨q1, ?_⟩
        cases res with
        | fired l cas sg =>
          obtain ⟨k, w0, a1, a2, a3, a4, a5, a6⟩ := q2
          exact ⟨k, w0, by omega, by omega, a3, a4, a5, a6⟩
        | done d =>
          obtain ⟨a1, a2, a3⟩ := q2
          have hdn : d ≠ none := by
            rcases a2 with e | ⟨k, _, _, e, _⟩
            · rw [e]; simp
            · rw [e]; simp
          refine ⟨a1, ?_, ?_⟩
          · rcases a2 with e | ⟨k, b1, b2, b3, b4⟩
            · exact Or.inr ⟨i, Nat.le_refl _, by omega, e, hk⟩
            · exact Or.inr ⟨k, by omega, by omega, b3, b4⟩
          · intro k h1 h2
            by_cases hki : k = i
            · subst hki
              exact Or.inl ⟨hk, hdn⟩
            · exact a3 k (by omega) (by omega)
      | next =>
        dsimp only at h
        obtain ⟨p1, p2, p3, p4, p5, p6, p7⟩ := hspec
        obtain ⟨q1, q2⟩ := pass1_spec fuel sel r (i + 1) _ _ w1 res h
        refine ⟨p1.wtrans q1, ?_⟩
        cases res with
        | fired l cas sg =>
          obtain ⟨k, w0, a1, a2, a3, a4, a5, a6⟩ := q2
          exact ⟨k, w0, by omega, by omega, a3, p1.wtrans a4, a5.trans p3, a6⟩
        | done d =>
          obtain ⟨a1, a2, a3⟩ := q2
          refine ⟨a1.trans p3, ?_, ?_⟩
          · rcases a2 with e | ⟨k, b1, b2, b3, b4⟩
            · exact Or.inl e
            · exact Or.inr ⟨k, by omega, by omega, b3, b4⟩
          · intro k h1 h2
            by_cases hki : k = i
            · subst hki
              refine Or.inr ⟨p4, ?_, ?_⟩
              · intro e1 e2
                exact (q1.2.2.2.2.2 _).2.1.2 (p6 e1 e2).1
              · intro e1 e2
                exact (q1.2.2.2.2.2 _).2.2.2 (p7 e1 e2).1
            · rcases a3 k (by omega) (by omega) with b | ⟨b1, b2, b3⟩
              · exact Or.inl b
              · refine Or.inr ⟨b1, ?_, ?_⟩
                · intro e1 e2
                  exact b2 e1 (by rw [sameRing_dataqsiz (p1.2.2.2.2.2 _).1]; exact e2)
                · intro e1 e2
                  exact b3 e1 (by rw [sameRing_dataqsiz (p1.2.2.2.2.2 _).1]; exact e2)

/-! ## The structural invariant under the building blocks -/

theorem chanInv_of_sameRing {h h1 : Hchan} (a : sameRing h h1) (hi : chanInv h) : chanInv h1 := by
  unfold chanInv at *
  rw [sameRing_dataqsiz a, sameRing_qcount a, sameRing_sendx a, sameRing_recvx a]
  exact hi

theorem ringsOK_of_sameRing {w w1 : World} (a : ∀ c, sameRing (w.chans c) (w1.chans c))
    (hw : ringsOK w) : ringsOK w1 :=
  fun c => chanInv_of_sameRing (a c) (hw c)

theorem ringsOK_of_popped {w w1 : World} (a : worldPopped w w1) (hw : ringsOK w) : ringsOK w1 :=
  ringsOK_of_sameRing (fun c => (a.2.2.2.2.2 c).1) hw

theorem ringsOK_of_chans {w w1 : World} (a : w1.chans = w.chans) (hw : ringsOK w) : ringsOK w1 := by
  intro c; rw [a]; exact hw c

theorem ringsOK_setChan {w : World} (c : Ptr) (h : Hchan) (hw : ringsOK w) (hh : chanInv h) :
    ringsOK (w.setChan c h) := by
  intro c2
  by_cases e : c2 = c
  · subst e; simpa [World.setChan] using hh
  · simpa [World.setChan, Function.update_noteq e] using hw c2

theorem enqueueSendq_sameRing (w : World) (c sg : Ptr) :
    ∀ c2, sameRing (w.chans c2) ((enqueueSendq w c sg).chans c2) := by
  intro c2
  unfold enqueueSendq
  dsimp only
  by_cases e : c2 = c
  · subst e; rw [Function.update_same]; exact sameRing_sendq _ _
  · rw [Function.update_noteq e]; exact sameRing.srefl _

theorem enqueueRecvq_sameRing (w : World) (c sg : Ptr) :
    ∀ c2, sameRing (w.chans c2) ((enqueueRecvq w c sg).chans c2) := by
  intro c2
  unfold enqueueRecvq
  dsimp only
  by_cases e : c2 = c
  · subst e; rw [Function.update_same]; exact sameRing_recvq _ _
  · rw [Function.update_noteq e]; exact sameRing.srefl _

theorem dequeueRecvq_ringsOK {fuel : Nat} {w : World} {c : Ptr} {w1 : World} {sg : Ptr}
    (h : dequeueRecvq fuel w c = some (w1, sg)) (hw : ringsOK w) : ringsOK w1 :=
  ringsOK_of_popped (dequeueRecvq_popped fuel w c w1 sg h).1 hw

theorem dequeueSendq_ringsOK {fuel : Nat} {w : World} {c : Ptr} {w1 : World} {sg : Ptr}
    (h : dequeueSendq fuel w c = some (w1, sg)) (hw : ringsOK w) : ringsOK w1 :=
  ringsOK_of_popped (dequeueSendq_popped fuel w c w1 sg h).1 hw

/-- One element more in a ring that is not full. -/
theorem chanInv_send (h : Hchan) (buf : Nat → Nat) (hi : chanInv h) (hq : h.qcount < h.dataqsiz) :
    chanInv { h with buf := buf,
                     sendx := if h.sendx + 1 = h.dataqsiz then 0 else h.sendx + 1,
                     qcount := h.qcount + 1 } := by
  unfold chanInv at *
  dsimp only
  obtain ⟨h1, h2, h3⟩ := hi
  refine ⟨by omega, fun hd => ⟨?_, (h2 hd).2⟩, fun hd => by omega⟩
  have := (h2 hd).1
  split <;> omega

/-- One element less in a ring that is not empty. -/
theorem chanInv_recv (h : Hchan) (buf : Nat → Nat) (hi : chanInv h) (hq : 0 < h.qcount) :
    chanInv { h with buf := buf,
                     recvx := if h.recvx + 1 = h.dataqsiz then 0 else h.recvx + 1,
                     qcount := h.qcount - 1 } := by
  unfold chanInv at *
  dsimp only
  obtain ⟨h1, h2, h3⟩ := hi
  refine ⟨by omega, fun hd => ⟨(h2 hd).1, ?_⟩, fun hd => by omega⟩
  have := (h2 hd).2
  split <;> omega

theorem chanInv_close (h : Hchan) (hi : chanInv h) : chanInv { h with closed := true } := hi

/-! ## The structural invariant under send, receive and close -/

theorem chansend_asynch_ringsOK (fuel : Nat) (w : World) (g mysg c ep : Ptr) (block : Bool)
    (t0 rt : Int) (w1 : World) (o : Outcome Bool) (hw : ringsOK w)
    (h : chansend_asynch fuel w g mysg c ep block t0 rt = some (w1, o)) : ringsOK w1 := by
  unfold chansend_asynch at h
  by_cases hc : (w.chans c).closed = true
  · rw [if_pos hc] at h
    simp only [chansend_closed, Option.some.injEq, Prod.mk.injEq] at h
    obtain ⟨rfl, _⟩ := h
    exact ringsOK_of_chans rfl hw
  · rw [if_neg hc] at h
    by_cases hq : (w.chans c).qcount ≥ (w.chans c).dataqsiz
    · rw [if_pos hq] at h
      by_cases hb : (!block) = true
      · rw [if_pos hb] at h
        simp only [Option.some.injEq, Prod.mk.injEq] at h
        obtain ⟨rfl, _⟩ := h
        exact ringsOK_of_chans rfl hw
      · rw [if_neg hb] at h
        simp only [Option.some.injEq, Prod.mk.injEq] at h
        obtain ⟨rfl, _⟩ := h
        exact ringsOK_of_sameRing (w := w.setSudog mysg _) (enqueueSendq_sameRing _ c mysg)
          (ringsOK_of_chans rfl hw)
    · rw [if_neg hq] at h
      dsimp only at h
      split at h
      · simp at h
      · rename_i w2 sg hdq
        simp only [Option.some.injEq, Prod.mk.injEq] at h
        obtain ⟨rfl, _⟩ := h
        have h2 : ringsOK w2 :=
          dequeueRecvq_ringsOK hdq (ringsOK_setChan c _ hw (chanInv_send _ _ (hw c) (by omega)))
        apply ringsOK_of_chans _ h2
        rw [blockProfile_chans]
        split <;> simp

theorem chansend_ringsOK (fuel : Nat) (w : World) (g mysg c ep : Ptr) (block : Bool)
    (w1 : World) (o : Outcome Bool) (hw : ringsOK w)
    (h : chansend fuel w g mysg c ep block = some (w1, o)) : ringsOK w1 := by
  unfold chansend at h
  by_cases hc0 : c = 0
  · rw [if_pos hc0] at h
    split at h <;>
    · simp only [Option.some.injEq, Prod.mk.injEq] at h
      obtain ⟨rfl, _⟩ := h
      exact hw
  · rw [if_neg hc0] at h
    dsimp only at h
    have hw1 : ringsOK ((profileStart (gcYield w)).1.log (.lock c)) :=
      ringsOK_of_chans (by simp) hw
    generalize (profileStart (gcYield w)).1.log (.lock c) = wl at h hw1
    by_cases hc : (wl.chans c).closed = true
    · rw [if_pos hc] at h
      simp only [chansend_closed, Option.some.injEq, Prod.mk.injEq] at h
      obtain ⟨rfl, _⟩ := h
      exact ringsOK_of_chans rfl hw1
    · rw [if_neg hc] at h
      by_cases hd : (wl.chans c).dataqsiz > 0
      · rw [if_pos hd] at h
        exact chansend_asynch_ringsOK _ _ _ _ _ _ _ _ _ _ _ hw1 h
      · rw [if_neg hd] at h
        split at h
        · simp at h
        · rename_i w2 sg hdq
          have h2 : ringsOK w2 := dequeueRecvq_ringsOK hdq hw1
          by_cases hsg : sg ≠ 0
          · rw [if_pos hsg] at h
            simp only [Option.some.injEq, Prod.mk.injEq] at h
            obtain ⟨rfl, _⟩ := h
            apply ringsOK_of_chans _ h2
            simp only [log_chans, stampRelease_chans]
            split <;> rfl
          · rw [if_neg hsg] at h
            by_cases hb : (!block) = true
            · rw [if_pos hb] at h
              simp only [Option.some.injEq, Prod.mk.injEq] at h
              obtain ⟨rfl, _⟩ := h
              exact ringsOK_of_chans rfl h2
            · rw [if_neg hb] at h
              simp only [Option.some.injEq, Prod.mk.injEq] at h
              obtain ⟨rfl, _⟩ := h
              refine ringsOK_of_sameRing (w := w2) ?_ h2
              intro c2
              exact enqueueSendq_sameRing
                { w2.setSudog mysg _ with param := _ } c mysg c2

theorem chansend_wake_ringsOK (w : World) (g mysg c : Ptr) (t0 : Int) (hw : ringsOK w) :
    ringsOK (chansend_wake w g mysg c t0).1 := by
  unfold chansend_wake
  split
  · dsimp only
    split
    · exact ringsOK_of_chans rfl hw
    · exact ringsOK_of_chans rfl hw
  · exact ringsOK_of_chans (by simp) hw

theorem chanrecv_closed_ringsOK (w : World) (c ep received : Ptr) (t0 rt : Int)
    (hw : ringsOK w) : ringsOK (chanrecv_closed w c ep received t0 rt).1 := by
  apply ringsOK_of_chans _ hw
  unfold chanrecv_closed
  simp only [blockProfile_chans, log_chans, setReceived_chans]
  split <;> rfl

theorem chanrecv_asynch_ringsOK (fuel : Nat) (w : World) (g mysg c ep received : Ptr)
    (block : Bool) (t0 rt : Int) (w1 : World) (o : Outcome Bool) (hw : ringsOK w)
    (h : chanrecv_asynch fuel w g mysg c ep received block t0 rt = some (w1, o)) :
    ringsOK w1 := by
  unfold chanrecv_asynch at h
  by_cases hq : (w.chans c).qcount ≤ 0
  · rw [if_pos hq] at h
    by_cases hc : (w.chans c).closed = true
    · rw [if_pos hc] at h
      simp only [Option.some.injEq] at h
      have := chanrecv_closed_ringsOK w c ep received t0 rt hw
      rw [h] at this
      exact this
    · rw [if_neg hc] at h
      by_cases hb : (!block) = true
      · rw [if_pos hb] at h
        simp only [Option.some.injEq, Prod.mk.injEq] at h
        obtain ⟨rfl, _⟩ := h
        exact ringsOK_of_chans (by simp) hw
      · rw [if_neg hb] at h
        simp only [Option.some.injEq, Prod.mk.injEq] at h
        obtain ⟨rfl, _⟩ := h
        exact ringsOK_of_sameRing (w := w.setSudog mysg _) (enqueueRecvq_sameRing _ c mysg)
          (ringsOK_of_chans rfl hw)
  · rw [if_neg hq] at h
    dsimp only at h
    split at h
    · simp at h
    · rename_i w3 sg hdq
      simp only [Option.some.injEq, Prod.mk.injEq] at h
      obtain ⟨rfl, _⟩ := h
      have h3 : ringsOK w3 := by
        refine dequeueSendq_ringsOK hdq
          (ringsOK_setChan c _ ?_ (chanInv_recv _ _ (hw c) (by omega)))
        split
        · exact ringsOK_of_chans rfl hw
        · exact hw
      apply ringsOK_of_chans _ h3
      rw [blockProfile_chans, setReceived_chans]
      split <;> simp

theorem chanrecv_ringsOK (fuel : Nat) (w : World) (g mysg c ep received : Ptr) (block : Bool)
    (w1 : World) (o : Outcome Bool) (hw : ringsOK w)
    (h : chanrecv fuel w g mysg c ep received block = some (w1, o)) : ringsOK w1 := by
  unfold chanrecv at h
  dsimp only at h
  by_cases hc0 : c = 0
  · rw [if_pos hc0] at h
    split at h <;>
    · simp only [Option.some.injEq, Prod.mk.injEq] at h
      obtain ⟨rfl, _⟩ := h
      exact ringsOK_of_chans (by simp) hw
  · rw [if_neg hc0] at h
    have hw1 : ringsOK ((profileStart (gcYield w)).1.log (.lock c)) :=
      ringsOK_of_chans (by simp) hw
    generalize (profileStart (gcYield w)).1.log (.lock c) = wl at h hw1
    by_cases hd : (wl.chans c).dataqsiz > 0
    · rw [if_pos hd] at h
      exact chanrecv_asynch_ringsOK _ _ _ _ _ _ _ _ _ _ _ _ hw1 h
    · rw [if_neg hd] at h
      by_cases hc : (wl.chans c).closed = true
      · rw [if_pos hc] at h
        simp only [Option.some.injEq] at h
        have := chanrecv_closed_ringsOK wl c ep received (profileStart (gcYield w)).2.1
          (profileStart (gcYield w)).2.2 hw1
        rw [h] at this
        exact this
      · rw [if_neg hc] at h
        split at h
        · simp at h
        · rename_i w2 sg hdq
          have h2 : ringsOK w2 := dequeueSendq_ringsOK hdq hw1
          by_cases hsg : sg ≠ 0
          · rw [if_pos hsg] at h
            simp only [Option.some.injEq, Prod.mk.injEq] at h
            obtain ⟨rfl, _⟩ := h
            apply ringsOK_of_chans _ h2
            simp only [setReceived_chans, log_chans, stampRelease_chans]
            split <;> rfl
          · rw [if_neg hsg] at h
            by_cases hb : (!block) = true
            · rw [if_pos hb] at h
              simp only [Option.some.injEq, Prod.mk.injEq] at h
              obtain ⟨rfl, _⟩ := h
              exact ringsOK_of_chans rfl h2
            · rw [if_neg hb] at h
              simp only [Option.some.injEq, Prod.mk.injEq] at h
              obtain ⟨rfl, _⟩ := h
              refine ringsOK_of_sameRing (w := w2) ?_ h2
              intro c2
              exact enqueueRecvq_sameRing
                { w2.setSudog mysg _ with param := _ } c mysg c2

theorem chanrecv_wake_ringsOK (w : World) (g mysg c ep received : Ptr) (t0 : Int)
    (hw : ringsOK w) : ringsOK (chanrecv_wake w g mysg c ep received t0).1 := by
  unfold chanrecv_wake
  split
  · dsimp only
    split
    · exact ringsOK_of_chans rfl hw
    · exact chanrecv_closed_ringsOK _ _ _ _ _ _ (ringsOK_of_chans rfl hw)
  · exact ringsOK_of_chans (by simp) hw

theorem closechan_readers_ringsOK :
    ∀ (fuel : Nat) (w : World) (c : Ptr) (w1 : World), ringsOK w →
      closechan_readers fuel w c = some w1 → ringsOK w1
  | 0, _, _, _, _, h => by simp [closechan_readers] at h
  | fuel + 1, w, c, w1, hw, h => by
    rw [closechan_readers] at h
    split at h
    · simp at h
    · rename_i w2 sg hdq
      have h2 : ringsOK w2 := dequeueRecvq_ringsOK hdq hw
      by_cases hsg : sg = 0
      · rw [if_pos hsg] at h
        simp only [Option.some.injEq] at h
        rw [← h]; exact h2
      · rw [if_neg hsg] at h
        exact closechan_readers_ringsOK fuel _ c w1 (ringsOK_of_chans (by simp) h2) h

theorem closechan_writers_ringsOK :
    ∀ (fuel : Nat) (w : World) (c : Ptr) (w1 : World), ringsOK w →
      closechan_writers fuel w c = some w1 → ringsOK w1
  | 0, _, _, _, _, h => by simp [closechan_writers] at h
  | fuel + 1, w, c, w1, hw, h => by
    rw [closechan_writers] at h
    split at h
    · simp at h
    · rename_i w2 sg hdq
      have h2 : ringsOK w2 := dequeueSendq_ringsOK hdq hw
      by_cases hsg : sg = 0
      · rw [if_pos hsg] at h
        simp only [Option.some.injEq] at h
        rw [← h]; exact h2
      · rw [if_neg hsg] at h
        exact closechan_writers_ringsOK fuel _ c w1 (ringsOK_of_chans (by simp) h2) h

theorem closechan_ringsOK (fuel : Nat) (w : World) (c : Ptr) (w1 : World) (o : Outcome Unit)
    (hw : ringsOK w) (h : closechan fuel w c = some (w1, o)) : ringsOK w1 := by
  unfold closechan at h
  by_cases hc0 : c = 0
  · rw [if_pos hc0] at h
    simp only [Option.some.injEq, Prod.mk.injEq] at h
    obtain ⟨rfl, _⟩ := h
    exact hw
  · rw [if_neg hc0] at h
    dsimp only at h
    have hw1 : ringsOK ((gcYield w).log (.lock c)) := ringsOK_of_chans (by simp) hw
    generalize (gcYield w).log (.lock c) = wl at h hw1
    by_cases hc : (wl.chans c).closed = true
    · rw [if_pos hc] at h
      simp only [Option.some.injEq, Prod.mk.injEq] at h
      obtain ⟨rfl, _⟩ := h
      exact ringsOK_of_chans rfl hw1
    · rw [if_neg hc] at h
      split at h
      · simp at h
      · rename_i w3 hr
        split at h
        · simp at h
        · rename_i w4 hwr
          simp only [Option.some.injEq, Prod.mk.injEq] at h
          obtain ⟨rfl, _⟩ := h
          have h3 := closechan_readers_ringsOK fuel _ c w3
            (ringsOK_setChan c _ hw1 (chanInv_close _ (hw1 c))) hr
          exact ringsOK_of_chans rfl (closechan_writers_ringsOK fuel _ c w4 h3 hwr)

theorem makechan_ringsOK (pf : Platform) (w : World) (elemtype : Ptr) (esize : Nat) (hint : Int)
    (newc : Ptr) (hw : ringsOK w) : ringsOK (makechan pf w elemtype esize hint newc).1 := by
  unfold makechan
  split
  · exact hw
  · split
    · exact hw
    · dsimp only
      apply ringsOK_setChan _ _ (ringsOK_of_chans rfl hw)
      unfold chanInv zeroHchan
      dsimp only
      exact ⟨Nat.zero_le _, fun h => ⟨h, h⟩, fun _ => rfl⟩

/-! ## The structural invariant under `selectgo` -/

theorem selectgo_asyncrecv_ringsOK (fuel : Nat) (w : World) (sel : Select) (cas : Scase)
    (t0 : Int) (r : World × Outcome Nat) (hw : ringsOK w) (hq : 0 < (w.chans cas.chan).qcount)
    (h : selectgo_asyncrecv fuel w sel cas t0 = some r) : ringsOK r.1 := by
  unfold selectgo_asyncrecv at h
  dsimp only at h
  split at h
  · simp at h
  · rename_i w4 sg hdq
    simp only [Option.some.injEq] at h
    rw [← h]
    have h4 : ringsOK w4 := by
      refine dequeueSendq_ringsOK hdq (ringsOK_setChan _ _ ?_ ?_)
      · split
        · exact ringsOK_of_chans (by simp) hw
        · exact ringsOK_of_chans (by simp) hw
      · rw [setReceived_chans]
        exact chanInv_recv _ _ (hw _) hq
    apply ringsOK_of_chans _ h4
    rw [selectgo_retc_chans]
    split <;> simp

theorem selectgo_asyncsend_ringsOK (fuel : Nat) (w : World) (sel : Select) (cas : Scase)
    (t0 : Int) (r : World × Outcome Nat) (hw : ringsOK w)
    (hq : (w.chans cas.chan).qcount < (w.chans cas.chan).dataqsiz)
    (h : selectgo_asyncsend fuel w sel cas t0 = some r) : ringsOK r.1 := by
  unfold selectgo_asyncsend at h
  dsimp only at h
  split at h
  · simp at h
  · rename_i w2 sg hdq
    simp only [Option.some.injEq] at h
    rw [← h]
    have h2 : ringsOK w2 :=
      dequeueRecvq_ringsOK hdq (ringsOK_setChan _ _ hw (chanInv_send _ _ (hw _) hq))
    apply ringsOK_of_chans _ h2
    rw [selectgo_retc_chans]
    split <;> simp

theorem selectgo_syncrecv_chans (w : World) (sel : Select) (cas : Scase) (sg : Ptr) (t0 : Int) :
    (selectgo_syncrecv w sel cas sg t0).1.chans = w.chans := by
  unfold selectgo_syncrecv
  simp only [selectgo_retc_chans, log_chans, stampRelease_chans]
  split <;> simp

theorem selectgo_rclose_chans (w : World) (sel : Select) (cas : Scase) (t0 : Int) :
    (selectgo_rclose w sel cas t0).1.chans = w.chans := by
  unfold selectgo_rclose
  simp only [selectgo_retc_chans]
  split <;> simp

theorem selectgo_syncsend_chans (w : World) (sel : Select) (cas : Scase) (sg : Ptr) (t0 : Int) :
    (selectgo_syncsend w sel cas sg t0).1.chans = w.chans := by
  unfold selectgo_syncsend
  simp only [selectgo_retc_chans, log_chans, stampRelease_chans]
  split <;> simp

theorem pass2_sameRing (sel : Select) (g done : Ptr) :
    ∀ (r i : Nat) (w : World) (c : Ptr), sameRing (w.chans c) ((pass2 sel g done r i w).chans c)
  | 0, _, _, _ => sameRing.srefl _
  | r + 1, i, w, c => by
    rw [pass2]
    dsimp only
    refine sameRing.strans ?_ (pass2_sameRing sel g done r (i + 1) _ c)
    split
    · exact enqueueRecvq_sameRing (w.setSudog _ _) _ _ c
    · split
      · exact enqueueSendq_sameRing (w.setSudog _ _) _ _ c
      · exact sameRing.srefl _

theorem selectgo_loop_ringsOK (fuel : Nat) (w : World) (g done : Ptr) (sel : Select) (t0 : Int)
    (r : World × Outcome Nat) (hw : ringsOK w)
    (h : selectgo_loop fuel w g done sel t0 = some r) : ringsOK r.1 := by
  unfold selectgo_loop at h
  cases hp : pass1 fuel sel sel.ncase 0 w none with
  | none => rw [hp] at h; simp at h
  | some p =>
    obtain ⟨w1, res⟩ := p
    rw [hp] at h
    obtain ⟨q1, q2⟩ := pass1_spec fuel sel _ _ _ _ _ _ hp
    have hw1 : ringsOK w1 := ringsOK_of_popped q1 hw
    cases res with
    | fired l cas sg =>
      obtain ⟨k, w0, _, _, _, a4, _, a6⟩ := q2
      have hs := (pass1_case_spec fuel w0 cas w1 _ a6).2.2
      cases l with
      | asyncrecv =>
        obtain ⟨rfl, _, _, b4⟩ := hs
        exact selectgo_asyncrecv_ringsOK fuel w1 sel cas t0 r hw1 b4 h
      | asyncsend =>
        obtain ⟨rfl, _, _, b4, _⟩ := hs
        exact selectgo_asyncsend_ringsOK fuel w1 sel cas t0 r hw1 b4 h
      | syncrecv =>
        simp only [Option.some.injEq] at h
        rw [← h]
        exact ringsOK_of_chans (selectgo_syncrecv_chans _ _ _ _ _) hw1
      | rclose =>
        simp only [Option.some.injEq] at h
        rw [← h]
        exact ringsOK_of_chans (selectgo_rclose_chans _ _ _ _) hw1
      | syncsend =>
        simp only [Option.some.injEq] at h
        rw [← h]
        exact ringsOK_of_chans (selectgo_syncsend_chans _ _ _ _ _) hw1
      | sclose =>
        simp only [Option.some.injEq] at h
        rw [← h]
        exact ringsOK_of_chans (by simp [selectgo_sclose]) hw1
    | done d =>
      cases d with
      | some dfl =>
        simp only [Option.some.injEq] at h
        rw [← h]
        exact ringsOK_of_chans (by simp) hw1
      | none =>
        simp only [Option.some.injEq] at h
        rw [← h]
        apply ringsOK_of_chans (w := pass2 sel g done sel.ncase 0
          { w1 with words := Function.update w1.words done 0 }) (by simp)
        exact ringsOK_of_sameRing (pass2_sameRing sel g done _ _ _)
          (ringsOK_of_chans (w := w1) rfl hw1)

theorem selectgo_ringsOK (fuel : Nat) (fastrand : Nat → Nat) (w : World) (g done : Ptr)
    (sel : Select) (r : World × Outcome Nat) (hw : ringsOK w)
    (h : selectgo fuel fastrand w g done sel = some r) : ringsOK r.1 :=
  selectgo_loop_ringsOK fuel _ g done _ _ r
    (ringsOK_of_chans (selectgo_prologue_spec fastrand w sel).1.1 hw) h

theorem dequeuegRecvq_sameRing (g : Ptr) (fuel : Nat) (w : World) (c : Ptr) (w1 : World)
    (h : dequeuegRecvq g fuel w c = some w1) : ∀ c2, sameRing (w.chans c2) (w1.chans c2) := by
  unfold dequeuegRecvq at h
  split at h
  · simp at h
  · simp only [Option.some.injEq] at h
    rw [← h]
    intro c2
    by_cases e : c2 = c
    · subst e; simp only [Function.update_same]; exact sameRing_recvq _ _
    · simp only [Function.update_noteq e]; exact sameRing.srefl _

theorem dequeuegSendq_sameRing (g : Ptr) (fuel : Nat) (w : World) (c : Ptr) (w1 : World)
    (h : dequeuegSendq g fuel w c = some w1) : ∀ c2, sameRing (w.chans c2) (w1.chans c2) := by
  unfold dequeuegSendq at h
  split at h
  · simp at h
  · simp only [Option.some.injEq] at h
    rw [← h]
    intro c2
    by_cases e : c2 = c
    · subst e; simp only [Function.update_same]; exact sameRing_sendq _ _
    · simp only [Function.update_noteq e]; exact sameRing.srefl _

theorem pass3_sameRing (g : Ptr) (fuel : Nat) (sel : Select) (sg : Ptr) :
    ∀ (r i : Nat) (w w1 : World), pass3 g fuel sel sg r i w = some w1 →
      ∀ c, sameRing (w.chans c) (w1.chans c)
  | 0, _, w, w1, h => by
    simp only [pass3, Option.some.injEq] at h
    rw [← h]; exact fun _ => sameRing.srefl _
  | r + 1, i, w, w1, h => by
    rw [pass3] at h
    dsimp only at h
    by_cases hne : (sel.scase i).sg ≠ sg
    · rw [if_pos hne] at h
      split at h
      · simp at h
      · rename_i w2 hdq
        intro c
        refine sameRing.strans ?_ (pass3_sameRing g fuel sel sg r (i + 1) w2 w1 h c)
        by_cases hk : (sel.scase i).kind = CaseSend
        · rw [if_pos hk] at hdq
          exact dequeuegSendq_sameRing g fuel w _ w2 hdq c
        · rw [if_neg hk] at hdq
          exact dequeuegRecvq_sameRing g fuel w _ w2 hdq c
    · rw [if_neg hne] at h
      exact pass3_sameRing g fuel sel sg r (i + 1) w w1 h

theorem selectgo_wake_ringsOK (fuel : Nat) (w : World) (g done : Ptr) (sel : Select) (t0 : Int)
    (r : World × Outcome Nat) (hw : ringsOK w)
    (h : selectgo_wake fuel w g done sel t0 = some r) : ringsOK r.1 := by
  unfold selectgo_wake at h
  dsimp only at h
  split at h
  · simp at h
  · rename_i w2 hp3
    have hw2 : ringsOK w2 :=
      ringsOK_of_sameRing (pass3_sameRing g fuel _ _ _ _ _ w2 hp3)
        (ringsOK_of_chans (by simp) hw)
    split at h
    · exact selectgo_loop_ringsOK fuel w2 g done _ t0 r hw2 h
    · split at h
      · simp at h
      · split at h
        · simp only [Option.some.injEq] at h
          rw [← h]; exact hw2
        · simp only [Option.some.injEq] at h
          rw [← h]
          apply ringsOK_of_chans _ hw2
          rw [selectgo_retc_chans, selunlock_chans]
          split <;> simp

/-! ## C15: the structural invariant -/

/-- C15: in a world in which every channel header satisfies the structural
invariant (`qcount ≤ dataqsiz`; `sendx < dataqsiz` and `recvx < dataqsiz` when
`dataqsiz > 0`; `qcount = 0` when `dataqsiz = 0`), every step of a channel
operation leads to such a world again: `makechan`, `chansend` and `chanrecv`
from entry to the first return, panic or park, their continuations after a
park, `closechan`, and `selectgo` from entry to its return, panic or park and
from the wake-up on. -/
theorem C15_structural_invariant (w : World) (hw : ringsOK w) :
    (∀ pf elemtype esize hint newc, ringsOK (makechan pf w elemtype esize hint newc).1) ∧
    (∀ fuel g mysg c ep block w1 o,
      chansend fuel w g mysg c ep block = some (w1, o) → ringsOK w1) ∧
    (∀ g mysg c t0, ringsOK (chansend_wake w g mysg c t0).1) ∧
    (∀ fuel g mysg c ep block t0 w1 o,
      chansend_asynch_wake fuel w g mysg c ep block t0 = some (w1, o) → ringsOK w1) ∧
    (∀ fuel g mysg c ep received block w1 o,
      chanrecv fuel w g mysg c ep received block = some (w1, o) → ringsOK w1) ∧
    (∀ g mysg c ep received t0, ringsOK (chanrecv_wake w g mysg c ep received t0).1) ∧
    (∀ fuel g mysg c ep received block t0 w1 o,
      chanrecv_asynch_wake fuel w g mysg c ep received block t0 = some (w1, o) → ringsOK w1) ∧
    (∀ fuel c w1 o, closechan fuel w c = some (w1, o) → ringsOK w1) ∧
    (∀ fuel fastrand g done sel w1 o,
      selectgo fuel fastrand w g done sel = some (w1, o) → ringsOK w1) ∧
    (∀ fuel g done sel t0 w1 o,
      selectgo_wake fuel w g done sel t0 = some (w1, o) → ringsOK w1) := by
  refine ⟨?_, ?_, ?_, ?_, ?_, ?_, ?_, ?_, ?_, ?_⟩
  · intro pf elemtype esize hint newc
    exact makechan_ringsOK pf w elemtype esize hint newc hw
  · intro fuel g mysg c ep block w1 o h
    exact chansend_ringsOK fuel w g mysg c ep block w1 o hw h
  · intro g mysg c t0
    exact chansend_wake_ringsOK w g mysg c t0 hw
  · intro fuel g mysg c ep block t0 w1 o h
    exact chansend_asynch_ringsOK fuel (w.log (.lock c)) g mysg c ep block t0 _ w1 o
      (ringsOK_of_chans rfl hw) h
  · intro fuel g mysg c ep received block w1 o h
    exact chanrecv_ringsOK fuel w g mysg c ep received block w1 o hw h
  · intro g mysg c ep received t0
    exact chanrecv_wake_ringsOK w g mysg c ep received t0 hw
  · intro fuel g mysg c ep received block t0 w1 o h
    exact chanrecv_asynch_ringsOK fuel (w.log (.lock c)) g mysg c ep received block t0 _ w1 o
      (ringsOK_of_chans rfl hw) h
  · intro fuel c w1 o h
    exact closechan_ringsOK fuel w c w1 o hw h
  · intro fuel fastrand g done sel w1 o h
    exact selectgo_ringsOK fuel fastrand w g done sel (w1, o) hw h
  · intro fuel g done sel t0 w1 o h
    exact selectgo_wake_ringsOK fuel w g done sel t0 (w1, o) hw h

/-- The theorem `C15_structural_invariant` at the empty channel of capacity 1:
a send fills the only slot, and the invariant holds after it. -/
theorem C15_structural_invariant_witness :
    ringsOK oneSlotWorld ∧
    ∃ w1, chansend 1 oneSlotWorld 7 8 1 50 true = some (w1, .returned true) ∧
      (w1.chans 1).qcount = 1 ∧ (w1.chans 1).sendx = 0 ∧ ringsOK w1 := by
  have hw : ringsOK oneSlotWorld := by
    intro c
    by_cases hc : c = 1
    · subst hc; decide
    · have : oneSlotWorld.chans c = zeroHchan := by
        simp [oneSlotWorld, World.setChan, Function.update_noteq hc, emptyWorld]
      rw [this]; decide
  have hs : (chansend 1 oneSlotWorld 7 8 1 50 true).map
      (fun r => (r.2, (r.1.chans 1).qcount, (r.1.chans 1).sendx))
      = some (.returned true, 1, 0) := by decide
  cases h : chansend 1 oneSlotWorld 7 8 1 50 true with
  | none => rw [h] at hs; simp at hs
  | some r =>
    obtain ⟨w1, o⟩ := r
    rw [h] at hs
    simp only [Option.map_some', Option.some.injEq, Prod.mk.injEq] at hs
    obtain ⟨rfl, h1, h2⟩ := hs
    exact ⟨hw, w1, rfl, h1, h2,
      (C15_structural_invariant oneSlotWorld hw).2.1 1 7 8 1 50 true w1 _ h⟩

/-! ## What the labels of `selectgo` write -/

theorem setReceived_bools_ne (w : World) (p : Ptr) (v : Bool) (a : Ptr)
    (h : (setReceived w p v).bools a ≠ w.bools a) : a = p ∧ a ≠ 0 := by
  unfold setReceived at h
  by_cases hp : p ≠ 0
  · rw [if_pos hp] at h
    by_cases e : a = p
    · exact ⟨e, by rw [e]; exact hp⟩
    · exact absurd (Function.update_noteq e _ _) h
  · rw [if_neg hp] at h
    exact absurd rfl h

theorem memmove_ne (d s : Nat → Nat) (dst src n a : Nat) (h : memmove d s dst src n a ≠ d a) :
    dst ≤ a ∧ a < dst + n := by
  unfold memmove at h
  by_contra hn
  exact h (if_neg hn)

theorem memclr_ne (d : Nat → Nat) (dst n a : Nat) (h : memclr d dst n a ≠ d a) :
    dst ≤ a ∧ a < dst + n := by
  unfold memclr at h
  by_contra hn
  exact h (if_neg hn)

theorem setReceived_bools_ite (w : World) (p : Ptr) (v : Bool) :
    (setReceived w p v).bools = if p ≠ 0 then Function.update w.bools p v else w.bools := by
  unfold setReceived
  split <;> rfl

theorem ite_world_mem (c : Prop) [Decidable c] (w : World) (m : Ptr → Nat) :
    (if c then { w with mem := m } else w).mem = if c then m else w.mem := by
  split <;> rfl

theorem ite_world_bools (c : Prop) [Decidable c] (w : World) (m : Ptr → Nat) :
    (if c then { w with mem := m } else w).bools = w.bools := by
  split <;> rfl

theorem ite_world_param (c : Prop) [Decidable c] (w : World) (m : Ptr → Nat) :
    (if c then { w with mem := m } else w).param = w.param := by
  split <;> rfl

theorem ite_world_sudogs (c : Prop) [Decidable c] (w : World) (m : Ptr → Nat) :
    (if c then { w with mem := m } else w).sudogs = w.sudogs := by
  split <;> rfl

theorem ite_world_chans (c : Prop) [Decidable c] (w : World) (m : Ptr → Nat) :
    (if c then { w with mem := m } else w).chans = w.chans := by
  split <;> rfl

/-- The fields of the world after the label `syncrecv:`. -/
theorem selectgo_syncrecv_fields (w : World) (sel : Select) (cas : Scase) (sg : Ptr) (t0 : Int) :
    (selectgo_syncrecv w sel cas sg t0).2 = .returned cas.index ∧
    (selectgo_syncrecv w sel cas sg t0).1.chans = w.chans ∧
    (selectgo_syncrecv w sel cas sg t0).1.mem
      = (if cas.elem ≠ 0 then
          memmove w.mem w.mem cas.elem (w.sudogs sg).elem (w.chans cas.chan).elemsize
        else w.mem) ∧
    (selectgo_syncrecv w sel cas sg t0).1.bools = (setReceived w cas.receivedp true).bools ∧
    (selectgo_syncrecv w sel cas sg t0).1.param = Function.update w.param (w.sudogs sg).g sg := by
  refine ⟨rfl, selectgo_syncrecv_chans _ _ _ _ _, ?_, ?_, ?_⟩
  · unfold selectgo_syncrecv
    obtain ⟨t, ht⟩ := selunlock_frame sel w
    rw [ht]
    simp only [selectgo_retc_mem, selectgo_retc_bools, selectgo_retc_param, log_mem, log_bools,
      log_param, stampRelease_mem, stampRelease_bools, stampRelease_param]
    split <;> simp [setReceived_bools_ite]
  · unfold selectgo_syncrecv
    obtain ⟨t, ht⟩ := selunlock_frame sel w
    rw [ht]
    simp only [selectgo_retc_mem, selectgo_retc_bools, selectgo_retc_param, log_mem, log_bools,
      log_param, stampRelease_mem, stampRelease_bools, stampRelease_param]
    split <;> simp [setReceived_bools_ite]
  · unfold selectgo_syncrecv
    obtain ⟨t, ht⟩ := selunlock_frame sel w
    rw [ht]
    simp only [selectgo_retc_mem, selectgo_retc_bools, selectgo_retc_param, log_mem, log_bools,
      log_param, stampRelease_mem, stampRelease_bools, stampRelease_param]
    split <;> simp [setReceived_bools_ite]

/-- The fields of the world after the label `rclose:`. -/
theorem selectgo_rclose_fields (w : World) (sel : Select) (cas : Scase) (t0 : Int) :
    (selectgo_rclose w sel cas t0).2 = .returned cas.index ∧
    (selectgo_rclose w sel cas t0).1.chans = w.chans ∧
    (selectgo_rclose w sel cas t0).1.mem
      = (if cas.elem ≠ 0 then memclr w.mem cas.elem (w.chans cas.chan).elemsize else w.mem) ∧
    (selectgo_rclose w sel cas t0).1.bools = (setReceived w cas.receivedp false).bools ∧
    (selectgo_rclose w sel cas t0).1.param = w.param := by
  refine ⟨rfl, selectgo_rclose_chans _ _ _ _, ?_, ?_, ?_⟩
  · unfold selectgo_rclose
    obtain ⟨t, ht⟩ := selunlock_frame sel w
    rw [ht]
    simp only [selectgo_retc_mem, selectgo_retc_bools, selectgo_retc_param, log_mem, log_bools,
      log_param, stampRelease_mem, stampRelease_bools, stampRelease_param]
    split <;> simp [setReceived_bools_ite]
  · unfold selectgo_rclose
    obtain ⟨t, ht⟩ := selunlock_frame sel w
    rw [ht]
    simp only [selectgo_retc_mem, selectgo_retc_bools, selectgo_retc_param, log_mem, log_bools,
      log_param, stampRelease_mem, stampRelease_bools, stampRelease_param]
    split <;> simp [setReceived_bools_ite]
  · unfold selectgo_rclose
    obtain ⟨t, ht⟩ := selunlock_frame sel w
    rw [ht]
    simp only [selectgo_retc_mem, selectgo_retc_bools, selectgo_retc_param, log_mem, log_bools,
      log_param, stampRelease_mem, stampRelease_bools, stampRelease_param]
    split <;> simp [setReceived_bools_ite]

/-- The fields of the world after the label `syncsend:`. -/
theorem selectgo_syncsend_fields (w : World) (sel : Select) (cas : Scase) (sg : Ptr) (t0 : Int) :
    (selectgo_syncsend w sel cas sg t0).2 = .returned cas.index ∧
    (selectgo_syncsend w sel cas sg t0).1.chans = w.chans ∧
    (selectgo_syncsend w sel cas sg t0).1.mem
      = (if (w.sudogs sg).elem ≠ 0 then
          memmove w.mem w.mem (w.sudogs sg).elem cas.elem (w.chans cas.chan).elemsize
        else w.mem) ∧
    (selectgo_syncsend w sel cas sg t0).1.bools = w.bools ∧
    (selectgo_syncsend w sel cas sg t0).1.param = Function.update w.param (w.sudogs sg).g sg := by
  refine ⟨rfl, selectgo_syncsend_chans _ _ _ _ _, ?_, ?_, ?_⟩
  · unfold selectgo_syncsend
    obtain ⟨t, ht⟩ := selunlock_frame sel w
    rw [ht]
    simp only [selectgo_retc_mem, selectgo_retc_bools, selectgo_retc_param, log_mem, log_bools,
      log_param, stampRelease_mem, stampRelease_bools, stampRelease_param]
    split <;> simp [setReceived_bools_ite]
  · unfold selectgo_syncsend
    obtain ⟨t, ht⟩ := selunlock_frame sel w
    rw [ht]
    simp only [selectgo_retc_mem, selectgo_retc_bools, selectgo_retc_param, log_mem, log_bools,
      log_param, stampRelease_mem, stampRelease_bools, stampRelease_param]
    split <;> simp [setReceived_bools_ite]
  · unfold selectgo_syncsend
    obtain ⟨t, ht⟩ := selunlock_frame sel w
    rw [ht]
    simp only [selectgo_retc_mem, selectgo_retc_bools, selectgo_retc_param, log_mem, log_bools,
      log_param, stampRelease_mem, stampRelease_bools, stampRelease_param]
    split <;> simp [setReceived_bools_ite]

/-- The fields of the world after the label `asyncrecv:`. -/
theorem selectgo_asyncrecv_fields (fuel : Nat) (w : World) (sel : Select) (cas : Scase)
    (t0 : Int) (r : World × Outcome Nat) (h : selectgo_asyncrecv fuel w sel cas t0 = some r) :
    r.2 = .returned cas.index ∧
    (∀ c2, c2 ≠ cas.chan → r.1.chans c2 = w.chans c2) ∧
    (r.1.chans cas.chan).qcount = (w.chans cas.chan).qcount - 1 ∧
    r.1.mem = (if cas.elem ≠ 0 then
        memmove w.mem (w.chans cas.chan).buf cas.elem
          (chanbuf (w.chans cas.chan) (w.chans cas.chan).recvx) (w.chans cas.chan).elemsize
      else w.mem) ∧
    r.1.bools = (setReceived w cas.receivedp true).bools ∧ r.1.param = w.param := by
  unfold selectgo_asyncrecv at h
  dsimp only at h
  split at h
  · simp at h
  · rename_i w4 sg hdq
    simp only [Option.some.injEq] at h
    obtain ⟨p1, p2, _, _⟩ := dequeueSendq_popped _ _ _ _ _ hdq
    obtain ⟨e1, e2, e3, e4, _, e6⟩ := p1
    have hq := sameRing_qcount (e6 cas.chan).1
    rw [← h]
    refine ⟨rfl, ?_, ?_, ?_, ?_, ?_⟩
    · intro c2 hc2
      have : (selectgo_retc (if sg ≠ 0 then
          (stampRelease (selunlock sel w4) sg).log (.ready (w4.sudogs sg).g)
        else selunlock sel w4) sel cas t0).1.chans = w4.chans := by
        rw [selectgo_retc_chans]; split <;> simp
      rw [this, p2 c2 hc2]
      simp only [World.setChan, Function.update_noteq hc2]
      split <;> simp
    · have : (selectgo_retc (if sg ≠ 0 then
          (stampRelease (selunlock sel w4) sg).log (.ready (w4.sudogs sg).g)
        else selunlock sel w4) sel cas t0).1.chans = w4.chans := by
        rw [selectgo_retc_chans]; split <;> simp
      rw [this, hq]
      simp [World.setChan]
    · have : (selectgo_retc (if sg ≠ 0 then
          (stampRelease (selunlock sel w4) sg).log (.ready (w4.sudogs sg).g)
        else selunlock sel w4) sel cas t0).1.mem = w4.mem := by
        rw [selectgo_retc_mem]; split <;> simp
      rw [this, e2]
      simp only [World.setChan]
      split <;> simp
    · have : (selectgo_retc (if sg ≠ 0 then
          (stampRelease (selunlock sel w4) sg).log (.ready (w4.sudogs sg).g)
        else selunlock sel w4) sel cas t0).1.bools = w4.bools := by
        rw [selectgo_retc_bools]; split <;> simp
      rw [this, e3]
      simp only [World.setChan]
      split <;> simp
    · have : (selectgo_retc (if sg ≠ 0 then
          (stampRelease (selunlock sel w4) sg).log (.ready (w4.sudogs sg).g)
        else selunlock sel w4) sel cas t0).1.param = w4.param := by
        rw [selectgo_retc_param]; split <;> simp
      rw [this, e4]
      simp only [World.setChan]
      split <;> simp

/-- The fields of the world after the label `asyncsend:`. -/
theorem selectgo_asyncsend_fields (fuel : Nat) (w : World) (sel : Select) (cas : Scase)
    (t0 : Int) (r : World × Outcome Nat) (h : selectgo_asyncsend fuel w sel cas t0 = some r) :
    r.2 = .returned cas.index ∧
    (∀ c2, c2 ≠ cas.chan → r.1.chans c2 = w.chans c2) ∧
    (r.1.chans cas.chan).qcount = (w.chans cas.chan).qcount + 1 ∧
    r.1.mem = w.mem ∧ r.1.bools = w.bools ∧ r.1.param = w.param := by
  unfold selectgo_asyncsend at h
  dsimp only at h
  split at h
  · simp at h
  · rename_i w2 sg hdq
    simp only [Option.some.injEq] at h
    obtain ⟨p1, p2, _, _⟩ := dequeueRecvq_popped _ _ _ _ _ hdq
    obtain ⟨e1, e2, e3, e4, _, e6⟩ := p1
    have hq := sameRing_qcount (e6 cas.chan).1
    rw [← h]
    refine ⟨rfl, ?_, ?_, ?_, ?_, ?_⟩
    · intro c2 hc2
      have : (selectgo_retc (if sg ≠ 0 then
          (stampRelease (selunlock sel w2) sg).log (.ready (w2.sudogs sg).g)
        else selunlock sel w2) sel cas t0).1.chans = w2.chans := by
        rw [selectgo_retc_chans]; split <;> simp
      rw [this, p2 c2 hc2]
      simp only [World.setChan, Function.update_noteq hc2]
    · have : (selectgo_retc (if sg ≠ 0 then
          (stampRelease (selunlock sel w2) sg).log (.ready (w2.sudogs sg).g)
        else selunlock sel w2) sel cas t0).1.chans = w2.chans := by
        rw [selectgo_retc_chans]; split <;> simp
      rw [this, hq]
      simp [World.setChan]
    · have : (selectgo_retc (if sg ≠ 0 then
          (stampRelease (selunlock sel w2) sg).log (.ready (w2.sudogs sg).g)
        else selunlock sel w2) sel cas t0).1.mem = w2.mem := by
        rw [selectgo_retc_mem]; split <;> simp
      rw [this, e2]
      rfl
    · have : (selectgo_retc (if sg ≠ 0 then
          (stampRelease (selunlock sel w2) sg).log (.ready (w2.sudogs sg).g)
        else selunlock sel w2) sel cas t0).1.bools = w2.bools := by
        rw [selectgo_retc_bools]; split <;> simp
      rw [this, e3]
      rfl
    · have : (selectgo_retc (if sg ≠ 0 then
          (stampRelease (selunlock sel w2) sg).log (.ready (w2.sudogs sg).g)
        else selunlock sel w2) sel cas t0).1.param = w2.param := by
        rw [selectgo_retc_param]; split <;> simp
      rw [this, e4]
      rfl

/-! ## C12: what a select that completes in pass 1 writes -/

/-- When the code from `loop:` on returns an index, it is the index of the
case at a position of the poll order, and the state changed as `firedFrame`
of that case says. -/
theorem selectgo_loop_returned (fuel : Nat) (w : World) (g done : Ptr) (sel : Select) (t0 : Int)
    (w1 : World) (idx : Nat)
    (h : selectgo_loop fuel w g done sel t0 = some (w1, .returned idx)) :
    ∃ k, k < sel.ncase ∧ (sel.scase (sel.pollorder k)).index = idx ∧
      firedFrame w w1 (sel.scase (sel.pollorder k)) := by
  unfold selectgo_loop at h
  cases hp : pass1 fuel sel sel.ncase 0 w none with
  | none => rw [hp] at h; simp at h
  | some p =>
    obtain ⟨wp, res⟩ := p
    rw [hp] at h
    obtain ⟨q1, q2⟩ := pass1_spec fuel sel _ _ _ _ _ _ hp
    obtain ⟨e1, e2, e3, e4, _, e6⟩ := q1
    cases res with
    | fired l cas sg =>
      obtain ⟨k, w0, _, hk, hcas, a4, _, a6⟩ := q2
      have hs := (pass1_case_spec fuel w0 cas wp _ a6).2.2
      have hes : (wp.chans cas.chan).elemsize = (w.chans cas.chan).elemsize :=
        sameRing_elemsize (e6 cas.chan).1
      refine ⟨k, by omega, ?_⟩
      rw [← hcas]
      cases l with
      | asyncrecv =>
        obtain ⟨rfl, b2, b3, b4⟩ := hs
        obtain ⟨f1, f2, f3, f4, f5, f6⟩ := selectgo_asyncrecv_fields fuel _ sel cas t0 _ h
        dsimp only at f1 f2 f3 f4 f5 f6
        simp only [Outcome.returned.injEq] at f1
        have hd : 0 < (w.chans cas.chan).dataqsiz := by
          rw [← sameRing_dataqsiz (e6 cas.chan).1]; exact b3
        have hq : (wp.chans cas.chan).qcount = (w.chans cas.chan).qcount :=
          sameRing_qcount (e6 cas.chan).1
        refine ⟨f1.symm, ?_, ?_, ?_, ?_⟩
        · intro c hc
          rcases hc with hc | hc
          · rw [f2 c hc]; exact (e6 c).1
          · rw [b2] at hc; exact absurd hc (by decide)
        · intro a ha
          left
          rw [f4, e2] at ha
          by_cases he : cas.elem ≠ 0
          · rw [if_pos he] at ha
            have := memmove_ne _ _ _ _ _ _ ha
            exact ⟨b2, he, this.1, by rw [← hes]; exact this.2⟩
          · rw [if_neg he] at ha
            exact absurd rfl ha
        · intro a ha
          rw [f5, ← e3] at ha
          exact ⟨b2, setReceived_bools_ne _ _ _ _ ha⟩
        · intro _ hr
          left
          refine ⟨by rw [f5]; exact setReceived_bools _ _ _ hr, Or.inl ⟨hd, ?_⟩⟩
          rw [f3, hq]
          omega
      | asyncsend =>
        obtain ⟨rfl, b2, b3, b4, b5⟩ := hs
        obtain ⟨f1, f2, f3, f4, f5, f6⟩ := selectgo_asyncsend_fields fuel _ sel cas t0 _ h
        dsimp only at f1 f2 f3 f4 f5 f6
        simp only [Outcome.returned.injEq] at f1
        refine ⟨f1.symm, ?_, ?_, ?_, ?_⟩
        · intro c hc
          rcases hc with hc | hc
          · rw [f2 c hc]; exact (e6 c).1
          · rw [b2] at hc; exact absurd hc (by decide)
        · intro a ha
          rw [f4, e2] at ha
          exact absurd rfl ha
        · intro a ha
          rw [f5, e3] at ha
          exact absurd rfl ha
        · intro hr
          rw [b2] at hr
          exact absurd hr (by decide)
      | syncrecv =>
        obtain ⟨b2, b3, b4, _⟩ := hs
        simp only [Option.some.injEq] at h
        obtain ⟨f1, f2, f3, f4, f5⟩ := selectgo_syncrecv_fields wp sel cas sg t0
        rw [h] at f1 f2 f3 f4 f5
        dsimp only at f1 f2 f3 f4 f5
        simp only [Outcome.returned.injEq] at f1
        have hd : (w.chans cas.chan).dataqsiz = 0 := by
          rw [← sameRing_dataqsiz (a4.2.2.2.2.2 cas.chan).1]; exact b3
        refine ⟨f1.symm, ?_, ?_, ?_, ?_⟩
        · intro c _
          rw [f2]; exact (e6 c).1
        · intro a ha
          left
          rw [f3, e2] at ha
          by_cases he : cas.elem ≠ 0
          · rw [if_pos he] at ha
            have := memmove_ne _ _ _ _ _ _ ha
            exact ⟨b2, he, this.1, by rw [← hes]; exact this.2⟩
          · rw [if_neg he] at ha
            exact absurd rfl ha
        · intro a ha
          rw [f4, ← e3] at ha
          exact ⟨b2, setReceived_bools_ne _ _ _ _ ha⟩
        · intro _ hr
          left
          refine ⟨by rw [f4]; exact setReceived_bools _ _ _ hr, Or.inr ⟨hd, sg, b4, ?_⟩⟩
          rw [f5, e1]
          exact Function.update_same _ _ _
      | rclose =>
        obtain ⟨b2, b3, _, b5, _⟩ := hs
        simp only [Option.some.injEq] at h
        obtain ⟨f1, f2, f3, f4, f5⟩ := selectgo_rclose_fields wp sel cas t0
        rw [h] at f1 f2 f3 f4 f5
        dsimp only at f1 f2 f3 f4 f5
        simp only [Outcome.returned.injEq] at f1
        have hr0 := a4.2.2.2.2.2 cas.chan
        refine ⟨f1.symm, ?_, ?_, ?_, ?_⟩
        · intro c _
          rw [f2]; exact (e6 c).1
        · intro a ha
          left
          rw [f3, e2] at ha
          by_cases he : cas.elem ≠ 0
          · rw [if_pos he] at ha
            have := memclr_ne _ _ _ _ ha
            exact ⟨b2, he, this.1, by rw [← hes]; exact this.2⟩
          · rw [if_neg he] at ha
            exact absurd rfl ha
        · intro a ha
          rw [f4, ← e3] at ha
          exact ⟨b2, setReceived_bools_ne _ _ _ _ ha⟩
        · intro _ hr
          right
          refine ⟨by rw [f4]; exact setReceived_bools _ _ _ hr, ?_, ?_, ?_⟩
          · rw [← sameRing_closed hr0.1]; exact b3
          · rw [f2]; exact (e6 _).1
          · intro hd
            rw [← sameRing_qcount hr0.1]
            exact (b5 (by rw [sameRing_dataqsiz hr0.1]; exact hd)).1
      | syncsend =>
        obtain ⟨b2, b3, b4, _, _⟩ := hs
        simp only [Option.some.injEq] at h
        obtain ⟨f1, f2, f3, f4, f5⟩ := selectgo_syncsend_fields wp sel cas sg t0
        rw [h] at f1 f2 f3 f4 f5
        dsimp only at f1 f2 f3 f4 f5
        simp only [Outcome.returned.injEq] at f1
        refine ⟨f1.symm, ?_, ?_, ?_, ?_⟩
        · intro c _
          rw [f2]; exact (e6 c).1
        · intro a ha
          right
          rw [f3, e2, e1] at ha
          by_cases he : (w.sudogs sg).elem ≠ 0
          · rw [if_pos he] at ha
            have := memmove_ne _ _ _ _ _ _ ha
            refine ⟨b2, sg, b4, ?_, he, this.1, by rw [← hes]; exact this.2⟩
            rw [f5, e1]
            exact Function.update_same _ _ _
          · rw [if_neg he] at ha
            exact absurd rfl ha
        · intro a ha
          rw [f4, e3] at ha
          exact absurd rfl ha
        · intro hr
          rw [b2] at hr
          exact absurd hr (by decide)
      | sclose =>
        simp [selectgo_sclose] at h
    | done d =>
      cases d with
      | none => simp at h
      | some dfl =>
        obtain ⟨_, a2, _⟩ := q2
        simp only [Option.some.injEq] at h
        obtain ⟨t, ht⟩ := selectgo_retc_frame (selunlock sel wp) sel dfl t0
        rw [ht] at h
        simp only [Prod.mk.injEq, Outcome.returned.injEq] at h
        obtain ⟨rfl, hidx⟩ := h
        rcases a2 with e | ⟨k, _, hk, hd, hkind⟩
        · simp at e
        · simp only [Option.some.injEq] at hd
          refine ⟨k, by omega, by rw [← hd]; exact hidx, ?_⟩
          refine ⟨?_, ?_, ?_, ?_⟩
          · intro c _
            simp only [selunlock_chans]
            exact (e6 c).1
          · intro a ha
            simp only [selunlock_mem] at ha
            rw [e2] at ha
            exact absurd rfl ha
          · intro a ha
            simp only [selunlock_bools] at ha
            rw [e3] at ha
            exact absurd rfl ha
          · intro hr
            rw [hkind] at hr
            exact absurd hr (by decide)

theorem gen_pollorder_lt (fastrand : Nat → Nat) (n : Nat) (p0 : Nat → Nat) (i : Nat)
    (hi : i < n) : gen_pollorder fastrand n p0 i < n := by
  rw [gen_pollorder_val fastrand n p0 i hi]
  exact (shufflePerm_lt_iff fastrand (n - 1) 1 n (by omega) i).mpr hi

theorem firedFrame_congr {w w2 w1 : World} {a b : Scase} (hw : heapEq w2 w) (hc : sameCase a b)
    (h : firedFrame w2 w1 b) : firedFrame w w1 a := by
  obtain ⟨e1, e2, _, e4, e5, _⟩ := hw
  unfold sameCase at hc
  have c1 : b.chan = a.chan := by rw [← hc]
  have c2 : b.kind = a.kind := by rw [← hc]
  have c3 : b.elem = a.elem := by rw [← hc]
  have c4 : b.receivedp = a.receivedp := by rw [← hc]
  unfold firedFrame at *
  rw [e1, e2, e4, e5, c1, c2, c3, c4] at h
  exact h

/-- On a list shorter than the bound `dequeue` returns: nil, leaving the queue
empty and the claim words alone, when every sudog is claimed, and else the
first unclaimed sudog, which it claims, leaving the rest of the list. -/
theorem dequeue_on_list (s : Ptr → SudoG) (words : Ptr → Nat) (l : List Ptr) (fuel : Nat)
    (q : WaitQ) (hl : isList s q.first l) (hf : l.length < fuel) :
    ((∀ p ∈ l, claimed s words p = true) ∧
      dequeue fuel s words q = some ({ q with first := 0 }, words, 0)) ∨
    (∃ pre x post, l = pre ++ x :: post ∧ claimed s words x = false ∧ x ≠ 0 ∧
      dequeue fuel s words q = some ({ q with first := (s x).link }, claim s words x, x) ∧
      isList s (s x).link post) := by
  rcases claimed_split s words l with h | ⟨pre, x, post, e, hpre, hx⟩
  · exact Or.inl ⟨h, dequeue_all_claimed s words l fuel q hl h hf⟩
  · right
    subst e
    have h2 := isList_append s x post pre _ hl
    refine ⟨pre, x, post, rfl, hx, h2.1, ?_, h2.2⟩
    exact dequeue_first_unclaimed s words x post hx pre fuel q hl hpre
      (by simp at hf; omega)

theorem hasUnclaimed_zero (s : Ptr → SudoG) (words : Ptr → Nat) : ¬ hasUnclaimed s words 0 := by
  rintro ⟨l, hl, x, hx, _⟩
  cases l with
  | nil => simp at hx
  | cons y l => exact hl.2.1 hl.1.symm

theorem hasUnclaimed_iff (s : Ptr → SudoG) (words : Ptr → Nat) (p : Ptr) (l : List Ptr)
    (hl : isList s p l) : hasUnclaimed s words p ↔ ∃ x ∈ l, claimed s words x = false := by
  constructor
  · rintro ⟨l2, hl2, h⟩
    rw [isList_unique s l l2 p hl hl2]
    exact h
  · intro h
    exact ⟨l, hl, h⟩

theorem queuesOK_congr {fuel : Nat} {w w1 : World} (hs : w1.sudogs = w.sudogs)
    (h1 : ∀ c, (w1.chans c).sendq.first = (w.chans c).sendq.first)
    (h2 : ∀ c, (w1.chans c).recvq.first = (w.chans c).recvq.first) (hq : queuesOK fuel w) :
    queuesOK fuel w1 := by
  intro c
  rw [hs, h1, h2]
  exact hq c

theorem ready_congr {w w1 : World} (hs : w1.sudogs = w.sudogs) (hw : w1.words = w.words)
    (hr : ∀ c, sameRing (w.chans c) (w1.chans c))
    (h1 : ∀ c, hasUnclaimed w.sudogs w.words (w1.chans c).sendq.first ↔
      hasUnclaimed w.sudogs w.words (w.chans c).sendq.first)
    (h2 : ∀ c, hasUnclaimed w.sudogs w.words (w1.chans c).recvq.first ↔
      hasUnclaimed w.sudogs w.words (w.chans c).recvq.first) (cas : Scase) :
    ready w1 cas ↔ ready w cas := by
  unfold ready
  rw [hs, hw, sameRing_dataqsiz (hr cas.chan), sameRing_qcount (hr cas.chan),
    sameRing_closed (hr cas.chan), h1, h2]

/-- The call `dequeue(&c->sendq)` when the queues are lists: it returns nil
and empties the queue when no sender is unclaimed, and else an unclaimed
sender; the queues are lists afterwards. -/
theorem dequeueSendq_total (fuel : Nat) (w : World) (c : Ptr) (hq : queuesOK fuel w) :
    (¬ hasUnclaimed w.sudogs w.words (w.chans c).sendq.first ∧
      ∃ w1, dequeueSendq fuel w c = some (w1, 0) ∧ queuesOK fuel w1 ∧
        ∀ cas, ready w1 cas ↔ ready w cas) ∨
    (hasUnclaimed w.sudogs w.words (w.chans c).sendq.first ∧
      ∃ w1 sg, dequeueSendq fuel w c = some (w1, sg) ∧ sg ≠ 0 ∧ queuesOK fuel w1) := by
  obtain ⟨l, hl, hf⟩ := (hq c).1
  rcases dequeue_on_list w.sudogs w.words l fuel _ hl hf with ⟨hall, hd⟩ | ⟨pre, x, post, e, hx, hx0, hd, hpost⟩
  · left
    have hnu : ¬ hasUnclaimed w.sudogs w.words (w.chans c).sendq.first := by
      rw [hasUnclaimed_iff _ _ _ l hl]
      rintro ⟨y, hy, hyc⟩
      rw [hall y hy] at hyc
      exact absurd hyc (by simp)
    have hd2 : dequeueSendq fuel w c = some
        ({ w with words := w.words,
                  chans := Function.update w.chans c
                    { w.chans c with sendq := { (w.chans c).sendq with first := 0 } } }, 0) := by
      simp only [dequeueSendq, hd]
    refine ⟨hnu, _, hd2, ?_, ?_⟩
    · intro c2
      dsimp only
      by_cases e : c2 = c
      · subst e
        simp only [Function.update_same]
        exact ⟨⟨[], rfl, by simp only [List.length_nil]; omega⟩, (hq c2).2⟩
      · simp only [Function.update_noteq e]
        exact hq c2
    · refine @ready_congr w _ rfl rfl ?_ ?_ ?_
      · intro c2
        dsimp only
        by_cases e : c2 = c
        · subst e; simp only [Function.update_same]; exact sameRing_sendq _ _
        · simp only [Function.update_noteq e]; exact sameRing.srefl _
      · intro c2
        dsimp only
        by_cases e : c2 = c
        · subst e
          simp only [Function.update_same]
          exact ⟨fun h => absurd h (hasUnclaimed_zero _ _), fun h => absurd h hnu⟩
        · simp only [Function.update_noteq e]
      · intro c2
        dsimp only
        by_cases e : c2 = c
        · subst e; simp only [Function.update_same]
        · simp only [Function.update_noteq e]
  · right
    have hd2 : dequeueSendq fuel w c = some
        ({ w with words := claim w.sudogs w.words x,
                  chans := Function.update w.chans c
                    { w.chans c with
                      sendq := { (w.chans c).sendq with first := (w.sudogs x).link } } },
          x) := by
      simp only [dequeueSendq, hd]
    refine ⟨(hasUnclaimed_iff _ _ _ l hl).mpr ⟨x, by rw [e]; simp, hx⟩, _, x,
      hd2, hx0, ?_⟩
    intro c2
    dsimp only
    by_cases e2 : c2 = c
    · subst e2
      simp only [Function.update_same]
      refine ⟨⟨post, hpost, ?_⟩, (hq c2).2⟩
      rw [e] at hf
      simp at hf
      omega
    · simp only [Function.update_noteq e2]
      exact hq c2

/-- The call `dequeue(&c->recvq)` when the queues are lists. -/
theorem dequeueRecvq_total (fuel : Nat) (w : World) (c : Ptr) (hq : queuesOK fuel w) :
    (¬ hasUnclaimed w.sudogs w.words (w.chans c).recvq.first ∧
      ∃ w1, dequeueRecvq fuel w c = some (w1, 0) ∧ queuesOK fuel w1 ∧
        ∀ cas, ready w1 cas ↔ ready w cas) ∨
    (hasUnclaimed w.sudogs w.words (w.chans c).recvq.first ∧
      ∃ w1 sg, dequeueRecvq fuel w c = some (w1, sg) ∧ sg ≠ 0 ∧ queuesOK fuel w1) := by
  obtain ⟨l, hl, hf⟩ := (hq c).2
  rcases dequeue_on_list w.sudogs w.words l fuel _ hl hf with ⟨hall, hd⟩ | ⟨pre, x, post, e, hx, hx0, hd, hpost⟩
  · left
    have hnu : ¬ hasUnclaimed w.sudogs w.words (w.chans c).recvq.first := by
      rw [hasUnclaimed_iff _ _ _ l hl]
      rintro ⟨y, hy, hyc⟩
      rw [hall y hy] at hyc
      exact absurd hyc (by simp)
    have hd2 : dequeueRecvq fuel w c = some
        ({ w with words := w.words,
                  chans := Function.update w.chans c
                    { w.chans c with recvq := { (w.chans c).recvq with first := 0 } } }, 0) := by
      simp only [dequeueRecvq, hd]
    refine ⟨hnu, _, hd2, ?_, ?_⟩
    · intro c2
      dsimp only
      by_cases e : c2 = c
      · subst e
        simp only [Function.update_same]
        exact ⟨(hq c2).1, ⟨[], rfl, by simp only [List.length_nil]; omega⟩⟩
      · simp only [Function.update_noteq e]
        exact hq c2
    · refine @ready_congr w _ rfl rfl ?_ ?_ ?_
      · intro c2
        dsimp only
        by_cases e : c2 = c
        · subst e; simp only [Function.update_same]; exact sameRing_recvq _ _
        · simp only [Function.update_noteq e]; exact sameRing.srefl _
      · intro c2
        dsimp only
        by_cases e : c2 = c
        · subst e; simp only [Function.update_same]
        · simp only [Function.update_noteq e]
      · intro c2
        dsimp only
        by_cases e : c2 = c
        · subst e
          simp only [Function.update_same]
          exact ⟨fun h => absurd h (hasUnclaimed_zero _ _), fun h => absurd h hnu⟩
        · simp only [Function.update_noteq e]
  · right
    have hd2 : dequeueRecvq fuel w c = some
        ({ w with words := claim w.sudogs w.words x,
                  chans := Function.update w.chans c
                    { w.chans c with
                      recvq := { (w.chans c).recvq with first := (w.sudogs x).link } } },
          x) := by
      simp only [dequeueRecvq, hd]
    refine ⟨(hasUnclaimed_iff _ _ _ l hl).mpr ⟨x, by rw [e]; simp, hx⟩, _, x,
      hd2, hx0, ?_⟩
    intro c2
    dsimp only
    by_cases e2 : c2 = c
    · subst e2
      simp only [Function.update_same]
      refine ⟨(hq c2).1, ⟨post, hpost, ?_⟩⟩
      rw [e] at hf
      simp at hf
      omega
    · simp only [Function.update_noteq e2]
      exact hq c2

/-! ## Pass 1 when the queues are lists -/

/-- The body of the loop of pass 1 for a receive or send case that is not a
send on a closed channel, when the queues are lists: it jumps to a label when
the case is ready, and else goes on to the next case, leaving every case as
ready as it was. -/
theorem pass1_case_total (fuel : Nat) (w : World) (cas : Scase) (hq : queuesOK fuel w)
    (hk : cas.kind = CaseRecv ∨ cas.kind = CaseSend)
    (hsc : cas.kind = CaseSend → (w.chans cas.chan).closed = false) :
    (ready w cas ∧ ∃ w1 l sg, pass1_case fuel w cas = some (w1, .jump l sg) ∧
      queuesOK fuel w1) ∨
    (¬ ready w cas ∧ ∃ w1, pass1_case fuel w cas = some (w1, .next) ∧ queuesOK fuel w1 ∧
      ∀ cas2, ready w1 cas2 ↔ ready w cas2) := by
  unfold pass1_case
  dsimp only
  rcases hk with hr | hs
  · rw [if_pos hr]
    have hns : cas.kind ≠ CaseSend := by rw [hr]; decide
    by_cases hd : (w.chans cas.chan).dataqsiz > 0
    · rw [if_pos hd]
      by_cases hqc : (w.chans cas.chan).qcount > 0
      · rw [if_pos hqc]
        exact Or.inl ⟨Or.inl ⟨hr, Or.inl ⟨hd, hqc⟩⟩, w, _, _, rfl, hq⟩
      · rw [if_neg hqc]
        by_cases hc : (w.chans cas.chan).closed = true
        · rw [if_pos hc]
          exact Or.inl ⟨Or.inl ⟨hr, Or.inr (Or.inr hc)⟩, w, _, _, rfl, hq⟩
        · rw [if_neg hc]
          refine Or.inr ⟨?_, w, rfl, hq, fun _ => Iff.rfl⟩
          rintro (⟨_, h | h | h⟩ | ⟨h, _⟩)
          · exact hqc h.2
          · omega
          · exact hc h
          · exact hns h
    · rw [if_neg hd]
      have hd0 : (w.chans cas.chan).dataqsiz = 0 := by omega
      rcases dequeueSendq_total fuel w cas.chan hq with ⟨hnu, w1, hdq, hq1, hrdy⟩ | ⟨hu, w1, sg, hdq, hsg, hq1⟩
      · rw [hdq]
        dsimp only
        rw [if_neg (by simp)]
        have hcl := sameRing_closed ((dequeueSendq_popped _ _ _ _ _ hdq).1.2.2.2.2.2 cas.chan).1
        by_cases hc : (w1.chans cas.chan).closed = true
        · rw [if_pos hc]
          exact Or.inl ⟨Or.inl ⟨hr, Or.inr (Or.inr (by rw [← hcl]; exact hc))⟩, w1, _, _, rfl, hq1⟩
        · rw [if_neg hc]
          refine Or.inr ⟨?_, w1, rfl, hq1, hrdy⟩
          rintro (⟨_, h | h | h⟩ | ⟨h, _⟩)
          · omega
          · exact hnu h.2
          · exact hc (by rw [hcl]; exact h)
          · exact hns h
      · rw [hdq]
        dsimp only
        rw [if_pos hsg]
        exact Or.inl ⟨Or.inl ⟨hr, Or.inr (Or.inl ⟨hd0, hu⟩)⟩, w1, _, _, rfl, hq1⟩
  · have hnr : ¬ cas.kind = CaseRecv := by rw [hs]; decide
    rw [if_neg hnr, if_pos hs]
    have hc := hsc hs
    rw [if_neg (by rw [hc]; simp)]
    by_cases hd : (w.chans cas.chan).dataqsiz > 0
    · rw [if_pos hd]
      by_cases hqc : (w.chans cas.chan).qcount < (w.chans cas.chan).dataqsiz
      · rw [if_pos hqc]
        exact Or.inl ⟨Or.inr ⟨hs, Or.inl ⟨hd, hqc⟩⟩, w, _, _, rfl, hq⟩
      · rw [if_neg hqc]
        refine Or.inr ⟨?_, w, rfl, hq, fun _ => Iff.rfl⟩
        rintro (⟨h, _⟩ | ⟨_, h | h⟩)
        · exact hnr h
        · exact hqc h.2
        · omega
    · rw [if_neg hd]
      have hd0 : (w.chans cas.chan).dataqsiz = 0 := by omega
      rcases dequeueRecvq_total fuel w cas.chan hq with ⟨hnu, w1, hdq, hq1, hrdy⟩ | ⟨hu, w1, sg, hdq, hsg, hq1⟩
      · rw [hdq]
        dsimp only
        rw [if_neg (by simp)]
        refine Or.inr ⟨?_, w1, rfl, hq1, hrdy⟩
        rintro (⟨h, _⟩ | ⟨_, h | h⟩)
        · exact hnr h
        · omega
        · exact hnu h.2
      · rw [hdq]
        dsimp only
        rw [if_pos hsg]
        exact Or.inl ⟨Or.inr ⟨hs, Or.inr ⟨hd0, hu⟩⟩, w1, _, _, rfl, hq1⟩

theorem pass1_case_default (fuel : Nat) (w : World) (cas : Scase)
    (hk : cas.kind = CaseDefault) : pass1_case fuel w cas = some (w, .dflt) := by
  simp [pass1_case, hk]

/-- Pass 1 over a select with its default case at index `d`, when the queues
are lists and no send case is on a closed channel: it runs to its end when no
case it polls is ready, and then the default case is the one seen if it was
polled; it jumps to a label when a case it polls is ready. -/
theorem pass1_total (fuel : Nat) (sel : Select) (d : Nat) (w0 : World)
    (hkd : (sel.scase d).kind = CaseDefault)
    (hkinds : ∀ j, j < sel.ncase → j ≠ d →
      (sel.scase j).kind = CaseRecv ∨ (sel.scase j).kind = CaseSend)
    (hsc : ∀ j, j < sel.ncase → (sel.scase j).kind = CaseSend →
      (w0.chans (sel.scase j).chan).closed = false) :
    ∀ (r i : Nat) (w : World) (dfl : Option Scase), queuesOK fuel w →
      (∀ cas, ready w cas ↔ ready w0 cas) →
      (∀ c, (w.chans c).closed = (w0.chans c).closed) →
      (∀ k, i ≤ k → k < i + r → sel.pollorder k < sel.ncase) →
      ((∀ k, i ≤ k → k < i + r →
          sel.pollorder k = d ∨ ¬ ready w0 (sel.scase (sel.pollorder k))) →
        ∃ w1 d1, pass1 fuel sel r i w dfl = some (w1, .done d1) ∧
          ((∃ k, i ≤ k ∧ k < i + r ∧ sel.pollorder k = d) → d1 = some (sel.scase d)) ∧
          ((¬ ∃ k, i ≤ k ∧ k < i + r ∧ sel.pollorder k = d) → d1 = dfl)) ∧
      ((∃ k, i ≤ k ∧ k < i + r ∧ sel.pollorder k ≠ d ∧
          ready w0 (sel.scase (sel.pollorder k))) →
        ∃ w1 l cas sg, pass1 fuel sel r i w dfl = some (w1, .fired l cas sg) ∧
          queuesOK fuel w1)
  | 0, i, w, dfl, _, _, _, _ => by
    refine ⟨fun _ => ⟨w, dfl, rfl, ?_, fun _ => rfl⟩, ?_⟩
    · rintro ⟨k, h1, h2, _⟩; omega
    · rintro ⟨k, h1, h2, _⟩; omega
  | r + 1, i, w, dfl, hq, hrdy, hcl, hlt => by
    have hlt' : ∀ k, i + 1 ≤ k → k < i + 1 + r → sel.pollorder k < sel.ncase :=
      fun k h1 h2 => hlt k (by omega) (by omega)
    have hi := hlt i (Nat.le_refl _) (by omega)
    rw [pass1]
    by_cases hid : sel.pollorder i = d
    · rw [pass1_case_default fuel w _ (by rw [hid]; exact hkd)]
      dsimp only
      obtain ⟨ihA, ihB⟩ := pass1_total fuel sel d w0 hkd hkinds hsc r (i + 1) w
        (some (sel.scase (sel.pollorder i))) hq hrdy hcl hlt'
      constructor
      · intro hA
        obtain ⟨w1, d1, e1, e2, e3⟩ := ihA (fun k h1 h2 => hA k (by omega) (by omega))
        refine ⟨w1, d1, e1, ?_, ?_⟩
        · intro _
          by_cases hex : ∃ k, i + 1 ≤ k ∧ k < i + 1 + r ∧ sel.pollorder k = d
          · exact e2 hex
          · rw [e3 hex, hid]
        · intro hn
          exact absurd ⟨i, Nat.le_refl _, by omega, hid⟩ hn
      · rintro ⟨k, h1, h2, h3, h4⟩
        have hki : k ≠ i := by
          rintro rfl
          exact h3 hid
        exact ihB ⟨k, by omega, by omega, h3, h4⟩
    · have hsc' : (sel.scase (sel.pollorder i)).kind = CaseSend →
          (w.chans (sel.scase (sel.pollorder i)).chan).closed = false := by
        intro h
        rw [hcl]
        exact hsc _ hi h
      rcases pass1_case_total fuel w (sel.scase (sel.pollorder i)) hq
          (hkinds _ hi hid) hsc' with ⟨hr, w1, l, sg, e, hq1⟩ | ⟨hnr, w1, e, hq1, hr1⟩
      · rw [e]
        dsimp only
        constructor
        · intro hA
          rcases hA i (Nat.le_refl _) (by omega) with h | h
          · exact absurd h hid
          · exact absurd ((hrdy _).mp hr) h
        · intro _
          exact ⟨w1, l, _, sg, rfl, hq1⟩
      · rw [e]
        dsimp only
        have hcl1 : ∀ c, (w1.chans c).closed = (w0.chans c).closed := by
          intro c
          rw [← hcl c]
          exact sameRing_closed ((pass1_case_spec fuel w _ w1 _ e).1.2.2.2.2.2 c).1
        obtain ⟨ihA, ihB⟩ := pass1_total fuel sel d w0 hkd hkinds hsc r (i + 1) w1 dfl hq1
          (fun cas => (hr1 cas).trans (hrdy cas)) hcl1 hlt'
        constructor
        · intro hA
          obtain ⟨w2, d1, e1, e2, e3⟩ := ihA (fun k h1 h2 => hA k (by omega) (by omega))
          refine ⟨w2, d1, e1, ?_, ?_⟩
          · rintro ⟨k, h1, h2, h3⟩
            have hki : k ≠ i := by
              rintro rfl
              exact hid h3
            exact e2 ⟨k, by omega, by omega, h3⟩
          · intro hn
            apply e3
            rintro ⟨k, h1, h2, h3⟩
            exact hn ⟨k, by omega, by omega, h3⟩
        · rintro ⟨k, h1, h2, h3, h4⟩
          have hki : k ≠ i := by
            rintro rfl
            exact hnr ((hrdy _).mpr h4)
          exact ihB ⟨k, by omega, by omega, h3, h4⟩

/-! ## C11: the default case is taken exactly when no case is ready -/

/-- The label `asyncrecv:` returns when the queues are lists. -/
theorem selectgo_asyncrecv_total (fuel : Nat) (w : World) (sel : Select) (cas : Scase)
    (t0 : Int) (hq : queuesOK fuel w) :
    ∃ w1, selectgo_asyncrecv fuel w sel cas t0 = some (w1, .returned cas.index) := by
  unfold selectgo_asyncrecv
  dsimp only
  have hq3 : queuesOK fuel
      ((if cas.elem ≠ 0 then
          { setReceived w cas.receivedp true with
            mem := memmove (setReceived w cas.receivedp true).mem
              ((setReceived w cas.receivedp true).chans cas.chan).buf cas.elem
              (chanbuf ((setReceived w cas.receivedp true).chans cas.chan)
                ((setReceived w cas.receivedp true).chans cas.chan).recvx)
              ((setReceived w cas.receivedp true).chans cas.chan).elemsize }
        else setReceived w cas.receivedp true).setChan cas.chan
        { (setReceived w cas.receivedp true).chans cas.chan with
          buf := memclr ((setReceived w cas.receivedp true).chans cas.chan).buf
            (chanbuf ((setReceived w cas.receivedp true).chans cas.chan)
              ((setReceived w cas.receivedp true).chans cas.chan).recvx)
            ((setReceived w cas.receivedp true).chans cas.chan).elemsize,
          recvx := if ((setReceived w cas.receivedp true).chans cas.chan).recvx + 1
              = ((setReceived w cas.receivedp true).chans cas.chan).dataqsiz then 0
            else ((setReceived w cas.receivedp true).chans cas.chan).recvx + 1,
          qcount := ((setReceived w cas.receivedp true).chans cas.chan).qcount - 1 }) := by
    refine queuesOK_congr ?_ ?_ ?_ hq
    · simp only [setChan_sudogs]; split <;> simp
    · intro c
      by_cases e : c = cas.chan
      · subst e; simp [World.setChan]
      · simp only [World.setChan, Function.update_noteq e]; split <;> simp
    · intro c
      by_cases e : c = cas.chan
      · subst e; simp [World.setChan]
      · simp only [World.setChan, Function.update_noteq e]; split <;> simp
  rcases dequeueSendq_total fuel _ cas.chan hq3 with ⟨_, w1, e, _⟩ | ⟨_, w1, sg, e, _⟩
  · rw [e]
    dsimp only
    obtain ⟨t, ht⟩ := selectgo_retc_frame (if (0 : Ptr) ≠ 0 then
        (stampRelease (selunlock sel w1) 0).log (.ready (w1.sudogs 0).g)
      else selunlock sel w1) sel cas t0
    rw [ht]
    exact ⟨_, rfl⟩
  · rw [e]
    dsimp only
    obtain ⟨t, ht⟩ := selectgo_retc_frame (if sg ≠ 0 then
        (stampRelease (selunlock sel w1) sg).log (.ready (w1.sudogs sg).g)
      else selunlock sel w1) sel cas t0
    rw [ht]
    exact ⟨_, rfl⟩

/-- The label `asyncsend:` returns when the queues are lists. -/
theorem selectgo_asyncsend_total (fuel : Nat) (w : World) (sel : Select) (cas : Scase)
    (t0 : Int) (hq : queuesOK fuel w) :
    ∃ w1, selectgo_asyncsend fuel w sel cas t0 = some (w1, .returned cas.index) := by
  unfold selectgo_asyncsend
  dsimp only
  have hq1 : queuesOK fuel
      (w.setChan cas.chan
        { w.chans cas.chan with
          buf := memmove (w.chans cas.chan).buf w.mem
            (chanbuf (w.chans cas.chan) (w.chans cas.chan).sendx) cas.elem
            (w.chans cas.chan).elemsize,
          sendx := if (w.chans cas.chan).sendx + 1 = (w.chans cas.chan).dataqsiz then 0
            else (w.chans cas.chan).sendx + 1,
          qcount := (w.chans cas.chan).qcount + 1 }) := by
    refine @queuesOK_congr fuel w _ rfl ?_ ?_ hq
    · intro c
      by_cases e : c = cas.chan
      · subst e; simp [World.setChan]
      · simp only [World.setChan, Function.update_noteq e]
    · intro c
      by_cases e : c = cas.chan
      · subst e; simp [World.setChan]
      · simp only [World.setChan, Function.update_noteq e]
  rcases dequeueRecvq_total fuel _ cas.chan hq1 with ⟨_, w1, e, _⟩ | ⟨_, w1, sg, e, _⟩
  · rw [e]
    dsimp only
    obtain ⟨t, ht⟩ := selectgo_retc_frame (if (0 : Ptr) ≠ 0 then
        (stampRelease (selunlock sel w1) 0).log (.ready (w1.sudogs 0).g)
      else selunlock sel w1) sel cas t0
    rw [ht]
    exact ⟨_, rfl⟩
  · rw [e]
    dsimp only
    obtain ⟨t, ht⟩ := selectgo_retc_frame (if sg ≠ 0 then
        (stampRelease (selunlock sel w1) sg).log (.ready (w1.sudogs sg).g)
      else selunlock sel w1) sel cas t0
    rw [ht]
    exact ⟨_, rfl⟩

/-- The code from `loop:` on, for a select with its default case at index `d`
whose poll order is a permutation: it returns an index, which is that of the
default case exactly when no other case is ready, and then no ring has
changed. -/
theorem selectgo_loop_default_iff (fuel : Nat) (w : World) (g done : Ptr) (sel : Select)
    (t0 : Int) (d : Nat)
    (hkd : (sel.scase d).kind = CaseDefault)
    (hkinds : ∀ j, j < sel.ncase → j ≠ d →
      (sel.scase j).kind = CaseRecv ∨ (sel.scase j).kind = CaseSend)
    (hidx : ∀ j, j < sel.ncase → j ≠ d → (sel.scase j).index ≠ (sel.scase d).index)
    (hsc : ∀ j, j < sel.ncase → (sel.scase j).kind = CaseSend →
      (w.chans (sel.scase j).chan).closed = false)
    (hq : queuesOK fuel w)
    (hlt : ∀ k, k < sel.ncase → sel.pollorder k < sel.ncase)
    (hsurj : ∀ j, j < sel.ncase → ∃ k, k < sel.ncase ∧ sel.pollorder k = j)
    (hd : d < sel.ncase) :
    ∃ w1 idx, selectgo_loop fuel w g done sel t0 = some (w1, .returned idx) ∧
      (idx = (sel.scase d).index ↔ ∀ j, j < sel.ncase → j ≠ d → ¬ ready w (sel.scase j)) ∧
      (idx = (sel.scase d).index → ∀ c, sameRing (w.chans c) (w1.chans c)) := by
  obtain ⟨hA, hB⟩ := pass1_total fuel sel d w hkd hkinds hsc sel.ncase 0 w none hq
    (fun _ => Iff.rfl) (fun _ => rfl) (fun k _ h2 => hlt k (by omega))
  by_cases hex : ∃ j, j < sel.ncase ∧ j ≠ d ∧ ready w (sel.scase j)
  · obtain ⟨j, hj, hjd, hjr⟩ := hex
    obtain ⟨k, hk, hkj⟩ := hsurj j hj
    obtain ⟨wp, l, cas, sg, hp, hqp⟩ := hB ⟨k, Nat.zero_le _, by omega, by rw [hkj]; exact hjd,
      by rw [hkj]; exact hjr⟩
    obtain ⟨q1, k2, w2, _, hk2, hcas, a4, _, a6⟩ := pass1_spec fuel sel _ _ _ _ _ _ hp
    have hs := (pass1_case_spec fuel w2 cas wp _ a6).2.2
    have hk2n : sel.pollorder k2 < sel.ncase := hlt k2 (by omega)
    have hres : ∃ w1, selectgo_loop fuel w g done sel t0 = some (w1, .returned cas.index) ∧
        cas.kind ≠ CaseDefault := by
      unfold selectgo_loop
      rw [hp]
      cases l with
      | asyncrecv =>
        obtain ⟨w1, e⟩ := selectgo_asyncrecv_total fuel wp sel cas t0 hqp
        exact ⟨w1, e, by rw [hs.2.1]; decide⟩
      | asyncsend =>
        obtain ⟨w1, e⟩ := selectgo_asyncsend_total fuel wp sel cas t0 hqp
        exact ⟨w1, e, by rw [hs.2.1]; decide⟩
      | syncrecv =>
        exact ⟨_, by dsimp only; rw [← (selectgo_syncrecv_fields wp sel cas sg t0).1],
          by rw [hs.1]; decide⟩
      | rclose =>
        exact ⟨_, by dsimp only; rw [← (selectgo_rclose_fields wp sel cas t0).1],
          by rw [hs.1]; decide⟩
      | syncsend =>
        exact ⟨_, by dsimp only; rw [← (selectgo_syncsend_fields wp sel cas sg t0).1],
          by rw [hs.1]; decide⟩
      | sclose =>
        exfalso
        obtain ⟨rfl, b2, b3⟩ := hs
        have hc := hsc _ hk2n (by rw [← hcas]; exact b2)
        rw [← hcas, ← sameRing_closed (a4.2.2.2.2.2 cas.chan).1, b3] at hc
        exact absurd hc (by simp)
    obtain ⟨w1, e, hkind⟩ := hres
    have hne : sel.pollorder k2 ≠ d := by
      intro h
      rw [hcas, h] at hkind
      exact hkind hkd
    refine ⟨w1, cas.index, e, ?_, ?_⟩
    · constructor
      · intro h
        rw [hcas] at h
        exact absurd h (hidx _ hk2n hne)
      · intro h
        exact absurd hjr (h j hj hjd)
    · intro h
      rw [hcas] at h
      exact absurd h (hidx _ hk2n hne)
  · have hnone : ∀ j, j < sel.ncase → j ≠ d → ¬ ready w (sel.scase j) :=
      fun j hj hjd hr => hex ⟨j, hj, hjd, hr⟩
    obtain ⟨wp, d1, hp, hd1, _⟩ := hA (by
      intro k _ hk
      by_cases h : sel.pollorder k = d
      · exact Or.inl h
      · exact Or.inr (hnone _ (hlt k (by omega)) h))
    obtain ⟨k, hk, hkd2⟩ := hsurj d hd
    have hd1' := hd1 ⟨k, Nat.zero_le _, by omega, hkd2⟩
    subst hd1'
    obtain ⟨q1, _⟩ := pass1_spec fuel sel _ _ _ _ _ _ hp
    obtain ⟨t, ht⟩ := selectgo_retc_frame (selunlock sel wp) sel (sel.scase d) t0
    refine ⟨_, (sel.scase d).index, by unfold selectgo_loop; rw [hp]; dsimp only; rw [ht],
      ⟨fun _ => hnone, fun _ => rfl⟩, ?_⟩
    intro _ c
    simp only [selunlock_chans]
    exact (q1.2.2.2.2.2 c).1

theorem gen_pollorder_surj (fastrand : Nat → Nat) (n : Nat) (p0 : Nat → Nat) (j : Nat)
    (hj : j < n) : ∃ k, k < n ∧ gen_pollorder fastrand n p0 k = j := by
  have hn : 1 + (n - 1) ≤ n := by omega
  refine ⟨(shufflePerm fastrand (n - 1) 1).symm j, ?_, ?_⟩
  · rw [← shufflePerm_lt_iff fastrand (n - 1) 1 n hn]
    simpa using hj
  · rw [gen_pollorder_val fastrand n p0 _
      (by rw [← shufflePerm_lt_iff fastrand (n - 1) 1 n hn]; simpa using hj)]
    simp

theorem ready_heapEq {w w2 : World} (h : heapEq w2 w) {a b : Scase} (hc : sameCase a b) :
    ready w2 b ↔ ready w a := by
  obtain ⟨e1, e2, e3, _⟩ := h
  unfold sameCase at hc
  have c1 : b.chan = a.chan := by rw [← hc]
  have c2 : b.kind = a.kind := by rw [← hc]
  unfold ready
  rw [e1, e2, e3, c1, c2]

/-- C11: for every select with one default case (at index `d`), whose other
cases are receives and sends on channels other than nil with indices other
than that of the default case, none of them a send on a closed channel, in
a state whose wait queues are lists shorter than the bound on the queue
walks: `selectgo` returns an index without parking, whatever the random
numbers that make the poll order; the index is that of the default case if
and only if no other case is ready; and when it is, no channel has its
`qcount`, `sendx`, `recvx`, buffer or closed flag changed. -/
theorem C11_select_default (fuel : Nat) (fastrand : Nat → Nat) (w : World) (g done : Ptr)
    (sel : Select) (d : Nat) (hd : d < sel.ncase)
    (hkd : (sel.scase d).kind = CaseDefault)
    (hkinds : ∀ j, j < sel.ncase → j ≠ d →
      ((sel.scase j).kind = CaseRecv ∨ (sel.scase j).kind = CaseSend) ∧
      (sel.scase j).chan ≠ 0)
    (hidx : ∀ j, j < sel.ncase → j ≠ d → (sel.scase j).index ≠ (sel.scase d).index)
    (hsc : ∀ j, j < sel.ncase → (sel.scase j).kind = CaseSend →
      (w.chans (sel.scase j).chan).closed = false)
    (hq : queuesOK fuel w) :
    ∃ w1 idx, selectgo fuel fastrand w g done sel = some (w1, .returned idx) ∧
      (idx = (sel.scase d).index ↔ ∀ j, j < sel.ncase → j ≠ d → ¬ ready w (sel.scase j)) ∧
      (idx = (sel.scase d).index → ∀ c, sameRing (w.chans c) (w1.chans c)) := by
  obtain ⟨hp1, hp2, _, hp4, hp5⟩ := selectgo_prologue_spec fastrand w sel
  have hcase : ∀ j, (selectgo_prologue fastrand w sel).2.1.scase j
      = { sel.scase j with
          releasetime := ((selectgo_prologue fastrand w sel).2.1.scase j).releasetime } :=
    fun j => (hp4 j).symm
  have hkind : ∀ j, ((selectgo_prologue fastrand w sel).2.1.scase j).kind = (sel.scase j).kind :=
    fun j => by rw [hcase j]
  have hchan : ∀ j, ((selectgo_prologue fastrand w sel).2.1.scase j).chan = (sel.scase j).chan :=
    fun j => by rw [hcase j]
  have hindex : ∀ j, ((selectgo_prologue fastrand w sel).2.1.scase j).index
      = (sel.scase j).index := fun j => by rw [hcase j]
  obtain ⟨w1, idx, e, h1, h2⟩ := selectgo_loop_default_iff fuel
    (selectgo_prologue fastrand w sel).1 g done (selectgo_prologue fastrand w sel).2.1
    (selectgo_prologue fastrand w sel).2.2 d
    (by rw [hkind]; exact hkd)
    (by intro j hj hjd; rw [hkind]; exact (hkinds j (by rw [← hp2]; exact hj) hjd).1)
    (by intro j hj hjd; rw [hindex, hindex]; exact hidx j (by rw [← hp2]; exact hj) hjd)
    (by
      intro j hj hk
      rw [hchan, hp1.1]
      exact hsc j (by rw [← hp2]; exact hj) (by rw [← hkind]; exact hk))
    (queuesOK_congr hp1.2.1 (fun c => by rw [hp1.1]) (fun c => by rw [hp1.1]) hq)
    (by
      intro k hk
      rw [hp5, hp2]
      exact gen_pollorder_lt fastrand _ _ k (by rw [← hp2]; exact hk))
    (by
      intro j hj
      rw [hp5, hp2]
      exact gen_pollorder_surj fastrand _ _ j (by rw [← hp2]; exact hj))
    (by rw [hp2]; exact hd)
  refine ⟨w1, idx, e, ?_, ?_⟩
  · rw [hindex] at h1
    rw [h1, hp2]
    constructor
    · intro h j hj hjd hr
      exact h j hj hjd ((ready_heapEq hp1 (hp4 j)).mpr hr)
    · intro h j hj hjd hr
      exact h j hj hjd ((ready_heapEq hp1 (hp4 j)).mp hr)
  · intro hi c
    have := h2 (by rw [hindex]; exact hi) c
    rw [hp1.1] at this
    exact this

/-- The theorem `C11_select_default` at the select of a receive and a default
case on an unbuffered channel without waiters. -/
theorem C11_select_default_witness :
    ∃ w1 idx, selectgo 1 (fun _ => 0) emptyWorld 9 10 recvSelect = some (w1, .returned idx) ∧
      (idx = (recvSelect.scase 1).index ↔
        ∀ j, j < recvSelect.ncase → j ≠ 1 → ¬ ready emptyWorld (recvSelect.scase j)) ∧
      (idx = (recvSelect.scase 1).index →
        ∀ c, sameRing (emptyWorld.chans c) (w1.chans c)) :=
  C11_select_default 1 (fun _ => 0) emptyWorld 9 10 recvSelect 1 (by decide) rfl
    (by
      intro j hj hjd
      have hj2 : j < 2 := hj
      have : j = 0 := by omega
      subst this
      exact ⟨Or.inl rfl, by decide⟩)
    (by
      intro j hj hjd
      have hj2 : j < 2 := hj
      have : j = 0 := by omega
      subst this
      decide)
    (by intro j _ _; rfl)
    (fun _ => ⟨⟨[], rfl, by decide⟩, ⟨[], rfl, by decide⟩⟩)

/-! ## A select of one channel case and a default case -/

theorem traceEq_iff (w1 w2 : World) :
    traceEq w1 w2 ↔ w1.chans = w2.chans ∧ w1.sudogs = w2.sudogs ∧ w1.words = w2.words ∧
      w1.mem = w2.mem ∧ w1.bools = w2.bools ∧ w1.param = w2.param ∧
      w1.gcwaiting = w2.gcwaiting ∧ w1.blockprofilerate = w2.blockprofilerate ∧
      w1.ticks = w2.ticks ∧ w1.nticks = w2.nticks := by
  cases w1
  cases w2
  simp [traceEq]

/-- The code from `loop:` on, for a select of two cases, the case `a` and the
default case `b`: the poll order does not matter. -/
theorem selectgo_loop_two (fuel : Nat) (w : World) (g done : Ptr) (sel : Select) (t0 : Int)
    (a b : Nat) (hn : sel.ncase = 2)
    (hpo : (sel.pollorder 0 = a ∧ sel.pollorder 1 = b) ∨
      (sel.pollorder 0 = b ∧ sel.pollorder 1 = a))
    (hkb : (sel.scase b).kind = CaseDefault) (hka : (sel.scase a).kind ≠ CaseDefault) :
    selectgo_loop fuel w g done sel t0 =
      match pass1_case fuel w (sel.scase a) with
      | none => none
      | some (w1, .jump .asyncrecv _) => selectgo_asyncrecv fuel w1 sel (sel.scase a) t0
      | some (w1, .jump .asyncsend _) => selectgo_asyncsend fuel w1 sel (sel.scase a) t0
      | some (w1, .jump .syncrecv sg) => some (selectgo_syncrecv w1 sel (sel.scase a) sg t0)
      | some (w1, .jump .rclose _) => some (selectgo_rclose w1 sel (sel.scase a) t0)
      | some (w1, .jump .syncsend sg) => some (selectgo_syncsend w1 sel (sel.scase a) sg t0)
      | some (w1, .jump .sclose _) => some (selectgo_sclose w1 sel)
      | some (w1, _) => some (selectgo_retc (selunlock sel w1) sel (sel.scase b) t0) := by
  unfold selectgo_loop
  rw [hn]
  rcases hpo with ⟨h0, h1⟩ | ⟨h0, h1⟩
  · simp only [pass1, h0, h1, Nat.zero_add]
    cases hc : pass1_case fuel w (sel.scase a) with
    | none => rfl
    | some r =>
      obtain ⟨w1, scan⟩ := r
      cases scan with
      | jump l sg => cases l <;> rfl
      | dflt =>
        have := (pass1_case_spec fuel w _ w1 _ hc).2.2.2
        exact absurd this hka
      | next =>
        simp only [pass1_case_default fuel w1 _ hkb]
  · simp only [pass1, h0, h1, Nat.zero_add, pass1_case_default fuel w _ hkb]
    cases hc : pass1_case fuel w (sel.scase a) with
    | none => rfl
    | some r =>
      obtain ⟨w1, scan⟩ := r
      cases scan with
      | jump l sg => cases l <;> rfl
      | dflt =>
        have := (pass1_case_spec fuel w _ w1 _ hc).2.2.2
        exact absurd this hka
      | next => rfl

/-- The poll order of a select of two cases. -/
theorem gen_pollorder_two (fastrand : Nat → Nat) (p0 : Nat → Nat) (a b : Nat)
    (hab : (a = 0 ∧ b = 1) ∨ (a = 1 ∧ b = 0)) :
    (gen_pollorder fastrand 2 p0 0 = a ∧ gen_pollorder fastrand 2 p0 1 = b) ∨
    (gen_pollorder fastrand 2 p0 0 = b ∧ gen_pollorder fastrand 2 p0 1 = a) := by
  have h0 := gen_pollorder_lt fastrand 2 p0 0 (by omega)
  have h1 := gen_pollorder_lt fastrand 2 p0 1 (by omega)
  obtain ⟨k0, hk0, e0⟩ := gen_pollorder_surj fastrand 2 p0 0 (by omega)
  obtain ⟨k1, hk1, e1⟩ := gen_pollorder_surj fastrand 2 p0 1 (by omega)
  have hk0' : k0 = 0 ∨ k0 = 1 := by omega
  have hk1' : k1 = 0 ∨ k1 = 1 := by omega
  rcases hk0' with rfl | rfl <;> rcases hk1' with rfl | rfl <;> rcases hab with ⟨rfl, rfl⟩ | ⟨rfl, rfl⟩ <;>
    omega

@[simp] theorem sellock_nticks (sel : Select) (w : World) : (sellock sel w).nticks = w.nticks := by
  obtain ⟨t, h⟩ := sellock_frame sel w; rw [h]
@[simp] theorem selunlock_nticks (sel : Select) (w : World) :
    (selunlock sel w).nticks = w.nticks := by
  obtain ⟨t, h⟩ := selunlock_frame sel w; rw [h]
@[simp] theorem selectgo_retc_nticks (w : World) (sel : Select) (cas : Scase) (t0 : Int) :
    (selectgo_retc w sel cas t0).1.nticks = w.nticks := by
  obtain ⟨t, h⟩ := selectgo_retc_frame w sel cas t0; rw [h]

theorem traceEq.trefl (w : World) : traceEq w w := rfl

theorem traceEq.tsymm {w1 w2 : World} (h : traceEq w1 w2) : traceEq w2 w1 := by
  rw [traceEq_iff] at *
  obtain ⟨h1, h2, h3, h4, h5, h6, h7, h8, h9, h10⟩ := h
  exact ⟨h1.symm, h2.symm, h3.symm, h4.symm, h5.symm, h6.symm, h7.symm, h8.symm, h9.symm,
    h10.symm⟩

theorem traceEq.ttrans {w1 w2 w3 : World} (a : traceEq w1 w2) (b : traceEq w2 w3) :
    traceEq w1 w3 := by
  rw [traceEq_iff] at *
  obtain ⟨h1, h2, h3, h4, h5, h6, h7, h8, h9, h10⟩ := a
  obtain ⟨k1, k2, k3, k4, k5, k6, k7, k8, k9, k10⟩ := b
  exact ⟨h1.trans k1, h2.trans k2, h3.trans k3, h4.trans k4, h5.trans k5, h6.trans k6,
    h7.trans k7, h8.trans k8, h9.trans k9, h10.trans k10⟩

theorem traceEq_of_frame {w w1 : World} {t : List Event} (h : w1 = { w with trace := t }) :
    traceEq w1 w := by
  rw [h]; rfl

theorem selunlock_traceEq (sel : Select) (w : World) : traceEq (selunlock sel w) w := by
  obtain ⟨t, h⟩ := selunlock_frame sel w
  exact traceEq_of_frame h

theorem sellock_traceEq (sel : Select) (w : World) : traceEq (sellock sel w) w := by
  obtain ⟨t, h⟩ := sellock_frame sel w
  exact traceEq_of_frame h

theorem selectgo_retc_traceEq (w : World) (sel : Select) (cas : Scase) (t0 : Int) :
    traceEq (selectgo_retc w sel cas t0).1 w := by
  obtain ⟨t, h⟩ := selectgo_retc_frame w sel cas t0
  rw [h]; rfl

theorem log_traceEq (w : World) (e : Event) : traceEq (w.log e) w := rfl

theorem blockProfile_traceEq (w : World) (rt t0 : Int) : traceEq (blockProfile w rt t0) w := by
  unfold blockProfile
  split
  · rfl
  · rfl

/-- The prologue of `selectgo` and the prologue of `chansend` and `chanrecv`
lead to the same state but for the trace, with the same `t0`. -/
theorem prologue_traceEq (fastrand : Nat → Nat) (w : World) (sel : Select) (c : Ptr) :
    traceEq (selectgo_prologue fastrand w sel).1 ((profileStart (gcYield w)).1.log (.lock c)) ∧
    (selectgo_prologue fastrand w sel).2.2 = (profileStart (gcYield w)).2.1 := by
  unfold selectgo_prologue profileStart
  dsimp only
  by_cases hb : (gcYield w).blockprofilerate > 0
  · rw [if_pos hb, if_pos hb]
    exact ⟨(sellock_traceEq _ _).ttrans (log_traceEq _ _).tsymm, rfl⟩
  · rw [if_neg hb, if_neg hb]
    exact ⟨(sellock_traceEq _ _).ttrans (log_traceEq _ _).tsymm, rfl⟩

/-! ## More frame lemmas, for the comparison of two runs -/

section Frame2

variable (w : World) (sg received : Ptr) (v : Bool) (rt t0 : Int)

@[simp] theorem setReceived_gcwaiting : (setReceived w received v).gcwaiting = w.gcwaiting := by
  unfold setReceived; split <;> rfl
@[simp] theorem setReceived_blockprofilerate : (setReceived w received v).blockprofilerate = w.blockprofilerate := by
  unfold setReceived; split <;> rfl
@[simp] theorem setReceived_ticks : (setReceived w received v).ticks = w.ticks := by
  unfold setReceived; split <;> rfl
@[simp] theorem setReceived_nticks : (setReceived w received v).nticks = w.nticks := by
  unfold setReceived; split <;> rfl
@[simp] theorem blockProfile_gcwaiting : (blockProfile w rt t0).gcwaiting = w.gcwaiting := by
  unfold blockProfile; split <;> rfl
@[simp] theorem blockProfile_blockprofilerate : (blockProfile w rt t0).blockprofilerate = w.blockprofilerate := by
  unfold blockProfile; split <;> rfl
@[simp] theorem blockProfile_ticks : (blockProfile w rt t0).ticks = w.ticks := by
  unfold blockProfile; split <;> rfl
@[simp] theorem blockProfile_nticks : (blockProfile w rt t0).nticks = w.nticks := by
  unfold blockProfile; split <;> rfl
@[simp] theorem stampRelease_gcwaiting : (stampRelease w sg).gcwaiting = w.gcwaiting := by
  unfold stampRelease; split <;> rfl
@[simp] theorem stampRelease_blockprofilerate : (stampRelease w sg).blockprofilerate = w.blockprofilerate := by
  unfold stampRelease; split <;> rfl
@[simp] theorem stampRelease_ticks : (stampRelease w sg).ticks = w.ticks := by
  unfold stampRelease; split <;> rfl
theorem stampRelease_sudogs_ite : (stampRelease w sg).sudogs
    = if (w.sudogs sg).releasetime ≠ 0 then
        Function.update w.sudogs sg { w.sudogs sg with releasetime := w.ticks w.nticks }
      else w.sudogs := by
  unfold stampRelease; split <;> rfl

theorem stampRelease_nticks_ite : (stampRelease w sg).nticks
    = if (w.sudogs sg).releasetime ≠ 0 then w.nticks + 1 else w.nticks := by
  unfold stampRelease; split <;> rfl

end Frame2

theorem dequeueSendq_of (fuel : Nat) (w : World) (c : Ptr) (q1 : WaitQ) (words1 : Ptr → Nat)
    (sg : Ptr) (h : dequeue fuel w.sudogs w.words (w.chans c).sendq = some (q1, words1, sg)) :
    dequeueSendq fuel w c = some
      ({ w with words := words1,
                chans := Function.update w.chans c { w.chans c with sendq := q1 } }, sg) := by
  simp only [dequeueSendq, h]

theorem dequeueRecvq_of (fuel : Nat) (w : World) (c : Ptr) (q1 : WaitQ) (words1 : Ptr → Nat)
    (sg : Ptr) (h : dequeue fuel w.sudogs w.words (w.chans c).recvq = some (q1, words1, sg)) :
    dequeueRecvq fuel w c = some
      ({ w with words := words1,
                chans := Function.update w.chans c { w.chans c with recvq := q1 } }, sg) := by
  simp only [dequeueRecvq, h]

theorem asyncrecv_agree (fuel : Nat) (wa wb : World) (sel : Select) (cas : Scase)
    (g mysg : Ptr) (block : Bool) (t0 t0c rt : Int) (q1 : WaitQ) (words1 : Ptr → Nat) (sg : Ptr)
    (h : traceEq wa wb) (hq : 0 < (wb.chans cas.chan).qcount)
    (hD : dequeue fuel wb.sudogs wb.words (wb.chans cas.chan).sendq = some (q1, words1, sg)) :
    ∃ ra rb, selectgo_asyncrecv fuel wa sel cas t0 = some ra ∧
      chanrecv_asynch fuel wb g mysg cas.chan cas.elem cas.receivedp block t0c rt = some rb ∧
      ra.2 = .returned cas.index ∧ rb.2 = .returned true ∧ traceEq ra.1 rb.1 := by
  obtain ⟨ta, rfl⟩ : ∃ ta, wa = { wb with trace := ta } := ⟨_, h⟩
  unfold selectgo_asyncrecv chanrecv_asynch
  rw [if_neg (by omega)]
  dsimp only
  rw [dequeueSendq_of fuel _ cas.chan q1 words1 sg (by
      simp only [World.setChan, Function.update_same, setReceived_sudogs, setReceived_words]
      split <;> simpa using hD),
    dequeueSendq_of fuel _ cas.chan q1 words1 sg (by
      simp only [World.setChan, Function.update_same]
      split <;> simpa using hD)]
  refine ⟨_, _, rfl, rfl, rfl, rfl, ?_⟩
  rw [traceEq_iff]
  dsimp only
  by_cases hsg : sg = 0 <;> by_cases he : cas.elem = 0 <;>
    simp [setReceived_bools_ite, World.setChan, World.log, hsg, he, stampRelease_sudogs_ite,
      stampRelease_nticks_ite]

theorem traceEq_fields {w1 w2 : World} (h : traceEq w1 w2) :
    w1.chans = w2.chans ∧ w1.sudogs = w2.sudogs ∧ w1.words = w2.words ∧ w1.mem = w2.mem ∧
    w1.bools = w2.bools ∧ w1.param = w2.param := by
  rw [traceEq_iff] at h
  exact ⟨h.1, h.2.1, h.2.2.1, h.2.2.2.1, h.2.2.2.2.1, h.2.2.2.2.2.1⟩

/-- The label `rclose:` of `selectgo` and the label `closed:` of `chanrecv`
do the same. -/
theorem rclose_agree (wa wb : World) (sel : Select) (cas : Scase) (t0 t0c rt : Int)
    (h : traceEq wa wb) :
    (selectgo_rclose wa sel cas t0).2 = .returned cas.index ∧
    (chanrecv_closed wb cas.chan cas.elem cas.receivedp t0c rt).2 = .returned true ∧
    traceEq (selectgo_rclose wa sel cas t0).1
      (chanrecv_closed wb cas.chan cas.elem cas.receivedp t0c rt).1 := by
  obtain ⟨ta, rfl⟩ : ∃ ta, wa = { wb with trace := ta } := ⟨_, h⟩
  refine ⟨rfl, rfl, ?_⟩
  unfold selectgo_rclose chanrecv_closed
  rw [traceEq_iff]
  dsimp only
  by_cases he : cas.elem = 0 <;>
    simp [setReceived_bools_ite, World.log, he]

/-- A receive case and a default case against `chanrecv` with `block` false:
both return, the receive case is chosen exactly when `chanrecv` returns
`true`, and then the two final states differ at most in the trace. -/
theorem recv_agree (fuel : Nat) (w wa : World) (g mysg g2 done : Ptr) (sel : Select) (t0 : Int)
    (a b : Nat) (hn : sel.ncase = 2)
    (hpo : (sel.pollorder 0 = a ∧ sel.pollorder 1 = b) ∨
      (sel.pollorder 0 = b ∧ sel.pollorder 1 = a))
    (hka : (sel.scase a).kind = CaseRecv) (hkb : (sel.scase b).kind = CaseDefault)
    (hc0 : (sel.scase a).chan ≠ 0)
    (h : traceEq wa ((profileStart (gcYield w)).1.log (.lock (sel.scase a).chan)))
    (hq : queuesOK fuel w)
    (hcl : (w.chans (sel.scase a).chan).closed = true →
      (w.chans (sel.scase a).chan).sendq.first = 0) :
    ∃ r1 r2 sb,
      chanrecv fuel w g mysg (sel.scase a).chan (sel.scase a).elem (sel.scase a).receivedp false
        = some r1 ∧
      selectgo_loop fuel wa g2 done sel t0 = some r2 ∧
      r1.2 = .returned sb ∧
      r2.2 = .returned (if sb then (sel.scase a).index else (sel.scase b).index) ∧
      (sb = true → traceEq r2.1 r1.1) ∧
      (sb = false → r2.1.chans = r1.1.chans ∧ r2.1.sudogs = r1.1.sudogs ∧
        r2.1.words = r1.1.words ∧ r2.1.mem = r1.1.mem ∧ r2.1.param = r1.1.param ∧
        ∀ p, p ≠ (sel.scase a).receivedp → r2.1.bools p = r1.1.bools p) := by
  rw [selectgo_loop_two fuel wa g2 done sel t0 a b hn hpo hkb (by rw [hka]; decide)]
  unfold chanrecv
  dsimp only
  rw [if_neg hc0]
  have hq' : queuesOK fuel ((profileStart (gcYield w)).1.log (.lock (sel.scase a).chan)) :=
    queuesOK_congr (by simp) (fun c => by simp) (fun c => by simp) hq
  have hcl' : (((profileStart (gcYield w)).1.log (.lock (sel.scase a).chan)).chans
      (sel.scase a).chan).closed = true →
      (((profileStart (gcYield w)).1.log (.lock (sel.scase a).chan)).chans
      (sel.scase a).chan).sendq.first = 0 := by simpa using hcl
  generalize (profileStart (gcYield w)).1.log (.lock (sel.scase a).chan) = wb at h hq' hcl'
  generalize (profileStart (gcYield w)).2.1 = t0c
  generalize (profileStart (gcYield w)).2.2 = rt
  generalize sel.scase a = cas at *
  generalize sel.scase b = dfl at *
  obtain ⟨ta, rfl⟩ : ∃ ta, wa = { wb with trace := ta } := ⟨_, h⟩
  obtain ⟨l, hl, hf⟩ := (hq' cas.chan).1
  obtain ⟨f, rfl⟩ : ∃ f, fuel = f + 1 := ⟨fuel - 1, by omega⟩
  unfold pass1_case
  dsimp only
  rw [if_pos hka]
  by_cases hd : (wb.chans cas.chan).dataqsiz > 0
  · rw [if_pos hd, if_pos hd]
    by_cases hqc : (wb.chans cas.chan).qcount > 0
    · rw [if_pos hqc]
      dsimp only
      have hD : ∃ q1 words1 sg, dequeue (f + 1) wb.sudogs wb.words (wb.chans cas.chan).sendq
          = some (q1, words1, sg) := by
        rcases dequeue_on_list wb.sudogs wb.words l (f + 1) _ hl hf with ⟨_, e⟩ | ⟨_, _, _, _, _, _, e, _⟩
        · exact ⟨_, _, _, e⟩
        · exact ⟨_, _, _, e⟩
      obtain ⟨q1, words1, sg, hD⟩ := hD
      obtain ⟨ra, rb, e1, e2, e3, e4, e5⟩ := asyncrecv_agree (f + 1) _ wb sel cas g mysg false t0
        t0c rt q1 words1 sg h hqc hD
      exact ⟨rb, ra, true, e2, e1, e4, by simpa using e3, fun _ => e5,
        fun h => absurd h (by simp)⟩
    · rw [if_neg hqc]
      unfold chanrecv_asynch
      rw [if_pos (by omega)]
      by_cases hc : (wb.chans cas.chan).closed = true
      · rw [if_pos hc, if_pos hc]
        dsimp only
        obtain ⟨e1, e2, e3⟩ := rclose_agree _ wb sel cas t0 t0c rt h
        exact ⟨_, _, true, rfl, rfl, e2, by simpa using e1, fun _ => e3,
          fun h => absurd h (by simp)⟩
      · rw [if_neg hc, if_neg hc]
        dsimp only
        rw [if_pos (by simp)]
        refine ⟨_, _, false, rfl, rfl, rfl, by simp, fun h => absurd h (by simp), fun _ => ?_⟩
        refine ⟨by simp, by simp, by simp, by simp, by simp, ?_⟩
        intro p hp
        simp [setReceived_bools_ite, Function.update_noteq hp]
        split
        · rfl
        · rw [Function.update_noteq hp]
  · rw [if_neg hd, if_neg hd]
    by_cases hc : (wb.chans cas.chan).closed = true
    · rw [if_pos hc]
      rw [dequeueSendq_empty f { wb with trace := ta } cas.chan (hcl' hc)]
      dsimp only
      rw [if_neg (by simp), if_pos hc]
      dsimp only
      obtain ⟨e1, e2, e3⟩ := rclose_agree _ wb sel cas t0 t0c rt h
      exact ⟨_, _, true, rfl, rfl, e2, by simpa using e1, fun _ => e3,
        fun h => absurd h (by simp)⟩
    · rw [if_neg hc]
      rcases dequeue_on_list wb.sudogs wb.words l (f + 1) _ hl hf with ⟨_, hD⟩ | ⟨_, x, _, _, _, hx0, hD, _⟩
      · rw [dequeueSendq_of (f + 1) wb cas.chan _ _ _ hD,
          dequeueSendq_of (f + 1) { wb with trace := ta } cas.chan _ _ _ hD]
        have hc' : (wb.chans cas.chan).closed = false := by simpa using hc
        simp only [ne_eq, not_true_eq_false, if_false, Bool.not_false, if_true,
          Function.update_same, hc', Bool.false_eq_true]
        refine ⟨_, _, false, rfl, rfl, rfl, by simp, fun h => absurd h (by simp), fun _ => ?_⟩
        exact ⟨by simp, by simp, by simp, by simp, by simp, fun p _ => by simp⟩
      · rw [dequeueSendq_of (f + 1) wb cas.chan _ _ _ hD,
          dequeueSendq_of (f + 1) { wb with trace := ta } cas.chan _ _ _ hD]
        dsimp only
        rw [if_pos hx0, if_pos hx0]
        dsimp only
        refine ⟨_, _, true, rfl, rfl, rfl, by simp [selectgo_syncrecv], fun _ => ?_,
          fun h => absurd h (by simp)⟩
        unfold selectgo_syncrecv
        rw [traceEq_iff]
        dsimp only
        by_cases he : cas.elem = 0 <;>
          simp [setReceived_bools_ite, World.log, he, stampRelease_sudogs_ite,
            stampRelease_nticks_ite]

theorem asyncsend_agree (fuel : Nat) (wa wb : World) (sel : Select) (cas : Scase)
    (g mysg : Ptr) (block : Bool) (t0 t0c rt : Int) (q1 : WaitQ) (words1 : Ptr → Nat) (sg : Ptr)
    (h : traceEq wa wb) (hc : (wb.chans cas.chan).closed = false)
    (hq : (wb.chans cas.chan).qcount < (wb.chans cas.chan).dataqsiz)
    (hD : dequeue fuel wb.sudogs wb.words (wb.chans cas.chan).recvq = some (q1, words1, sg)) :
    ∃ ra rb, selectgo_asyncsend fuel wa sel cas t0 = some ra ∧
      chansend_asynch fuel wb g mysg cas.chan cas.elem block t0c rt = some rb ∧
      ra.2 = .returned cas.index ∧ rb.2 = .returned true ∧ traceEq ra.1 rb.1 := by
  obtain ⟨ta, rfl⟩ : ∃ ta, wa = { wb with trace := ta } := ⟨_, h⟩
  unfold selectgo_asyncsend chansend_asynch
  rw [if_neg (by rw [hc]; simp), if_neg (by omega)]
  dsimp only
  rw [dequeueRecvq_of fuel _ cas.chan q1 words1 sg (by
      simp only [World.setChan, Function.update_same]
      exact hD),
    dequeueRecvq_of fuel _ cas.chan q1 words1 sg
      (by
        simp only [World.setChan, Function.update_same]
        exact hD)]
  refine ⟨_, _, rfl, rfl, rfl, rfl, ?_⟩
  rw [traceEq_iff]
  dsimp only
  by_cases hsg : sg = 0 <;>
    simp [World.setChan, World.log, hsg, stampRelease_sudogs_ite, stampRelease_nticks_ite]

/-- A send case and a default case against `chansend` with `block` false:
both end the same way, with a panic on a closed channel or with a return, the
send case being chosen exactly when `chansend` returns `true`, and the two
final states differ at most in the trace. -/
theorem send_agree (fuel : Nat) (w wa : World) (g mysg g2 done : Ptr) (sel : Select) (t0 : Int)
    (a b : Nat) (hn : sel.ncase = 2)
    (hpo : (sel.pollorder 0 = a ∧ sel.pollorder 1 = b) ∨
      (sel.pollorder 0 = b ∧ sel.pollorder 1 = a))
    (hka : (sel.scase a).kind = CaseSend) (hkb : (sel.scase b).kind = CaseDefault)
    (hc0 : (sel.scase a).chan ≠ 0)
    (h : traceEq wa ((profileStart (gcYield w)).1.log (.lock (sel.scase a).chan)))
    (hq : queuesOK fuel w) :
    ∃ r1 r2,
      chansend fuel w g mysg (sel.scase a).chan (sel.scase a).elem false = some r1 ∧
      selectgo_loop fuel wa g2 done sel t0 = some r2 ∧
      traceEq r2.1 r1.1 ∧
      ((r1.2 = .panicked "send on closed channel" ∧ r2.2 = .panicked "send on closed channel") ∨
        ∃ sb, r1.2 = .returned sb ∧
          r2.2 = .returned (if sb then (sel.scase a).index else (sel.scase b).index)) := by
  rw [selectgo_loop_two fuel wa g2 done sel t0 a b hn hpo hkb (by rw [hka]; decide)]
  unfold chansend
  rw [if_neg hc0]
  dsimp only
  have hq' : queuesOK fuel ((profileStart (gcYield w)).1.log (.lock (sel.scase a).chan)) :=
    queuesOK_congr (by simp) (fun c => by simp) (fun c => by simp) hq
  generalize (profileStart (gcYield w)).1.log (.lock (sel.scase a).chan) = wb at h hq'
  generalize (profileStart (gcYield w)).2.1 = t0c
  generalize (profileStart (gcYield w)).2.2 = rt
  generalize sel.scase a = cas at *
  generalize sel.scase b = dfl at *
  obtain ⟨ta, rfl⟩ : ∃ ta, wa = { wb with trace := ta } := ⟨_, h⟩
  obtain ⟨l, hl, hf⟩ := (hq' cas.chan).2
  obtain ⟨f, rfl⟩ : ∃ f, fuel = f + 1 := ⟨fuel - 1, by omega⟩
  unfold pass1_case
  dsimp only
  rw [if_neg (show ¬ cas.kind = CaseRecv by rw [hka]; decide), if_pos hka]
  by_cases hc : (wb.chans cas.chan).closed = true
  · rw [if_pos hc, if_pos hc]
    dsimp only
    refine ⟨_, _, rfl, rfl, ?_, Or.inl ⟨rfl, rfl⟩⟩
    unfold selectgo_sclose chansend_closed
    exact (selunlock_traceEq _ _).ttrans (h.ttrans (log_traceEq _ _).tsymm)
  · rw [if_neg hc, if_neg hc]
    have hc' : (wb.chans cas.chan).closed = false := by simpa using hc
    by_cases hd : (wb.chans cas.chan).dataqsiz > 0
    · rw [if_pos hd, if_pos hd]
      by_cases hqc : (wb.chans cas.chan).qcount < (wb.chans cas.chan).dataqsiz
      · rw [if_pos hqc]
        dsimp only
        have hD : ∃ q1 words1 sg, dequeue (f + 1) wb.sudogs wb.words (wb.chans cas.chan).recvq
            = some (q1, words1, sg) := by
          rcases dequeue_on_list wb.sudogs wb.words l (f + 1) _ hl hf with ⟨_, e⟩ | ⟨_, _, _, _, _, _, e, _⟩
          · exact ⟨_, _, _, e⟩
          · exact ⟨_, _, _, e⟩
        obtain ⟨q1, words1, sg, hD⟩ := hD
        obtain ⟨ra, rb, e1, e2, e3, e4, e5⟩ := asyncsend_agree (f + 1) _ wb sel cas g mysg false
          t0 t0c rt q1 words1 sg h hc' hqc hD
        exact ⟨rb, ra, e2, e1, e5, Or.inr ⟨true, e4, by simpa using e3⟩⟩
      · rw [if_neg hqc]
        unfold chansend_asynch
        rw [if_neg hc, if_pos (by omega), if_pos (by simp)]
        dsimp only
        refine ⟨_, _, rfl, rfl, ?_, Or.inr ⟨false, rfl, by simp⟩⟩
        exact (selectgo_retc_traceEq _ _ _ _).ttrans
          ((selunlock_traceEq _ _).ttrans (h.ttrans (log_traceEq _ _).tsymm))
    · rw [if_neg hd, if_neg hd]
      rcases dequeue_on_list wb.sudogs wb.words l (f + 1) _ hl hf with ⟨_, hD⟩ | ⟨_, x, _, _, _, hx0, hD, _⟩
      · rw [dequeueRecvq_of (f + 1) wb cas.chan _ _ _ hD,
          dequeueRecvq_of (f + 1) { wb with trace := ta } cas.chan _ _ _ hD]
        simp only [ne_eq, not_true_eq_false, if_false, Bool.not_false, if_true]
        refine ⟨_, _, rfl, rfl, ?_, Or.inr ⟨false, rfl, by simp⟩⟩
        rw [traceEq_iff]
        simp [World.log]
      · rw [dequeueRecvq_of (f + 1) wb cas.chan _ _ _ hD,
          dequeueRecvq_of (f + 1) { wb with trace := ta } cas.chan _ _ _ hD]
        dsimp only
        rw [if_pos hx0, if_pos hx0]
        dsimp only
        refine ⟨_, _, rfl, rfl, ?_, Or.inr ⟨true, rfl, by simp [selectgo_syncsend]⟩⟩
        unfold selectgo_syncsend
        rw [traceEq_iff]
        dsimp only
        by_cases he : (wb.sudogs x).elem = 0 <;>
          simp [World.log, he, stampRelease_sudogs_ite, stampRelease_nticks_ite]

/-! ## C20: a select of one case and a default case is the non-blocking operation -/

/-- C20: take a select of two cases, in either order: a receive (resp. a
send) on a channel `c` other than nil, and a default case with another index,
in a state whose wait queues are lists shorter than the bound on the queue
walks and, for the receive, in which a closed channel has no parked sender
(`closechan` leaves the queues empty and nothing is parked on a closed
channel afterwards).  Then `selectgo` and `chanrecv` with `block` false (resp.
`runtime_selectnbsend`, that is `chansend` with `block` false) both end, and:
the channel case is chosen exactly when the single operation returns `true`
and the default case exactly when it returns `false`; when the channel case
is chosen the two final states are equal but for the trace of runtime calls,
so element bytes, `received` flag, channel, queues, claim words and wake
tokens agree; a send on a closed channel panics with the same message on both
sides; when the default case is chosen the states agree but for the trace
and, for the receive on an empty buffered channel, for the `received` flag
(which `chanrecv` clears, and the select does not touch). -/
theorem C20_select_nonblocking (fuel : Nat) (fastrand : Nat → Nat) (w : World)
    (g mysg g2 done : Ptr) (sel : Select) (a b : Nat) (hn : sel.ncase = 2)
    (hab : (a = 0 ∧ b = 1) ∨ (a = 1 ∧ b = 0))
    (hkb : (sel.scase b).kind = CaseDefault) (hc0 : (sel.scase a).chan ≠ 0)
    (hidx : (sel.scase a).index ≠ (sel.scase b).index) (hq : queuesOK fuel w) :
    ((sel.scase a).kind = CaseRecv →
      ((w.chans (sel.scase a).chan).closed = true →
        (w.chans (sel.scase a).chan).sendq.first = 0) →
      ∃ r1 r2 sb,
        chanrecv fuel w g mysg (sel.scase a).chan (sel.scase a).elem (sel.scase a).receivedp
          false = some r1 ∧
        selectgo fuel fastrand w g2 done sel = some r2 ∧
        r1.2 = .returned sb ∧
        r2.2 = .returned (if sb then (sel.scase a).index else (sel.scase b).index) ∧
        (r2.2 = .returned (sel.scase a).index ↔ r1.2 = .returned true) ∧
        (r2.2 = .returned (sel.scase b).index ↔ r1.2 = .returned false) ∧
        (sb = true → traceEq r2.1 r1.1) ∧
        (sb = false → r2.1.chans = r1.1.chans ∧ r2.1.sudogs = r1.1.sudogs ∧
          r2.1.words = r1.1.words ∧ r2.1.mem = r1.1.mem ∧ r2.1.param = r1.1.param ∧
          ∀ p, p ≠ (sel.scase a).receivedp → r2.1.bools p = r1.1.bools p)) ∧
    ((sel.scase a).kind = CaseSend →
      ∃ r1 r2,
        runtime_selectnbsend fuel w g mysg (sel.scase a).chan (sel.scase a).elem = some r1 ∧
        selectgo fuel fastrand w g2 done sel = some r2 ∧
        traceEq r2.1 r1.1 ∧
        ((r1.2 = .panicked "send on closed channel" ∧
            r2.2 = .panicked "send on closed channel") ∨
          ∃ sb, r1.2 = .returned sb ∧
            r2.2 = .returned (if sb then (sel.scase a).index else (sel.scase b).index) ∧
            (r2.2 = .returned (sel.scase a).index ↔ r1.2 = .returned true) ∧
            (r2.2 = .returned (sel.scase b).index ↔ r1.2 = .returned false))) := by
  obtain ⟨_, hp2, _, hp4, hp5⟩ := selectgo_prologue_spec fastrand w sel
  obtain ⟨hT, _⟩ := prologue_traceEq fastrand w sel (sel.scase a).chan
  have hcase : ∀ j, (selectgo_prologue fastrand w sel).2.1.scase j
      = { sel.scase j with
          releasetime := ((selectgo_prologue fastrand w sel).2.1.scase j).releasetime } :=
    fun j => (hp4 j).symm
  have hkind : ∀ j, ((selectgo_prologue fastrand w sel).2.1.scase j).kind = (sel.scase j).kind :=
    fun j => by rw [hcase j]
  have hchan : ∀ j, ((selectgo_prologue fastrand w sel).2.1.scase j).chan = (sel.scase j).chan :=
    fun j => by rw [hcase j]
  have hindex : ∀ j, ((selectgo_prologue fastrand w sel).2.1.scase j).index
      = (sel.scase j).index := fun j => by rw [hcase j]
  have helem : ∀ j, ((selectgo_prologue fastrand w sel).2.1.scase j).elem = (sel.scase j).elem :=
    fun j => by rw [hcase j]
  have hrecv : ∀ j, ((selectgo_prologue fastrand w sel).2.1.scase j).receivedp
      = (sel.scase j).receivedp := fun j => by rw [hcase j]
  have hpo : ((selectgo_prologue fastrand w sel).2.1.pollorder 0 = a ∧
        (selectgo_prologue fastrand w sel).2.1.pollorder 1 = b) ∨
      ((selectgo_prologue fastrand w sel).2.1.pollorder 0 = b ∧
        (selectgo_prologue fastrand w sel).2.1.pollorder 1 = a) := by
    rw [hp5, hn]
    exact gen_pollorder_two fastrand _ a b hab
  rw [← hchan a] at hT
  constructor
  · intro hka hcl
    obtain ⟨r1, r2, sb, e1, e2, e3, e4, e5, e6⟩ := recv_agree fuel w _ g mysg g2 done
      (selectgo_prologue fastrand w sel).2.1 (selectgo_prologue fastrand w sel).2.2 a b
      (by rw [hp2]; exact hn) hpo (by rw [hkind]; exact hka) (by rw [hkind]; exact hkb)
      (by rw [hchan]; exact hc0) hT hq (by rw [hchan]; exact hcl)
    rw [hchan, helem, hrecv] at e1
    rw [hindex, hindex] at e4
    rw [hrecv] at e6
    refine ⟨r1, r2, sb, e1, e2, e3, e4, ?_, ?_, e5, e6⟩
    · rw [e3, e4]
      cases sb
      · simp only [Bool.false_eq_true, if_false, Outcome.returned.injEq]
        exact ⟨fun h => absurd h.symm hidx, fun h => absurd h (by simp)⟩
      · simp
    · rw [e3, e4]
      cases sb
      · simp
      · simp only [if_true, Outcome.returned.injEq]
        exact ⟨fun h => absurd h hidx, fun h => absurd h (by simp)⟩
  · intro hka
    obtain ⟨r1, r2, e1, e2, e3, e4⟩ := send_agree fuel w _ g mysg g2 done
      (selectgo_prologue fastrand w sel).2.1 (selectgo_prologue fastrand w sel).2.2 a b
      (by rw [hp2]; exact hn) hpo (by rw [hkind]; exact hka) (by rw [hkind]; exact hkb)
      (by rw [hchan]; exact hc0) hT hq
    rw [hchan, helem] at e1
    rw [hindex, hindex] at e4
    refine ⟨r1, r2, e1, e2, e3, ?_⟩
    rcases e4 with e4 | ⟨sb, e4, e5⟩
    · exact Or.inl e4
    · refine Or.inr ⟨sb, e4, e5, ?_, ?_⟩
      · rw [e4, e5]
        cases sb
        · simp only [Bool.false_eq_true, if_false, Outcome.returned.injEq]
          exact ⟨fun h => absurd h.symm hidx, fun h => absurd h (by simp)⟩
        · simp
      · rw [e4, e5]
        cases sb
        · simp
        · simp only [if_true, Outcome.returned.injEq]
          exact ⟨fun h => absurd h hidx, fun h => absurd h (by simp)⟩

/-- The theorem `C20_select_nonblocking` at the select of a receive and a
default case on the unbuffered channel with a parked sender. -/
theorem C20_select_nonblocking_witness :
    ∃ r1 r2 sb,
      chanrecv 2 sendWaitWorld 7 8 (recvSelect.scase 0).chan (recvSelect.scase 0).elem
        (recvSelect.scase 0).receivedp false = some r1 ∧
      selectgo 2 (fun _ => 0) sendWaitWorld 9 10 recvSelect = some r2 ∧
      r1.2 = .returned sb ∧
      r2.2 = .returned (if sb then (recvSelect.scase 0).index else (recvSelect.scase 1).index) ∧
      (r2.2 = .returned (recvSelect.scase 0).index ↔ r1.2 = .returned true) ∧
      (r2.2 = .returned (recvSelect.scase 1).index ↔ r1.2 = .returned false) ∧
      (sb = true → traceEq r2.1 r1.1) ∧
      (sb = false → r2.1.chans = r1.1.chans ∧ r2.1.sudogs = r1.1.sudogs ∧
        r2.1.words = r1.1.words ∧ r2.1.mem = r1.1.mem ∧ r2.1.param = r1.1.param ∧
        ∀ p, p ≠ (recvSelect.scase 0).receivedp → r2.1.bools p = r1.1.bools p) :=
  (C20_select_nonblocking 2 (fun _ => 0) sendWaitWorld 7 8 9 10 recvSelect 0 1 rfl
    (Or.inl ⟨rfl, rfl⟩) rfl (by decide) (by decide)
    (by
      intro c
      by_cases hc : c = 1
      · subst hc
        exact ⟨⟨[20], by decide, by decide⟩, ⟨[], by decide, by decide⟩⟩
      · have e : sendWaitWorld.chans c = zeroHchan := by
          simp [sendWaitWorld, World.setChan, World.setSudog, Function.update_noteq hc,
            emptyWorld]
        rw [e]
        exact ⟨⟨[], rfl, by decide⟩, ⟨[], rfl, by decide⟩⟩)).1 rfl (by decide)

/-! ## Queues that are kept -/

theorem queuesKept.krefl (h : Hchan) : queuesKept h h := ⟨rfl, fun e => e, fun e => e⟩

theorem queuesKept.ktrans {h1 h2 h3 : Hchan} (a : queuesKept h1 h2) (b : queuesKept h2 h3) :
    queuesKept h1 h3 :=
  ⟨b.1.trans a.1, fun e => b.2.1 (a.2.1 e), fun e => b.2.2 (a.2.2 e)⟩

theorem worldKept.wkrefl (w : World) : worldKept w w := fun _ => queuesKept.krefl _

theorem worldKept.wktrans {w1 w2 w3 : World} (a : worldKept w1 w2) (b : worldKept w2 w3) :
    worldKept w1 w3 := fun c => (a c).ktrans (b c)

theorem worldKept_of_chans {w w1 : World} (h : w1.chans = w.chans) : worldKept w w1 := by
  intro c; rw [h]; exact queuesKept.krefl _

theorem queuesKept_of_sameQueues {h h1 : Hchan} (hd : h1.dataqsiz = h.dataqsiz)
    (hs : h1.sendq = h.sendq) (hr : h1.recvq = h.recvq) : queuesKept h h1 :=
  ⟨hd, fun e => by rw [hs]; exact e, fun e => by rw [hr]; exact e⟩

theorem worldKept_of_popped {w w1 : World} (h : worldPopped w w1) : worldKept w w1 :=
  fun c => ⟨sameRing_dataqsiz (h.2.2.2.2.2 c).1, (h.2.2.2.2.2 c).2.1.2, (h.2.2.2.2.2 c).2.2.2⟩

theorem worldKept_setChan (w : World) (c : Ptr) (h : Hchan)
    (hk : queuesKept (w.chans c) h) : worldKept w (w.setChan c h) := by
  intro c2
  by_cases e : c2 = c
  · subst e; simpa [World.setChan] using hk
  · simp only [World.setChan, Function.update_noteq e]; exact queuesKept.krefl _

theorem unbufferedOneSided_of_kept {w w1 : World} (hi : unbufferedOneSided w)
    (hk : worldKept w w1) : unbufferedOneSided w1 := by
  intro c hd
  obtain ⟨k1, k2, k3⟩ := hk c
  rcases hi c (by rw [← k1]; exact hd) with h | h
  · exact Or.inl (k2 h)
  · exact Or.inr (k3 h)

theorem dequeueRecvq_kept {fuel : Nat} {w : World} {c : Ptr} {w1 : World} {sg : Ptr}
    (h : dequeueRecvq fuel w c = some (w1, sg)) : worldKept w w1 :=
  worldKept_of_popped (dequeueRecvq_popped fuel w c w1 sg h).1

theorem dequeueSendq_kept {fuel : Nat} {w : World} {c : Ptr} {w1 : World} {sg : Ptr}
    (h : dequeueSendq fuel w c = some (w1, sg)) : worldKept w w1 :=
  worldKept_of_popped (dequeueSendq_popped fuel w c w1 sg h).1

/-- Enqueueing on the send queue of a channel whose receive queue is empty,
unless the channel is buffered. -/
theorem enqueueSendq_oneSided (w : World) (c sg : Ptr) (hi : unbufferedOneSided w)
    (he : (w.chans c).dataqsiz = 0 → (w.chans c).recvq.first = 0) :
    unbufferedOneSided (enqueueSendq w c sg) := by
  intro c2 hd
  unfold enqueueSendq at hd ⊢
  dsimp only at hd ⊢
  by_cases e : c2 = c
  · subst e
    rw [Function.update_same] at hd ⊢
    exact Or.inr (he hd)
  · rw [Function.update_noteq e] at hd ⊢
    exact hi c2 hd

/-- Enqueueing on the receive queue of a channel whose send queue is empty,
unless the channel is buffered. -/
theorem enqueueRecvq_oneSided (w : World) (c sg : Ptr) (hi : unbufferedOneSided w)
    (he : (w.chans c).dataqsiz = 0 → (w.chans c).sendq.first = 0) :
    unbufferedOneSided (enqueueRecvq w c sg) := by
  intro c2 hd
  unfold enqueueRecvq at hd ⊢
  dsimp only at hd ⊢
  by_cases e : c2 = c
  · subst e
    rw [Function.update_same] at hd ⊢
    exact Or.inl (he hd)
  · rw [Function.update_noteq e] at hd ⊢
    exact hi c2 hd

theorem unbufferedOneSided_of_chans {w w1 : World} (h : w1.chans = w.chans)
    (hi : unbufferedOneSided w) : unbufferedOneSided w1 := by
  intro c; rw [h]; exact hi c

/-! ## At most one queue of an unbuffered channel is non-empty: send, receive, close -/

theorem chansend_asynch_oneSided (fuel : Nat) (w : World) (g mysg c ep : Ptr) (block : Bool)
    (t0 rt : Int) (w1 : World) (o : Outcome Bool) (hi : unbufferedOneSided w)
    (hd : 0 < (w.chans c).dataqsiz)
    (h : chansend_asynch fuel w g mysg c ep block t0 rt = some (w1, o)) :
    unbufferedOneSided w1 := by
  unfold chansend_asynch at h
  by_cases hc : (w.chans c).closed = true
  · rw [if_pos hc] at h
    simp only [chansend_closed, Option.some.injEq, Prod.mk.injEq] at h
    obtain ⟨rfl, _⟩ := h
    exact unbufferedOneSided_of_chans rfl hi
  · rw [if_neg hc] at h
    by_cases hq : (w.chans c).qcount ≥ (w.chans c).dataqsiz
    · rw [if_pos hq] at h
      by_cases hb : (!block) = true
      · rw [if_pos hb] at h
        simp only [Option.some.injEq, Prod.mk.injEq] at h
        obtain ⟨rfl, _⟩ := h
        exact unbufferedOneSided_of_chans rfl hi
      · rw [if_neg hb] at h
        simp only [Option.some.injEq, Prod.mk.injEq] at h
        obtain ⟨rfl, _⟩ := h
        apply unbufferedOneSided_of_chans (log_chans _ _)
        refine enqueueSendq_oneSided _ _ _ (unbufferedOneSided_of_chans ?_ hi) ?_
        · rfl
        · intro h0
          rw [setSudog_chans] at h0
          omega
    · rw [if_neg hq] at h
      dsimp only at h
      split at h
      · simp at h
      · rename_i w2 sg hdq
        simp only [Option.some.injEq, Prod.mk.injEq] at h
        obtain ⟨rfl, _⟩ := h
        have hk := dequeueRecvq_kept hdq
        have h2 : unbufferedOneSided w2 := by
          refine unbufferedOneSided_of_kept
            (unbufferedOneSided_of_kept hi (worldKept_setChan w c _ ?_)) hk
          exact ⟨rfl, fun e => e, fun e => e⟩
        apply unbufferedOneSided_of_chans _ h2
        rw [blockProfile_chans]
        split <;> simp

theorem chansend_oneSided (fuel : Nat) (w : World) (g mysg c ep : Ptr) (block : Bool)
    (w1 : World) (o : Outcome Bool) (hi : unbufferedOneSided w)
    (h : chansend fuel w g mysg c ep block = some (w1, o)) : unbufferedOneSided w1 := by
  unfold chansend at h
  by_cases hc0 : c = 0
  · rw [if_pos hc0] at h
    split at h <;>
    · simp only [Option.some.injEq, Prod.mk.injEq] at h
      obtain ⟨rfl, _⟩ := h
      exact hi
  · rw [if_neg hc0] at h
    dsimp only at h
    have hw1 : unbufferedOneSided ((profileStart (gcYield w)).1.log (.lock c)) :=
      unbufferedOneSided_of_chans (by simp) hi
    generalize (profileStart (gcYield w)).1.log (.lock c) = wl at h hw1
    by_cases hc : (wl.chans c).closed = true
    · rw [if_pos hc] at h
      simp only [chansend_closed, Option.some.injEq, Prod.mk.injEq] at h
      obtain ⟨rfl, _⟩ := h
      exact unbufferedOneSided_of_chans rfl hw1
    · rw [if_neg hc] at h
      by_cases hd : (wl.chans c).dataqsiz > 0
      · rw [if_pos hd] at h
        exact chansend_asynch_oneSided _ _ _ _ _ _ _ _ _ _ _ hw1 hd h
      · rw [if_neg hd] at h
        split at h
        · simp at h
        · rename_i w2 sg hdq
          have h2 : unbufferedOneSided w2 :=
            unbufferedOneSided_of_kept hw1 (dequeueRecvq_kept hdq)
          by_cases hsg : sg ≠ 0
          · rw [if_pos hsg] at h
            simp only [Option.some.injEq, Prod.mk.injEq] at h
            obtain ⟨rfl, _⟩ := h
            apply unbufferedOneSided_of_chans _ h2
            simp only [log_chans, stampRelease_chans]
            split <;> rfl
          · rw [if_neg hsg] at h
            by_cases hb : (!block) = true
            · rw [if_pos hb] at h
              simp only [Option.some.injEq, Prod.mk.injEq] at h
              obtain ⟨rfl, _⟩ := h
              exact unbufferedOneSided_of_chans rfl h2
            · rw [if_neg hb] at h
              simp only [Option.some.injEq, Prod.mk.injEq] at h
              obtain ⟨rfl, _⟩ := h
              apply unbufferedOneSided_of_chans (log_chans _ _)
              refine enqueueSendq_oneSided _ _ _ (unbufferedOneSided_of_chans ?_ h2) ?_
              · rfl
              intro _
              exact ((dequeueRecvq_popped _ _ _ _ _ hdq).2.2.2 (not_not.mp hsg)).1

theorem chanrecv_closed_chans (w : World) (c ep received : Ptr) (t0 rt : Int) :
    (chanrecv_closed w c ep received t0 rt).1.chans = w.chans := by
  unfold chanrecv_closed
  simp only [blockProfile_chans, log_chans, setReceived_chans]
  split <;> rfl

theorem chanrecv_asynch_oneSided (fuel : Nat) (w : World) (g mysg c ep received : Ptr)
    (block : Bool) (t0 rt : Int) (w1 : World) (o : Outcome Bool) (hi : unbufferedOneSided w)
    (hd : 0 < (w.chans c).dataqsiz)
    (h : chanrecv_asynch fuel w g mysg c ep received block t0 rt = some (w1, o)) :
    unbufferedOneSided w1 := by
  unfold chanrecv_asynch at h
  by_cases hq : (w.chans c).qcount ≤ 0
  · rw [if_pos hq] at h
    by_cases hc : (w.chans c).closed = true
    · rw [if_pos hc] at h
      simp only [Option.some.injEq] at h
      have := chanrecv_closed_chans w c ep received t0 rt
      rw [h] at this
      exact unbufferedOneSided_of_chans this hi
    · rw [if_neg hc] at h
      by_cases hb : (!block) = true
      · rw [if_pos hb] at h
        simp only [Option.some.injEq, Prod.mk.injEq] at h
        obtain ⟨rfl, _⟩ := h
        exact unbufferedOneSided_of_chans (by simp) hi
      · rw [if_neg hb] at h
        simp only [Option.some.injEq, Prod.mk.injEq] at h
        obtain ⟨rfl, _⟩ := h
        apply unbufferedOneSided_of_chans (log_chans _ _)
        refine enqueueRecvq_oneSided _ _ _ (unbufferedOneSided_of_chans ?_ hi) ?_
        · rfl
        · intro h0
          rw [setSudog_chans] at h0
          omega
  · rw [if_neg hq] at h
    dsimp only at h
    split at h
    · simp at h
    · rename_i w3 sg hdq
      simp only [Option.some.injEq, Prod.mk.injEq] at h
      obtain ⟨rfl, _⟩ := h
      have hk := dequeueSendq_kept hdq
      have h3 : unbufferedOneSided w3 := by
        refine unbufferedOneSided_of_kept
          (unbufferedOneSided_of_kept ?_ (worldKept_setChan _ c _ ?_)) hk
        · by_cases hep : ep ≠ 0
          · rw [if_pos hep]; exact unbufferedOneSided_of_chans rfl hi
          · rw [if_neg hep]; exact hi
        · by_cases hep : ep ≠ 0
          · rw [if_pos hep]; exact ⟨rfl, fun e => e, fun e => e⟩
          · rw [if_neg hep]; exact ⟨rfl, fun e => e, fun e => e⟩
      apply unbufferedOneSided_of_chans _ h3
      rw [blockProfile_chans, setReceived_chans]
      split <;> simp

theorem chanrecv_oneSided (fuel : Nat) (w : World) (g mysg c ep received : Ptr) (block : Bool)
    (w1 : World) (o : Outcome Bool) (hi : unbufferedOneSided w)
    (h : chanrecv fuel w g mysg c ep received block = some (w1, o)) :
    unbufferedOneSided w1 := by
  unfold chanrecv at h
  dsimp only at h
  by_cases hc0 : c = 0
  · rw [if_pos hc0] at h
    split at h <;>
    · simp only [Option.some.injEq, Prod.mk.injEq] at h
      obtain ⟨rfl, _⟩ := h
      exact unbufferedOneSided_of_chans (by simp) hi
  · rw [if_neg hc0] at h
    have hw1 : unbufferedOneSided ((profileStart (gcYield w)).1.log (.lock c)) :=
      unbufferedOneSided_of_chans (by simp) hi
    generalize (profileStart (gcYield w)).1.log (.lock c) = wl at h hw1
    by_cases hd : (wl.chans c).dataqsiz > 0
    · rw [if_pos hd] at h
      exact chanrecv_asynch_oneSided _ _ _ _ _ _ _ _ _ _ _ _ hw1 hd h
    · rw [if_neg hd] at h
      by_cases hc : (wl.chans c).closed = true
      · rw [if_pos hc] at h
        simp only [Option.some.injEq] at h
        have := chanrecv_closed_chans wl c ep received (profileStart (gcYield w)).2.1
          (profileStart (gcYield w)).2.2
        rw [h] at this
        exact unbufferedOneSided_of_chans this hw1
      · rw [if_neg hc] at h
        split at h
        · simp at h
        · rename_i w2 sg hdq
          have h2 : unbufferedOneSided w2 :=
            unbufferedOneSided_of_kept hw1 (dequeueSendq_kept hdq)
          by_cases hsg : sg ≠ 0
          · rw [if_pos hsg] at h
            simp only [Option.some.injEq, Prod.mk.injEq] at h
            obtain ⟨rfl, _⟩ := h
            apply unbufferedOneSided_of_chans _ h2
            simp only [setReceived_chans, log_chans, stampRelease_chans]
            split <;> rfl
          · rw [if_neg hsg] at h
            by_cases hb : (!block) = true
            · rw [if_pos hb] at h
              simp only [Option.some.injEq, Prod.mk.injEq] at h
              obtain ⟨rfl, _⟩ := h
              exact unbufferedOneSided_of_chans rfl h2
            · rw [if_neg hb] at h
              simp only [Option.some.injEq, Prod.mk.injEq] at h
              obtain ⟨rfl, _⟩ := h
              apply unbufferedOneSided_of_chans (log_chans _ _)
              refine enqueueRecvq_oneSided _ _ _ (unbufferedOneSided_of_chans ?_ h2) ?_
              · rfl
              intro _
              exact ((dequeueSendq_popped _ _ _ _ _ hdq).2.2.2 (not_not.mp hsg)).1

theorem chansend_wake_chans (w : World) (g mysg c : Ptr) (t0 : Int) :
    (chansend_wake w g mysg c t0).1.chans = w.chans := by
  unfold chansend_wake
  split
  · dsimp only
    split <;> rfl
  · simp

theorem chanrecv_wake_chans (w : World) (g mysg c ep received : Ptr) (t0 : Int) :
    (chanrecv_wake w g mysg c ep received t0).1.chans = w.chans := by
  unfold chanrecv_wake
  split
  · dsimp only
    split
    · rfl
    · rw [chanrecv_closed_chans]; rfl
  · simp

theorem closechan_readers_kept :
    ∀ (fuel : Nat) (w : World) (c : Ptr) (w1 : World),
      closechan_readers fuel w c = some w1 → worldKept w w1
  | 0, _, _, _, h => by simp [closechan_readers] at h
  | fuel + 1, w, c, w1, h => by
    rw [closechan_readers] at h
    split at h
    · simp at h
    · rename_i w2 sg hdq
      have h2 := dequeueRecvq_kept hdq
      by_cases hsg : sg = 0
      · rw [if_pos hsg] at h
        simp only [Option.some.injEq] at h
        rw [← h]; exact h2
      · rw [if_neg hsg] at h
        exact h2.wktrans ((worldKept_of_chans (by simp)).wktrans
          (closechan_readers_kept fuel _ c w1 h))

theorem closechan_writers_kept :
    ∀ (fuel : Nat) (w : World) (c : Ptr) (w1 : World),
      closechan_writers fuel w c = some w1 → worldKept w w1
  | 0, _, _, _, h => by simp [closechan_writers] at h
  | fuel + 1, w, c, w1, h => by
    rw [closechan_writers] at h
    split at h
    · simp at h
    · rename_i w2 sg hdq
      have h2 := dequeueSendq_kept hdq
      by_cases hsg : sg = 0
      · rw [if_pos hsg] at h
        simp only [Option.some.injEq] at h
        rw [← h]; exact h2
      · rw [if_neg hsg] at h
        exact h2.wktrans ((worldKept_of_chans (by simp)).wktrans
          (closechan_writers_kept fuel _ c w1 h))

theorem closechan_kept (fuel : Nat) (w : World) (c : Ptr) (w1 : World) (o : Outcome Unit)
    (h : closechan fuel w c = some (w1, o)) : worldKept w w1 := by
  unfold closechan at h
  by_cases hc0 : c = 0
  · rw [if_pos hc0] at h
    simp only [Option.some.injEq, Prod.mk.injEq] at h
    obtain ⟨rfl, _⟩ := h
    exact worldKept.wkrefl _
  · rw [if_neg hc0] at h
    dsimp only at h
    have hw1 : worldKept w ((gcYield w).log (.lock c)) := worldKept_of_chans (by simp)
    generalize (gcYield w).log (.lock c) = wl at h hw1
    by_cases hc : (wl.chans c).closed = true
    · rw [if_pos hc] at h
      simp only [Option.some.injEq, Prod.mk.injEq] at h
      obtain ⟨rfl, _⟩ := h
      exact hw1.wktrans (worldKept_of_chans rfl)
    · rw [if_neg hc] at h
      split at h
      · simp at h
      · rename_i w3 hr
        split at h
        · simp at h
        · rename_i w4 hwr
          simp only [Option.some.injEq, Prod.mk.injEq] at h
          obtain ⟨rfl, _⟩ := h
          have k3 := closechan_readers_kept fuel _ c w3 hr
          have k4 := closechan_writers_kept fuel _ c w4 hwr
          refine hw1.wktrans (worldKept.wktrans (worldKept_setChan wl c _ ?_)
            (k3.wktrans (k4.wktrans (worldKept_of_chans rfl))))
          exact ⟨rfl, fun e => e, fun e => e⟩

/-! ## At most one queue of an unbuffered channel is non-empty: select -/

theorem worldKept_setChan_of (w w2 : World) (c : Ptr) (h : Hchan) (hc : w2.chans = w.chans)
    (hd : h.dataqsiz = (w.chans c).dataqsiz) (hs : h.sendq = (w.chans c).sendq)
    (hr : h.recvq = (w.chans c).recvq) : worldKept w (w2.setChan c h) := by
  intro c2
  by_cases e : c2 = c
  · subst e
    simp only [World.setChan, Function.update_same]
    exact queuesKept_of_sameQueues hd hs hr
  · simp only [World.setChan, Function.update_noteq e, hc]
    exact queuesKept.krefl _

theorem selectgo_asyncrecv_kept (fuel : Nat) (w : World) (sel : Select) (cas : Scase)
    (t0 : Int) (r : World × Outcome Nat)
    (h : selectgo_asyncrecv fuel w sel cas t0 = some r) : worldKept w r.1 := by
  unfold selectgo_asyncrecv at h
  dsimp only at h
  split at h
  · simp at h
  · rename_i w4 sg hdq
    simp only [Option.some.injEq] at h
    rw [← h]
    have hk := dequeueSendq_kept hdq
    refine worldKept.wktrans (worldKept.wktrans (worldKept_setChan_of w _ _ _ ?_ ?_ ?_ ?_) hk)
      (worldKept_of_chans ?_)
    · split <;> simp
    · simp
    · simp
    · simp
    · rw [selectgo_retc_chans]
      split <;> simp

theorem selectgo_asyncsend_kept (fuel : Nat) (w : World) (sel : Select) (cas : Scase)
    (t0 : Int) (r : World × Outcome Nat)
    (h : selectgo_asyncsend fuel w sel cas t0 = some r) : worldKept w r.1 := by
  unfold selectgo_asyncsend at h
  dsimp only at h
  split at h
  · simp at h
  · rename_i w2 sg hdq
    simp only [Option.some.injEq] at h
    rw [← h]
    have hk := dequeueRecvq_kept hdq
    refine worldKept.wktrans (worldKept.wktrans (worldKept_setChan_of w _ _ _ rfl ?_ ?_ ?_) hk)
      (worldKept_of_chans ?_)
    · rfl
    · rfl
    · rfl
    · rw [selectgo_retc_chans]
      split <;> simp

theorem enqueueRecvq_chan (w : World) (c sg c2 : Ptr) :
    ((enqueueRecvq w c sg).chans c2).dataqsiz = (w.chans c2).dataqsiz ∧
    ((enqueueRecvq w c sg).chans c2).sendq = (w.chans c2).sendq ∧
    (c2 ≠ c → ((enqueueRecvq w c sg).chans c2).recvq = (w.chans c2).recvq) := by
  unfold enqueueRecvq
  dsimp only
  by_cases e : c2 = c
  · subst e
    rw [Function.update_same]
    exact ⟨rfl, rfl, fun h => absurd rfl h⟩
  · rw [Function.update_noteq e]
    exact ⟨rfl, rfl, fun _ => rfl⟩

theorem enqueueSendq_chan (w : World) (c sg c2 : Ptr) :
    ((enqueueSendq w c sg).chans c2).dataqsiz = (w.chans c2).dataqsiz ∧
    ((enqueueSendq w c sg).chans c2).recvq = (w.chans c2).recvq ∧
    (c2 ≠ c → ((enqueueSendq w c sg).chans c2).sendq = (w.chans c2).sendq) := by
  unfold enqueueSendq
  dsimp only
  by_cases e : c2 = c
  · subst e
    rw [Function.update_same]
    exact ⟨rfl, rfl, fun h => absurd rfl h⟩
  · rw [Function.update_noteq e]
    exact ⟨rfl, rfl, fun _ => rfl⟩

/-- Pass 2 keeps the unbuffered channels one-sided when every case to be
registered found the opposite queue of its channel empty and no channel has a
receive case and a send case among them. -/
theorem pass2_oneSided (sel : Select) (g done : Ptr) :
    ∀ (r i : Nat) (w : World), unbufferedOneSided w →
      (∀ k, i ≤ k → k < i + r →
        ((sel.scase (sel.pollorder k)).kind = CaseRecv →
          (w.chans (sel.scase (sel.pollorder k)).chan).dataqsiz = 0 →
          (w.chans (sel.scase (sel.pollorder k)).chan).sendq.first = 0) ∧
        ((sel.scase (sel.pollorder k)).kind = CaseSend →
          (w.chans (sel.scase (sel.pollorder k)).chan).dataqsiz = 0 →
          (w.chans (sel.scase (sel.pollorder k)).chan).recvq.first = 0)) →
      (∀ k1 k2, i ≤ k1 → k1 < i + r → i ≤ k2 → k2 < i + r →
        (sel.scase (sel.pollorder k1)).kind = CaseRecv →
        (sel.scase (sel.pollorder k2)).kind = CaseSend →
        (sel.scase (sel.pollorder k1)).chan ≠ (sel.scase (sel.pollorder k2)).chan) →
      unbufferedOneSided (pass2 sel g done r i w)
  | 0, _, w, hi, _, _ => by rw [pass2]; exact hi
  | r + 1, i, w, hi, hq, ho => by
    rw [pass2]
    dsimp only
    have hqi := hq i (Nat.le_refl _) (by omega)
    by_cases hr : (sel.scase (sel.pollorder i)).kind = CaseRecv
    · rw [if_pos hr]
      apply pass2_oneSided sel g done r (i + 1)
      · refine enqueueRecvq_oneSided _ _ _ (unbufferedOneSided_of_chans ?_ hi) ?_
        · rfl
        · intro hd
          exact hqi.1 hr hd
      · intro k k1 k2
        obtain ⟨a1, a2, a3⟩ := enqueueRecvq_chan
          (w.setSudog (sel.scase (sel.pollorder i)).sg
            { w.sudogs (sel.scase (sel.pollorder i)).sg with
              g := g, selectdone := done, elem := (sel.scase (sel.pollorder i)).elem,
              releasetime := (sel.scase (sel.pollorder i)).releasetime })
          (sel.scase (sel.pollorder i)).chan (sel.scase (sel.pollorder i)).sg
          (sel.scase (sel.pollorder k)).chan
        have hqk := hq k (by omega) (by omega)
        rw [a1, a2]
        refine ⟨hqk.1, fun hs hd => ?_⟩
        rw [a3 (fun e => ho i k (Nat.le_refl _) (by omega) (by omega) (by omega) hr hs e.symm)]
        exact hqk.2 hs hd
      · intro k1 k2 b1 b2 b3 b4
        exact ho k1 k2 (by omega) (by omega) (by omega) (by omega)
    · rw [if_neg hr]
      by_cases hs : (sel.scase (sel.pollorder i)).kind = CaseSend
      · rw [if_pos hs]
        apply pass2_oneSided sel g done r (i + 1)
        · refine enqueueSendq_oneSided _ _ _ (unbufferedOneSided_of_chans ?_ hi) ?_
          · rfl
          · intro hd
            exact hqi.2 hs hd
        · intro k k1 k2
          obtain ⟨a1, a2, a3⟩ := enqueueSendq_chan
            (w.setSudog (sel.scase (sel.pollorder i)).sg
              { w.sudogs (sel.scase (sel.pollorder i)).sg with
                g := g, selectdone := done, elem := (sel.scase (sel.pollorder i)).elem,
                releasetime := (sel.scase (sel.pollorder i)).releasetime })
            (sel.scase (sel.pollorder i)).chan (sel.scase (sel.pollorder i)).sg
            (sel.scase (sel.pollorder k)).chan
          have hqk := hq k (by omega) (by omega)
          rw [a1, a2]
          refine ⟨fun hr2 hd => ?_, hqk.2⟩
          rw [a3 (fun e => ho k i (by omega) (by omega) (Nat.le_refl _) (by omega) hr2 hs e)]
          exact hqk.1 hr2 hd
        · intro k1 k2 b1 b2 b3 b4
          exact ho k1 k2 (by omega) (by omega) (by omega) (by omega)
      · rw [if_neg hs]
        apply pass2_oneSided sel g done r (i + 1)
        · exact unbufferedOneSided_of_chans rfl hi
        · intro k k1 k2
          exact hq k (by omega) (by omega)
        · intro k1 k2 b1 b2 b3 b4
          exact ho k1 k2 (by omega) (by omega) (by omega) (by omega)

theorem selectgo_loop_oneSided (fuel : Nat) (w : World) (g done : Ptr) (sel : Select) (t0 : Int)
    (r : World × Outcome Nat) (hi : unbufferedOneSided w) (ho : polledOneWay sel)
    (h : selectgo_loop fuel w g done sel t0 = some r) : unbufferedOneSided r.1 := by
  unfold selectgo_loop at h
  cases hp : pass1 fuel sel sel.ncase 0 w none with
  | none => rw [hp] at h; simp at h
  | some p =>
    obtain ⟨w1, res⟩ := p
    rw [hp] at h
    obtain ⟨q1, q2⟩ := pass1_spec fuel sel _ _ _ _ _ _ hp
    have hk1 : worldKept w w1 := worldKept_of_popped q1
    have hw1 : unbufferedOneSided w1 := unbufferedOneSided_of_kept hi hk1
    cases res with
    | fired l cas sg =>
      cases l with
      | asyncrecv =>
        exact unbufferedOneSided_of_kept hw1 (selectgo_asyncrecv_kept fuel w1 sel cas t0 r h)
      | asyncsend =>
        exact unbufferedOneSided_of_kept hw1 (selectgo_asyncsend_kept fuel w1 sel cas t0 r h)
      | syncrecv =>
        simp only [Option.some.injEq] at h
        rw [← h]
        exact unbufferedOneSided_of_chans (selectgo_syncrecv_chans _ _ _ _ _) hw1
      | rclose =>
        simp only [Option.some.injEq] at h
        rw [← h]
        exact unbufferedOneSided_of_chans (selectgo_rclose_chans _ _ _ _) hw1
      | syncsend =>
        simp only [Option.some.injEq] at h
        rw [← h]
        exact unbufferedOneSided_of_chans (selectgo_syncsend_chans _ _ _ _ _) hw1
      | sclose =>
        simp only [Option.some.injEq] at h
        rw [← h]
        exact unbufferedOneSided_of_chans (by simp [selectgo_sclose]) hw1
    | done d =>
      cases d with
      | some dfl =>
        simp only [Option.some.injEq] at h
        rw [← h]
        exact unbufferedOneSided_of_chans (by simp) hw1
      | none =>
        simp only [Option.some.injEq] at h
        rw [← h]
        obtain ⟨_, _, a3⟩ := q2
        refine unbufferedOneSided_of_chans (?_ : _ = (pass2 sel g done sel.ncase 0
          { w1 with words := Function.update w1.words done 0 }).chans) ?_
        · simp
        · apply pass2_oneSided
          · exact unbufferedOneSided_of_chans rfl hw1
          · intro k k1 k2
            rcases a3 k k1 k2 with ⟨_, b⟩ | ⟨_, b1, b2⟩
            · exact absurd rfl b
            · have hd := (hk1 (sel.scase (sel.pollorder k)).chan).1
              refine ⟨fun x y => b1 x ?_, fun x y => b2 x ?_⟩
              · rw [← hd]; exact y
              · rw [← hd]; exact y
          · intro k1 k2 _ b2 _ b4
            exact ho k1 k2 (by omega) (by omega)

theorem polledOneWay_of (sel sel1 : Select) (hn : sel1.ncase = sel.ncase)
    (hs : ∀ i, sameCase (sel.scase i) (sel1.scase i))
    (hp : ∀ k, k < sel.ncase → sel1.pollorder k < sel.ncase) (ho : oneWay sel) :
    polledOneWay sel1 := by
  intro k1 k2 a1 a2 a3 a4
  rw [hn] at a1 a2
  have e1 := hs (sel1.pollorder k1)
  have e2 := hs (sel1.pollorder k2)
  unfold sameCase at e1 e2
  rw [← e1] at a3 ⊢
  rw [← e2] at a4 ⊢
  exact ho _ _ (hp k1 a1) (hp k2 a2) a3 a4

theorem selectgo_oneSided (fuel : Nat) (fastrand : Nat → Nat) (w : World) (g done : Ptr)
    (sel : Select) (r : World × Outcome Nat) (hi : unbufferedOneSided w) (ho : oneWay sel)
    (h : selectgo fuel fastrand w g done sel = some r) : unbufferedOneSided r.1 := by
  obtain ⟨p1, p2, _, p4, p5⟩ := selectgo_prologue_spec fastrand w sel
  refine selectgo_loop_oneSided fuel _ g done _ _ r (unbufferedOneSided_of_chans p1.1 hi) ?_ h
  refine polledOneWay_of sel _ p2 p4 ?_ ho
  intro k hk
  rw [p5]
  exact gen_pollorder_lt fastrand _ _ k hk

theorem dequeueg_first_zero (g : Ptr) (fuel : Nat) (sudogs : Ptr → SudoG) (q : WaitQ)
    (r : (Ptr → SudoG) × WaitQ) (hq : q.first = 0) (h : dequeueg g fuel sudogs q = some r) :
    r.2 = q := by
  unfold dequeueg at h
  cases fuel with
  | zero => simp [dequeueg_loop] at h
  | succ n =>
    rw [dequeueg_loop, if_pos hq] at h
    simp only [Option.some.injEq] at h
    rw [← h]

theorem dequeuegRecvq_kept (g : Ptr) (fuel : Nat) (w : World) (c : Ptr) (w1 : World)
    (h : dequeuegRecvq g fuel w c = some w1) : worldKept w w1 := by
  unfold dequeuegRecvq at h
  split at h
  · simp at h
  · rename_i sudogs q hd
    simp only [Option.some.injEq] at h
    rw [← h]
    intro c2
    by_cases e : c2 = c
    · subst e
      simp only [Function.update_same]
      refine ⟨rfl, fun x => x, fun x => ?_⟩
      have := dequeueg_first_zero g fuel _ _ _ x hd
      dsimp only at this ⊢
      rw [this]; exact x
    · simp only [Function.update_noteq e]; exact queuesKept.krefl _

theorem dequeuegSendq_kept (g : Ptr) (fuel : Nat) (w : World) (c : Ptr) (w1 : World)
    (h : dequeuegSendq g fuel w c = some w1) : worldKept w w1 := by
  unfold dequeuegSendq at h
  split at h
  · simp at h
  · rename_i sudogs q hd
    simp only [Option.some.injEq] at h
    rw [← h]
    intro c2
    by_cases e : c2 = c
    · subst e
      simp only [Function.update_same]
      refine ⟨rfl, fun x => ?_, fun x => x⟩
      have := dequeueg_first_zero g fuel _ _ _ x hd
      dsimp only at this ⊢
      rw [this]; exact x
    · simp only [Function.update_noteq e]; exact queuesKept.krefl _

theorem pass3_kept (g : Ptr) (fuel : Nat) (sel : Select) (sg : Ptr) :
    ∀ (r i : Nat) (w w1 : World), pass3 g fuel sel sg r i w = some w1 → worldKept w w1
  | 0, _, w, w1, h => by
    simp only [pass3, Option.some.injEq] at h
    rw [← h]; exact worldKept.wkrefl _
  | r + 1, i, w, w1, h => by
    rw [pass3] at h
    dsimp only at h
    by_cases hne : (sel.scase i).sg ≠ sg
    · rw [if_pos hne] at h
      split at h
      · simp at h
      · rename_i w2 hdq
        refine worldKept.wktrans ?_ (pass3_kept g fuel sel sg r (i + 1) w2 w1 h)
        by_cases hk : (sel.scase i).kind = CaseSend
        · rw [if_pos hk] at hdq
          exact dequeuegSendq_kept g fuel w _ w2 hdq
        · rw [if_neg hk] at hdq
          exact dequeuegRecvq_kept g fuel w _ w2 hdq
    · rw [if_neg hne] at h
      exact pass3_kept g fuel sel sg r (i + 1) w w1 h

theorem selectgo_wake_oneSided (fuel : Nat) (w : World) (g done : Ptr) (sel : Select) (t0 : Int)
    (r : World × Outcome Nat) (hi : unbufferedOneSided w) (ho : oneWay sel)
    (hp : ∀ k, k < sel.ncase → sel.pollorder k < sel.ncase)
    (h : selectgo_wake fuel w g done sel t0 = some r) : unbufferedOneSided r.1 := by
  unfold selectgo_wake at h
  dsimp only at h
  split at h
  · simp at h
  · rename_i w2 hp3
    have hw2 : unbufferedOneSided w2 :=
      unbufferedOneSided_of_kept (unbufferedOneSided_of_chans (by simp) hi)
        (pass3_kept g fuel _ _ _ _ _ w2 hp3)
    split at h
    · refine selectgo_loop_oneSided fuel w2 g done _ t0 r hw2 ?_ h
      refine polledOneWay_of sel _ rfl ?_ hp ho
      intro i
      unfold sameCase
      dsimp only
      split <;> rfl
    · split at h
      · simp at h
      · split at h
        · simp only [Option.some.injEq] at h
          rw [← h]; exact hw2
        · simp only [Option.some.injEq] at h
          rw [← h]
          apply unbufferedOneSided_of_chans _ hw2
          rw [selectgo_retc_chans, selunlock_chans]
          split <;> simp

theorem Step_oneSided {w w1 : World} (hs : Step w w1) (hi : unbufferedOneSided w) :
    unbufferedOneSided w1 := by
  cases hs with
  | send fuel _ g mysg c ep block _ o h => exact chansend_oneSided _ _ _ _ _ _ _ _ _ hi h
  | sendWake _ g mysg c t0 => exact unbufferedOneSided_of_chans (chansend_wake_chans _ _ _ _ _) hi
  | sendAsynchWake fuel _ g mysg c ep block t0 _ o hd h =>
    unfold chansend_asynch_wake at h
    exact chansend_asynch_oneSided _ _ _ _ _ _ _ _ _ _ _
      (unbufferedOneSided_of_chans (log_chans _ _) hi) hd h
  | recv fuel _ g mysg c ep received block _ o h =>
    exact chanrecv_oneSided _ _ _ _ _ _ _ _ _ _ hi h
  | recvWake _ g mysg c ep received t0 =>
    exact unbufferedOneSided_of_chans (chanrecv_wake_chans _ _ _ _ _ _ _) hi
  | recvAsynchWake fuel _ g mysg c ep received block t0 _ o hd h =>
    unfold chanrecv_asynch_wake at h
    exact chanrecv_asynch_oneSided _ _ _ _ _ _ _ _ _ _ _ _
      (unbufferedOneSided_of_chans (log_chans _ _) hi) hd h
  | close fuel _ c _ o h => exact unbufferedOneSided_of_kept hi (closechan_kept _ _ _ _ _ h)
  | select fuel fastrand _ g done sel _ o ho h =>
    exact selectgo_oneSided fuel fastrand _ g done sel _ hi ho h
  | selectWake fuel _ g done sel t0 _ o ho hp h =>
    exact selectgo_wake_oneSided fuel _ g done sel t0 _ hi ho hp h

theorem Reach_oneSided {w0 w : World} (hr : Reach w0 w) (h0 : unbufferedOneSided w0) :
    unbufferedOneSided w := by
  induction hr with
  | start => exact h0
  | step w w1 _ hs ih => exact Step_oneSided hs ih

/-! ## C16: at most one of the two wait queues is non-empty -/

/-- C16 fails as stated, in two ways.  On the empty channel of capacity 1
(both queues empty), three blocking sends followed by two blocking receives,
each run from entry to its return or park, end with the sender at 23 on
`sendq` and the receiver at 25 on `recvq`: the first receive took the
buffered item and readied the sender at 22, which has not run yet, so the
second receive found `qcount = 0` and parked.  On an unbuffered channel with
empty queues, a select with a send case and a receive case on that channel
parks with its own two sudogs on `sendq` and on `recvq`. -/
theorem C16_counterexample :
    ((oneSlotWorld.chans 1).sendq.first = 0 ∧ (oneSlotWorld.chans 1).recvq.first = 0 ∧
      (((((chansend 2 oneSlotWorld 11 21 1 50 true).bind
        (fun r => chansend 2 r.1 12 22 1 50 true)).bind
        (fun r => chansend 2 r.1 13 23 1 50 true)).bind
        (fun r => chanrecv 3 r.1 14 24 1 60 0 true)).bind
        (fun r => chanrecv 3 r.1 15 25 1 61 0 true)).map
      (fun r => (r.2, (r.1.chans 1).dataqsiz, (r.1.chans 1).qcount, (r.1.chans 1).sendq.first,
        (r.1.chans 1).recvq.first))
      = some (.parked "chan receive", 1, 0, 23, 25)) ∧
    ((emptyWorld.chans 1).sendq.first = 0 ∧ (emptyWorld.chans 1).recvq.first = 0 ∧
      (selectgo 2 (fun _ => 0) emptyWorld 9 10 bothSelect).map
      (fun r => (r.2, (r.1.chans 1).dataqsiz, (r.1.chans 1).sendq.first,
        (r.1.chans 1).recvq.first))
      = some (.parked "select", 0, 901, 902)) := by
  refine ⟨⟨by decide, by decide, ?_⟩, ⟨rfl, rfl, ?_⟩⟩
  · decide
  · decide

/-- C16, amended: from a world in which every unbuffered channel has at most
one of `sendq` and `recvq` non-empty, every world reached by steps of send,
receive, close and select (each from taking the lock to the return, panic or
park, or from the wake-up on), the selects having no channel in both a
receive case and a send case, has at most one of `sendq` and `recvq`
non-empty on every unbuffered channel. -/
theorem C16_unbuffered_one_sided (w0 w : World) (h0 : unbufferedOneSided w0)
    (hr : Reach w0 w) (c : Ptr) (hd : (w.chans c).dataqsiz = 0) :
    (w.chans c).sendq.first = 0 ∨ (w.chans c).recvq.first = 0 :=
  Reach_oneSided hr h0 c hd

/-- The theorem `C16_unbuffered_one_sided` after two blocking sends on an
unbuffered channel with no receiver: both senders park, the first one heads
`sendq`, and `recvq` is empty. -/
theorem C16_unbuffered_one_sided_witness :
    unbufferedOneSided emptyWorld ∧
    ∃ w1 w2, chansend 2 emptyWorld 11 21 1 50 true = some (w1, .parked "chan send") ∧
      chansend 2 w1 12 22 1 51 true = some (w2, .parked "chan send") ∧
      (w2.chans 1).dataqsiz = 0 ∧ (w2.chans 1).sendq.first = 21 ∧
      ((w2.chans 1).sendq.first = 0 ∨ (w2.chans 1).recvq.first = 0) := by
  have h0 : unbufferedOneSided emptyWorld := fun c _ => Or.inl rfl
  have hs : (chansend 2 emptyWorld 11 21 1 50 true).bind
      (fun r => (chansend 2 r.1 12 22 1 51 true).map
        (fun r2 => (r.2, r2.2, (r2.1.chans 1).dataqsiz, (r2.1.chans 1).sendq.first)))
      = some (.parked "chan send", .parked "chan send", 0, 21) := by decide
  cases h1 : chansend 2 emptyWorld 11 21 1 50 true with
  | none => rw [h1] at hs; simp at hs
  | some r1 =>
    obtain ⟨w1, o1⟩ := r1
    rw [h1] at hs
    simp only [Option.some_bind] at hs
    cases h2 : chansend 2 w1 12 22 1 51 true with
    | none => rw [h2] at hs; simp at hs
    | some r2 =>
      obtain ⟨w2, o2⟩ := r2
      rw [h2] at hs
      simp only [Option.map_some', Option.some.injEq, Prod.mk.injEq] at hs
      obtain ⟨rfl, rfl, d1, d2⟩ := hs
      exact ⟨h0, w1, w2, rfl, h2, d1, d2,
        C16_unbuffered_one_sided emptyWorld w2 h0
          (Reach.step _ _ (Reach.step _ _ Reach.start (Step.send _ _ _ _ _ _ _ _ _ h1))
            (Step.send _ _ _ _ _ _ _ _ _ h2)) 1 d1⟩

/-! ## C21: the order in which `dequeue` hands out sudogs -/

theorem getLast?_append_cons_cons {α : Type} (pre : List α) (x y : α) (post : List α) :
    (pre ++ x :: y :: post).getLast? = (y :: post).getLast? := by
  induction pre with
  | nil => simp [List.getLast?_cons_cons]
  | cons a pre ih =>
    cases pre with
    | nil => simp [List.getLast?_cons_cons]
    | cons b pre => simpa [List.getLast?_cons_cons] using ih

/-- Popping the sudogs up to `x` off a queue leaves the queue of the sudogs behind `x`. -/
theorem holds_pop (s : Ptr → SudoG) (q : WaitQ) (pre : List Ptr) (x : Ptr) (post : List Ptr)
    (hq : WaitQ.holds s q (pre ++ x :: post)) :
    WaitQ.holds s { q with first := (s x).link } post := by
  refine ⟨(isList_append s x post pre _ hq.1).2, ?_⟩
  cases post with
  | nil => exact Or.inl rfl
  | cons y post =>
    right
    rcases hq.2 with h | h
    · simp at h
    · rw [getLast?_append_cons_cons] at h
      exact h

theorem enqueue_selectdone (s : Ptr → SudoG) (q : WaitQ) (sgp p : Ptr) :
    ((enqueue s q sgp).1 p).selectdone = (s p).selectdone := by
  unfold enqueue
  dsimp only
  split
  · dsimp only
    by_cases e : p = sgp
    · subst e; rw [Function.update_same]
    · rw [Function.update_noteq e]
  · dsimp only
    by_cases e1 : p = q.last
    · subst e1
      rw [Function.update_same]
      dsimp only
      by_cases e : q.last = sgp
      · rw [← e, Function.update_same]
      · rw [Function.update_noteq e]
    · rw [Function.update_noteq e1]
      by_cases e : p = sgp
      · subst e; rw [Function.update_same]
      · rw [Function.update_noteq e]

/-- Enqueueing fresh sudogs one after the other appends them to the queue in
that order and leaves the `selectdone` fields alone. -/
theorem enqueueAll_holds :
    ∀ (xs : List Ptr) (s : Ptr → SudoG) (q : WaitQ) (l : List Ptr), WaitQ.holds s q l →
      (l ++ xs).Nodup → (∀ x ∈ xs, x ≠ 0) →
      WaitQ.holds (enqueueAll s q xs).1 (enqueueAll s q xs).2 (l ++ xs) ∧
      ∀ p, ((enqueueAll s q xs).1 p).selectdone = (s p).selectdone
  | [], s, q, l, hq, _, _ => by
    rw [List.append_nil]
    exact ⟨hq, fun _ => rfl⟩
  | x :: xs, s, q, l, hq, hn, h0 => by
    rw [enqueueAll]
    have hx : x ∉ l := by
      intro hm
      have := List.nodup_append.mp hn
      exact this.2.2 hm (List.mem_cons_self _ _)
    have h1 := enqueue_holds s q x l hq (h0 x (List.mem_cons_self _ _)) hx
    have hn2 : ((l ++ [x]) ++ xs).Nodup := by
      rw [List.append_assoc]; exact hn
    obtain ⟨a, b⟩ := enqueueAll_holds xs _ _ (l ++ [x]) h1 hn2
      (fun y hy => h0 y (List.mem_cons_of_mem _ hy))
    rw [List.append_assoc] at a
    refine ⟨a, fun p => ?_⟩
    rw [b p, enqueue_selectdone]

/-- With no select participants on the queue, `dequeue` hands out its sudogs
one by one from the head. -/
theorem dequeueAll_plain (s : Ptr → SudoG) (words : Ptr → Nat) (fuel : Nat) (hf : 0 < fuel) :
    ∀ (l : List Ptr) (q : WaitQ), isList s q.first l → (∀ p ∈ l, (s p).selectdone = 0) →
      ∃ q1, dequeueAll fuel s l.length words q = some (l, q1, words) ∧ q1.first = 0
  | [], q, hl, _ => ⟨q, rfl, hl⟩
  | x :: l, q, hl, hp => by
    have hx : claimed s words x = false := by
      simp [claimed, hp x (List.mem_cons_self _ _)]
    have hd := dequeue_first_unclaimed s words x l hx [] fuel q hl (by simp) hf
    have hc : claim s words x = words := by
      simp [claim, hp x (List.mem_cons_self _ _)]
    rw [hc] at hd
    obtain ⟨q1, h1, h2⟩ := dequeueAll_plain s words fuel hf l { q with first := (s x).link }
      hl.2.2 (fun p hm => hp p (List.mem_cons_of_mem _ hm))
    refine ⟨q1, ?_, h2⟩
    rw [List.length_cons, dequeueAll, hd]
    dsimp only
    rw [h1]

/-- C21: on a queue that holds the sudogs `l` in the order of their enqueueing
(a nil-terminated list from `first`), with fuel for its length, `dequeue`
returns.  When `x` is the first sudog of `l` that has a nil `selectdone` or
a claim word that is zero, `dequeue` returns `x`, sets its claim word to 1
(`claim`), and leaves the sudogs behind `x` on the queue in their order, the
sudogs ahead of `x`, whose claim words were all set, being dropped.  When
every sudog has its claim word set it returns nil and leaves `first` nil;
it returns nil only then.  Sudogs without `selectdone`, enqueued one after
the other behind those of `l`, come back from repeated calls of `dequeue` in
exactly the order of enqueueing. -/
theorem C21_dequeue_order (s : Ptr → SudoG) (words : Ptr → Nat) (q : WaitQ) (l : List Ptr)
    (fuel : Nat) (hq : WaitQ.holds s q l) (hf : l.length < fuel) :
    (∀ pre x post, l = pre ++ x :: post → (∀ p ∈ pre, claimed s words p = true) →
      claimed s words x = false →
      ∃ q1, dequeue fuel s words q = some (q1, claim s words x, x) ∧
        WaitQ.holds s q1 post) ∧
    ((∀ p ∈ l, claimed s words p = true) →
      ∃ q1, dequeue fuel s words q = some (q1, words, 0) ∧ q1.first = 0) ∧
    (∃ q1 words1 sg, dequeue fuel s words q = some (q1, words1, sg) ∧
      (sg = 0 ↔ ∀ p ∈ l, claimed s words p = true)) ∧
    (∀ xs : List Ptr, (l ++ xs).Nodup → (∀ x ∈ xs, x ≠ 0) →
      (∀ p ∈ l ++ xs, (s p).selectdone = 0) →
      ∃ q1, dequeueAll fuel (enqueueAll s q xs).1 (l ++ xs).length words (enqueueAll s q xs).2
        = some (l ++ xs, q1, words) ∧ q1.first = 0) := by
  refine ⟨?_, ?_, ?_, ?_⟩
  · intro pre x post hl hpre hx
    subst hl
    refine ⟨{ q with first := (s x).link }, ?_, holds_pop s q pre x post hq⟩
    exact dequeue_first_unclaimed s words x post hx pre fuel q hq.1 hpre
      (by simp at hf; omega)
  · intro hall
    exact ⟨{ q with first := 0 }, dequeue_all_claimed s words l fuel q hq.1 hall hf, rfl⟩
  · rcases dequeue_on_list s words l fuel q hq.1 hf with ⟨hall, hd⟩ | ⟨pre, x, post, hl, hx, hx0, hd, _⟩
    · exact ⟨_, _, _, hd, fun _ => hall, fun _ => rfl⟩
    · refine ⟨_, _, _, hd, fun e => absurd e hx0, fun hall => ?_⟩
      have := hall x (by rw [hl]; simp)
      rw [hx] at this
      exact absurd this (by simp)
  · intro xs hn h0 hp
    obtain ⟨a, b⟩ := enqueueAll_holds xs s q l hq hn h0
    exact dequeueAll_plain _ words fuel (by omega) (l ++ xs) _ a.1
      (fun p hm => by rw [b p]; exact hp p hm)

/-- The theorem `C21_dequeue_order` on the queue 20, 21, 22 of `queueSudogs`:
the sudog at 20 is claimed and dropped, the one at 21 is returned and its
claim word set, and the one at 22 stays. -/
theorem C21_dequeue_order_witness :
    WaitQ.holds queueSudogs ⟨20, 22⟩ [20, 21, 22] ∧
    claimed queueSudogs queueWords 20 = true ∧ claimed queueSudogs queueWords 21 = false ∧
    ∃ q1, dequeue 4 queueSudogs queueWords ⟨20, 22⟩
        = some (q1, claim queueSudogs queueWords 21, 21) ∧
      WaitQ.holds queueSudogs q1 [22] ∧ claim queueSudogs queueWords 21 71 = 1 := by
  refine ⟨by decide, by decide, by decide, ?_⟩
  obtain ⟨q1, h1, h2⟩ :=
    (C21_dequeue_order queueSudogs queueWords ⟨20, 22⟩ [20, 21, 22] 4 (by decide)
      (by decide)).1 [20] 21 [22] rfl (by decide) (by decide)
  exact ⟨q1, h1, h2, by decide⟩

/-! ## C22: `first == nil` and `last == nil` -/

/-- What `dequeueg` does to the two ends of a well-formed queue, from the
sudog `sgp` on (`rest` are the sudogs from `sgp` to the end): the queue is
unchanged, or both ends are non-nil, or both are nil. -/
theorem dequeueg_loop_spec (g : Ptr) (s : Ptr → SudoG) (q : WaitQ)
    (hw : q.last = 0 → q.first = 0) :
    ∀ (fuel : Nat) (rest : List Ptr) (prev sgp : Ptr), isList s sgp rest → rest.length < fuel →
      (rest = [] ∨ rest.getLast? = some q.last) → (prev = 0 → sgp = q.first) →
      (prev ≠ 0 → q.first ≠ 0) →
      ∃ r, dequeueg_loop g fuel s q prev sgp = some r ∧
        (r.2 = q ∨ (r.2.first ≠ 0 ∧ r.2.last ≠ 0) ∨ (r.2.first = 0 ∧ r.2.last = 0))
  | 0, _, _, _, _, hf, _, _, _ => absurd hf (Nat.not_lt_zero _)
  | fuel + 1, [], prev, sgp, hl, _, _, _, _ => by
    have h0 : sgp = 0 := hl
    rw [dequeueg_loop, if_pos h0]
    exact ⟨_, rfl, Or.inl rfl⟩
  | fuel + 1, x :: post, prev, sgp, hl, hf, hlast, hp0, hp1 => by
    obtain ⟨rfl, hx0, hpost⟩ := hl
    have hfirst : q.first ≠ 0 := by
      by_cases hp : prev = 0
      · rw [← hp0 hp]; exact hx0
      · exact hp1 hp
    have hlast0 : q.last ≠ 0 := fun e => hfirst (hw e)
    rw [dequeueg_loop, if_neg hx0]
    by_cases hg : (s sgp).g = g
    · rw [if_pos hg]
      cases post with
      | nil =>
        have hl0 : (s sgp).link = 0 := hpost
        have hql : q.last = sgp := by
          rcases hlast with h | h
          · simp at h
          · simpa using h.symm
        by_cases hp : prev = 0
        · rw [if_pos hp]
          dsimp only
          rw [if_pos hql]
          exact ⟨_, rfl, Or.inr (Or.inr ⟨hl0, hp⟩)⟩
        · rw [if_neg hp]
          dsimp only
          rw [if_pos hql]
          exact ⟨_, rfl, Or.inr (Or.inl ⟨hfirst, hp⟩)⟩
      | cons y post =>
        have hy : (s sgp).link = y := hpost.1
        have hy0 : y ≠ 0 := hpost.2.1
        have hql : q.last ≠ sgp := by
          intro e
          rcases hlast with h | h
          · simp at h
          · rw [List.getLast?_cons_cons] at h
            have hm : q.last ∈ y :: post := List.mem_of_getLast?_eq_some h
            rw [e] at hm
            exact isList_head_not_mem s sgp sgp (y :: post) ⟨rfl, hx0, hpost⟩ hm
        by_cases hp : prev = 0
        · rw [if_pos hp]
          dsimp only
          rw [if_neg hql]
          refine ⟨_, rfl, Or.inr (Or.inl ⟨?_, hlast0⟩)⟩
          dsimp only
          rw [hy]; exact hy0
        · rw [if_neg hp]
          dsimp only
          rw [if_neg hql]
          exact ⟨_, rfl, Or.inl rfl⟩
    · rw [if_neg hg]
      refine dequeueg_loop_spec g s q hw fuel post sgp (s sgp).link hpost
        (by simp at hf; omega) ?_ (fun e => absurd e hx0) (fun _ => hfirst)
      cases post with
      | nil => exact Or.inl rfl
      | cons y post =>
        right
        rcases hlast with h | h
        · simp at h
        · rw [List.getLast?_cons_cons] at h
          exact h

/-- C22 fails as stated: on the send queue of `sendWaitWorld`, which holds
the one sudog at 20 with `first` and `last` both non-nil, `dequeue` returns
that sudog and leaves `first` nil and `last` still 20. -/
theorem C22_counterexample :
    WaitQ.holds sendWaitWorld.sudogs (sendWaitWorld.chans 1).sendq [20] ∧
    ((sendWaitWorld.chans 1).sendq.first = 0 ↔ (sendWaitWorld.chans 1).sendq.last = 0) ∧
    (dequeue 2 sendWaitWorld.sudogs sendWaitWorld.words (sendWaitWorld.chans 1).sendq).map
      (fun r => (r.1.first, r.1.last, r.2.2)) = some (0, 20, 20) := by
  refine ⟨by decide, by decide, by decide⟩

/-- C22, amended: `first == nil ⇔ last == nil` holds for the two queues of a
zeroed channel header; `enqueue` of a non-nil sudog establishes it; `dequeueg`
on a well-formed queue, with fuel for its length, returns and preserves it;
`dequeue`, which never writes `last`, returns on such a queue and preserves
the direction `last == nil ⇒ first == nil`. -/
theorem C22_waitq_ends (s : Ptr → SudoG) (q : WaitQ) :
    ((zeroHchan.sendq.first = 0 ↔ zeroHchan.sendq.last = 0) ∧
      (zeroHchan.recvq.first = 0 ↔ zeroHchan.recvq.last = 0)) ∧
    (∀ sgp, sgp ≠ 0 → ((enqueue s q sgp).2.first = 0 ↔ (enqueue s q sgp).2.last = 0)) ∧
    (∀ g fuel l, WaitQ.holds s q l → l.length < fuel → (q.first = 0 ↔ q.last = 0) →
      ∃ r, dequeueg g fuel s q = some r ∧ (r.2.first = 0 ↔ r.2.last = 0)) ∧
    (∀ fuel words l, WaitQ.holds s q l → l.length < fuel → (q.last = 0 → q.first = 0) →
      ∃ q1 words1 sg, dequeue fuel s words q = some (q1, words1, sg) ∧
        (q1.last = 0 → q1.first = 0)) := by
  refine ⟨⟨Iff.rfl, Iff.rfl⟩, ?_, ?_, ?_⟩
  · intro sgp h0
    unfold enqueue
    dsimp only
    by_cases hq : q.first = 0
    · rw [if_pos hq]
    · rw [if_neg hq]
      exact ⟨fun e => absurd e hq, fun e => absurd e h0⟩
  · intro g fuel l hq hf hi
    obtain ⟨r, hr, hc⟩ := dequeueg_loop_spec g s q hi.mpr fuel l 0 q.first hq.1 hf hq.2
      (fun _ => rfl) (fun e => absurd rfl e)
    refine ⟨r, hr, ?_⟩
    rcases hc with e | ⟨a, b⟩ | ⟨a, b⟩
    · rw [e]; exact hi
    · exact ⟨fun e => absurd e a, fun e => absurd e b⟩
    · exact ⟨fun _ => b, fun _ => a⟩
  · intro fuel words l hq hf hi
    rcases dequeue_on_list s words l fuel q hq.1 hf with ⟨_, hd⟩ | ⟨pre, x, post, _, _, _, hd, _⟩
    · refine ⟨_, _, _, hd, fun _ => rfl⟩
    · refine ⟨_, _, _, hd, ?_⟩
      obtain ⟨p1, _, _⟩ := dequeue_frame s fuel words q _ _ _ hd
      intro e
      have e1 : q.last = 0 := by rw [← p1.1]; exact e
      exact p1.2 (hi e1)

/-- The theorem `C22_waitq_ends` on the send queue of `sendWaitWorld`:
`dequeueg` run by routine 30, whose sudog is the only one on the queue, leaves
both `first` and `last` nil. -/
theorem C22_waitq_ends_witness :
    ∃ r, dequeueg 30 2 sendWaitWorld.sudogs (sendWaitWorld.chans 1).sendq = some r ∧
      r.2 = ⟨0, 0⟩ ∧ (r.2.first = 0 ↔ r.2.last = 0) := by
  obtain ⟨r, h1, h2⟩ :=
    (C22_waitq_ends sendWaitWorld.sudogs (sendWaitWorld.chans 1).sendq).2.2.1 30 2 [20]
      (by decide) (by decide) (by decide)
  have hs : (dequeueg 30 2 sendWaitWorld.sudogs (sendWaitWorld.chans 1).sendq).map
      (fun r => r.2) = some ⟨0, 0⟩ := by decide
  rw [h1] at hs
  simp only [Option.map_some', Option.some.injEq] at hs
  exact ⟨r, h1, hs, h2⟩

/-! ## The invariants of a channel header under the header steps -/

theorem ringInv_of_fields {h h1 : Hchan} (hd : h1.dataqsiz = h.dataqsiz)
    (hq : h1.qcount = h.qcount) (hs : h1.sendx = h.sendx) (hr : h1.recvx = h.recvx)
    (hi : ringInv h) : ringInv h1 := by
  unfold ringInv at hi ⊢
  rw [hd, hq, hs, hr]
  exact hi

theorem zeroOutside_of_fields {h h1 : Hchan} (hd : h1.dataqsiz = h.dataqsiz)
    (hq : h1.qcount = h.qcount) (hr : h1.recvx = h.recvx) (he : h1.elemsize = h.elemsize)
    (hb : h1.buf = h.buf) (hi : zeroOutside h) : zeroOutside h1 := by
  unfold zeroOutside chanbuf at hi ⊢
  rw [hd, hq, hr, he, hb]
  exact hi

theorem ringAgree_of_sameRing {h h1 : Hchan} (a : sameRing h h1) (hi : ringAgree h) :
    ringAgree h1 := by
  intro hd
  rw [sameRing_dataqsiz a] at hd
  exact ringInv_of_fields (sameRing_dataqsiz a) (sameRing_qcount a) (sameRing_sendx a)
    (sameRing_recvx a) (hi hd)

theorem bufZero_of_sameRing {h h1 : Hchan} (a : sameRing h h1) (hi : bufZero h) :
    bufZero h1 := by
  intro hd
  rw [sameRing_dataqsiz a] at hd
  exact ⟨ringInv_of_fields (sameRing_dataqsiz a) (sameRing_qcount a) (sameRing_sendx a)
    (sameRing_recvx a) (hi hd).1,
    zeroOutside_of_fields (sameRing_dataqsiz a) (sameRing_qcount a) (sameRing_recvx a)
      (sameRing_elemsize a) (sameRing_buf a) (hi hd).2⟩

/-- Storing an element into the slot at `sendx` leaves the slots outside the
longer window zero. -/
theorem zeroOutside_send (h : Hchan) (m : Nat → Nat) (ep : Ptr) (hinv : ringInv h)
    (hz : zeroOutside h) :
    zeroOutside { h with
      buf := memmove h.buf m (chanbuf h h.sendx) ep h.elemsize
      sendx := if h.sendx + 1 = h.dataqsiz then 0 else h.sendx + 1
      qcount := h.qcount + 1 } := by
  intro i hi hout j hj
  dsimp only [chanbuf] at hi hout hj ⊢
  have hne : i ≠ h.sendx := by
    rw [hinv.2.2]
    exact hout h.qcount (Nat.lt_succ_self _)
  unfold memmove
  rw [if_neg (slot_disjoint h.elemsize h.sendx i j (Ne.symm hne) hj)]
  exact hz i hi (fun t ht => hout t (Nat.lt_succ_of_lt ht)) j hj

theorem recv_window (r d t : Nat) (ht : 0 < t) :
    (r + t) % d = ((if r + 1 = d then 0 else r + 1) + (t - 1)) % d := by
  by_cases e : r + 1 = d
  · rw [if_pos e]
    have : r + t = d + (t - 1) := by omega
    rw [this, Nat.add_mod_left, Nat.zero_add]
  · rw [if_neg e]
    have : r + t = r + 1 + (t - 1) := by omega
    rw [this]

/-- Taking the element at `recvx` and clearing its slot leaves the slots
outside the shorter window zero. -/
theorem zeroOutside_recv (h : Hchan) (hinv : ringInv h) (hz : zeroOutside h) :
    zeroOutside { h with
      buf := memclr h.buf (chanbuf h h.recvx) h.elemsize
      recvx := if h.recvx + 1 = h.dataqsiz then 0 else h.recvx + 1
      qcount := h.qcount - 1 } := by
  intro i hi hout j hj
  dsimp only [chanbuf] at hi hout hj ⊢
  unfold memclr
  by_cases hne : i = h.recvx
  · rw [hne, if_pos ⟨Nat.le_add_right _ _, Nat.add_lt_add_left hj _⟩]
  · rw [if_neg (slot_disjoint h.elemsize h.recvx i j (Ne.symm hne) hj)]
    refine hz i hi (fun t ht => ?_) j hj
    by_cases h0 : t = 0
    · rw [h0, Nat.add_zero, Nat.mod_eq_of_lt hinv.1]
      exact hne
    · rw [recv_window h.recvx h.dataqsiz t (Nat.pos_of_ne_zero h0)]
      exact hout (t - 1) (by omega)

theorem HStep_bufZero : ∀ {h h1 : Hchan}, HStep h h1 → bufZero h → bufZero h1
  | _, _, .pop _ _ a _ _, hi => bufZero_of_sameRing a hi
  | _, _, .enq _ _ _ a, hi => bufZero_of_sameRing a hi
  | _, _, .send h m ep _ hroom, hi => by
    intro _
    have hd : 0 < h.dataqsiz := Nat.lt_of_le_of_lt (Nat.zero_le _) hroom
    exact ⟨ringInv_send h _ (hi hd).1 hroom rfl rfl rfl rfl,
      zeroOutside_send h m ep (hi hd).1 (hi hd).2⟩
  | _, _, .recv h hitem, hi => by
    intro hd
    exact ⟨ringInv_recv h _ (hi hd).1 hitem rfl rfl rfl rfl,
      zeroOutside_recv h (hi hd).1 (hi hd).2⟩
  | _, _, .close h _ a _ _, hi => by
    refine bufZero_of_sameRing a ?_
    exact hi
  | _, _, .make _ elemtype esize dataqsiz, _ => by
    intro hd
    refine ⟨⟨hd, Nat.zero_le _, ?_⟩, ?_⟩
    · show 0 = (0 + 0) % dataqsiz
      simp
    · intro i _ _ j _
      rfl

theorem HStep_noWaiters : ∀ {h h1 : Hchan}, HStep h h1 → noWaiters h → noWaiters h1
  | _, _, .pop _ _ a a1 a2, hi => by
    intro hc
    rw [sameRing_closed a] at hc
    exact ⟨a1 (hi hc).1, a2 (hi hc).2⟩
  | _, _, .enq _ _ ho a, _ => by
    intro hc
    rw [sameRing_closed a, ho] at hc
    exact absurd hc (by simp)
  | _, _, .send h m ep ho _, _ => by
    intro hc
    have : h.closed = true := hc
    rw [ho] at this
    exact absurd this (by simp)
  | _, _, .recv _ _, hi => hi
  | _, _, .close _ _ _ a1 a2, _ => fun _ => ⟨a1, a2⟩
  | _, _, .make _ elemtype esize dataqsiz, _ => by
    intro hc
    exact absurd hc (by simp [zeroHchan])

theorem HSteps_bufZero {h h1 : Hchan} (hr : Relation.ReflTransGen HStep h h1)
    (hi : bufZero h) : bufZero h1 := by
  induction hr with
  | refl => exact hi
  | tail _ hs ih => exact HStep_bufZero hs ih

theorem HSteps_noWaiters {h h1 : Hchan} (hr : Relation.ReflTransGen HStep h h1)
    (hi : noWaiters h) : noWaiters h1 := by
  induction hr with
  | refl => exact hi
  | tail _ hs ih => exact HStep_noWaiters hs ih

/-! ## The operations as runs of header steps: send, receive, close, make -/

theorem headerRun.runRefl (w : World) : headerRun w w := fun _ => Relation.ReflTransGen.refl

theorem headerRun.runTrans {w1 w2 w3 : World} (a : headerRun w1 w2) (b : headerRun w2 w3) :
    headerRun w1 w3 := fun c => (a c).trans (b c)

theorem headerRun_of_chans {w w1 : World} (h : w1.chans = w.chans) : headerRun w w1 := by
  intro c; rw [h]

theorem headerRun_of_popped {w w1 : World} (h : worldPopped w w1) : headerRun w w1 :=
  fun c => Relation.ReflTransGen.single
    (HStep.pop _ _ (h.2.2.2.2.2 c).1 (h.2.2.2.2.2 c).2.1.2 (h.2.2.2.2.2 c).2.2.2)

theorem headerRun_setChan_of (w w2 : World) (c : Ptr) (h : Hchan) (hc : w2.chans = w.chans)
    (hs : HStep (w.chans c) h) : headerRun w (w2.setChan c h) := by
  intro c2
  by_cases e : c2 = c
  · subst e
    simp only [World.setChan, Function.update_same]
    exact Relation.ReflTransGen.single hs
  · simp only [World.setChan, Function.update_noteq e, hc]
    exact Relation.ReflTransGen.refl

theorem dequeueRecvq_run {fuel : Nat} {w : World} {c : Ptr} {w1 : World} {sg : Ptr}
    (h : dequeueRecvq fuel w c = some (w1, sg)) : headerRun w w1 :=
  headerRun_of_popped (dequeueRecvq_popped fuel w c w1 sg h).1

theorem dequeueSendq_run {fuel : Nat} {w : World} {c : Ptr} {w1 : World} {sg : Ptr}
    (h : dequeueSendq fuel w c = some (w1, sg)) : headerRun w w1 :=
  headerRun_of_popped (dequeueSendq_popped fuel w c w1 sg h).1

theorem enqueueSendq_run (w : World) (c sg : Ptr) (ho : (w.chans c).closed = false) :
    headerRun w (enqueueSendq w c sg) := by
  intro c2
  by_cases e : c2 = c
  · subst e
    exact Relation.ReflTransGen.single (HStep.enq _ _ ho (enqueueSendq_sameRing w c2 sg c2))
  · have : (enqueueSendq w c sg).chans c2 = w.chans c2 := by
      unfold enqueueSendq
      dsimp only
      rw [Function.update_noteq e]
    rw [this]

theorem enqueueRecvq_run (w : World) (c sg : Ptr) (ho : (w.chans c).closed = false) :
    headerRun w (enqueueRecvq w c sg) := by
  intro c2
  by_cases e : c2 = c
  · subst e
    exact Relation.ReflTransGen.single (HStep.enq _ _ ho (enqueueRecvq_sameRing w c2 sg c2))
  · have : (enqueueRecvq w c sg).chans c2 = w.chans c2 := by
      unfold enqueueRecvq
      dsimp only
      rw [Function.update_noteq e]
    rw [this]

theorem chansend_asynch_run (fuel : Nat) (w : World) (g mysg c ep : Ptr) (block : Bool)
    (t0 rt : Int) (w1 : World) (o : Outcome Bool)
    (h : chansend_asynch fuel w g mysg c ep block t0 rt = some (w1, o)) : headerRun w w1 := by
  unfold chansend_asynch at h
  by_cases hc : (w.chans c).closed = true
  · rw [if_pos hc] at h
    simp only [chansend_closed, Option.some.injEq, Prod.mk.injEq] at h
    obtain ⟨rfl, _⟩ := h
    exact headerRun_of_chans rfl
  · rw [if_neg hc] at h
    have ho : (w.chans c).closed = false := by simpa using hc
    by_cases hq : (w.chans c).qcount ≥ (w.chans c).dataqsiz
    · rw [if_pos hq] at h
      by_cases hb : (!block) = true
      · rw [if_pos hb] at h
        simp only [Option.some.injEq, Prod.mk.injEq] at h
        obtain ⟨rfl, _⟩ := h
        exact headerRun_of_chans rfl
      · rw [if_neg hb] at h
        simp only [Option.some.injEq, Prod.mk.injEq] at h
        obtain ⟨rfl, _⟩ := h
        refine headerRun.runTrans (headerRun.runTrans (headerRun_of_chans ?_)
          (enqueueSendq_run _ c mysg ?_)) (headerRun_of_chans (log_chans _ _))
        · rfl
        · exact ho
    · rw [if_neg hq] at h
      dsimp only at h
      split at h
      · simp at h
      · rename_i w2 sg hdq
        simp only [Option.some.injEq, Prod.mk.injEq] at h
        obtain ⟨rfl, _⟩ := h
        have hk := dequeueRecvq_run hdq
        refine headerRun.runTrans (headerRun.runTrans (headerRun_setChan_of w w c _ rfl ?_) hk)
          (headerRun_of_chans ?_)
        · exact HStep.send _ w.mem ep ho (Nat.lt_of_not_ge hq)
        · rw [blockProfile_chans]
          split <;> simp

theorem chansend_run (fuel : Nat) (w : World) (g mysg c ep : Ptr) (block : Bool)
    (w1 : World) (o : Outcome Bool)
    (h : chansend fuel w g mysg c ep block = some (w1, o)) : headerRun w w1 := by
  unfold chansend at h
  by_cases hc0 : c = 0
  · rw [if_pos hc0] at h
    split at h <;>
    · simp only [Option.some.injEq, Prod.mk.injEq] at h
      obtain ⟨rfl, _⟩ := h
      exact headerRun.runRefl _
  · rw [if_neg hc0] at h
    dsimp only at h
    have hw1 : headerRun w ((profileStart (gcYield w)).1.log (.lock c)) :=
      headerRun_of_chans (by simp)
    generalize (profileStart (gcYield w)).1.log (.lock c) = wl at h hw1
    refine headerRun.runTrans hw1 ?_
    by_cases hc : (wl.chans c).closed = true
    · rw [if_pos hc] at h
      simp only [chansend_closed, Option.some.injEq, Prod.mk.injEq] at h
      obtain ⟨rfl, _⟩ := h
      exact headerRun_of_chans rfl
    · rw [if_neg hc] at h
      have ho : (wl.chans c).closed = false := by simpa using hc
      by_cases hd : (wl.chans c).dataqsiz > 0
      · rw [if_pos hd] at h
        exact chansend_asynch_run _ _ _ _ _ _ _ _ _ _ _ h
      · rw [if_neg hd] at h
        split at h
        · simp at h
        · rename_i w2 sg hdq
          have h2 := dequeueRecvq_run hdq
          have ho2 : (w2.chans c).closed = false := by
            rw [sameRing_closed ((dequeueRecvq_popped _ _ _ _ _ hdq).1.2.2.2.2.2 c).1]
            exact ho
          refine headerRun.runTrans h2 ?_
          by_cases hsg : sg ≠ 0
          · rw [if_pos hsg] at h
            simp only [Option.some.injEq, Prod.mk.injEq] at h
            obtain ⟨rfl, _⟩ := h
            apply headerRun_of_chans
            simp only [log_chans, stampRelease_chans]
            split <;> rfl
          · rw [if_neg hsg] at h
            by_cases hb : (!block) = true
            · rw [if_pos hb] at h
              simp only [Option.some.injEq, Prod.mk.injEq] at h
              obtain ⟨rfl, _⟩ := h
              exact headerRun_of_chans rfl
            · rw [if_neg hb] at h
              simp only [Option.some.injEq, Prod.mk.injEq] at h
              obtain ⟨rfl, _⟩ := h
              refine headerRun.runTrans (headerRun.runTrans (headerRun_of_chans ?_)
                (enqueueSendq_run _ c mysg ?_)) (headerRun_of_chans (log_chans _ _))
              · rfl
              · exact ho2

theorem chanrecv_asynch_run (fuel : Nat) (w : World) (g mysg c ep received : Ptr)
    (block : Bool) (t0 rt : Int) (w1 : World) (o : Outcome Bool)
    (h : chanrecv_asynch fuel w g mysg c ep received block t0 rt = some (w1, o)) :
    headerRun w w1 := by
  unfold chanrecv_asynch at h
  by_cases hq : (w.chans c).qcount ≤ 0
  · rw [if_pos hq] at h
    by_cases hc : (w.chans c).closed = true
    · rw [if_pos hc] at h
      simp only [Option.some.injEq] at h
      have := chanrecv_closed_chans w c ep received t0 rt
      rw [h] at this
      exact headerRun_of_chans this
    · rw [if_neg hc] at h
      have ho : (w.chans c).closed = false := by simpa using hc
      by_cases hb : (!block) = true
      · rw [if_pos hb] at h
        simp only [Option.some.injEq, Prod.mk.injEq] at h
        obtain ⟨rfl, _⟩ := h
        exact headerRun_of_chans (by simp)
      · rw [if_neg hb] at h
        simp only [Option.some.injEq, Prod.mk.injEq] at h
        obtain ⟨rfl, _⟩ := h
        refine headerRun.runTrans (headerRun.runTrans (headerRun_of_chans ?_)
          (enqueueRecvq_run _ c mysg ?_)) (headerRun_of_chans (log_chans _ _))
        · rfl
        · exact ho
  · rw [if_neg hq] at h
    dsimp only at h
    split at h
    · simp at h
    · rename_i w3 sg hdq
      simp only [Option.some.injEq, Prod.mk.injEq] at h
      obtain ⟨rfl, _⟩ := h
      have hk := dequeueSendq_run hdq
      refine headerRun.runTrans (headerRun.runTrans (headerRun_setChan_of w _ c _ ?_ ?_) hk)
        (headerRun_of_chans ?_)
      · split <;> rfl
      · exact HStep.recv _ (Nat.lt_of_not_ge hq)
      · rw [blockProfile_chans, setReceived_chans]
        split <;> simp

theorem chanrecv_run (fuel : Nat) (w : World) (g mysg c ep received : Ptr) (block : Bool)
    (w1 : World) (o : Outcome Bool)
    (h : chanrecv fuel w g mysg c ep received block = some (w1, o)) : headerRun w w1 := by
  unfold chanrecv at h
  dsimp only at h
  by_cases hc0 : c = 0
  · rw [if_pos hc0] at h
    split at h <;>
    · simp only [Option.some.injEq, Prod.mk.injEq] at h
      obtain ⟨rfl, _⟩ := h
      exact headerRun_of_chans (by simp)
  · rw [if_neg hc0] at h
    have hw1 : headerRun w ((profileStart (gcYield w)).1.log (.lock c)) :=
      headerRun_of_chans (by simp)
    generalize (profileStart (gcYield w)).1.log (.lock c) = wl at h hw1
    refine headerRun.runTrans hw1 ?_
    by_cases hd : (wl.chans c).dataqsiz > 0
    · rw [if_pos hd] at h
      exact chanrecv_asynch_run _ _ _ _ _ _ _ _ _ _ _ _ h
    · rw [if_neg hd] at h
      by_cases hc : (wl.chans c).closed = true
      · rw [if_pos hc] at h
        simp only [Option.some.injEq] at h
        have := chanrecv_closed_chans wl c ep received (profileStart (gcYield w)).2.1
          (profileStart (gcYield w)).2.2
        rw [h] at this
        exact headerRun_of_chans this
      · rw [if_neg hc] at h
        have ho : (wl.chans c).closed = false := by simpa using hc
        split at h
        · simp at h
        · rename_i w2 sg hdq
          have h2 := dequeueSendq_run hdq
          have ho2 : (w2.chans c).closed = false := by
            rw [sameRing_closed ((dequeueSendq_popped _ _ _ _ _ hdq).1.2.2.2.2.2 c).1]
            exact ho
          refine headerRun.runTrans h2 ?_
          by_cases hsg : sg ≠ 0
          · rw [if_pos hsg] at h
            simp only [Option.some.injEq, Prod.mk.injEq] at h
            obtain ⟨rfl, _⟩ := h
            apply headerRun_of_chans
            simp only [setReceived_chans, log_chans, stampRelease_chans]
            split <;> rfl
          · rw [if_neg hsg] at h
            by_cases hb : (!block) = true
            · rw [if_pos hb] at h
              simp only [Option.some.injEq, Prod.mk.injEq] at h
              obtain ⟨rfl, _⟩ := h
              exact headerRun_of_chans rfl
            · rw [if_neg hb] at h
              simp only [Option.some.injEq, Prod.mk.injEq] at h
              obtain ⟨rfl, _⟩ := h
              refine headerRun.runTrans (headerRun.runTrans (headerRun_of_chans ?_)
                (enqueueRecvq_run _ c mysg ?_)) (headerRun_of_chans (log_chans _ _))
              · rfl
              · exact ho2

/-- The first loop of `closechan` pops sudogs off queues and ends with the
receive queue of the channel empty. -/
theorem closechan_readers_drain :
    ∀ (fuel : Nat) (w : World) (c : Ptr) (w1 : World),
      closechan_readers fuel w c = some w1 →
      (∀ c2, chanPopped (w.chans c2) (w1.chans c2)) ∧ (w1.chans c).recvq.first = 0
  | 0, _, _, _, h => by simp [closechan_readers] at h
  | fuel + 1, w, c, w1, h => by
    rw [closechan_readers] at h
    split at h
    · simp at h
    · rename_i w2 sg hdq
      obtain ⟨p1, _, _, p4⟩ := dequeueRecvq_popped _ _ _ _ _ hdq
      by_cases hsg : sg = 0
      · rw [if_pos hsg] at h
        simp only [Option.some.injEq] at h
        rw [← h]
        exact ⟨p1.2.2.2.2.2, (p4 hsg).1⟩
      · rw [if_neg hsg] at h
        obtain ⟨q1, q2⟩ := closechan_readers_drain fuel _ c w1 h
        refine ⟨fun c2 => chanPopped.ctrans (p1.2.2.2.2.2 c2) ?_, q2⟩
        have := q1 c2
        simp only [log_chans, stampRelease_chans] at this
        exact this

/-- The second loop of `closechan` pops sudogs off queues and ends with the
send queue of the channel empty. -/
theorem closechan_writers_drain :
    ∀ (fuel : Nat) (w : World) (c : Ptr) (w1 : World),
      closechan_writers fuel w c = some w1 →
      (∀ c2, chanPopped (w.chans c2) (w1.chans c2)) ∧ (w1.chans c).sendq.first = 0
  | 0, _, _, _, h => by simp [closechan_writers] at h
  | fuel + 1, w, c, w1, h => by
    rw [closechan_writers] at h
    split at h
    · simp at h
    · rename_i w2 sg hdq
      obtain ⟨p1, _, _, p4⟩ := dequeueSendq_popped _ _ _ _ _ hdq
      by_cases hsg : sg = 0
      · rw [if_pos hsg] at h
        simp only [Option.some.injEq] at h
        rw [← h]
        exact ⟨p1.2.2.2.2.2, (p4 hsg).1⟩
      · rw [if_neg hsg] at h
        obtain ⟨q1, q2⟩ := closechan_writers_drain fuel _ c w1 h
        refine ⟨fun c2 => chanPopped.ctrans (p1.2.2.2.2.2 c2) ?_, q2⟩
        have := q1 c2
        simp only [log_chans, stampRelease_chans] at this
        exact this

theorem closechan_run (fuel : Nat) (w : World) (c : Ptr) (w1 : World) (o : Outcome Unit)
    (h : closechan fuel w c = some (w1, o)) : headerRun w w1 := by
  unfold closechan at h
  by_cases hc0 : c = 0
  · rw [if_pos hc0] at h
    simp only [Option.some.injEq, Prod.mk.injEq] at h
    obtain ⟨rfl, _⟩ := h
    exact headerRun.runRefl _
  · rw [if_neg hc0] at h
    dsimp only at h
    have hw1 : headerRun w ((gcYield w).log (.lock c)) := headerRun_of_chans (by simp)
    generalize (gcYield w).log (.lock c) = wl at h hw1
    refine headerRun.runTrans hw1 ?_
    by_cases hc : (wl.chans c).closed = true
    · rw [if_pos hc] at h
      simp only [Option.some.injEq, Prod.mk.injEq] at h
      obtain ⟨rfl, _⟩ := h
      exact headerRun_of_chans rfl
    · rw [if_neg hc] at h
      split at h
      · simp at h
      · rename_i w3 hr
        split at h
        · simp at h
        · rename_i w4 hwr
          simp only [Option.some.injEq, Prod.mk.injEq] at h
          obtain ⟨rfl, _⟩ := h
          obtain ⟨r1, r2⟩ := closechan_readers_drain fuel _ c w3 hr
          obtain ⟨s1, s2⟩ := closechan_writers_drain fuel _ c w4 hwr
          intro c2
          rw [log_chans]
          have hp := chanPopped.ctrans (r1 c2) (s1 c2)
          by_cases e : c2 = c
          · subst e
            simp only [World.setChan, Function.update_same] at hp
            exact Relation.ReflTransGen.single
              (HStep.close _ _ hp.1 s2 ((s1 c2).2.2.2 r2))
          · simp only [World.setChan, Function.update_noteq e] at hp
            exact Relation.ReflTransGen.single (HStep.pop _ _ hp.1 hp.2.1.2 hp.2.2.2)

theorem makechan_run (pf : Platform) (w : World) (elemtype : Ptr) (esize : Nat) (hint : Int)
    (newc : Ptr) : headerRun w (makechan pf w elemtype esize hint newc).1 := by
  unfold makechan
  split
  · exact headerRun.runRefl _
  · split
    · exact headerRun.runRefl _
    · dsimp only
      exact headerRun_setChan_of w _ newc _ rfl (HStep.make _ _ _ _)

/-! ## The operations as runs of header steps: select -/

theorem selectgo_asyncrecv_run (fuel : Nat) (w : World) (sel : Select) (cas : Scase)
    (t0 : Int) (r : World × Outcome Nat) (hq : 0 < (w.chans cas.chan).qcount)
    (h : selectgo_asyncrecv fuel w sel cas t0 = some r) : headerRun w r.1 := by
  unfold selectgo_asyncrecv at h
  dsimp only at h
  simp only [setReceived_chans] at h
  split at h
  · simp at h
  · rename_i w4 sg hdq
    simp only [Option.some.injEq] at h
    rw [← h]
    have hk := dequeueSendq_run hdq
    refine headerRun.runTrans (headerRun.runTrans (headerRun_setChan_of w _ _ _ ?_ ?_) hk)
      (headerRun_of_chans ?_)
    · split <;> simp
    · exact HStep.recv _ hq
    · rw [selectgo_retc_chans]
      split <;> simp

theorem selectgo_asyncsend_run (fuel : Nat) (w : World) (sel : Select) (cas : Scase)
    (t0 : Int) (r : World × Outcome Nat) (ho : (w.chans cas.chan).closed = false)
    (hq : (w.chans cas.chan).qcount < (w.chans cas.chan).dataqsiz)
    (h : selectgo_asyncsend fuel w sel cas t0 = some r) : headerRun w r.1 := by
  unfold selectgo_asyncsend at h
  dsimp only at h
  split at h
  · simp at h
  · rename_i w2 sg hdq
    simp only [Option.some.injEq] at h
    rw [← h]
    have hk := dequeueRecvq_run hdq
    refine headerRun.runTrans (headerRun.runTrans (headerRun_setChan_of w w _ _ rfl ?_) hk)
      (headerRun_of_chans ?_)
    · exact HStep.send _ w.mem cas.elem ho hq
    · rw [selectgo_retc_chans]
      split <;> simp

/-- A receive or send case that pass 1 passes over is on an open channel. -/
theorem pass1_case_open (fuel : Nat) (w : World) (cas : Scase) (w1 : World)
    (h : pass1_case fuel w cas = some (w1, .next))
    (hk : cas.kind = CaseRecv ∨ cas.kind = CaseSend) : (w.chans cas.chan).closed = false := by
  unfold pass1_case at h
  dsimp only at h
  by_cases hr : cas.kind = CaseRecv
  · rw [if_pos hr] at h
    by_cases hd : (w.chans cas.chan).dataqsiz > 0
    · rw [if_pos hd] at h
      by_cases hq : (w.chans cas.chan).qcount > 0
      · rw [if_pos hq] at h
        simp at h
      · rw [if_neg hq] at h
        by_cases hc : (w.chans cas.chan).closed = true
        · rw [if_pos hc] at h
          simp at h
        · simpa using hc
    · rw [if_neg hd] at h
      split at h
      · simp at h
      · rename_i w2 sg hdq
        have e := sameRing_closed ((dequeueSendq_popped _ _ _ _ _ hdq).1.2.2.2.2.2 cas.chan).1
        by_cases hsg : sg ≠ 0
        · rw [if_pos hsg] at h
          simp at h
        · rw [if_neg hsg] at h
          by_cases hc : (w2.chans cas.chan).closed = true
          · rw [if_pos hc] at h
            simp at h
          · rw [e] at hc
            simpa using hc
  · rw [if_neg hr] at h
    have hs : cas.kind = CaseSend := hk.resolve_left hr
    rw [if_pos hs] at h
    by_cases hc : (w.chans cas.chan).closed = true
    · rw [if_pos hc] at h
      simp at h
    · simpa using hc

/-- When pass 1 runs to its end, every receive or send case it has looked at
is on an open channel. -/
theorem pass1_done_open (fuel : Nat) (sel : Select) :
    ∀ (r i : Nat) (w : World) (dfl : Option Scase) (w1 : World) (d : Option Scase),
      pass1 fuel sel r i w dfl = some (w1, .done d) →
      ∀ k, i ≤ k → k < i + r →
        ((sel.scase (sel.pollorder k)).kind = CaseRecv ∨
          (sel.scase (sel.pollorder k)).kind = CaseSend) →
        (w.chans (sel.scase (sel.pollorder k)).chan).closed = false
  | 0, _, _, _, _, _, _, _, h1, h2, _ => absurd h2 (by omega)
  | r + 1, i, w, dfl, w1, d, h, k, h1, h2, hk => by
    rw [pass1] at h
    cases hc : pass1_case fuel w (sel.scase (sel.pollorder i)) with
    | none => rw [hc] at h; simp at h
    | some p =>
      obtain ⟨w2, scan⟩ := p
      rw [hc] at h
      have hspec := pass1_case_spec fuel w _ w2 scan hc
      cases scan with
      | jump l sg => simp at h
      | dflt =>
        dsimp only at h
        obtain ⟨_, _, rfl, hkd⟩ := hspec
        by_cases e : k = i
        · subst e
          rw [hkd] at hk
          rcases hk with x | x
          · exact absurd x (by decide)
          · exact absurd x (by decide)
        · exact pass1_done_open fuel sel r (i + 1) _ _ w1 d h k (by omega) (by omega) hk
      | next =>
        dsimp only at h
        by_cases e : k = i
        · subst e
          exact pass1_case_open fuel w _ w2 hc hk
        · have := pass1_done_open fuel sel r (i + 1) _ _ w1 d h k (by omega) (by omega) hk
          rw [sameRing_closed (hspec.1.2.2.2.2.2 _).1] at this
          exact this

/-- Pass 2 as a run of header steps, when every receive or send case it
registers is on an open channel. -/
theorem pass2_run (sel : Select) (g done : Ptr) :
    ∀ (r i : Nat) (w : World),
      (∀ k, i ≤ k → k < i + r →
        ((sel.scase (sel.pollorder k)).kind = CaseRecv ∨
          (sel.scase (sel.pollorder k)).kind = CaseSend) →
        (w.chans (sel.scase (sel.pollorder k)).chan).closed = false) →
      headerRun w (pass2 sel g done r i w)
  | 0, _, w, _ => by rw [pass2]; exact headerRun.runRefl _
  | r + 1, i, w, ho => by
    rw [pass2]
    dsimp only
    have hoi := ho i (Nat.le_refl _) (by omega)
    by_cases hr : (sel.scase (sel.pollorder i)).kind = CaseRecv
    · rw [if_pos hr]
      refine headerRun.runTrans (headerRun.runTrans (headerRun_of_chans ?_)
        (enqueueRecvq_run _ _ _ ?_)) (pass2_run sel g done r (i + 1) _ ?_)
      · rfl
      · exact hoi (Or.inl hr)
      · intro k k1 k2 hk
        rw [sameRing_closed (enqueueRecvq_sameRing _ _ _ _)]
        exact ho k (by omega) (by omega) hk
    · rw [if_neg hr]
      by_cases hs : (sel.scase (sel.pollorder i)).kind = CaseSend
      · rw [if_pos hs]
        refine headerRun.runTrans (headerRun.runTrans (headerRun_of_chans ?_)
          (enqueueSendq_run _ _ _ ?_)) (pass2_run sel g done r (i + 1) _ ?_)
        · rfl
        · exact hoi (Or.inr hs)
        · intro k k1 k2 hk
          rw [sameRing_closed (enqueueSendq_sameRing _ _ _ _)]
          exact ho k (by omega) (by omega) hk
      · rw [if_neg hs]
        refine headerRun.runTrans (headerRun_of_chans ?_) (pass2_run sel g done r (i + 1) _ ?_)
        · rfl
        · intro k k1 k2 hk
          exact ho k (by omega) (by omega) hk

theorem selectgo_loop_run (fuel : Nat) (w : World) (g done : Ptr) (sel : Select) (t0 : Int)
    (r : World × Outcome Nat) (h : selectgo_loop fuel w g done sel t0 = some r) :
    headerRun w r.1 := by
  unfold selectgo_loop at h
  cases hp : pass1 fuel sel sel.ncase 0 w none with
  | none => rw [hp] at h; simp at h
  | some p =>
    obtain ⟨w1, res⟩ := p
    rw [hp] at h
    obtain ⟨q1, q2⟩ := pass1_spec fuel sel _ _ _ _ _ _ hp
    refine headerRun.runTrans (headerRun_of_popped q1) ?_
    cases res with
    | fired l cas sg =>
      obtain ⟨k, w0, _, _, _, a4, _, a6⟩ := q2
      have hs := (pass1_case_spec fuel w0 cas w1 _ a6).2.2
      cases l with
      | asyncrecv =>
        obtain ⟨rfl, _, _, b4⟩ := hs
        exact selectgo_asyncrecv_run fuel w1 sel cas t0 r b4 h
      | asyncsend =>
        obtain ⟨rfl, _, _, b4, b5⟩ := hs
        exact selectgo_asyncsend_run fuel w1 sel cas t0 r b5 b4 h
      | syncrecv =>
        simp only [Option.some.injEq] at h
        rw [← h]
        exact headerRun_of_chans (selectgo_syncrecv_chans _ _ _ _ _)
      | rclose =>
        simp only [Option.some.injEq] at h
        rw [← h]
        exact headerRun_of_chans (selectgo_rclose_chans _ _ _ _)
      | syncsend =>
        simp only [Option.some.injEq] at h
        rw [← h]
        exact headerRun_of_chans (selectgo_syncsend_chans _ _ _ _ _)
      | sclose =>
        simp only [Option.some.injEq] at h
        rw [← h]
        exact headerRun_of_chans (by simp [selectgo_sclose])
    | done d =>
      cases d with
      | some dfl =>
        simp only [Option.some.injEq] at h
        rw [← h]
        exact headerRun_of_chans (by simp)
      | none =>
        simp only [Option.some.injEq] at h
        rw [← h]
        have hopen := pass1_done_open fuel sel _ _ _ _ _ _ hp
        refine headerRun.runTrans (pass2_run sel g done sel.ncase 0
          { w1 with words := Function.update w1.words done 0 } ?_) (headerRun_of_chans ?_)
        · intro k k1 k2 hk
          have := hopen k k1 k2 hk
          rw [← sameRing_closed (q1.2.2.2.2.2 _).1] at this
          exact this
        · simp

theorem selectgo_run (fuel : Nat) (fastrand : Nat → Nat) (w : World) (g done : Ptr)
    (sel : Select) (r : World × Outcome Nat)
    (h : selectgo fuel fastrand w g done sel = some r) : headerRun w r.1 :=
  headerRun.runTrans (headerRun_of_chans (selectgo_prologue_spec fastrand w sel).1.1)
    (selectgo_loop_run fuel _ g done _ _ r h)

theorem dequeuegRecvq_run (g : Ptr) (fuel : Nat) (w : World) (c : Ptr) (w1 : World)
    (h : dequeuegRecvq g fuel w c = some w1) : headerRun w w1 := fun c2 =>
  Relation.ReflTransGen.single (HStep.pop _ _ (dequeuegRecvq_sameRing g fuel w c w1 h c2)
    (dequeuegRecvq_kept g fuel w c w1 h c2).2.1 (dequeuegRecvq_kept g fuel w c w1 h c2).2.2)

theorem dequeuegSendq_run (g : Ptr) (fuel : Nat) (w : World) (c : Ptr) (w1 : World)
    (h : dequeuegSendq g fuel w c = some w1) : headerRun w w1 := fun c2 =>
  Relation.ReflTransGen.single (HStep.pop _ _ (dequeuegSendq_sameRing g fuel w c w1 h c2)
    (dequeuegSendq_kept g fuel w c w1 h c2).2.1 (dequeuegSendq_kept g fuel w c w1 h c2).2.2)

theorem pass3_run (g : Ptr) (fuel : Nat) (sel : Select) (sg : Ptr) :
    ∀ (r i : Nat) (w w1 : World), pass3 g fuel sel sg r i w = some w1 → headerRun w w1
  | 0, _, w, w1, h => by
    simp only [pass3, Option.some.injEq] at h
    rw [← h]; exact headerRun.runRefl _
  | r + 1, i, w, w1, h => by
    rw [pass3] at h
    dsimp only at h
    by_cases hne : (sel.scase i).sg ≠ sg
    · rw [if_pos hne] at h
      split at h
      · simp at h
      · rename_i w2 hdq
        refine headerRun.runTrans ?_ (pass3_run g fuel sel sg r (i + 1) w2 w1 h)
        by_cases hk : (sel.scase i).kind = CaseSend
        · rw [if_pos hk] at hdq
          exact dequeuegSendq_run g fuel w _ w2 hdq
        · rw [if_neg hk] at hdq
          exact dequeuegRecvq_run g fuel w _ w2 hdq
    · rw [if_neg hne] at h
      exact pass3_run g fuel sel sg r (i + 1) w w1 h

theorem selectgo_wake_run (fuel : Nat) (w : World) (g done : Ptr) (sel : Select) (t0 : Int)
    (r : World × Outcome Nat) (h : selectgo_wake fuel w g done sel t0 = some r) :
    headerRun w r.1 := by
  unfold selectgo_wake at h
  dsimp only at h
  split at h
  · simp at h
  · rename_i w2 hp3
    have hw2 : headerRun w w2 :=
      headerRun.runTrans (headerRun_of_chans (by simp)) (pass3_run g fuel _ _ _ _ _ w2 hp3)
    refine headerRun.runTrans hw2 ?_
    split at h
    · exact selectgo_loop_run fuel w2 g done _ t0 r h
    · split at h
      · simp at h
      · split at h
        · simp only [Option.some.injEq] at h
          rw [← h]; exact headerRun.runRefl _
        · simp only [Option.some.injEq] at h
          rw [← h]
          apply headerRun_of_chans
          rw [selectgo_retc_chans, selunlock_chans]
          split <;> simp

/-- Every step of an operation is a run of header steps on every channel. -/
theorem Op_run : ∀ {w w1 : World}, Op w w1 → headerRun w w1
  | _, _, .make pf w elemtype esize hint newc => makechan_run pf w elemtype esize hint newc
  | _, _, .send fuel w g mysg c ep block w1 o h => chansend_run fuel w g mysg c ep block w1 o h
  | _, _, .sendWake w g mysg c t0 => headerRun_of_chans (chansend_wake_chans _ _ _ _ _)
  | _, _, .sendAsynchWake fuel w g mysg c ep block t0 w1 o h => by
    unfold chansend_asynch_wake at h
    exact headerRun.runTrans (headerRun_of_chans (log_chans w (.lock c)))
      (chansend_asynch_run _ _ _ _ _ _ _ _ _ _ _ h)
  | _, _, .recv fuel w g mysg c ep received block w1 o h =>
    chanrecv_run fuel w g mysg c ep received block w1 o h
  | _, _, .recvWake w g mysg c ep received t0 =>
    headerRun_of_chans (chanrecv_wake_chans _ _ _ _ _ _ _)
  | _, _, .recvAsynchWake fuel w g mysg c ep received block t0 w1 o h => by
    unfold chanrecv_asynch_wake at h
    exact headerRun.runTrans (headerRun_of_chans (log_chans w (.lock c)))
      (chanrecv_asynch_run _ _ _ _ _ _ _ _ _ _ _ _ h)
  | _, _, .close fuel w c w1 o h => closechan_run fuel w c w1 o h
  | _, _, .select fuel fastrand w g done sel w1 o h =>
    selectgo_run fuel fastrand w g done sel (w1, o) h
  | _, _, .selectWake fuel w g done sel t0 w1 o h =>
    selectgo_wake_run fuel w g done sel t0 (w1, o) h

theorem Run_headerRun {w0 w : World} (hr : Run w0 w) : headerRun w0 w := by
  induction hr with
  | start => exact headerRun.runRefl _
  | step w w1 _ hs ih => exact headerRun.runTrans ih (Op_run hs)

/-! ## C23: the ring indices and the count agree -/

theorem HStep_ringAgree : ∀ {h h1 : Hchan}, HStep h h1 → ringAgree h → ringAgree h1
  | _, _, .pop _ _ a _ _, hi => ringAgree_of_sameRing a hi
  | _, _, .enq _ _ _ a, hi => ringAgree_of_sameRing a hi
  | _, _, .send h m ep _ hroom, hi => by
    intro _
    have hd : 0 < h.dataqsiz := Nat.lt_of_le_of_lt (Nat.zero_le _) hroom
    exact ringInv_send h _ (hi hd) hroom rfl rfl rfl rfl
  | _, _, .recv h hitem, hi => by
    intro hd
    exact ringInv_recv h _ (hi hd) hitem rfl rfl rfl rfl
  | _, _, .close h _ a _ _, hi => by
    refine ringAgree_of_sameRing a ?_
    exact hi
  | _, _, .make _ elemtype esize dataqsiz, _ => by
    intro hd
    refine ⟨hd, Nat.zero_le _, ?_⟩
    show 0 = (0 + 0) % dataqsiz
    simp

theorem HSteps_ringAgree {h h1 : Hchan} (hr : Relation.ReflTransGen HStep h h1)
    (hi : ringAgree h) : ringAgree h1 := by
  induction hr with
  | refl => exact hi
  | tail _ hs ih => exact HStep_ringAgree hs ih

/-- C23: from a world in which the ring indices and the count of
every buffered channel agree (`recvx < dataqsiz`, `qcount ≤ dataqsiz`,
`sendx = (recvx + qcount) mod dataqsiz`), every world reached by steps of
`makechan`, send, receive, close and select (each from taking the lock to the
return, panic or park, or from the wake-up on) has
`sendx = (recvx + qcount) mod dataqsiz` on every buffered channel; and the
channel that `makechan` returns has it in whatever world it is made. -/
theorem C23_ring_indices (w0 w : World) (h0 : ∀ c, ringAgree (w0.chans c)) (hr : Run w0 w) :
    (∀ c, 0 < (w.chans c).dataqsiz →
      (w.chans c).sendx = ((w.chans c).recvx + (w.chans c).qcount) % (w.chans c).dataqsiz) ∧
    (∀ pf elemtype esize hint newc,
      (makechan pf w elemtype esize hint newc).2 = .returned newc →
      ((makechan pf w elemtype esize hint newc).1.chans newc).sendx =
        (((makechan pf w elemtype esize hint newc).1.chans newc).recvx +
          ((makechan pf w elemtype esize hint newc).1.chans newc).qcount) %
          ((makechan pf w elemtype esize hint newc).1.chans newc).dataqsiz) := by
  constructor
  · intro c hd
    exact (HSteps_ringAgree (Run_headerRun hr c) (h0 c) hd).2.2
  · intro pf elemtype esize hint newc
    unfold makechan
    split
    · intro h; simp at h
    · split
      · intro h; simp at h
      · intro _
        simp [World.setChan, zeroHchan]

/-- The theorem `C23_ring_indices` on the channel of capacity 2 of `ringWorld`,
both indices at the last slot: a send stores into that slot and `sendx` wraps
to 0, which is `(1 + 1) mod 2`. -/
theorem C23_ring_indices_witness :
    (∀ c, ringAgree (ringWorld.chans c)) ∧
    ∃ w1, chansend 1 ringWorld 7 8 1 50 true = some (w1, .returned true) ∧
      (w1.chans 1).recvx = 1 ∧ (w1.chans 1).qcount = 1 ∧ (w1.chans 1).sendx = 0 ∧
      (w1.chans 1).sendx = ((w1.chans 1).recvx + (w1.chans 1).qcount) % (w1.chans 1).dataqsiz := by
  have hw : ∀ c, ringAgree (ringWorld.chans c) := by
    intro c
    by_cases hc : c = 1
    · subst hc; decide
    · have : ringWorld.chans c = zeroHchan := by
        simp [ringWorld, World.setChan, Function.update_noteq hc, emptyWorld]
      rw [this]; decide
  have hs : (chansend 1 ringWorld 7 8 1 50 true).map
      (fun r => (r.2, (r.1.chans 1).recvx, (r.1.chans 1).qcount, (r.1.chans 1).sendx,
        (r.1.chans 1).dataqsiz))
      = some (.returned true, 1, 1, 0, 2) := by decide
  cases h : chansend 1 ringWorld 7 8 1 50 true with
  | none => rw [h] at hs; simp at hs
  | some r =>
    obtain ⟨w1, o⟩ := r
    rw [h] at hs
    simp only [Option.map_some', Option.some.injEq, Prod.mk.injEq] at hs
    obtain ⟨rfl, h1, h2, h3, h4⟩ := hs
    exact ⟨hw, w1, rfl, h1, h2, h3,
      (C23_ring_indices ringWorld w1 hw
        (Run.step _ _ Run.start (Op.send _ _ _ _ _ _ _ _ _ h))).1 1 (by rw [h4]; decide)⟩

/-! ## C24: the slots outside the live window are zero -/

/-- C24: from a world in which every buffered channel has its ring
indices and count in agreement and zero bytes in every slot outside the live
window, every world reached by steps of `makechan`, send, receive, close and
select has zero bytes in every slot of every buffered channel outside the
window of the `qcount` slots from `recvx` on, modulo `dataqsiz`; and the
buffer of the channel that `makechan` returns is all zero. -/
theorem C24_zero_outside (w0 w : World) (h0 : ∀ c, bufZero (w0.chans c)) (hr : Run w0 w) :
    (∀ c, 0 < (w.chans c).dataqsiz → ∀ i, i < (w.chans c).dataqsiz →
      (∀ t, t < (w.chans c).qcount → i ≠ ((w.chans c).recvx + t) % (w.chans c).dataqsiz) →
      ∀ j, j < (w.chans c).elemsize → (w.chans c).buf ((w.chans c).elemsize * i + j) = 0) ∧
    (∀ pf elemtype esize hint newc a,
      (makechan pf w elemtype esize hint newc).2 = .returned newc →
      ((makechan pf w elemtype esize hint newc).1.chans newc).buf a = 0) := by
  constructor
  · intro c hd
    exact (HSteps_bufZero (Run_headerRun hr c) (h0 c) hd).2
  · intro pf elemtype esize hint newc a
    unfold makechan
    split
    · intro h; simp at h
    · split
      · intro h; simp at h
      · intro _
        simp [World.setChan, zeroHchan]

/-- The theorem `C24_zero_outside` on the full channel of capacity 1 of
`fullWorld`, whose slot holds the byte 42: a receive takes the element and
the slot, now outside the empty window, is zero. -/
theorem C24_zero_outside_witness :
    (∀ c, bufZero (fullWorld.chans c)) ∧ (fullWorld.chans 1).buf 0 = 42 ∧
    ∃ w1, chanrecv 1 fullWorld 7 8 1 60 0 true = some (w1, .returned true) ∧
      (w1.chans 1).qcount = 0 ∧ (w1.chans 1).buf ((w1.chans 1).elemsize * 0 + 0) = 0 := by
  have hw : ∀ c, bufZero (fullWorld.chans c) := by
    intro c
    by_cases hc : c = 1
    · subst hc; decide
    · have : fullWorld.chans c = zeroHchan := by
        simp [fullWorld, World.setChan, Function.update_noteq hc, emptyWorld]
      rw [this]; decide
  have hs : (chanrecv 1 fullWorld 7 8 1 60 0 true).map
      (fun r => (r.2, (r.1.chans 1).qcount, (r.1.chans 1).dataqsiz, (r.1.chans 1).elemsize))
      = some (.returned true, 0, 1, 1) := by decide
  cases h : chanrecv 1 fullWorld 7 8 1 60 0 true with
  | none => rw [h] at hs; simp at hs
  | some r =>
    obtain ⟨w1, o⟩ := r
    rw [h] at hs
    simp only [Option.map_some', Option.some.injEq, Prod.mk.injEq] at hs
    obtain ⟨rfl, h1, h2, h3⟩ := hs
    refine ⟨hw, by decide, w1, rfl, h1, ?_⟩
    exact (C24_zero_outside fullWorld w1 hw
      (Run.step _ _ Run.start (Op.recv _ _ _ _ _ _ _ _ _ _ h))).1 1 (by rw [h2]; decide) 0
      (by rw [h2]; decide) (by rw [h1]; intro t ht; exact absurd ht (Nat.not_lt_zero _)) 0
      (by rw [h3]; decide)

/-! ## C25: a closed channel has no waiters -/

/-- C25: from a world in which every closed channel has both wait
queues empty, every world reached by steps of `makechan`, send, receive,
close and select (each from taking the lock to the return, panic or park, or
from the wake-up on) has both `sendq` and `recvq` empty on every closed
channel. -/
theorem C25_closed_no_waiters (w0 w : World) (h0 : ∀ c, noWaiters (w0.chans c))
    (hr : Run w0 w) (c : Ptr) (hc : (w.chans c).closed = true) :
    (w.chans c).sendq.first = 0 ∧ (w.chans c).recvq.first = 0 :=
  HSteps_noWaiters (Run_headerRun hr c) (h0 c) hc

/-- The theorem `C25_closed_no_waiters` on the unbuffered channel of
`recvWaitWorld`, on which one receiver is parked: `closechan` sets `closed`
and takes the receiver off the queue. -/
theorem C25_closed_no_waiters_witness :
    (∀ c, noWaiters (recvWaitWorld.chans c)) ∧ (recvWaitWorld.chans 1).recvq.first = 20 ∧
    ∃ w1, closechan 3 recvWaitWorld 1 = some (w1, .returned ()) ∧
      (w1.chans 1).closed = true ∧
      ((w1.chans 1).sendq.first = 0 ∧ (w1.chans 1).recvq.first = 0) := by
  have hw : ∀ c, noWaiters (recvWaitWorld.chans c) := by
    intro c
    by_cases hc : c = 1
    · subst hc; decide
    · have : recvWaitWorld.chans c = zeroHchan := by
        simp [recvWaitWorld, World.setChan, World.setSudog, Function.update_noteq hc,
          emptyWorld]
      rw [this]; decide
  have hs : (closechan 3 recvWaitWorld 1).map (fun r => (r.2, (r.1.chans 1).closed))
      = some (.returned (), true) := by decide
  cases h : closechan 3 recvWaitWorld 1 with
  | none => rw [h] at hs; simp at hs
  | some r =>
    obtain ⟨w1, o⟩ := r
    rw [h] at hs
    simp only [Option.map_some', Option.some.injEq, Prod.mk.injEq] at hs
    obtain ⟨rfl, h1⟩ := hs
    exact ⟨hw, by decide, w1, rfl, h1,
      C25_closed_no_waiters recvWaitWorld w1 hw
        (Run.step _ _ Run.start (Op.close _ _ _ _ _ h)) 1 h1⟩

end Chan
